import Mathlib

/-!
# WinDirStat: the aggregation tree and its scan protocol

A shallow embedding of `CItem` (windirstat/Item.cpp, Item.h) and of the scan
coordinator (`CDirStatDoc::StartupCoordinator`, windirstat/DirStatDoc.cpp).

* A `CItem*` is an address (`Nat`) into a `Heap`; `nullptr` is `none`.
* Every operation returns `Option`: `none` stands for a null or dangling
  dereference, or for a parent walk that does not reach `nullptr`.
* `ULONGLONG` and `ULONG` counters are natural numbers reduced modulo
  `2 ^ 64` and `2 ^ 32` at every update.
* `ASSERT` does not change the state (a release build compiles it out); the
  expressions the subtracting walks assert are embedded as Boolean functions
  of their own. GUI notifications, the pacman animation, image caching and
  tick counts are not part of the embedding.
* `std::atomic` fields are plain fields: the embedding is sequential.
-/

namespace WDS

/-! ## Machine arithmetic -/

/-- Addition of two `ULONG` values. -/
def add32 (a b : Nat) : Nat := (a + b) % 4294967296

/-- Subtraction of two `ULONG` values (wraps below zero). -/
def sub32 (a b : Nat) : Nat := (a + (4294967296 - b % 4294967296)) % 4294967296

/-- Addition of two `ULONGLONG` values. -/
def add64 (a b : Nat) : Nat := (a + b) % 18446744073709551616

/-- Subtraction of two `ULONGLONG` values (wraps below zero). -/
def sub64 (a b : Nat) : Nat :=
  (a + (18446744073709551616 - b % 18446744073709551616)) % 18446744073709551616

/-! ## Item types (Item.h, `enum ITEMTYPE : unsigned short`) -/

abbrev ITEMTYPE := Nat

def IT_MYCOMPUTER : ITEMTYPE := 1
def IT_DRIVE : ITEMTYPE := 2
def IT_DIRECTORY : ITEMTYPE := 4
def IT_FILE : ITEMTYPE := 8
def IT_FREESPACE : ITEMTYPE := 16
def IT_UNKNOWN : ITEMTYPE := 32
def IT_ANY : ITEMTYPE := 255
def ITF_DONE : ITEMTYPE := 256
def ITF_ROOTITEM : ITEMTYPE := 512
def ITF_FLAGS : ITEMTYPE := 65280

/-- The `operator|` of ITEMTYPE. -/
def ITEMTYPE.or (a b : ITEMTYPE) : ITEMTYPE := a ||| b

/-- The `operator-` of ITEMTYPE: `a & ~b` on an unsigned short. -/
def ITEMTYPE.minus (a b : ITEMTYPE) : ITEMTYPE := a &&& (65535 ^^^ (b &&& 65535))

/-! ## The item record -/

/-- The separately allocated `CHILDINFO` of a container item. -/
structure CHILDINFO where
  m_children : List Nat
  m_files : Nat
  m_subdirs : Nat
  m_jobs : Nat
deriving DecidableEq

/-- The fields of `CItem` the tree protocol reads and writes; `m_parent` is the
parent link kept by the base class `CTreeListItem`. -/
structure CItem where
  m_parent : Option Nat
  m_name : String
  m_lastChange : Nat
  m_ci : Option CHILDINFO
  m_size : Nat
  m_attributes : Nat
  m_type : ITEMTYPE
deriving DecidableEq

/-- `CItem::IsType`. -/
def CItem.IsType (it : CItem) (type : ITEMTYPE) : Bool := (it.m_type &&& type) != 0

/-- `CItem::IsDone`. -/
def CItem.IsDone (it : CItem) : Bool := it.IsType ITF_DONE

/-- `CItem::GetType`. -/
def CItem.GetType (it : CItem) : ITEMTYPE := it.m_type &&& (65535 ^^^ ITF_FLAGS)

/-- `CItem::SetType`. -/
def CItem.SetType (it : CItem) (type : ITEMTYPE) (set : Bool) : CItem :=
  if set then { it with m_type := ITEMTYPE.or it.m_type type }
  else { it with m_type := ITEMTYPE.minus it.m_type type }

/-- `CItem::IsRootItem`. -/
def CItem.IsRootItem (it : CItem) : Bool := (it.m_type &&& ITF_ROOTITEM) != 0

/-- `CItem::GetFilesCount`. -/
def CItem.GetFilesCount (it : CItem) : Nat :=
  match it.m_ci with
  | none => 0
  | some ci => ci.m_files

/-- `CItem::GetSubdirsCount`. -/
def CItem.GetSubdirsCount (it : CItem) : Nat :=
  match it.m_ci with
  | none => 0
  | some ci => ci.m_subdirs

/-- `CItem::GetReadJobs`. -/
def CItem.GetReadJobs (it : CItem) : Nat :=
  match it.m_ci with
  | none => 0
  | some ci => ci.m_jobs

/-- The `m_ci->` dereference followed by an update of the child info. -/
def CItem.updCi (it : CItem) (f : CHILDINFO → CHILDINFO) : Option CItem :=
  match it.m_ci with
  | none => none
  | some ci => some { it with m_ci := some (f ci) }

/-- The two-argument constructor `CItem::CItem(type, name)`. For a drive the
caller passes the display name `FormatVolumeNameOfRootPath` produced. -/
def CItem.new (type : ITEMTYPE) (name : String) : CItem :=
  { m_parent := none
    m_name := name
    m_lastChange := 0
    m_ci := if (type &&& IT_FILE) != 0 then none
            else some { m_children := [], m_files := 0, m_subdirs := 0, m_jobs := 0 }
    m_size := 0
    m_attributes := 0
    m_type := type }

/-! ## The heap of items -/

/-- The items allocated so far, by address; a released item leaves `none`. -/
structure Heap where
  cells : List (Option CItem)
deriving DecidableEq

/-- The item stored at address `p`, if `p` points to a live item. -/
def Heap.cell (h : Heap) (p : Nat) : Option CItem :=
  match h.cells[p]? with
  | some (some it) => some it
  | _ => none

/-- The first address not yet handed out. -/
def Heap.next (h : Heap) : Nat := h.cells.length

/-- The empty heap. -/
def Heap.empty : Heap := { cells := [] }

/-- Overwrite the item stored at `p`. -/
def Heap.set (h : Heap) (p : Nat) (it : CItem) : Heap :=
  { cells := h.cells.set p (some it) }

/-- The expression `new CItem(...)`: the new item gets the address `h.next`. -/
def Heap.alloc (h : Heap) (it : CItem) : Heap :=
  { cells := h.cells ++ [some it] }

/-- The release of the storage of one item. -/
def Heap.free (h : Heap) (p : Nat) : Heap :=
  { cells := h.cells.set p none }

/-- Dereference `p` and replace the item by `f` of it. -/
def Heap.modify (h : Heap) (p : Nat) (f : CItem → CItem) : Option Heap :=
  match h.cell p with
  | none => none
  | some it => some (h.set p (f it))

/-- Dereference `p` and replace the item by `f` of it, where `f` may fail. -/
def Heap.modify? (h : Heap) (p : Nat) (f : CItem → Option CItem) : Option Heap :=
  match h.cell p with
  | none => none
  | some it =>
    match f it with
    | none => none
    | some it1 => some (h.set p it1)

/-- The loop `for (auto p = start; p != nullptr; p = p->GetParent()) body(p)`.
The fuel bounds the number of iterations. -/
def upward (body : Heap → Nat → Option Heap) : Nat → Heap → Option Nat → Option Heap
  | _, h, none => some h
  | 0, _, some _ => none
  | fuel + 1, h, some p =>
    match body h p with
    | none => none
    | some h1 =>
      match h1.cell p with
      | none => none
      | some it => upward body fuel h1 it.m_parent

/-- The items visited by a parent walk that starts at `start`, nearest first. -/
def chainFuel (h : Heap) : Nat → Option Nat → Option (List Nat)
  | _, none => some []
  | 0, some _ => none
  | fuel + 1, some p =>
    match h.cell p with
    | none => none
    | some it =>
      match chainFuel h fuel it.m_parent with
      | none => none
      | some l => some (p :: l)

/-- The chain from `p` up to the root: `p`, its parent, and so on. -/
def Heap.chain (h : Heap) (p : Nat) : Option (List Nat) := chainFuel h (h.next + 1) (some p)

/-! ## Upward propagation (Item.cpp 575-665) -/

/-- `CItem::UpwardAddSubdirs`. -/
def UpwardAddSubdirs (h : Heap) (self : Nat) (dirCount : Nat) : Option Heap :=
  if dirCount = 0 then some h
  else upward (fun h p => h.modify? p fun it =>
      if it.IsType IT_FILE then some it
      else it.updCi fun ci => { ci with m_subdirs := add32 ci.m_subdirs dirCount })
    (h.next + 1) h (some self)

/-- `CItem::UpwardSubtractSubdirs`. -/
def UpwardSubtractSubdirs (h : Heap) (self : Nat) (dirCount : Nat) : Option Heap :=
  if dirCount = 0 then some h
  else upward (fun h p => h.modify? p fun it =>
      if it.IsType IT_FILE then some it
      else it.updCi fun ci => { ci with m_subdirs := sub32 ci.m_subdirs dirCount })
    (h.next + 1) h (some self)

/-- `CItem::UpwardAddFiles`. -/
def UpwardAddFiles (h : Heap) (self : Nat) (fileCount : Nat) : Option Heap :=
  if fileCount = 0 then some h
  else upward (fun h p => h.modify? p fun it =>
      if it.IsType IT_FILE then some it
      else it.updCi fun ci => { ci with m_files := add32 ci.m_files fileCount })
    (h.next + 1) h (some self)

/-- `CItem::UpwardSubtractFiles`. -/
def UpwardSubtractFiles (h : Heap) (self : Nat) (fileCount : Nat) : Option Heap :=
  if fileCount = 0 then some h
  else upward (fun h p => h.modify? p fun it =>
      if it.IsType IT_FILE then some it
      else it.updCi fun ci => { ci with m_files := sub32 ci.m_files fileCount })
    (h.next + 1) h (some self)

/-- `CItem::UpwardAddSize`. -/
def UpwardAddSize (h : Heap) (self : Nat) (bytes : Nat) : Option Heap :=
  if bytes = 0 then some h
  else upward (fun h p => h.modify p fun it => { it with m_size := add64 it.m_size bytes })
    (h.next + 1) h (some self)

/-- `CItem::UpwardSubtractSize`. -/
def UpwardSubtractSize (h : Heap) (self : Nat) (bytes : Nat) : Option Heap :=
  if bytes = 0 then some h
  else upward (fun h p => h.modify p fun it => { it with m_size := sub64 it.m_size bytes })
    (h.next + 1) h (some self)

/-- `CItem::UpwardAddReadJobs`. -/
def UpwardAddReadJobs (h : Heap) (self : Nat) (count : Nat) : Option Heap :=
  match h.cell self with
  | none => none
  | some it =>
    if it.m_ci = none ∨ count = 0 then some h
    else upward (fun h p => h.modify? p fun it =>
        if it.IsType IT_FILE then some it
        else it.updCi fun ci => { ci with m_jobs := add32 ci.m_jobs count })
      (h.next + 1) h (some self)

/-- `CItem::UpwardUpdateLastChange`: `CompareFileTime(&t, &p->m_lastChange) == 1`
holds when `t` is the later time. -/
def UpwardUpdateLastChange (h : Heap) (self : Nat) (t : Nat) : Option Heap :=
  upward (fun h p => h.modify p fun it =>
      if it.m_lastChange < t then { it with m_lastChange := t } else it)
    (h.next + 1) h (some self)

/-! ## Structural operations (Item.cpp 521-573) -/

/-- `CItem::AddChild`. -/
def AddChild (h : Heap) (self child : Nat) (add_only : Bool) : Option Heap :=
  let propagated : Option Heap :=
    if add_only then some h
    else
      match h.cell child with
      | none => none
      | some c =>
        match UpwardAddSize h self c.m_size with
        | none => none
        | some h1 =>
          match h1.cell child with
          | none => none
          | some c1 => UpwardUpdateLastChange h1 self c1.m_lastChange
  match propagated with
  | none => none
  | some h2 =>
    match h2.modify child fun c => { c with m_parent := some self } with
    | none => none
    | some h3 =>
      h3.modify? self fun it => it.updCi fun ci => { ci with m_children := ci.m_children ++ [child] }

/-- The expression `delete item`: the destructor `CItem::~CItem` deletes every
child, then the storage of the item is released. -/
def destroy : Nat → Heap → Nat → Option Heap
  | 0, _, _ => none
  | fuel + 1, h, p =>
    match h.cell p with
    | none => none
    | some it =>
      match it.m_ci with
      | none => some (h.free p)
      | some ci =>
        match ci.m_children.foldlM (fun h1 c => destroy fuel h1 c) h with
        | none => none
        | some h1 => some (h1.free p)

/-- `CItem::RemoveChild`; `std::erase` removes every occurrence of the pointer. -/
def RemoveChild (h : Heap) (self child : Nat) : Option Heap :=
  match h.modify? self fun it => it.updCi fun ci =>
      { ci with m_children := ci.m_children.filter fun c => c != child } with
  | none => none
  | some h1 => destroy (h1.next + 1) h1 child

/-- `CItem::RemoveAllChildren`. -/
def RemoveAllChildren (h : Heap) (self : Nat) : Option Heap :=
  match h.cell self with
  | none => none
  | some it =>
    match it.m_ci with
    | none => some h
    | some ci =>
      match ci.m_children.foldlM (fun h1 c => destroy (h.next + 1) h1 c) h with
      | none => none
      | some h1 => h1.modify? self fun it1 => it1.updCi fun ci1 => { ci1 with m_children := [] }

/-! ## Done state, sorting and the pseudo items (Item.cpp 868-1147) -/

/-- `CItem::GetSize` through a pointer. -/
def Heap.GetSize (h : Heap) (p : Nat) : Nat :=
  match h.cell p with
  | none => 0
  | some it => it.m_size

/-- `CItem::SortItemsBySize`: biggest first. `std::ranges::sort` leaves the order
of children of equal size open; the embedding sorts by insertion. -/
def SortItemsBySize (h : Heap) (self : Nat) : Option Heap :=
  h.modify self fun it =>
    match it.m_ci with
    | none => it
    | some ci =>
      { it with m_ci := some { ci with
          m_children := ci.m_children.insertionSort fun a b => h.GetSize b ≤ h.GetSize a } }

/-- The test `child->IsType(type)` through a pointer. -/
def Heap.IsTypeAt (h : Heap) (type : ITEMTYPE) (c : Nat) : Bool :=
  match h.cell c with
  | none => false
  | some cit => cit.IsType type

/-- The first child of `self` of the given type, as in `FindFreeSpaceItem` and
`FindUnknownItem`; the outer option is the dereference of `m_ci`. -/
def FindChildOfType (h : Heap) (self : Nat) (type : ITEMTYPE) : Option (Option Nat) :=
  match h.cell self with
  | none => none
  | some it =>
    match it.m_ci with
    | none => none
    | some ci => some (ci.m_children.find? (h.IsTypeAt type))

/-- `CItem::FindFreeSpaceItem`. -/
def FindFreeSpaceItem (h : Heap) (self : Nat) : Option (Option Nat) :=
  FindChildOfType h self IT_FREESPACE

/-- `CItem::FindUnknownItem`. -/
def FindUnknownItem (h : Heap) (self : Nat) : Option (Option Nat) :=
  FindChildOfType h self IT_UNKNOWN

/-! ## The operating system as the scanner sees it

`FileFindEnhanced`, `CDirStatApp::getDiskFreeSpace`, `CDirStatApp::IsFollowingAllowed`
and `COptions` are declared but not defined in the sources at hand; they are
parameters of the embedding. A path is the list of its components, root first
(the source joins them with backslashes). -/

abbrev Path := List String

/-- What `FileFindEnhanced` reports about the current entry. -/
structure FindData where
  name : String
  attributes : Nat
  size : Nat
  lastWrite : Nat
  isDirectory : Bool
  isDots : Bool
  isHidden : Bool
  isHiddenSystem : Bool
  isProtectedReparsePoint : Bool
deriving DecidableEq

/-- The calls into the operating system and the options read by the scanner. -/
structure Env where
  /-- The entries `FindFile(folder)` and `FindNextFile` enumerate. -/
  FindFile : Path → List FindData
  /-- The entry `FindFile(folder, name)` stops at, if any. -/
  FindFileNamed : Path → String → Option FindData
  /-- `FileFindEnhanced::DoesFileExist(folder, file)`. -/
  DoesFileExist : Path → String → Bool
  /-- `CDirStatApp::getDiskFreeSpace`: total and free bytes. -/
  getDiskFreeSpace : Path → Nat × Nat
  /-- `CDirStatApp::IsFollowingAllowed(path, attr)`. -/
  IsFollowingAllowed : Path → Nat → Bool
  /-- The last-write time `GetFileTime` reads for a drive root, if it opens. -/
  GetFileTime : Path → Option Nat
  SkipHidden : Bool
  SkipProtected : Bool
  ShowFreeSpace : Bool
  ShowUnknown : Bool

/-! ## Paths (GlobalHelpers.cpp 356-377, Item.cpp 753-822, 1247-1270) -/

/-- `CStringW::ReverseFind`: the index of the last occurrence of `c`. -/
def reverseFind (s : List Char) (c : Char) : Option Nat :=
  match s.reverse.indexOf? c with
  | none => none
  | some i => some (s.length - 1 - i)

/-- `PathFromVolumeName`: "BOOT (C:)" gives "C:", and "C:\" gives "C:". -/
def PathFromVolumeName (name : String) : String :=
  match reverseFind name.data ')' with
  | none => String.mk (name.data.take 2)
  | some i =>
    match reverseFind name.data '(' with
    | none => String.mk (name.data.take i)
    | some k => String.mk ((name.data.drop (k + 1)).take (i - k - 1))

/-- `CItem::UpwardGetPathWithoutBackslash`, as a list of components. -/
def UpwardGetPathWithoutBackslash (h : Heap) (self : Nat) : Option Path :=
  match h.chain self with
  | none => none
  | some l =>
    some (l.foldl (fun path p =>
      match h.cell p with
      | none => path
      | some it =>
        if it.IsType IT_DIRECTORY then it.m_name :: path
        else if it.IsType IT_FILE then [it.m_name]
        else if it.IsType IT_DRIVE then PathFromVolumeName it.m_name :: path
        else path) [])

/-- `CItem::GetPath`; the backslash a drive path ends in is not a component. -/
def GetPath (h : Heap) (self : Nat) : Option Path := UpwardGetPathWithoutBackslash h self

/-- `CItem::GetFolderPath`; "My Computer" has the empty path. -/
def GetFolderPath (h : Heap) (self : Nat) : Option Path :=
  match h.cell self with
  | none => none
  | some it =>
    if it.IsType IT_MYCOMPUTER then some []
    else
      match GetPath h self with
      | none => none
      | some path => if it.IsType IT_FILE then some path.dropLast else some path

/-! ## Done, undone and the pseudo items -/

/-- `CItem::UpdateFreeSpaceItem`. -/
def UpdateFreeSpaceItem (env : Env) (h : Heap) (self : Nat) : Option Heap :=
  match FindFreeSpaceItem h self with
  | none => none
  | some none => some h
  | some (some freeSpaceItem) =>
    match UpwardSubtractSize h freeSpaceItem (h.GetSize freeSpaceItem) with
    | none => none
    | some h1 =>
      match GetPath h1 self with
      | none => none
      | some path => UpwardAddSize h1 freeSpaceItem (env.getDiskFreeSpace path).2

/-- `CItem::UpdateUnknownItem`. -/
def UpdateUnknownItem (env : Env) (h : Heap) (self : Nat) : Option Heap :=
  match FindUnknownItem h self with
  | none => none
  | some none => some h
  | some (some unknown) =>
    match UpwardSubtractSize h unknown (h.GetSize unknown) with
    | none => none
    | some h1 =>
      match FindFreeSpaceItem h1 self, GetPath h1 self with
      | some freeSpaceItem, some path =>
        let tallied := sub64 (h1.GetSize self)
          (match freeSpaceItem with
           | some f => h1.GetSize f
           | none => 0)
        let total := (env.getDiskFreeSpace path).1
        let free := (env.getDiskFreeSpace path).2
        UpwardAddSize h1 unknown
          (if sub64 total free < tallied then 0 else sub64 (sub64 total free) tallied)
      | _, _ => none

/-- `CItem::SetDone`. -/
def SetDone (env : Env) (h : Heap) (self : Nat) : Option Heap :=
  match h.cell self with
  | none => none
  | some it =>
    if it.IsDone then some h
    else
      let updated : Option Heap :=
        if it.IsType IT_DRIVE then
          match UpdateFreeSpaceItem env h self with
          | none => none
          | some h1 => UpdateUnknownItem env h1 self
        else some h
      match updated with
      | none => none
      | some h2 =>
        match (if it.m_ci = none then some h2 else SortItemsBySize h2 self) with
        | none => none
        | some h3 => h3.modify self fun it3 => it3.SetType ITF_DONE true

/-- `CItem::UpwardSubtractReadJobs`. -/
def UpwardSubtractReadJobs (env : Env) (h : Heap) (self : Nat) (count : Nat) : Option Heap :=
  match h.cell self with
  | none => none
  | some it =>
    if count = 0 ∨ it.IsType IT_FILE then some h
    else upward (fun h p =>
        match h.modify? p fun it => it.updCi fun ci => { ci with m_jobs := sub32 ci.m_jobs count } with
        | none => none
        | some h1 =>
          match h1.cell p with
          | none => none
          | some it1 => if it1.GetReadJobs = 0 then SetDone env h1 p else some h1)
      (h.next + 1) h (some self)

/-- `CItem::UpwardSetDone`. -/
def UpwardSetDone (env : Env) (h : Heap) (self : Nat) : Option Heap :=
  upward (fun h p => SetDone env h p) (h.next + 1) h (some self)

/-- `CItem::UpwardSetUndone`. -/
def UpwardSetUndone (h : Heap) (self : Nat) : Option Heap :=
  upward (fun h p =>
      match h.cell p with
      | none => none
      | some it =>
        let rebased : Option Heap :=
          if it.IsType IT_DRIVE && it.IsDone then
            match FindUnknownItem h p with
            | none => none
            | some none => some h
            | some (some unknown) =>
              match UpwardSubtractSize h p (h.GetSize unknown) with
              | none => none
              | some h1 => h1.modify unknown fun u => { u with m_size := 0 }
          else some h
        match rebased with
        | none => none
        | some h2 => h2.modify p fun it2 => it2.SetType ITF_DONE false)
    (h.next + 1) h (some self)

/-- The text of `IDS_FREESPACE_ITEM`. -/
def IDS_FREESPACE_ITEM : String := "<Free Space>"

/-- The text of `IDS_UNKNOWN_ITEM`. -/
def IDS_UNKNOWN_ITEM : String := "<Unknown>"

/-- `CItem::CreateFreeSpaceItem`. -/
def CreateFreeSpaceItem (env : Env) (h : Heap) (self : Nat) : Option Heap :=
  match UpwardSetUndone h self with
  | none => none
  | some h1 =>
    match GetPath h1 self with
    | none => none
    | some path =>
      let freespace := h1.next
      let h2 := h1.alloc { CItem.new IT_FREESPACE IDS_FREESPACE_ITEM with
        m_size := (env.getDiskFreeSpace path).2 }
      match SetDone env h2 freespace with
      | none => none
      | some h3 => AddChild h3 self freespace false

/-- `CItem::RemoveFreeSpaceItem`. -/
def RemoveFreeSpaceItem (h : Heap) (self : Nat) : Option Heap :=
  match FindFreeSpaceItem h self with
  | none => none
  | some none => some h
  | some (some freespace) =>
    match UpwardSetUndone h self with
    | none => none
    | some h1 =>
      match UpwardSubtractSize h1 self (h1.GetSize freespace) with
      | none => none
      | some h2 => RemoveChild h2 self freespace

/-- `CItem::CreateUnknownItem`. -/
def CreateUnknownItem (env : Env) (h : Heap) (self : Nat) : Option Heap :=
  match UpwardSetUndone h self with
  | none => none
  | some h1 =>
    let unknown := h1.next
    let h2 := h1.alloc (CItem.new IT_UNKNOWN IDS_UNKNOWN_ITEM)
    match SetDone env h2 unknown with
    | none => none
    | some h3 => AddChild h3 self unknown false

/-- `CItem::RemoveUnknownItem`. -/
def RemoveUnknownItem (h : Heap) (self : Nat) : Option Heap :=
  match FindUnknownItem h self with
  | none => none
  | some none => some h
  | some (some unknown) =>
    match UpwardSetUndone h self with
    | none => none
    | some h1 =>
      match UpwardSubtractSize h1 self (h1.GetSize unknown) with
      | none => none
      | some h2 => RemoveChild h2 self unknown

/-! ## The scanner (Item.cpp 483-509, 667-681, 912-991, 1272-1294) -/

/-- `CItem::AddDirectory`; `base` is the folder the finder enumerates, so that
`finder.GetFilePath()` is `base` followed by the entry name. Returns the heap and
the new item. -/
def AddDirectory (env : Env) (h : Heap) (self : Nat) (base : Path) (finder : FindData) :
    Option (Heap × Nat) :=
  let follow := !finder.isProtectedReparsePoint &&
    env.IsFollowingAllowed (base ++ [finder.name]) finder.attributes
  let child := h.next
  let h1 := h.alloc { CItem.new IT_DIRECTORY finder.name with
    m_lastChange := finder.lastWrite, m_attributes := finder.attributes }
  match AddChild h1 self child false with
  | none => none
  | some h2 =>
    match UpwardAddReadJobs h2 child (if follow then 1 else 0) with
    | none => none
    | some h3 => some (h3, child)

/-- `CItem::AddFile`. Returns the heap and the new item. -/
def AddFile (env : Env) (h : Heap) (self : Nat) (finder : FindData) : Option (Heap × Nat) :=
  let child := h.next
  let h1 := h.alloc { CItem.new IT_FILE finder.name with
    m_size := finder.size, m_lastChange := finder.lastWrite, m_attributes := finder.attributes }
  match AddChild h1 self child false with
  | none => none
  | some h2 =>
    match SetDone env h2 child with
    | none => none
    | some h3 => some (h3, child)

/-- `CItem::UpdateStatsFromDisk`. -/
def UpdateStatsFromDisk (env : Env) (h : Heap) (self : Nat) : Option Heap :=
  match h.cell self with
  | none => none
  | some it =>
    if it.IsType (ITEMTYPE.or IT_DIRECTORY IT_FILE) then
      match GetFolderPath h self with
      | none => none
      | some folder =>
        match env.FindFileNamed folder (if it.IsType ITF_ROOTITEM then "" else it.m_name) with
        | none => some h
        | some finder =>
          let h1 := h.set self { it with
            m_lastChange := finder.lastWrite, m_attributes := finder.attributes }
          if it.IsType IT_FILE then
            match UpwardSubtractSize h1 self it.m_size with
            | none => none
            | some h2 => UpwardAddSize h2 self finder.size
          else some h1
    else if it.IsType IT_DRIVE then
      match GetPath h self with
      | none => none
      | some path =>
        match env.GetFileTime path with
        | none => some h
        | some t => some (h.set self { it with m_lastChange := t })
    else some h

/-- `CItem::UpwardRecalcLastChange`. -/
def UpwardRecalcLastChange (env : Env) (h : Heap) (self : Nat) (without_item : Bool) :
    Option Heap :=
  upward (fun h p =>
      match UpdateStatsFromDisk env h p with
      | none => none
      | some h1 =>
        h1.modify p fun it =>
          match it.m_ci with
          | none => it
          | some ci =>
            ci.m_children.foldl (fun acc child =>
              if without_item && child == self then acc
              else
                match h1.cell child with
                | none => acc
                | some c => if acc.m_lastChange < c.m_lastChange
                    then { acc with m_lastChange := c.m_lastChange } else acc) it)
    (h.next + 1) h (some self)

/-- The state of one scan: the heap and the `BlockingQueue<CItem*>`. The queue
class is not among the sources at hand. Modelled from the spec: `push` enqueues
work and `pop` hands out the oldest item. -/
structure Scan where
  heap : Heap
  queue : List Nat

/-- The body of the enumeration loop of `CItem::ScanItems` for one entry of the
folder `path` of `item`. -/
def ScanEntry (env : Env) (item : Nat) (path : Path) (s : Scan) (finder : FindData) :
    Option Scan :=
  if finder.isDots then some s
  else if env.SkipHidden && finder.isHidden || env.SkipProtected && finder.isHiddenSystem then
    some s
  else if finder.isDirectory then
    match UpwardAddSubdirs s.heap item 1 with
    | none => none
    | some h1 =>
      match AddDirectory env h1 item path finder with
      | none => none
      | some (h2, newitem) =>
        match h2.cell newitem with
        | none => none
        | some n =>
          if 0 < n.GetReadJobs then some { heap := h2, queue := s.queue ++ [newitem] }
          else some { heap := h2, queue := s.queue }
  else
    match UpwardAddFiles s.heap item 1 with
    | none => none
    | some h1 =>
      match AddFile env h1 item finder with
      | none => none
      | some (h2, _) => some { s with heap := h2 }

/-- One pass of the `while` loop of `CItem::ScanItems` for the popped `item`. -/
def ScanItem (env : Env) (s : Scan) (item : Nat) : Option Scan :=
  match s.heap.cell item with
  | none => none
  | some it =>
    let visited : Option Scan :=
      if it.IsType (ITEMTYPE.or IT_DRIVE IT_DIRECTORY) then
        match GetPath s.heap item with
        | none => none
        | some path => (env.FindFile path).foldlM (ScanEntry env item path) s
      else if it.IsType IT_FILE then
        match UpdateStatsFromDisk env s.heap item with
        | none => none
        | some h1 =>
          match SetDone env h1 item with
          | none => none
          | some h2 => some { s with heap := h2 }
      else if it.IsType IT_MYCOMPUTER then
        match it.m_ci with
        | none => none
        | some ci =>
          ci.m_children.foldlM (fun s1 child =>
            match UpwardAddReadJobs s1.heap child 1 with
            | none => none
            | some h1 => some { heap := h1, queue := s1.queue ++ [child] }) s
      else some s
    match visited with
    | none => none
    | some s1 =>
      match UpwardSubtractReadJobs env s1.heap item 1 with
      | none => none
      | some h2 => some { s1 with heap := h2 }

/-- `CItem::ScanItems` run by a single worker until the queue is empty. The
fuel bounds the number of items popped. -/
def ScanItems (env : Env) : Nat → Scan → Option Scan
  | _, { heap := h, queue := [] } => some { heap := h, queue := [] }
  | 0, { heap := _, queue := _ :: _ } => none
  | fuel + 1, { heap := h, queue := item :: rest } =>
    match ScanItem env { heap := h, queue := rest } item with
    | none => none
    | some s1 => ScanItems env fuel s1

/-- The `while` loop of `CItem::ScanItemsFinalize` over its stack. -/
def ScanItemsFinalizeLoop (env : Env) : Nat → Heap → List Nat → Option Heap
  | _, h, [] => some h
  | 0, _, _ :: _ => none
  | fuel + 1, h, qitem :: stack =>
    match SetDone env h qitem with
    | none => none
    | some h1 =>
      match h1.cell qitem with
      | none => none
      | some it =>
        if it.IsType IT_FILE then ScanItemsFinalizeLoop env fuel h1 stack
        else
          match it.m_ci with
          | none => none
          | some ci =>
            ScanItemsFinalizeLoop env fuel h1
              (ci.m_children.foldl (fun st child =>
                match h1.cell child with
                | none => st
                | some c => if c.IsDone then st else child :: st) stack)

/-- `CItem::ScanItemsFinalize`. -/
def ScanItemsFinalize (env : Env) (h : Heap) (item : Option Nat) : Option Heap :=
  match item with
  | none => some h
  | some i => ScanItemsFinalizeLoop env (h.next + 1) h [i]

/-! ## The scan coordinator (DirStatDoc.cpp 1286-1446)

The embedding covers the worker thread `StartupCoordinator` starts, with one
scanner thread. `UpwardSubtractSizePhysical` and `UpwardSubtractFolders` of
DirStatDoc.cpp are `UpwardSubtractSize` and `UpwardSubtractSubdirs` of Item.cpp;
Item.cpp keeps one size per item, so the logical size has no counterpart. -/

/-- The state of the pruning loop: the heap, the captured vector `items`, and
whether the loop left through the deleted-root `return`. -/
structure Pruning where
  heap : Heap
  items : List Nat
  rootDeleted : Bool

/-- Lines 1338-1345: take a done item out of the aggregates of its ancestors. -/
def PruneItem (env : Env) (h : Heap) (item : Nat) : Option Heap :=
  match UpwardRecalcLastChange env h item true with
  | none => none
  | some h1 =>
    match UpwardSubtractSize h1 item (h1.GetSize item) with
    | none => none
    | some h2 =>
      match h2.cell item with
      | none => none
      | some it2 =>
        match UpwardSubtractFiles h2 item it2.GetFilesCount with
        | none => none
        | some h3 =>
          match h3.cell item with
          | none => none
          | some it3 =>
            match UpwardSubtractSubdirs h3 item it3.GetSubdirsCount with
            | none => none
            | some h4 =>
              match RemoveAllChildren h4 item with
              | none => none
              | some h5 => UpwardSetUndone h5 item

/-- The body of the pruning loop (lines 1326-1376) for one item. -/
def PruneStep (env : Env) (s : Pruning) (item : Nat) : Option Pruning :=
  if s.rootDeleted then some s
  else
    match s.heap.cell item with
    | none => none
    | some it =>
      if !it.IsDone then some s
      else
        match PruneItem env s.heap item with
        | none => none
        | some h6 =>
          match h6.cell item, GetFolderPath h6 item with
          | some it6, some folder =>
            if it6.IsType (ITEMTYPE.or (ITEMTYPE.or IT_FILE IT_DIRECTORY) IT_DRIVE) &&
                !env.DoesFileExist folder (if it6.IsType IT_FILE then it6.m_name else "") then
              let items1 := s.items.filter fun i => i != item
              if it6.IsRootItem then
                some { heap := h6, items := items1, rootDeleted := true }
              else
                match UpwardSubtractFiles h6 item (if it6.IsType IT_FILE then 1 else 0) with
                | none => none
                | some h7 =>
                  match UpwardSubtractSubdirs h7 item (if it6.IsType IT_FILE then 0 else 1) with
                  | none => none
                  | some h8 =>
                    match h8.cell item with
                    | none => none
                    | some it8 =>
                      match it8.m_parent with
                      | none => none
                      | some parent =>
                        match RemoveChild h8 parent item with
                        | none => none
                        | some h9 => some { heap := h9, items := items1, rootDeleted := false }
            else some { s with heap := h6 }
          | _, _ => none

/-- The body of the loop that fills the queue (lines 1383-1394). -/
def PushStep (env : Env) (s : Scan) (item : Nat) : Option Scan :=
  match s.heap.cell item, GetPath s.heap item with
  | some it, some path =>
    if !it.IsType ITF_ROOTITEM && !env.IsFollowingAllowed path it.m_attributes then some s
    else
      match UpwardAddReadJobs s.heap item 1 with
      | none => none
      | some h1 =>
        match UpwardSetUndone h1 item with
        | none => none
        | some h2 => some { heap := h2, queue := s.queue ++ [item] }
  | _, _ => none

/-- The body of the loop that restores the pseudo items (lines 1431-1443). -/
def RestoreStep (env : Env) (h : Heap) (item : Nat) : Option Heap :=
  match h.cell item with
  | none => none
  | some it =>
    if !it.IsType IT_DRIVE then some h
    else
      match (if env.ShowFreeSpace then CreateFreeSpaceItem env h item else some h) with
      | none => none
      | some h1 => if env.ShowUnknown then CreateUnknownItem env h1 item else some h1

/-- `CItem::ScanItems` stopped by an outside `drain` after `n` items were
handed out: the state the worker leaves behind. -/
def ScanItemsDrained (env : Env) : Nat → Scan → Option Scan
  | _, { heap := h, queue := [] } => some { heap := h, queue := [] }
  | 0, s => some s
  | n + 1, { heap := h, queue := item :: rest } =>
    match ScanItem env { heap := h, queue := rest } item with
    | none => none
    | some s1 => ScanItemsDrained env n s1

/-- The document as the coordinator sees it. -/
structure Doc where
  heap : Heap
  m_rootItem : Option Nat

/-- What the worker thread leaves behind. -/
structure Coordinated where
  heap : Heap
  m_rootItem : Option Nat
  /-- The items handed to `queue.push` by the coordinator, oldest first. -/
  pushed : List Nat
  /-- Whether the worker reached `ScanItemsFinalize`. -/
  finalized : Bool

/-- The worker thread of `CDirStatDoc::StartupCoordinator` with one scanner
thread. `fuel` bounds the number of items the scanner pops; `drain = some n`
stands for an outside actor that drains the queue after `n` items were handed
out, so that `wait_for_all` reports an external drain. -/
def StartupCoordinator (env : Env) (fuel : Nat) (drain : Option Nat) (doc : Doc)
    (items : List Nat) : Option Coordinated :=
  match items.foldlM (PruneStep env) { heap := doc.heap, items := items, rootDeleted := false } with
  | none => none
  | some pruned =>
    if pruned.rootDeleted then
      match doc.m_rootItem with
      | none => none
      | some root =>
        match destroy (pruned.heap.next + 1) pruned.heap root with
        | none => none
        | some h => some { heap := h, m_rootItem := none, pushed := [], finalized := false }
    else
      match pruned.items.foldlM (PushStep env) { heap := pruned.heap, queue := [] } with
      | none => none
      | some filled =>
        match (if filled.queue.isEmpty then none else drain) with
        | some n =>
          match ScanItemsDrained env n filled with
          | none => none
          | some s => some { heap := s.heap, m_rootItem := doc.m_rootItem,
                             pushed := filled.queue, finalized := false }
        | none =>
          match ScanItems env fuel filled with
          | none => none
          | some scanned =>
            match pruned.items.foldlM (RestoreStep env) scanned.heap with
            | none => none
            | some restored =>
              match ScanItemsFinalize env restored doc.m_rootItem with
              | none => none
              | some h => some { heap := h, m_rootItem := doc.m_rootItem,
                                 pushed := filled.queue, finalized := true }

/-! ## Opening a document (DirStatDoc.cpp 201-264) -/

/-- The text of `IDS_MYCOMPUTER`. -/
def IDS_MYCOMPUTER : String := "My Computer"

/-- The tree `CDirStatDoc::OnOpenDocument(LPCWSTR)` builds before it starts the
coordinator. `drives` are the display names `FormatVolumeNameOfRootPath` gives the
decoded drives; `isDrive` is `IsDrive(rootFolders[0])`. -/
def NewDocument (env : Env) (drives : List String) (folder : String) (isDrive : Bool) :
    Option Doc :=
  match drives with
  | _ :: _ :: _ =>
    let root := Heap.empty.alloc (CItem.new (ITEMTYPE.or IT_MYCOMPUTER ITF_ROOTITEM) IDS_MYCOMPUTER)
    match drives.foldlM (fun h name => AddChild (h.alloc (CItem.new IT_DRIVE name)) 0 h.next false)
        root with
    | none => none
    | some h => some { heap := h, m_rootItem := some 0 }
  | _ =>
    let name := match drives with
      | d :: _ => d
      | [] => folder
    let type := if isDrive then IT_DRIVE else IT_DIRECTORY
    let h := Heap.empty.alloc (CItem.new (ITEMTYPE.or type ITF_ROOTITEM) name)
    match UpdateStatsFromDisk env h 0 with
    | none => none
    | some h1 => some { heap := h1, m_rootItem := some 0 }

/-- `CDirStatDoc::OnOpenDocument(LPCWSTR)`: the new tree, scanned to the end. -/
def OnOpenDocument (env : Env) (fuel : Nat) (drives : List String) (folder : String)
    (isDrive : Bool) : Option Coordinated :=
  match NewDocument env drives folder isDrive with
  | none => none
  | some doc =>
    match doc.m_rootItem with
    | none => none
    | some root => StartupCoordinator env fuel none doc [root]

/-! ## Filesystem snapshots

`FileFind.cpp` is not among the sources at hand. Modelled from the spec: the
finder enumerates the entries of a folder in filesystem order, and an entry
exists when the folder that holds it lists it. A snapshot is a finite tree
of listings; a volume is a listing with the name of its root and the capacity
figures `getDiskFreeSpace` reports. -/

/-- A directory listing: empty, or a file or a subdirectory followed by the
rest of the listing. -/
inductive Fs where
  | nil : Fs
  | file (data : FindData) (rest : Fs) : Fs
  | dir (data : FindData) (sub : Fs) (rest : Fs) : Fs
deriving DecidableEq

/-- The entries of a listing as the finder reports them. -/
def Fs.entries : Fs → List FindData
  | .nil => []
  | .file d rest => { d with isDirectory := false } :: rest.entries
  | .dir d _ rest => { d with isDirectory := true } :: rest.entries

/-- The listing of the first subdirectory called `name`. -/
def Fs.sub : Fs → String → Option Fs
  | .nil, _ => none
  | .file _ rest, name => rest.sub name
  | .dir d sub rest, name => if d.name = name then some sub else rest.sub name

/-- The listing reached by descending along `path`. -/
def Fs.walk : Fs → Path → Option Fs
  | fs, [] => some fs
  | fs, name :: rest =>
    match fs.sub name with
    | none => none
    | some s => s.walk rest

/-- One scanned root: a drive ("C:") or a folder, with its listing. -/
structure Volume where
  root : String
  listing : Fs
  total : Nat
  free : Nat
  lastWrite : Option Nat
deriving DecidableEq

abbrev Snapshot := List Volume

/-- The volume a path starts in. -/
def Snapshot.volume (snap : Snapshot) (path : Path) : Option Volume :=
  match path with
  | [] => none
  | r :: _ => snap.find? fun v => v.root == r

/-- The listing of the folder at `path`. -/
def Snapshot.listing (snap : Snapshot) (path : Path) : Option Fs :=
  match snap.volume path with
  | none => none
  | some v => v.listing.walk path.tail

/-- The operating system over a snapshot, with the follow policy and the
options of the application. -/
def Snapshot.env (snap : Snapshot) (follow : Path → Nat → Bool)
    (skipHidden skipProtected showFreeSpace showUnknown : Bool) : Env :=
  { FindFile := fun path =>
      match snap.listing path with
      | none => []
      | some fs => fs.entries
    FindFileNamed := fun folder name =>
      match snap.listing folder with
      | none => none
      | some fs => if name = "" then fs.entries.head? else fs.entries.find? fun d => d.name == name
    DoesFileExist := fun folder file =>
      match snap.listing folder with
      | none => false
      | some fs => file == "" || fs.entries.any fun d => d.name == file
    getDiskFreeSpace := fun path =>
      match snap.volume path with
      | none => (0, 0)
      | some v => (v.total, v.free)
    IsFollowingAllowed := follow
    GetFileTime := fun path =>
      match snap.volume path with
      | none => none
      | some v => v.lastWrite
    SkipHidden := skipHidden
    SkipProtected := skipProtected
    ShowFreeSpace := showFreeSpace
    ShowUnknown := showUnknown }

/-- A plain entry: no attributes, not hidden, not a reparse point. -/
def FindData.plain (name : String) (size : Nat) : FindData :=
  { name := name, attributes := 0, size := size, lastWrite := 0, isDirectory := false,
    isDots := false, isHidden := false, isHiddenSystem := false,
    isProtectedReparsePoint := false }

/-! ## Well-formed trees and the effect of a parent walk -/

/-- Apply `f` to every live item whose address is in `l`. -/
def Heap.mapOn (h : Heap) (l : List Nat) (f : CItem → CItem) : Heap :=
  { cells := (List.range h.next).map fun q => if q ∈ l then (h.cell q).map f else h.cell q }

/-- Rewrite the child info of an item that has one. -/
def CItem.mapCi (f : CHILDINFO → CHILDINFO) (it : CItem) : CItem :=
  { it with m_ci := it.m_ci.map f }

/-- What `UpwardAddSize` does to an item it visits. -/
def addSizeF (bytes : Nat) (it : CItem) : CItem :=
  if bytes = 0 then it else { it with m_size := add64 it.m_size bytes }

/-- What `UpwardSubtractSize` does to an item it visits. -/
def subSizeF (bytes : Nat) (it : CItem) : CItem :=
  if bytes = 0 then it else { it with m_size := sub64 it.m_size bytes }

/-- What `UpwardAddFiles` does to an item it visits. -/
def addFilesF (n : Nat) (it : CItem) : CItem :=
  if n = 0 ∨ it.IsType IT_FILE = true then it
  else it.mapCi fun ci => { ci with m_files := add32 ci.m_files n }

/-- What `UpwardAddSubdirs` does to an item it visits. -/
def addSubdirsF (n : Nat) (it : CItem) : CItem :=
  if n = 0 ∨ it.IsType IT_FILE = true then it
  else it.mapCi fun ci => { ci with m_subdirs := add32 ci.m_subdirs n }

/-- What `UpwardAddReadJobs` does to an item it visits. -/
def addJobsF (n : Nat) (it : CItem) : CItem :=
  if n = 0 ∨ it.IsType IT_FILE = true then it
  else it.mapCi fun ci => { ci with m_jobs := add32 ci.m_jobs n }

/-- What `UpwardUpdateLastChange` does to an item it visits. -/
def laterF (t : Nat) (it : CItem) : CItem :=
  if it.m_lastChange < t then { it with m_lastChange := t } else it

/-- A well-formed tree heap: counters are in the range of their machine type,
an item has one of the six item types, exactly the file items lack a `CHILDINFO`, a parent was allocated before its
child and lists it, and child lists are duplicate free and list live items
whose parent link points back. -/
structure Heap.WF (h : Heap) : Prop where
  typed : ∀ p it, h.cell p = some it → it.m_size < 18446744073709551616 ∧
    ∀ ci, it.m_ci = some ci →
      ci.m_files < 4294967296 ∧ ci.m_subdirs < 4294967296 ∧ ci.m_jobs < 4294967296
  kind : ∀ p it, h.cell p = some it →
    it.GetType = IT_MYCOMPUTER ∨ it.GetType = IT_DRIVE ∨ it.GetType = IT_DIRECTORY ∨
    it.GetType = IT_FILE ∨ it.GetType = IT_FREESPACE ∨ it.GetType = IT_UNKNOWN
  hasCi : ∀ p it, h.cell p = some it → (it.m_ci = none ↔ it.IsType IT_FILE = true)
  parent : ∀ p it q, h.cell p = some it → it.m_parent = some q →
    q < p ∧ ∃ pit ci, h.cell q = some pit ∧ pit.m_ci = some ci ∧ p ∈ ci.m_children
  children : ∀ p it ci, h.cell p = some it → it.m_ci = some ci →
    ci.m_children.Nodup ∧ ∀ c ∈ ci.m_children, ∃ cit, h.cell c = some cit ∧ cit.m_parent = some p

/-- The check of well-formedness at one live item. -/
def Heap.wfAt (h : Heap) (p : Nat) (it : CItem) : Bool :=
  decide (it.m_size < 18446744073709551616) &&
  decide (it.GetType ∈ [IT_MYCOMPUTER, IT_DRIVE, IT_DIRECTORY, IT_FILE, IT_FREESPACE, IT_UNKNOWN]) &&
  (match it.m_ci with
   | none => it.IsType IT_FILE
   | some ci =>
     !it.IsType IT_FILE && decide (ci.m_files < 4294967296) &&
     decide (ci.m_subdirs < 4294967296) && decide (ci.m_jobs < 4294967296) &&
     decide ci.m_children.Nodup &&
     ci.m_children.all fun c =>
       match h.cell c with
       | none => false
       | some cit => cit.m_parent == some p) &&
  (match it.m_parent with
   | none => true
   | some q =>
     decide (q < p) &&
     match h.cell q with
     | none => false
     | some pit =>
       match pit.m_ci with
       | none => false
       | some ci => ci.m_children.contains p)

/-- A decision procedure for well-formedness. -/
def Heap.wfCheck (h : Heap) : Bool :=
  (List.range h.next).all fun p =>
    match h.cell p with
    | none => true
    | some it => h.wfAt p it

/-- A small tree: the folder 0 holds the file 1 (5 bytes) and the folder 2,
which holds the file 3 (7 bytes). -/
def exTree : Heap :=
  { cells := [
      some { m_parent := none, m_name := "root", m_lastChange := 3, m_size := 12,
             m_attributes := 0, m_type := 772,
             m_ci := some { m_children := [1, 2], m_files := 2, m_subdirs := 1, m_jobs := 0 } },
      some { m_parent := some 0, m_name := "a", m_lastChange := 1, m_size := 5,
             m_attributes := 0, m_type := 264, m_ci := none },
      some { m_parent := some 0, m_name := "d", m_lastChange := 3, m_size := 7,
             m_attributes := 0, m_type := 260,
             m_ci := some { m_children := [3], m_files := 1, m_subdirs := 0, m_jobs := 0 } },
      some { m_parent := some 2, m_name := "b", m_lastChange := 3, m_size := 7,
             m_attributes := 0, m_type := 264, m_ci := none } ] }

/-- The items of a chain that are not files have a `CHILDINFO`. -/
def CiOk (h : Heap) (l : List Nat) : Prop :=
  ∀ p ∈ l, ∀ it, h.cell p = some it → it.IsType IT_FILE = true ∨ it.m_ci ≠ none

/-- Apply `F q` to the live item at every address `q`. -/
def Heap.mapIdx (h : Heap) (F : Nat → CItem → CItem) : Heap :=
  { cells := (List.range h.next).map fun q => (h.cell q).map (F q) }

/-- The effect of `child->SetParent(P)`. -/
def setParentF (P : Nat) (it : CItem) : CItem := { it with m_parent := some P }

/-- The effect of `m_children.push_back(child)`. -/
def pushChildF (child : Nat) (ci : CHILDINFO) : CHILDINFO :=
  { ci with m_children := ci.m_children ++ [child] }

/-- The propagation part of `AddChild` at the address `q`. -/
def propagateF (l : List Nat) (sz t : Nat) (add_only : Bool) (q : Nat) (it : CItem) : CItem :=
  if add_only = false ∧ q ∈ l then laterF t (addSizeF sz it) else it

/-- What `AddChild(child, add_only)` on `P` does to the item at address `q`, where
`l` is the chain of `P` and `sz`, `t` are the size and last change of the child. -/
def AddChildF (P child : Nat) (l : List Nat) (sz t : Nat) (add_only : Bool) (q : Nat)
    (it : CItem) : CItem :=
  let it2 := if q = child then setParentF P (propagateF l sz t add_only q it)
    else propagateF l sz t add_only q it
  if q = P then it2.mapCi (pushChildF child) else it2

/-- A heap whose root item has the largest size a `ULONGLONG` holds, and a
detached file of two bytes. -/
def exFull : Heap :=
  { cells := [
      some { m_parent := none, m_name := "root", m_lastChange := 0,
             m_size := 18446744073709551615, m_attributes := 0, m_type := 516,
             m_ci := some { m_children := [], m_files := 0, m_subdirs := 0, m_jobs := 0 } },
      some { m_parent := none, m_name := "a", m_lastChange := 0, m_size := 2,
             m_attributes := 0, m_type := 8, m_ci := none } ] }

/-- Whether `q` is `c` or lies below `c`: the chain of `q` passes through `c`. -/
def Heap.below (h : Heap) (c q : Nat) : Bool :=
  match h.chain q with
  | none => false
  | some l => decide (c ∈ l)

/-- The heap `h` without the items that lie, in `h0`, at or below one of `cs`. -/
def Heap.cut (h0 h : Heap) (cs : List Nat) : Heap :=
  { cells := (List.range h.next).map fun q =>
      if cs.any (fun c => h0.below c q) then none else h.cell q }

/-- The item with another size. -/
def CItem.withSize (s : Nat) (it : CItem) : CItem := { it with m_size := s }

/-- The heaps agree up to the sizes of their items. -/
def SizeOnly (h h2 : Heap) : Prop :=
  h2.next = h.next ∧ ∀ q, (h2.cell q).map (CItem.withSize 0) = (h.cell q).map (CItem.withSize 0)

/-- Every size is in the range of a `ULONGLONG`. -/
def SizesTyped (h : Heap) : Prop :=
  ∀ q it, h.cell q = some it → it.m_size < 18446744073709551616

/-- The effect of `SortItemsBySize` on an item, `h` giving the sizes. -/
def sortF (h : Heap) (it : CItem) : CItem :=
  match it.m_ci with
  | none => it
  | some ci =>
    { it with m_ci := some { ci with
        m_children := ci.m_children.insertionSort fun a b => h.GetSize b ≤ h.GetSize a } }

/-- The effect of the last part of `SetDone` on the item itself. -/
def doneF (h : Heap) (it : CItem) : CItem := (sortF h it).SetType ITF_DONE true

/-- A folder that is not done, with the files 1 (5 bytes) and 2 (7 bytes). -/
def exUndone : Heap :=
  { cells := [
      some { m_parent := none, m_name := "root", m_lastChange := 0, m_size := 12,
             m_attributes := 0, m_type := 516,
             m_ci := some { m_children := [1, 2], m_files := 2, m_subdirs := 0, m_jobs := 1 } },
      some { m_parent := some 0, m_name := "a", m_lastChange := 0, m_size := 5,
             m_attributes := 0, m_type := 264, m_ci := none },
      some { m_parent := some 0, m_name := "b", m_lastChange := 0, m_size := 7,
             m_attributes := 0, m_type := 264, m_ci := none } ] }

/-- An operating system without volumes, every folder followed, nothing skipped,
no pseudo items shown. -/
def exEnv : Env := Snapshot.env [] (fun _ _ => true) false false false false

/-- The part of an item that makes the shape of the tree: parent link, name, item
type, and the children up to their order. -/
def CItem.skel (it : CItem) : Option Nat × String × ITEMTYPE × Option (Multiset Nat) :=
  (it.m_parent, it.m_name, it.GetType, it.m_ci.map fun ci => (ci.m_children : Multiset Nat))

/-- The heaps hold the same tree: the same live items with the same parent links,
names and item types, and the same children up to their order. -/
def SameShape (h h2 : Heap) : Prop :=
  h2.next = h.next ∧ ∀ q, (h2.cell q).map CItem.skel = (h.cell q).map CItem.skel

/-- Every counter of the heap is in the range of its machine type. -/
def Heap.Typed (h : Heap) : Prop :=
  ∀ p it, h.cell p = some it → it.m_size < 18446744073709551616 ∧
    ∀ ci, it.m_ci = some ci →
      ci.m_files < 4294967296 ∧ ci.m_subdirs < 4294967296 ∧ ci.m_jobs < 4294967296

/-- The integers modulo 2^64, in which `ULONGLONG` arithmetic takes place. -/
abbrev Z64 : Type := ZMod 18446744073709551616

/-- The size of the item at `q`, modulo 2^64. -/
def Heap.sizeZ (h : Heap) (q : Nat) : Z64 := (h.GetSize q : Z64)

/-- The child list of the item at `a`; empty for a file or a dead address. -/
def Heap.kids (h : Heap) (a : Nat) : List Nat :=
  match h.cell a with
  | none => []
  | some it =>
    match it.m_ci with
    | none => []
    | some ci => ci.m_children

/-- By how much the size of the item at `a` exceeds the sum of the sizes of its
children, modulo 2^64. -/
def Heap.defect (h : Heap) (a : Nat) : Z64 := h.sizeZ a - ((h.kids a).map h.sizeZ).sum

/-- `IsType(IT_MYCOMPUTER | IT_DRIVE | IT_DIRECTORY)`: the item is not a leaf of the
treemap (`TmiIsLeaf` tests the three other types). -/
def CItem.DirLike (it : CItem) : Bool :=
  it.IsType (ITEMTYPE.or (ITEMTYPE.or IT_MYCOMPUTER IT_DRIVE) IT_DIRECTORY)

/-- The size-sum invariant: the size of every directory-like item equals the sum
of the sizes of its children, modulo 2^64. -/
def SizeSum (h : Heap) : Prop :=
  ∀ p it ci, h.cell p = some it → it.DirLike = true → it.m_ci = some ci →
    it.m_size % 2 ^ 64 = (ci.m_children.map h.GetSize).sum % 2 ^ 64

/-- The defect of every directory-like item is the same in both heaps. -/
def DefectKept (h h2 : Heap) : Prop :=
  ∀ a it, h.cell a = some it → it.DirLike = true → h2.defect a = h.defect a

/-- The heap `h2` holds the tree of `h` with counters in range and with the
defects of the directory-like items unchanged. -/
def Rebalanced (h h2 : Heap) : Prop := SameShape h h2 ∧ h2.Typed ∧ DefectKept h h2

/-- The linking part of `AddChild` at the address `q`: `child->SetParent(P)` and
`m_children.push_back(child)`. -/
def linkF (P child : Nat) (q : Nat) (it : CItem) : CItem :=
  let it2 := if q = child then setParentF P it else it
  if q = P then it2.mapCi (pushChildF child) else it2

/-- The heap after `child` has been linked below `P`. -/
def Heap.link (h : Heap) (P child : Nat) : Heap := h.mapIdx (linkF P child)

/-- An item as the protocol allocates it: detached, without children, counters in
range. -/
def CItem.Fresh (it : CItem) : Prop :=
  it.m_parent = none ∧ it.m_size < 18446744073709551616 ∧
  (it.GetType = IT_MYCOMPUTER ∨ it.GetType = IT_DRIVE ∨ it.GetType = IT_DIRECTORY ∨
    it.GetType = IT_FILE ∨ it.GetType = IT_FREESPACE ∨ it.GetType = IT_UNKNOWN) ∧
  (it.m_ci = none ↔ it.IsType IT_FILE = true) ∧
  ∀ ci, it.m_ci = some ci → ci.m_children = [] ∧
    ci.m_files < 4294967296 ∧ ci.m_subdirs < 4294967296 ∧ ci.m_jobs < 4294967296

/-- The heaps hold items of the same types at the same addresses, with a child
info at the same places. -/
def SameKinds (h h2 : Heap) : Prop :=
  ∀ q, (h2.cell q).map (fun it => (it.GetType, it.m_ci.isSome)) =
    (h.cell q).map (fun it => (it.GetType, it.m_ci.isSome))

/-- The effect of `std::erase(m_children, child)` on the item. -/
def eraseF (child : Nat) (it : CItem) : CItem :=
  it.mapCi fun ci => { ci with m_children := ci.m_children.filter fun c => c != child }

/-- A decision procedure for the size-sum invariant. -/
def Heap.sizeSumCheck (h : Heap) : Bool :=
  (List.range h.next).all fun p =>
    match h.cell p with
    | none => true
    | some it =>
      match it.m_ci with
      | none => true
      | some ci =>
        !it.DirLike ||
          decide (it.m_size % 2 ^ 64 = (ci.m_children.map h.GetSize).sum % 2 ^ 64)

/-- The example tree and a detached file of four bytes at the address 4. -/
def exDetached : Heap :=
  exTree.alloc { m_parent := none, m_name := "n", m_lastChange := 9, m_size := 4,
                 m_attributes := 0, m_type := 8, m_ci := none }

/-- What `UpwardSubtractReadJobs` does to the counter of an item it visits. -/
def subJobsF (n : Nat) (it : CItem) : CItem :=
  it.mapCi fun ci => { ci with m_jobs := sub32 ci.m_jobs n }

/-- The read jobs and done flags of `h2` against those of `h`, after a walk over
the items `l` that took `n` read jobs from each: an item of `l` has `n` jobs less
(modulo 2^32), is done if its counter is zero and else keeps its flag; the other
items keep counter and flag. -/
def JobsStep (n : Nat) (l : List Nat) (h h2 : Heap) : Prop :=
  ∀ q qit, h.cell q = some qit → ∃ qit2, h2.cell q = some qit2 ∧
    (q ∈ l → qit2.GetReadJobs = sub32 qit.GetReadJobs n ∧
      (qit2.GetReadJobs = 0 → qit2.IsDone = true) ∧
      (qit2.GetReadJobs ≠ 0 → qit2.IsDone = qit.IsDone)) ∧
    (q ∉ l → qit2.GetReadJobs = qit.GetReadJobs ∧ qit2.IsDone = qit.IsDone)

/-- An operating system without volumes in which no folder may be followed. -/
def exEnvNoFollow : Env := Snapshot.env [] (fun _ _ => false) false false false false

/-- A folder entry of the name `d`. -/
def exFolderEntry : FindData :=
  { name := "d", attributes := 16, size := 0, lastWrite := 0, isDirectory := true,
    isDots := false, isHidden := false, isHiddenSystem := false,
    isProtectedReparsePoint := false }

/-- The items strictly below `p`: the live items other than `p` whose chain to
the root passes through `p`. -/
def Heap.descendants (h : Heap) (p : Nat) : List Nat :=
  (List.range h.next).filter fun q => q != p && h.below p q

/-- The number of file items below `p`. -/
def Heap.filesBelow (h : Heap) (p : Nat) : Nat :=
  ((h.descendants p).filter (h.IsTypeAt IT_FILE)).length

/-- The number of directory items strictly below `p`. -/
def Heap.dirsBelow (h : Heap) (p : Nat) : Nat :=
  ((h.descendants p).filter (h.IsTypeAt IT_DIRECTORY)).length

/-- The sum of the sizes of the file items below `p`. -/
def Heap.fileSizeBelow (h : Heap) (p : Nat) : Nat :=
  (((h.descendants p).filter (h.IsTypeAt IT_FILE)).map h.GetSize).sum

/-- The size, file count and subdir count of the item at `p`. -/
def Heap.aggregates (h : Heap) (p : Nat) : Option (Nat × Nat × Nat) :=
  (h.cell p).map fun it => (it.m_size, it.GetFilesCount, it.GetSubdirsCount)

/-- Two volumes: C: holds the empty folder `d`, D: is empty. -/
def exTwoDrives : Snapshot :=
  [{ root := "C:", listing := .dir (FindData.plain "d" 0) .nil .nil, total := 100, free := 40,
     lastWrite := none },
   { root := "D:", listing := .nil, total := 50, free := 10, lastWrite := none }]

/-- The volumes of `exTwoDrives` after D: was taken away. -/
def exOneDrive : Snapshot :=
  [{ root := "C:", listing := .dir (FindData.plain "d" 0) .nil .nil, total := 100, free := 40,
     lastWrite := none }]

/-- Two empty volumes. -/
def exEmptyDrives : Snapshot :=
  [{ root := "C:", listing := .nil, total := 100, free := 40, lastWrite := none },
   { root := "D:", listing := .nil, total := 50, free := 10, lastWrite := none }]

/-- The volumes of `exEmptyDrives` after D: was taken away. -/
def exEmptyDrive : Snapshot :=
  [{ root := "C:", listing := .nil, total := 100, free := 40, lastWrite := none }]

/-- The folder `R` holds the protected reparse point `j`, behind which lies the
file `x` of 9 bytes, and the file `y` of 1 byte. -/
def exReparse : Snapshot :=
  [{ root := "R",
     listing := .dir { FindData.plain "j" 0 with isProtectedReparsePoint := true }
       (.file (FindData.plain "x" 9) .nil) (.file (FindData.plain "y" 1) .nil),
     total := 0, free := 0, lastWrite := none }]

/-- The integers modulo 2^32, in which `ULONG` arithmetic takes place. -/
abbrev Z32 : Type := ZMod 4294967296

/-- Size, file count and subdir count, each modulo the range of its counter. -/
abbrev Tot : Type := Z64 × Z32 × Z32

/-- The three aggregates an item holds. -/
def CItem.tot (it : CItem) : Tot :=
  ((it.m_size : Z64), (it.GetFilesCount : Z32), (it.GetSubdirsCount : Z32))

/-- The aggregates of the item at `p`; zero at a dead address. -/
def Heap.totAt (h : Heap) (p : Nat) : Tot :=
  match h.cell p with
  | none => 0
  | some it => it.tot

/-- What an item counts for in the aggregates of the items above it: a file its size
and one file, a directory one subdirectory. -/
def CItem.leafTot (it : CItem) : Tot :=
  if it.IsType IT_FILE then ((it.m_size : Z64), 1, 0)
  else if it.IsType IT_DIRECTORY then (0, 0, 1)
  else 0

/-- What the item at `q` counts for; zero at a dead address. -/
def Heap.leafAt (h : Heap) (q : Nat) : Tot :=
  match h.cell q with
  | none => 0
  | some it => it.leafTot

/-- The size of the files, the number of files and the number of directories below
`p`. -/
def Heap.totBelow (h : Heap) (p : Nat) : Tot := ((h.descendants p).map h.leafAt).sum

/-- What identifies an item and its place: parent link, name and item type. -/
def CItem.key (it : CItem) : Option Nat × String × ITEMTYPE := (it.m_parent, it.m_name, it.GetType)

/-- The heap `h2` holds every item of `h` at its address, with the same parent link,
name and type, and possibly new items at new addresses. -/
def KeptShape (h h2 : Heap) : Prop :=
  h.next ≤ h2.next ∧ ∀ q, q < h.next → (h2.cell q).map CItem.key = (h.cell q).map CItem.key

/-- The aggregates of the items of `l` grew by `d` from `h` to `h2`, those of the
other items of `h` did not change. -/
def TotStep (d : Tot) (l : List Nat) (h h2 : Heap) : Prop :=
  ∀ q, q < h.next → h2.totAt q = h.totAt q + if q ∈ l then d else 0

/-- The aggregates of a listing: the size of the files in it and below it, their
number, and the number of directories in it and below it. -/
def Fs.tot : Fs → Tot
  | .nil => 0
  | .file d rest => ((d.size : Z64), 1, 0) + rest.tot
  | .dir _ sub rest => (0, 0, 1) + sub.tot + rest.tot

/-- The number of directories in a listing and below it. -/
def Fs.countDirs : Fs → Nat
  | .nil => 0
  | .file _ rest => rest.countDirs
  | .dir _ sub rest => 1 + sub.countDirs + rest.countDirs

/-- The number of files in a listing and below it. -/
def Fs.countFiles : Fs → Nat
  | .nil => 0
  | .file _ rest => 1 + rest.countFiles
  | .dir _ sub rest => sub.countFiles + rest.countFiles

/-- The sum of the sizes of the files in a listing and below it. -/
def Fs.totalSize : Fs → Nat
  | .nil => 0
  | .file d rest => d.size + rest.totalSize
  | .dir _ sub rest => sub.totalSize + rest.totalSize

/-- A listing the scanner reads in full: no entry is `.` or `..`, a file size is a
64-bit value, no directory is a protected reparse point, and no two directories of
one folder have the same name. -/
def Fs.plain : Fs → Bool
  | .nil => true
  | .file d rest => !d.isDots && decide (d.size < 18446744073709551616) && rest.plain
  | .dir d sub rest =>
    !d.isDots && !d.isProtectedReparsePoint && (rest.sub d.name).isNone && sub.plain &&
      rest.plain

/-- The listing the scanner finds for the item at `q`: that of its path. -/
def Heap.listing (snap : Snapshot) (h : Heap) (q : Nat) : Option Fs :=
  match GetPath h q with
  | none => none
  | some path => snap.listing path

/-- The aggregates of the listing of the item at `q`. -/
def Heap.listTot (snap : Snapshot) (h : Heap) (q : Nat) : Tot :=
  match h.listing snap q with
  | none => 0
  | some fs => fs.tot

/-- The aggregates still to come for `p`: those of the listings of the queued items
at or below `p`. -/
def pend (snap : Snapshot) (h : Heap) (queue : List Nat) (p : Nat) : Tot :=
  ((queue.filter fun q => h.below p q).map (h.listTot snap)).sum

/-- The step of the fold in `UpwardGetPathWithoutBackslash`. -/
def pathStep (h : Heap) (path : Path) (p : Nat) : Path :=
  match h.cell p with
  | none => path
  | some it =>
    if it.IsType IT_DIRECTORY then it.m_name :: path
    else if it.IsType IT_FILE then [it.m_name]
    else if it.IsType IT_DRIVE then PathFromVolumeName it.m_name :: path
    else path

/-- Every item is a directory or a file: the tree of a folder, without drives and
pseudo items. -/
def OnlyDF (h : Heap) : Prop :=
  ∀ p it, h.cell p = some it → it.GetType = IT_DIRECTORY ∨ it.GetType = IT_FILE

/-- The property `Heap.noPseudo` item by item. -/
def NoPseudo (h : Heap) : Prop :=
  ∀ p it, h.cell p = some it → it.IsType IT_FREESPACE = false ∧ it.IsType IT_UNKNOWN = false

/-- The heap `h3` is `h` with one new item of type `T` and name `name` at the
address `h.next`, linked below `item`; the aggregates on the chain `l` of `item` grew
by `d`, which is what the new item counts for, and the new item holds `v`; it is the
last child of `item` and has no children. -/
structure Grown (h h3 : Heap) (item : Nat) (l : List Nat) (d v : Tot) (T : ITEMTYPE)
    (name : String) : Prop where
  wf : h3.WF
  next : h3.next = h.next + 1
  kept : KeptShape h h3
  tots : TotStep d l h h3
  fresh : ∃ nit, h3.cell h.next = some nit ∧ nit.m_parent = some item ∧ nit.m_name = name ∧
    nit.GetType = T ∧ nit.tot = v ∧ nit.leafTot = d
  kids : ∀ a, a < h.next →
    (h3.kids a).Perm (if a = item then h.kids a ++ [h.next] else h.kids a)
  kidsNew : h3.kids h.next = []

/-- By how much the aggregates of the item at `p` exceed what lies below it. -/
def Heap.gap (h : Heap) (p : Nat) : Tot := h.totAt p - h.totBelow p

/-- The number of items the scanner has yet to pop: the queued items and the
directories in and below their listings. -/
def work (snap : Snapshot) (h : Heap) (queue : List Nat) : Nat :=
  (queue.map fun q => 1 + match h.listing snap q with
    | none => 0
    | some fs => fs.countDirs).sum

/-- Every directory entry of the listing is found under its name in `top`. -/
def Fs.resolves (top : Fs) : Fs → Prop
  | .nil => True
  | .file _ rest => Fs.resolves top rest
  | .dir d sub rest => top.sub d.name = some sub ∧ Fs.resolves top rest

/-- The operating system answers from the snapshot, allows to follow every folder
and skips no entry. -/
structure EnvOk (env : Env) (snap : Snapshot) : Prop where
  find : ∀ path, env.FindFile path =
    match snap.listing path with
    | none => []
    | some fs => fs.entries
  follow : ∀ path attr, env.IsFollowingAllowed path attr = true
  hidden : env.SkipHidden = false
  prot : env.SkipProtected = false

/-- The size, file count and subdir count of an item. -/
def CItem.agg (it : CItem) : Nat × Nat × Nat :=
  (it.m_size, it.GetFilesCount, it.GetSubdirsCount)

/-- The aggregates a completely read folder shows for its listing: the total size
modulo 2^64, the numbers of files and of folders modulo 2^32. -/
def Fs.natTot (fs : Fs) : Nat × Nat × Nat :=
  (fs.totalSize % 18446744073709551616, fs.countFiles % 4294967296,
    fs.countDirs % 4294967296)

/-- What identifies a child in its folder and what it shows: name, type, size, file
count, subdir count. -/
abbrev Tag := String × ITEMTYPE × Nat × Nat × Nat

/-- The children a completely read folder has for its listing. -/
def Fs.tags : Fs → Multiset Tag
  | .nil => 0
  | .file e rest => (e.name, IT_FILE, e.size, 0, 0) ::ₘ rest.tags
  | .dir e sub rest => (e.name, IT_DIRECTORY, sub.natTot) ::ₘ rest.tags

/-- The name, type and aggregates of the item at `c`. -/
def Heap.aggTag (h : Heap) (c : Nat) : Tag :=
  match h.cell c with
  | none => ("", 0, 0, 0, 0)
  | some it => (it.m_name, it.GetType, it.agg)

/-- The children of the item at `p` by name, type and aggregates. -/
def Heap.kidAggs (h : Heap) (p : Nat) : Multiset Tag :=
  Multiset.map h.aggTag (h.kids p)

/-- The name and type of the item at `c`, with the aggregates it has once it is
completely read: its own for a file, those of its listing for a folder. -/
def Heap.tagAt (snap : Snapshot) (h : Heap) (c : Nat) : Tag :=
  match h.cell c with
  | none => ("", 0, 0, 0, 0)
  | some it => (it.m_name, it.GetType,
      if it.IsType IT_FILE then it.agg
      else match h.listing snap c with
        | none => (0, 0, 0)
        | some fs => fs.natTot)

/-- The children of the item at `p`, each as `tagAt` shows it. -/
def Heap.kidTags (snap : Snapshot) (h : Heap) (p : Nat) : Multiset Tag :=
  Multiset.map (h.tagAt snap) (h.kids p)

/-- The children the listing of the item at `q` holds. -/
def Heap.listTags (snap : Snapshot) (h : Heap) (q : Nat) : Multiset Tag :=
  match h.listing snap q with
  | none => 0
  | some fs => fs.tags

/-- The children still to come for `p`: those of its listing while it is queued. -/
def pendTags (snap : Snapshot) (h : Heap) (queue : List Nat) (p : Nat) : Multiset Tag :=
  ((queue.filter fun q => q == p).map (h.listTags snap)).sum

/-- The invariant of a scan that started in the heap `hb` with the queue `qb`, in a
state with the heap `h` and the queue `queue`, while the remaining entries `cur` of
the folder of `item` are being read (`cur` is empty between two folders). The tree
holds no pseudo item, and the items the scan created are directories and files; every
queued item is a directory with a plain listing; for every item that is not a file,
what it holds plus what is still to come equals what it
held at the start plus what was to come then, or, for a directory the scan created,
the aggregates of its listing; for every directory, what it holds exceeds what lies below it by as much
as at the start, or by nothing for a directory the scan created; and its children
plus those still to come are those it had at the start plus those that were to
come then, or, for a directory the scan created, those of its listing; every
directory the scan created has a plain listing. -/
structure Inv (snap : Snapshot) (hb : Heap) (qb : List Nat) (h : Heap) (queue : List Nat)
    (item : Nat) (cur : Fs) : Prop where
  wf : h.WF
  df : NoPseudo h
  news : ∀ p it, hb.next ≤ p → h.cell p = some it →
    it.GetType = IT_DIRECTORY ∨ it.GetType = IT_FILE
  kept : KeptShape hb h
  live : item < h.next
  queued : ∀ q ∈ queue, ∃ it fs, h.cell q = some it ∧ it.GetType = IT_DIRECTORY ∧
    h.listing snap q = some fs ∧ fs.plain = true
  phi : ∀ p it, h.cell p = some it → it.IsType IT_FILE = false →
    h.totAt p + pend snap h queue p + (if h.below p item then cur.tot else 0) =
      if p < hb.next then hb.totAt p + pend snap hb qb p else h.listTot snap p
  gaps : ∀ p it, h.cell p = some it → it.GetType = IT_DIRECTORY →
    h.gap p = if p < hb.next then hb.gap p else 0
  tags : ∀ p it, h.cell p = some it → it.GetType = IT_DIRECTORY →
    h.kidTags snap p + pendTags snap h queue p + (if p = item then cur.tags else 0) =
      if p < hb.next then hb.kidTags snap p + pendTags snap hb qb p else h.listTags snap p
  listed : ∀ p it, h.cell p = some it → it.GetType = IT_DIRECTORY → ¬ p < hb.next →
    ∃ fs, h.listing snap p = some fs ∧ fs.plain = true

/-- What a walk of `UpwardSubtractReadJobs` over the items `l` leaves: the same tree
with the same defects, and the same aggregates if the tree holds no pseudo item. -/
def JobsKeep (_l : List Nat) (h h2 : Heap) : Prop :=
  Rebalanced h h2 ∧ (NoPseudo h → ∀ q, h2.totAt q = h.totAt q)

/-- Whether the loop of `ScanItems` passes over the entry: `.` and `..`, and the hidden
and the protected entries that the options tell it to skip. -/
def Env.skips (env : Env) (e : FindData) : Bool :=
  e.isDots || (env.SkipHidden && e.isHidden || env.SkipProtected && e.isHiddenSystem)

/-- Whether `AddDirectory` gives the item of the directory entry `e` of the folder
`path` a read job, so that the scanner reads the directory. -/
def Env.follows (env : Env) (path : Path) (e : FindData) : Bool :=
  !e.isProtectedReparsePoint && env.IsFollowingAllowed (path ++ [e.name]) e.attributes

/-- The listing the scanner makes of a folder. `Reads env path es fs` holds if `fs` is
what `ScanItems` makes of the entries `es` that the finder reports in the folder
`path`: an entry it passes over is left out; a file entry gives a file of that name
and size; a directory entry it follows gives a directory of that name with the
listing the scanner makes of the entries the finder reports in it; a directory
entry it does not follow gives an empty directory of that name. -/
inductive Reads (env : Env) : Path → List FindData → Fs → Prop where
  | done (path : Path) : Reads env path [] .nil
  | skip {path : Path} {e : FindData} {es : List FindData} {fs : Fs} :
      env.skips e = true → Reads env path es fs → Reads env path (e :: es) fs
  | file {path : Path} {e : FindData} {es : List FindData} {e2 : FindData} {rest : Fs} :
      env.skips e = false → e.isDirectory = false → e2.name = e.name → e2.size = e.size →
      Reads env path es rest → Reads env path (e :: es) (.file e2 rest)
  | dir {path : Path} {e : FindData} {es : List FindData} {e2 : FindData} {sub rest : Fs} :
      env.skips e = false → e.isDirectory = true → e2.name = e.name →
      env.follows path e = true →
      Reads env (path ++ [e.name]) (env.FindFile (path ++ [e.name])) sub →
      Reads env path es rest → Reads env path (e :: es) (.dir e2 sub rest)
  | stop {path : Path} {e : FindData} {es : List FindData} {e2 : FindData} {rest : Fs} :
      env.skips e = false → e.isDirectory = true → e2.name = e.name →
      env.follows path e = false →
      Reads env path es rest → Reads env path (e :: es) (.dir e2 .nil rest)

/-- Every queued item has as its listing the one the scanner makes of its folder. -/
def QueueReads (env : Env) (snap : Snapshot) (h : Heap) (queue : List Nat) : Prop :=
  ∀ q ∈ queue, ∀ path fs, GetPath h q = some path → h.listing snap q = some fs →
    Reads env path (env.FindFile path) fs

/-- The folder of the scenario: one file of 0 bytes and one subdirectory with one
file of 10 bytes. -/
def exScenario : Fs :=
  .file (FindData.plain "a.txt" 0)
    (.dir (FindData.plain "sub" 0) (.file (FindData.plain "b.bin" 10) .nil) .nil)

/-- A folder with two files of 2^63 bytes each. -/
def exHuge : Fs :=
  .file (FindData.plain "a" 9223372036854775808)
    (.file (FindData.plain "b" 9223372036854775808) .nil)

/-- The item `b` is `a` with another last change time and other attributes. -/
def CItem.Retimed (a b : CItem) : Prop :=
  b.m_parent = a.m_parent ∧ b.m_name = a.m_name ∧ b.m_ci = a.m_ci ∧ b.m_size = a.m_size ∧
    b.m_type = a.m_type

/-- What `RemoveAllChildren` on `x` leaves of the heap `h`: the items strictly below
`x` are released, and `x` has no children. -/
def Heap.pruned (h : Heap) (x : Nat) : Heap :=
  { cells := (List.range h.next).map fun q =>
      if q = x then (h.cell x).map fun it => it.mapCi fun ci => { ci with m_children := [] }
      else if h.below x q then none else h.cell q }

/-- Whether the item at `q` is live and not done. -/
def Heap.notDone (h : Heap) (q : Nat) : Bool :=
  match h.cell q with
  | none => false
  | some it => !it.IsDone

/-- The number of live items that are not done. -/
def Heap.undone (h : Heap) : Nat := ((List.range h.next).filter h.notDone).length

/-- The tree of `h` shows the snapshot: it holds no pseudo item, and every directory
item has a plain listing, the aggregates of the listing, and the children of the
listing. -/
def Scanned (snap : Snapshot) (h : Heap) : Prop :=
  h.WF ∧ NoPseudo h ∧ ∀ d dit, h.cell d = some dit → dit.GetType = IT_DIRECTORY →
    ∃ fsd, h.listing snap d = some fsd ∧ fsd.plain = true ∧ h.totAt d = fsd.tot ∧
      h.kidAggs d = fsd.tags

/-- The folder `R` holds the folder `p`, which holds the protected reparse point
`j`. -/
def exDenied : Snapshot :=
  [{ root := "R",
     listing := .dir (FindData.plain "p" 0)
       (.dir { FindData.plain "j" 0 with isProtectedReparsePoint := true } .nil .nil) .nil,
     total := 0, free := 0, lastWrite := none }]

/-- A tree in which the folder `j` is not done below the done folder `p`. -/
def exStale : Heap :=
  { cells := [
      some { m_parent := none, m_name := "R", m_lastChange := 0, m_size := 0,
             m_attributes := 0, m_type := 772,
             m_ci := some { m_children := [1], m_files := 0, m_subdirs := 2, m_jobs := 0 } },
      some { m_parent := some 0, m_name := "p", m_lastChange := 0, m_size := 0,
             m_attributes := 0, m_type := 260,
             m_ci := some { m_children := [2], m_files := 0, m_subdirs := 1, m_jobs := 0 } },
      some { m_parent := some 1, m_name := "j", m_lastChange := 0, m_size := 0,
             m_attributes := 0, m_type := 4,
             m_ci := some { m_children := [], m_files := 0, m_subdirs := 0, m_jobs := 0 } } ] }

/-- The unknown item whose size `UpwardSetUndone` takes back when it visits `p`:
`p` is a done drive and `FindUnknownItem` finds a child. -/
def Heap.rebaseAt (h : Heap) (p : Nat) : Option Nat :=
  match h.cell p with
  | none => none
  | some it =>
    if it.IsType IT_DRIVE && it.IsDone then
      match FindUnknownItem h p with
      | some (some unknown) => some unknown
      | _ => none
    else none

/-- The items of `l` lost their done flag; no other flag and no child info changed. -/
def FlagsCleared (l : List Nat) (h h2 : Heap) : Prop :=
  ∀ q qit, h.cell q = some qit → ∃ q2, h2.cell q = some q2 ∧ q2.m_ci = qit.m_ci ∧
    q2.m_type = if q ∈ l then (qit.SetType ITF_DONE false).m_type else qit.m_type

/-- The sizes after a walk of `UpwardSetUndone` over `l` that re-bases at most once. -/
def SizesRebased (l : List Nat) (h h2 : Heap) : Prop :=
  (∀ d ∈ l, ∀ u ld, h.rebaseAt d = some u → (∀ e ∈ l, e ≠ d → h.rebaseAt e = none) →
    h.chain d = some ld → ∀ q, h2.GetSize q =
      if q = u then 0 else if q ∈ ld then sub64 (h.GetSize q) (h.GetSize u) else h.GetSize q) ∧
  ((∀ d ∈ l, h.rebaseAt d = none) → ∀ q, h2.GetSize q = h.GetSize q)

/-- What a walk of `UpwardSetUndone` over `l` does. -/
def UndoneStep (l : List Nat) (h h2 : Heap) : Prop :=
  Rebalanced h h2 ∧ FlagsCleared l h h2 ∧ SizesRebased l h h2

/-- A done drive of size 3 modulo 2^64 that holds a file of 2^64 - 2 bytes and an
unknown item of 5 bytes. -/
def exWrapDrive : Heap :=
  { cells := [
      some { m_parent := none, m_name := "C:", m_lastChange := 0, m_size := 3,
             m_attributes := 0, m_type := 770,
             m_ci := some { m_children := [1, 2], m_files := 1, m_subdirs := 0, m_jobs := 0 } },
      some { m_parent := some 0, m_name := "a", m_lastChange := 0,
             m_size := 18446744073709551614, m_attributes := 0, m_type := 264, m_ci := none },
      some { m_parent := some 0, m_name := "<Unknown>", m_lastChange := 0, m_size := 5,
             m_attributes := 0, m_type := 288,
             m_ci := some { m_children := [], m_files := 0, m_subdirs := 0, m_jobs := 0 } } ] }

/-- A done drive that holds the folder `d` with the file `b` of 7 bytes, and an
unknown item of 5 bytes. -/
def exDoneDrive : Heap :=
  { cells := [
      some { m_parent := none, m_name := "C:", m_lastChange := 0, m_size := 12,
             m_attributes := 0, m_type := 770,
             m_ci := some { m_children := [1, 2], m_files := 1, m_subdirs := 1, m_jobs := 0 } },
      some { m_parent := some 0, m_name := "d", m_lastChange := 0, m_size := 7,
             m_attributes := 0, m_type := 260,
             m_ci := some { m_children := [3], m_files := 1, m_subdirs := 0, m_jobs := 0 } },
      some { m_parent := some 0, m_name := "<Unknown>", m_lastChange := 0, m_size := 5,
             m_attributes := 0, m_type := 288,
             m_ci := some { m_children := [], m_files := 0, m_subdirs := 0, m_jobs := 0 } },
      some { m_parent := some 1, m_name := "b", m_lastChange := 0, m_size := 7,
             m_attributes := 0, m_type := 264, m_ci := none } ] }

/-! ## The assertions of the subtracting walks (Item.cpp 585-656)

The operands of each asserted expression are unsigned (`ULONGLONG` for the size,
`ULONG` for the counters), so the difference is reduced modulo the range of the type
before it is compared with 0. -/

/-- The expression of `ASSERT(p->m_size - bytes >= 0)` in `UpwardSubtractSize`. -/
def assertSubtractSize (m_size bytes : Nat) : Bool := decide (sub64 m_size bytes ≥ 0)

/-- The expression of `ASSERT(p->m_ci->m_files - fileCount >= 0)` in
`UpwardSubtractFiles`. -/
def assertSubtractFiles (m_files fileCount : Nat) : Bool := decide (sub32 m_files fileCount ≥ 0)

/-- The expression of `ASSERT(p->m_ci->m_subdirs - dirCount >= 0)` in
`UpwardSubtractSubdirs`. -/
def assertSubtractSubdirs (m_subdirs dirCount : Nat) : Bool :=
  decide (sub32 m_subdirs dirCount ≥ 0)

/-- The expression of `ASSERT(p->m_ci->m_jobs - count >= 0)` in
`UpwardSubtractReadJobs`. -/
def assertSubtractReadJobs (m_jobs count : Nat) : Bool := decide (sub32 m_jobs count ≥ 0)

/-- The operating system over the drive `C:` with a capacity of 20 bytes, 4 of them
free; nothing else is mounted. -/
def exDriveEnv : Env :=
  Snapshot.env [Volume.mk "C:" .nil 20 4 none] (fun _ _ => true) false false false false

/-- The operating system over the drive `C:` with a capacity of 10 bytes, none of
them free. -/
def exSmallDriveEnv : Env :=
  Snapshot.env [Volume.mk "C:" .nil 10 0 none] (fun _ _ => true) false false false false

/-! ## The zoom conflicts (DirStatDoc.cpp 1292-1307) -/

/-- Modelled from the spec: `CTreeListItem::IsAncestorOf` is defined in
TreeListControl.cpp, which is not among the sources at hand. "An ancestor of the
currently zoomed-in view" is read as in `CItem::FindCommonAncestor`, which starts its
search at the item itself: `self` is `item` or lies on the parent chain of `item`;
nothing is an ancestor of `nullptr`. -/
def IsAncestorOf (h : Heap) (self : Nat) (item : Option Nat) : Bool :=
  match item with
  | none => false
  | some i => h.below self i

/-- The state of the loop over the refresh set: `m_zoomItem`, and whether the
coordinator returned at a null entry. -/
structure ZoomState where
  m_zoomItem : Option Nat
  returned : Bool
deriving DecidableEq

/-- The body of the loop at the start of `StartupCoordinator`; `zoom_item` is the
value `GetZoomItem()` had before the loop. -/
def ZoomStep (h : Heap) (zoom_item : Option Nat) (s : ZoomState) (item : Option Nat) :
    ZoomState :=
  if s.returned then s
  else
    match item with
    | none => { s with returned := true }
    | some i => if IsAncestorOf h i zoom_item then { s with m_zoomItem := some i } else s

/-- The loop at the start of `CDirStatDoc::StartupCoordinator` that addresses the
conflicts between the zoom item and the refresh set `items`. -/
def ZoomConflicts (h : Heap) (m_zoomItem : Option Nat) (items : List (Option Nat)) :
    ZoomState :=
  items.foldl (ZoomStep h m_zoomItem) { m_zoomItem := m_zoomItem, returned := false }

/-- The scan of `exDenied`, stopped from outside after one folder. -/
def exDrained : Option Coordinated :=
  StartupCoordinator (exDenied.env (fun _ _ => true) false false false false) 20 (some 1)
    { heap := Heap.empty.alloc (CItem.new (ITEMTYPE.or IT_DIRECTORY ITF_ROOTITEM) "R"),
      m_rootItem := some 0 } [0]

/-! ## CSV export and import (CsvLoader.cpp)

The file is embedded as the list of its lines, each a list of wide characters:
`SaveResults` writes every line in binary mode followed by CR LF, `LoadResults`
reads the lines back in text mode, and `WideCharToMultiByte` and
`MultiByteToWideChar` (UTF-8) are taken as inverse to each other.
`Localization::Lookup`, `FormatVolumeNameOfRootPath` with its look at the volume,
`CItem::GetOwner`, the time format of `std::format` and `std::chrono::parse` are
parameters. -/

abbrev Text := List Char

/-- The character `wds::chrBackslash`. -/
def chrBackslash : Char := Char.ofNat 92

/-- The double quote. -/
def chrQuote : Char := Char.ofNat 34

/-- The terminating null character of a C string. -/
def chrNul : Char := Char.ofNat 0

/-- What the CSV code takes from the application and the operating system. -/
structure CsvEnv where
  IDS_COL_NAME : Text
  IDS_COL_FILES : Text
  IDS_COL_SUBDIRS : Text
  IDS_COL_SIZE : Text
  IDS_COL_ATTRIBUTES : Text
  IDS_COL_LASTCHANGE : Text
  IDS_APP_TITLE : Text
  IDS_COL_OWNER : Text
  /-- `COptions::ShowColumnOwner`. -/
  ShowColumnOwner : Bool
  /-- `std::format` of `ToTimePoint(t)` with `%FT%TZ`. -/
  formatTime : Nat → Text
  /-- `FromTimeString`. -/
  FromTimeString : Text → Nat
  /-- `FormatVolumeNameOfRootPath`. -/
  FormatVolumeNameOfRootPath : String → String
  /-- `CItem::GetOwner(true)` of the item at an address. -/
  GetOwner : Nat → Text

def FIELD_NAME : Nat := 0
def FIELD_FILES : Nat := 1
def FIELD_SUBDIRS : Nat := 2
def FIELD_SIZE : Nat := 3
def FIELD_ATTRIBUTES : Nat := 4
def FIELD_LASTCHANGE : Nat := 5
def FIELD_ATTRIBUTES_WDS : Nat := 6
def FIELD_OWNER : Nat := 7
def FIELD_COUNT : Nat := 8

/-! ### Numbers as text -/

/-- `std::format` of an unsigned integer with the plain replacement field. -/
def formatDec (n : Nat) : Text := Nat.toDigits 10 n

/-- `std::format` of an unsigned integer with `:0wX`: upper-case hexadecimal digits,
filled with zeros from the left up to the width `w`. -/
def formatHex (w n : Nat) : Text :=
  let digits := (Nat.toDigits 16 n).map Char.toUpper
  List.replicate (w - digits.length) '0' ++ digits

/-- The value of a digit or letter as `wcstoul` reads it. -/
def digitVal (c : Char) : Option Nat :=
  if 48 ≤ c.toNat ∧ c.toNat ≤ 57 then some (c.toNat - 48)
  else if 97 ≤ c.toNat ∧ c.toNat ≤ 122 then some (c.toNat - 87)
  else if 65 ≤ c.toNat ∧ c.toNat ≤ 90 then some (c.toNat - 55)
  else none

/-- The longest run of digits of the base at the start of the text, as a number. -/
def strtouDigits (base : Nat) : Text → Nat → Nat
  | [], acc => acc
  | c :: rest, acc =>
    match digitVal c with
    | none => acc
    | some d => if d < base then strtouDigits base rest (acc * base + d) else acc

/-- The C library functions `wcstoul` and `_wcstoui64`, which are not among the
sources at hand, on a text without leading white space and sign: in base 16 a leading
`0x` or `0X` is skipped, the longest run of digits is read, and a value above `max`
gives `max`. -/
def strtou (base max : Nat) (s : Text) : Nat :=
  let body :=
    if base = 16 then
      match s with
      | '0' :: 'x' :: r => r
      | '0' :: 'X' :: r => r
      | _ => s
    else s
  min (strtouDigits base body 0) max

/-- `wcstoul`. -/
def wcstoul (s : Text) (base : Nat) : Nat := strtou base 4294967295 s

/-- `_wcstoui64`. -/
def wcstoui64 (s : Text) (base : Nat) : Nat := strtou base 18446744073709551615 s

/-! ### Writing -/

/-- `QuoteAndConvert`. -/
def QuoteAndConvert (inc : Text) : Text := [chrQuote] ++ inc ++ [chrQuote]

/-- `CStringW::TrimRight` with a backslash. -/
def trimRightBackslash (s : Text) : Text :=
  (s.reverse.dropWhile fun c => c == chrBackslash).reverse

/-- `CItem::UpwardGetPathWithoutBackslash`, as text. -/
def UpwardGetPathText (h : Heap) (self : Nat) : Option Text :=
  match h.chain self with
  | none => none
  | some l =>
    some (trimRightBackslash (l.foldl (fun path p =>
      match h.cell p with
      | none => path
      | some it =>
        if it.IsType IT_DIRECTORY then it.m_name.data ++ [chrBackslash] ++ path
        else if it.IsType IT_FILE then it.m_name.data
        else if it.IsType IT_DRIVE then
          (PathFromVolumeName it.m_name).data ++ [chrBackslash] ++ path
        else path) [chrBackslash]))

/-- `CItem::GetPath`, as text. -/
def GetPathText (h : Heap) (self : Nat) : Option Text :=
  match h.cell self, UpwardGetPathText h self with
  | some it, some path => some (if it.IsType IT_DRIVE then path ++ [chrBackslash] else path)
  | _, _ => none

/-- The titles of the columns `SaveResults` writes. -/
def SaveColumns (env : CsvEnv) : List Text :=
  [env.IDS_COL_NAME, env.IDS_COL_FILES, env.IDS_COL_SUBDIRS, env.IDS_COL_SIZE,
    env.IDS_COL_ATTRIBUTES, env.IDS_COL_LASTCHANGE,
    env.IDS_APP_TITLE ++ [' '] ++ env.IDS_COL_ATTRIBUTES] ++
  (if env.ShowColumnOwner then [env.IDS_COL_OWNER] else [])

/-- The line `SaveResults` writes for the item `qitem`. -/
def SaveRow (env : CsvEnv) (h : Heap) (qitem : Nat) : Option Text :=
  match h.cell qitem with
  | none => none
  | some it =>
    let non_path_item :=
      it.IsType (ITEMTYPE.or (ITEMTYPE.or IT_MYCOMPUTER IT_UNKNOWN) IT_FREESPACE)
    match (if non_path_item then some it.m_name.data else GetPathText h qitem) with
    | none => none
    | some name =>
      some (QuoteAndConvert name ++ [','] ++
        formatDec it.GetFilesCount ++ [','] ++ formatDec it.GetSubdirsCount ++ [','] ++
        formatDec it.m_size ++ [',', '0', 'x'] ++ formatHex 8 it.m_attributes ++ [','] ++
        env.formatTime it.m_lastChange ++ [',', '0', 'x'] ++ formatHex 4 (it.m_type % 65536) ++
        (if env.ShowColumnOwner then [','] ++ QuoteAndConvert (env.GetOwner qitem) else []))

/-- The loop of `SaveResults` over its stack; the fuel bounds the number of items
written. -/
def SaveLoop (env : CsvEnv) : Nat → Heap → List Nat → List Text → Option (List Text)
  | _, _, [], out => some out
  | 0, _, _ :: _, _ => none
  | fuel + 1, h, qitem :: stack, out =>
    match h.cell qitem, SaveRow env h qitem with
    | some it, some row =>
      if it.IsType IT_FILE then SaveLoop env fuel h stack (out ++ [row])
      else
        match it.m_ci with
        | none => none
        | some ci => SaveLoop env fuel h (ci.m_children.reverse ++ stack) (out ++ [row])
    | _, _ => none

/-- `SaveResults`: the lines written for the tree of `item`. -/
def SaveResults (env : CsvEnv) (h : Heap) (item : Nat) : Option (List Text) :=
  SaveLoop env (h.next + 1) h [item]
    [(((SaveColumns env).map QuoteAndConvert).intersperse [',']).flatten]

/-! ### Reading -/

/-- `std::wstring::find(c, pos)`. -/
def findFrom (line : Text) (c : Char) (pos : Nat) : Option Nat :=
  match (line.drop pos).indexOf? c with
  | none => none
  | some i => some (pos + i)

/-- The loop of `LoadResults` that parses the fields of a line. The fuel bounds the
number of fields; the inner `none` stands for the `return nullptr` at a quote that is
not closed. -/
def parseFields : Nat → Text → Nat → List Text → Option (Option (List Text))
  | 0, _, _, _ => none
  | fuel + 1, line, pos, fields =>
    if pos < line.length then
      let comma := findFrom line ',' pos
      let end0 := match comma with
        | none => line.length
        | some i => i
      if line.get? pos = some chrQuote then
        match findFrom line chrQuote (pos + 1) with
        | none => some none
        | some end1 =>
          parseFields fuel line (end1 + 1 + 1)
            (fields ++ [(line.drop (pos + 1)).take (end1 - (pos + 1))])
      else parseFields fuel line (end0 + 1) (fields ++ [(line.drop pos).take (end0 - pos)])
    else some (some fields)

/-- The map `res_map` of `ParseHeaderLine`; of two entries with the same title
`std::map` keeps the first. -/
def res_map (env : CsvEnv) : List (Text × Nat) :=
  [(env.IDS_COL_NAME, FIELD_NAME), (env.IDS_COL_FILES, FIELD_FILES),
    (env.IDS_COL_SUBDIRS, FIELD_SUBDIRS), (env.IDS_COL_SIZE, FIELD_SIZE),
    (env.IDS_COL_ATTRIBUTES, FIELD_ATTRIBUTES), (env.IDS_COL_LASTCHANGE, FIELD_LASTCHANGE),
    (env.IDS_APP_TITLE ++ [' '] ++ env.IDS_COL_ATTRIBUTES, FIELD_ATTRIBUTES_WDS),
    (env.IDS_COL_OWNER, FIELD_OWNER)]

/-- `ParseHeaderLine`: the column of every field, `none` for the -1 the map is
filled with. The embedding covers headers of fewer than 128 columns, whose index
fits the `CHAR` it is stored in. -/
def ParseHeaderLine (env : CsvEnv) (header : List Text) : List (Option Nat) :=
  header.enum.foldl (fun order_map ch =>
      match (res_map env).find? fun e => e.1 = ch.2 with
      | none => order_map
      | some e => order_map.set e.2 (some ch.1))
    (List.replicate FIELD_COUNT none)

/-- The field `fields[order_map[f]]` of a line. -/
def fieldAt (order_map : List (Option Nat)) (fields : List Text) (f : Nat) : Option Text :=
  match order_map.get? f with
  | some (some c) => fields.get? c
  | _ => none

/-- A wide string read as a C string: the text before the first null character. -/
def cstr (s : Text) : Text := s.takeWhile fun c => c != chrNul

/-- The state of the loop of `LoadResults` over the lines. -/
structure Loading where
  heap : Heap
  newroot : Option Nat
  parent_map : List (Text × Nat)
  order_map : Option (List (Option Nat))
  /-- Whether `LoadResults` has left through a `return nullptr`. -/
  failed : Bool

/-- The assignment `parent_map[key] = item`. -/
def mapInsert (m : List (Text × Nat)) (key : Text) (item : Nat) : List (Text × Nat) :=
  if m.any (fun e => e.1 = key) then m.map fun e => if e.1 = key then (key, item) else e
  else m ++ [(key, item)]

/-- The seven-argument constructor of `CItem`. -/
def CItem.load (env : CsvEnv) (type : ITEMTYPE) (name : String) (lastChange size attributes
    files subdirs : Nat) : CItem :=
  let it := CItem.new type (if (type &&& IT_DRIVE) != 0 then
    env.FormatVolumeNameOfRootPath name else name)
  { it with
    m_lastChange := lastChange
    m_size := size
    m_attributes := attributes
    m_ci := it.m_ci.map fun ci => { ci with m_subdirs := subdirs, m_files := files } }

/-- The body of the loop of `LoadResults` for one line that is not empty; the lines
of the file are without their line ends. -/
def LoadLine (env : CsvEnv) (s : Loading) (linebuf : Text) : Option Loading :=
  if s.failed then some s
  else
    let line := linebuf ++ [chrNul]
    match parseFields (line.length + 1) line 0 [] with
    | none => none
    | some none => some { s with failed := true }
    | some (some fields) =>
      match s.order_map with
      | none =>
        let order_map := ParseHeaderLine env fields
        if 128 ≤ fields.length then none
        else if (List.range FIELD_COUNT).any fun i =>
            i != FIELD_OWNER && order_map.get? i == some none then
          some { s with order_map := some order_map, failed := true }
        else some { s with order_map := some order_map }
      | some order_map =>
        match fieldAt order_map fields FIELD_ATTRIBUTES_WDS, fieldAt order_map fields FIELD_NAME,
          fieldAt order_map fields FIELD_LASTCHANGE, fieldAt order_map fields FIELD_SIZE,
          fieldAt order_map fields FIELD_ATTRIBUTES, fieldAt order_map fields FIELD_FILES,
          fieldAt order_map fields FIELD_SUBDIRS with
        | some fType, some map_path, some fTime, some fSize, some fAttr, some fFiles,
            some fSubdirs =>
          let type : ITEMTYPE := wcstoul fType 16 % 65536
          let is_root := (type &&& ITF_ROOTITEM) != 0
          let is_in_root := (type &&& IT_DRIVE) != 0 || (type &&& IT_UNKNOWN) != 0 ||
            (type &&& IT_FREESPACE) != 0
          let use_full_path := is_root || is_in_root
          let whole := cstr map_path
          let slash := reverseFind whole chrBackslash
          let lookup_path : Text :=
            if use_full_path then whole
            else match slash with
              | none => whole
              | some i => whole.take i
          let display_name : Option Text :=
            if use_full_path then some whole
            else match slash with
              | none => none
              | some i => some (whole.drop (i + 1))
          if display_name = none ∧ (type &&& IT_FILE) != 0 then none
          else
            let newitem := s.heap.next
            let h1 := s.heap.alloc (CItem.load env type (String.mk (display_name.getD []))
              (env.FromTimeString fTime) (wcstoui64 fSize 10) (wcstoul fAttr 16)
              (wcstoul fFiles 10) (wcstoul fSubdirs 10))
            let attached : Option (Heap × Option Nat) :=
              if is_root then some (h1, some newitem)
              else if is_in_root then
                match s.newroot with
                | none => none
                | some root => (AddChild h1 root newitem true).map fun h2 => (h2, s.newroot)
              else
                match s.parent_map.find? fun e => e.1 = lookup_path with
                | some e => (AddChild h1 e.2 newitem true).map fun h2 => (h2, s.newroot)
                | none => some (h1, s.newroot)
            match attached with
            | none => none
            | some (h2, newroot) =>
              match h2.cell newitem with
              | none => none
              | some nit =>
                let TmiIsLeaf :=
                  nit.IsType (ITEMTYPE.or (ITEMTYPE.or IT_FILE IT_FREESPACE) IT_UNKNOWN)
                let parent_map :=
                  if !TmiIsLeaf && 0 < nit.GetFilesCount + nit.GetSubdirsCount then
                    let m1 := mapInsert s.parent_map map_path newitem
                    if nit.IsType IT_DRIVE then mapInsert m1 (map_path.take 2) newitem else m1
                  else s.parent_map
                some { s with heap := h2, newroot := newroot, parent_map := parent_map }
        | _, _, _, _, _, _, _ => none

/-- `LoadResults` on the lines of a file that could be opened: the heap with the
items created and the root returned, `nullptr` after a `return nullptr`. -/
def LoadResults (env : CsvEnv) (file : List Text) : Option (Heap × Option Nat) :=
  match (file.filter fun linebuf => !linebuf.isEmpty).foldlM (LoadLine env)
      { heap := Heap.empty, newroot := none, parent_map := [], order_map := none,
        failed := false } with
  | none => none
  | some s =>
    if s.failed then some (s.heap, none)
    else
      match s.parent_map.foldlM (fun h e => SortItemsBySize h e.2) s.heap with
      | none => none
      | some h => some (h, s.newroot)

/-- Column titles, one time text for every time, no volume names and no owners. -/
def exCsvEnv : CsvEnv :=
  { IDS_COL_NAME := "Name".data, IDS_COL_FILES := "Files".data,
    IDS_COL_SUBDIRS := "Folders".data, IDS_COL_SIZE := "Size".data,
    IDS_COL_ATTRIBUTES := "Attributes".data, IDS_COL_LASTCHANGE := "Last Change".data,
    IDS_APP_TITLE := "WinDirStat".data, IDS_COL_OWNER := "Owner".data,
    ShowColumnOwner := false,
    formatTime := fun _ => "1601-01-01T00:00:00Z".data,
    FromTimeString := fun _ => 0,
    FormatVolumeNameOfRootPath := fun s => s,
    GetOwner := fun _ => [] }

/-- The done tree of `My Computer` over two drives with their free space shown: `C:`
is empty and has 40 bytes free, `D:` holds the file `a.txt` of 5 bytes and has 7
bytes free. -/
def exTwoFree : Heap :=
  { cells := [
      some { m_parent := none, m_name := "My Computer", m_lastChange := 0, m_size := 52,
             m_attributes := 0, m_type := 769,
             m_ci := some { m_children := [1, 2], m_files := 1, m_subdirs := 0, m_jobs := 0 } },
      some { m_parent := some 0, m_name := "BOOT (C:)", m_lastChange := 0, m_size := 40,
             m_attributes := 0, m_type := 258,
             m_ci := some { m_children := [3], m_files := 0, m_subdirs := 0, m_jobs := 0 } },
      some { m_parent := some 0, m_name := "DATA (D:)", m_lastChange := 0, m_size := 12,
             m_attributes := 0, m_type := 258,
             m_ci := some { m_children := [4, 5], m_files := 1, m_subdirs := 0, m_jobs := 0 } },
      some { m_parent := some 1, m_name := "<Free Space>", m_lastChange := 0, m_size := 40,
             m_attributes := 0, m_type := 272,
             m_ci := some { m_children := [], m_files := 0, m_subdirs := 0, m_jobs := 0 } },
      some { m_parent := some 2, m_name := "<Free Space>", m_lastChange := 0, m_size := 7,
             m_attributes := 0, m_type := 272,
             m_ci := some { m_children := [], m_files := 0, m_subdirs := 0, m_jobs := 0 } },
      some { m_parent := some 2, m_name := "a.txt", m_lastChange := 0, m_size := 5,
             m_attributes := 32, m_type := 264, m_ci := none } ] }

/-! ## The selection codec (DirStatDoc.cpp 74-173) -/

/-- The `enum RADIO` of the drive selection dialog (SelectDrivesDlg.h 34-39). -/
inductive RADIO where
  | RADIO_ALLLOCALDRIVES
  | RADIO_SOMEDRIVES
  | RADIO_AFOLDER
deriving DecidableEq

/-- `wds::chrPipe`, the vertical bar. -/
def chrPipe : Char := Char.ofNat 124

/-- `wds::chrColon`. -/
def chrColon : Char := Char.ofNat 58

/-- `CDirStatDoc::GetEncodingSeparator`. -/
def GetEncodingSeparator : Char := chrPipe

/-- The white space `iswspace` of the C library recognises: the control characters
9 to 13, the blank, and the Unicode separators. -/
def iswspace (c : Char) : Bool :=
  let n := c.toNat
  (9 ≤ n && n ≤ 13) || n == 32 || n == 133 || n == 160 || n == 5760 ||
  (8192 ≤ n && n ≤ 8202) || n == 8232 || n == 8233 || n == 8239 || n == 8287 || n == 12288

/-- `CStringW::TrimLeft()`: the text without its leading white space. A text stands
for the characters of a `CStringW` that holds no null character. -/
def TrimLeft (s : Text) : Text := s.dropWhile iswspace

/-- `CStringW::TrimRight()`: the text without its trailing white space. -/
def TrimRight (s : Text) : Text := (s.reverse.dropWhile iswspace).reverse

/-- The loop of `EncodeSelection` over the drives; `i` is the index of the next one. -/
def encodeDrives : Nat → Text → List Text → Text
  | _, ret, [] => ret
  | i, ret, d :: ds =>
    encodeDrives (i + 1) ((if i > 0 then ret ++ [GetEncodingSeparator] else ret) ++ d) ds

/-- `CDirStatDoc::EncodeSelection`. -/
def EncodeSelection (radio : RADIO) (folder : Text) (drives : List Text) : Text :=
  match radio with
  | .RADIO_ALLLOCALDRIVES => encodeDrives 0 [] drives
  | .RADIO_SOMEDRIVES => encodeDrives 0 [] drives
  | .RADIO_AFOLDER => folder

/-- The loop of `DecodeSelection` that cuts `s` into tokens. The position `i` is kept
as the text from `i` on: the inner loop takes the characters up to the separator, and
`i++` steps over the separator if the text has not ended. Every round consumes a
character, so the fuel `s.length + 1` is never used up. -/
def decodeTokens : Nat → Text → List Text → Option (List Text)
  | 0, _, _ => none
  | fuel + 1, rest, sa =>
    if rest.length > 0 then
      let token := rest.takeWhile fun c => c != GetEncodingSeparator
      let rest := rest.dropWhile fun c => c != GetEncodingSeparator
      let token := TrimRight (TrimLeft token)
      let sa := sa ++ [token]
      let rest := if rest.length > 0 then rest.drop 1 else rest
      decodeTokens fuel rest sa
    else some sa

/-- `CStringW::Right(1)`. -/
def right1 (f : Text) : Text := f.drop (f.length - 1)

/-- `CDirStatDoc::DecodeSelection`: the folder and the drives it leaves in its two
reference parameters. The result `none` stands for the access `sa[0]` to an empty
array, which an empty `s` leads to. -/
def DecodeSelection (s : Text) : Option (Text × List Text) :=
  match decodeTokens (s.length + 1) s [] with
  | none => none
  | some sa =>
    if sa.length > 1 then
      some ([], sa.map fun d => d ++ [chrBackslash])
    else
      match sa with
      | [] => none
      | f :: _ =>
        if f.length = 2 ∧ f.get? 1 = some chrColon then
          some ([], [f ++ [chrBackslash]])
        else
          let f :=
            if f.length > 0 ∧ right1 f = [chrBackslash] ∧
                (f.length ≠ 3 ∨ f.get? 1 ≠ some chrColon) then f.take (f.length - 1)
            else f
          some (f, [])

/-! ## Volume names (GlobalHelpers.cpp 349-377) -/

/-- `FormatVolumeName`: the format `%s (%s)` applied to the volume name and the first
two characters of the root path; `%s` takes a text up to its first null character. -/
def FormatVolumeName (rootPath volumeName : String) : String :=
  String.mk (cstr volumeName.data ++ [' ', '('] ++ cstr (rootPath.data.take 2) ++ [')'])

/-! ## User defined cleanups (DirStatDoc.cpp 742-800) -/

/-- The scan of `CStringW::Replace`: the occurrences of `old` are found from left to
right and do not overlap. `skip` counts the characters of the occurrence just replaced
that are still to be passed over. -/
def replaceFrom (old new : Text) : Text → Nat → Text
  | [], _ => []
  | _ :: cs, skip + 1 => replaceFrom old new cs skip
  | c :: cs, 0 =>
    if old.isPrefixOf (c :: cs) then new ++ replaceFrom old new cs (old.length - 1)
    else c :: replaceFrom old new cs 0

/-- `CStringW::Replace(old, new)`; with an empty `old` the text stays as it is. -/
def Replace (s old new : Text) : Text :=
  if old.length = 0 then s else replaceFrom old new s 0

/-- `CDirStatDoc::BuildUserDefinedCleanupCommandLine`. `GetBaseNameFromPath` is
defined in common/CommonHelpers.cpp, which is not among the sources, and is a
parameter. -/
def BuildUserDefinedCleanupCommandLine (GetBaseNameFromPath : Text → Text)
    (format rootPath currentPath : Text) : Text :=
  let rootName := GetBaseNameFromPath rootPath
  let currentName := GetBaseNameFromPath currentPath
  let s := format
  let s := Replace s "%p".data ">p".data
  let s := Replace s "%n".data ">n".data
  let s := Replace s "%sp".data ">sp".data
  let s := Replace s "%sn".data ">sn".data
  let s := Replace s ">p".data rootPath
  let s := Replace s ">n".data rootName
  let s := Replace s ">sp".data currentPath
  let s := Replace s ">sn".data currentName
  s

/-- The command line the claim describes: every placeholder `%p`, `%n`, `%sp`, `%sn`
of the format gives way to its text and every other character stays. `skip` counts
the characters of the placeholder just replaced that are still to be passed over. -/
def expandPlaceholders (rootPath rootName currentPath currentName : Text) :
    Text → Nat → Text
  | [], _ => []
  | _ :: cs, skip + 1 =>
    expandPlaceholders rootPath rootName currentPath currentName cs skip
  | c :: cs, 0 =>
    if "%p".data.isPrefixOf (c :: cs) then
      rootPath ++ expandPlaceholders rootPath rootName currentPath currentName cs 1
    else if "%n".data.isPrefixOf (c :: cs) then
      rootName ++ expandPlaceholders rootPath rootName currentPath currentName cs 1
    else if "%sp".data.isPrefixOf (c :: cs) then
      currentPath ++ expandPlaceholders rootPath rootName currentPath currentName cs 2
    else if "%sn".data.isPrefixOf (c :: cs) then
      currentName ++ expandPlaceholders rootPath rootName currentPath currentName cs 2
    else c :: expandPlaceholders rootPath rootName currentPath currentName cs 0

/-- A base name for the examples: the text after the last backslash. -/
def exBaseName (path : Text) : Text :=
  match reverseFind path chrBackslash with
  | none => path
  | some i => path.drop (i + 1)

/-! ## Refreshing the reparse points (DirStatDoc.cpp 339-350, 442-477) -/

/-- `CReparsePoints::IsReparsePoint` (MountPoints.cpp 93-98): the attributes are not
`INVALID_FILE_ATTRIBUTES` and have `FILE_ATTRIBUTE_DIRECTORY` (16) and
`FILE_ATTRIBUTE_REPARSE_POINT` (1024). -/
def IsReparsePoint (attr : Nat) : Bool :=
  attr != 4294967295 && (attr &&& 16) != 0 && (attr &&& 1024) != 0

/-- The loop of `RecurseRefreshReparsePoints` over the children of `qitem`. -/
def reparseChildren (IsFollowingAllowed : Path → Nat → Bool) (GetPathLong : Heap → Nat → Path)
    (h : Heap) : List Nat → List Nat × List Nat → Option (List Nat × List Nat)
  | [], state => some state
  | child :: rest, (reparse_stack, to_refresh) =>
    match h.cell child with
    | none => none
    | some cit =>
      if !cit.IsType (ITEMTYPE.or (ITEMTYPE.or IT_DIRECTORY IT_DRIVE) ITF_ROOTITEM) then
        reparseChildren IsFollowingAllowed GetPathLong h rest (reparse_stack, to_refresh)
      else if IsReparsePoint cit.m_attributes &&
          IsFollowingAllowed (GetPathLong h child) cit.m_attributes then
        reparseChildren IsFollowingAllowed GetPathLong h rest
          (reparse_stack, to_refresh ++ [child])
      else
        reparseChildren IsFollowingAllowed GetPathLong h rest
          (child :: reparse_stack, to_refresh)

/-- The loop of `RecurseRefreshReparsePoints` over the stack, whose top is the head of
the list. The type that is tested after the pop is the type of `item`, the argument
of the function, as in the source. The fuel bounds the number of pops. -/
def reparseLoop (IsFollowingAllowed : Path → Nat → Bool) (GetPathLong : Heap → Nat → Path)
    (h : Heap) (item : Nat) : Nat → List Nat → List Nat → Option (List Nat)
  | 0, _, _ => none
  | _ + 1, [], to_refresh => some to_refresh
  | fuel + 1, qitem :: reparse_stack, to_refresh =>
    match h.cell item with
    | none => none
    | some it =>
      if !it.IsType (ITEMTYPE.or IT_DIRECTORY IT_DRIVE) then
        reparseLoop IsFollowingAllowed GetPathLong h item fuel reparse_stack to_refresh
      else
        match h.cell qitem with
        | none => none
        | some qit =>
          match qit.m_ci with
          | none => none
          | some ci =>
            match reparseChildren IsFollowingAllowed GetPathLong h ci.m_children
                (reparse_stack, to_refresh) with
            | none => none
            | some (reparse_stack, to_refresh) =>
              reparseLoop IsFollowingAllowed GetPathLong h item fuel reparse_stack to_refresh

/-- `CDirStatDoc::RecurseRefreshReparsePoints`: the list it passes to `RefreshItem`, or
`some none` if it returns without that call. `CDirStatApp::IsFollowingAllowed` and
`CItem::GetPathLong` are not among the sources and are parameters. -/
def RecurseRefreshReparsePoints (IsFollowingAllowed : Path → Nat → Bool)
    (GetPathLong : Heap → Nat → Path) (h : Heap) (item : Option Nat) :
    Option (Option (List Nat)) :=
  match item with
  | none => some none
  | some item =>
    match reparseLoop IsFollowingAllowed GetPathLong h item (h.next + 1) [item] [] with
    | none => none
    | some to_refresh => some (if to_refresh.isEmpty then none else some to_refresh)

/-- `CDirStatDoc::RefreshReparsePointItems`. -/
def RefreshReparsePointItems (IsFollowingAllowed : Path → Nat → Bool)
    (GetPathLong : Heap → Nat → Path) (doc : Doc) : Option (Option (List Nat)) :=
  match doc.m_rootItem with
  | some root => RecurseRefreshReparsePoints IsFollowingAllowed GetPathLong doc.heap (some root)
  | none => some none

/-- The done tree of `My Computer` over the drive `C:`, which holds the mount point
`mnt` (a directory with the reparse point attribute) and the file `a.txt`. -/
def exMounted : Heap :=
  { cells := [
      some { m_parent := none, m_name := "My Computer", m_lastChange := 0, m_size := 5,
             m_attributes := 0, m_type := 769,
             m_ci := some { m_children := [1], m_files := 1, m_subdirs := 1, m_jobs := 0 } },
      some { m_parent := some 0, m_name := "DATA (C:)", m_lastChange := 0, m_size := 5,
             m_attributes := 0, m_type := 258,
             m_ci := some { m_children := [2, 3], m_files := 1, m_subdirs := 1, m_jobs := 0 } },
      some { m_parent := some 1, m_name := "mnt", m_lastChange := 0, m_size := 0,
             m_attributes := 1040, m_type := 260,
             m_ci := some { m_children := [], m_files := 0, m_subdirs := 0, m_jobs := 0 } },
      some { m_parent := some 1, m_name := "a.txt", m_lastChange := 0, m_size := 5,
             m_attributes := 32, m_type := 264, m_ci := none } ] }

/-! ## Running a user defined cleanup (DirStatDoc.cpp 742-777) -/

/-- `GetFolderNameFromPath` (GlobalHelpers.cpp 409-418). -/
def GetFolderNameFromPath (path : Text) : Text :=
  match reverseFind path chrBackslash with
  | none => path
  | some i => path.take i

/-- `GetCOMSPEC` (GlobalHelpers.cpp 420-432); `comspec` is the value of the environment
variable `COMSPEC`, if it is set. -/
def GetCOMSPEC (comspec : Option Text) : Text :=
  match comspec with
  | none => "cmd.exe".data
  | some cmd => cstr cmd

/-- The two handles of `PROCESS_INFORMATION` that `CallUserDefinedCleanup` uses. -/
structure PROCESS_INFORMATION where
  hProcess : Nat
  hThread : Nat
deriving DecidableEq

/-- The calls `CallUserDefinedCleanup` makes after `CreateProcess`. -/
inductive CleanupCall where
  | CloseHandle (h : Nat)
  | WaitForHandleWithRepainting (h : Nat)
deriving DecidableEq

/-- What `CallUserDefinedCleanup` does: whether it leaves through
`MdThrowStringExceptionF` with `IDS_COULDNOTCREATEPROCESSssss`, and the calls it has
made on the handles. -/
structure CleanupOutcome where
  raised : Bool
  calls : List CleanupCall
deriving DecidableEq

/-- `CDirStatDoc::CallUserDefinedCleanup`. The parameter `CreateProcess` takes the
application, the command line, the directory and `wShowWindow`; it gives `some pi` with
the handles of the new process where the system call returns a non-zero value (the
process was created) and `none` where it returns zero, in which case `pi` stays as
`ZeroMemory` left it. -/
def CallUserDefinedCleanup (GetBaseNameFromPath : Text → Text) (comspec : Option Text)
    (CreateProcess : Text → Text → Text → Nat → Option PROCESS_INFORMATION)
    (isDirectory : Bool) (format rootPath currentPath : Text)
    (showConsoleWindow wait : Bool) : CleanupOutcome :=
  let userCommandLine :=
    BuildUserDefinedCleanupCommandLine GetBaseNameFromPath format rootPath currentPath
  let app := GetCOMSPEC comspec
  let cmdline := cstr (GetBaseNameFromPath app) ++ " /C ".data ++ cstr userCommandLine
  let directory := if isDirectory then currentPath else GetFolderNameFromPath currentPath
  let wShowWindow := if showConsoleWindow then 1 else 0
  match CreateProcess app cmdline directory wShowWindow with
  | some _ => { raised := true, calls := [] }
  | none =>
    let pi : PROCESS_INFORMATION := { hProcess := 0, hThread := 0 }
    { raised := false,
      calls := [CleanupCall.CloseHandle pi.hThread] ++
        (if wait then [CleanupCall.WaitForHandleWithRepainting pi.hProcess] else []) ++
        [CleanupCall.CloseHandle pi.hProcess] }

/-! ## Whether a user defined cleanup works for an item (DirStatDoc.cpp 404-413) -/

/-- Modelled from the spec: `USERDEFINEDCLEANUP` is declared in Options.h, which is not
among the sources; these are the four options `UserDefinedCleanupWorksForItem` reads. -/
structure USERDEFINEDCLEANUP where
  worksForDrives : Bool
  worksForDirectories : Bool
  worksForFiles : Bool
  worksForUncPaths : Bool
deriving DecidableEq

/-- `CItem::HasUncPath` (Item.cpp 785-789). -/
def HasUncPath (h : Heap) (self : Nat) : Option Bool :=
  match GetPathText h self with
  | none => none
  | some path => some (decide (path.length ≥ 2) && path.take 2 == [chrBackslash, chrBackslash])

/-- `CDirStatDoc::UserDefinedCleanupWorksForItem`. The operator `&&` binds before
`||`: the value is a disjunction of four conjunctions, read from left to right until
one of them holds, and the test for a null item belongs to the first of them. -/
def UserDefinedCleanupWorksForItem (h : Heap) (udc : USERDEFINEDCLEANUP) (item : Option Nat) :
    Option Bool :=
  let first : Option Bool :=
    match item with
    | none => some false
    | some p => (h.cell p).map fun it => it.IsType IT_DRIVE && udc.worksForDrives
  match first with
  | none => none
  | some true => some true
  | some false =>
    match item with
    | none => none
    | some p =>
      match h.cell p with
      | none => none
      | some it =>
        if it.IsType IT_DIRECTORY && udc.worksForDirectories then some true
        else if it.IsType IT_FILE && udc.worksForFiles then some true
        else
          match HasUncPath h p with
          | none => none
          | some unc => some (unc && udc.worksForUncPaths)

/-- The done tree of the folder `\\server\share`, which holds the file `a.txt`. -/
def exUncTree : Heap :=
  { cells := [
      some { m_parent := none, m_name := "\\\\server\\share", m_lastChange := 0, m_size := 5,
             m_attributes := 16, m_type := 772,
             m_ci := some { m_children := [1], m_files := 1, m_subdirs := 0, m_jobs := 0 } },
      some { m_parent := some 0, m_name := "a.txt", m_lastChange := 0, m_size := 5,
             m_attributes := 32, m_type := 264, m_ci := none } ] }

/-! ## Formatting a number with thousands separators (GlobalHelpers.cpp 40-113) -/

/-- `GetLocaleString` (GlobalHelpers.cpp 71-82): `ReleaseBuffer` ends the text at the
first null character of the buffer `GetLocaleInfo` has filled. -/
def GetLocaleString (buffer : Text) : Text := cstr buffer

/-- `GetLocaleThousandSeparator`; `buffer` is what `GetLocaleInfo` gives for
`LOCALE_STHOUSAND` in the language in effect. -/
def GetLocaleThousandSeparator (buffer : Text) : Text := GetLocaleString buffer

/-- The format `%03d` of a number below 1000. -/
def format03d (rest : Nat) : Text :=
  let digits := Nat.toDigits 10 rest
  List.replicate (3 - digits.length) '0' ++ digits

/-- The `do ... while (n > 0)` loop of `FormatLongLongNormal`. -/
def formatLoop (buffer : Text) : Nat → Nat → Text → Option Text
  | 0, _, _ => none
  | fuel + 1, n, all =>
    let rest := n % 1000
    let n := n / 1000
    let s :=
      if n > 0 then cstr (GetLocaleThousandSeparator buffer) ++ format03d rest
      else formatDec rest
    let all := s ++ all
    if n > 0 then formatLoop buffer fuel n all else some all

/-- `FormatLongLongNormal`. A number below 2^64 has at most seven groups of three
digits, so seven rounds of the loop are enough. -/
def FormatLongLongNormal (buffer : Text) (n : Nat) : Option Text :=
  formatLoop buffer 7 n []

/-! ## The extension table (Item.cpp 46-77, 845-848, 1149-1177) -/

/-- `CItem::GetExtension`: the field `m_extension` as the constructor derives it from
the name. For a file it is the part of the name from the last dot on, in lower case,
or the empty text if the name has no dot; for every other item it is the name.
`wcslwr` stands for `_wcslwr_s` of the C library. -/
def CItem.GetExtension (wcslwr : Text → Text) (it : CItem) : Text :=
  if it.IsType IT_FILE then
    match reverseFind (cstr it.m_name.data) '.' with
    | some i => wcslwr ((cstr it.m_name.data).drop i)
    | none => []
  else it.m_name.data

/-- Modelled from the spec: `SExtensionRecord` is declared in DirStatDoc.h, which is not
among the sources. The two counters `CollectExtensionData` writes are taken as
`ULONGLONG`, the type of the sizes added to `bytes`; the colour, which
`CollectExtensionData` does not set, is left out. -/
structure SExtensionRecord where
  files : Nat
  bytes : Nat
deriving DecidableEq

/-- `CExtensionData`, a `CMap` from the extension to its record, as an association
list with one entry for a key. -/
abbrev CExtensionData := List (Text × SExtensionRecord)

/-- `CMap::Lookup`. -/
def CExtensionData.Lookup (ed : CExtensionData) (key : Text) : Option SExtensionRecord :=
  match ed with
  | [] => none
  | (k, v) :: rest => if k = key then some v else CExtensionData.Lookup rest key

/-- `CMap::SetAt`. -/
def CExtensionData.SetAt (ed : CExtensionData) (key : Text) (r : SExtensionRecord) :
    CExtensionData :=
  match ed with
  | [] => [(key, r)]
  | (k, v) :: rest =>
    if k = key then (key, r) :: rest else (k, v) :: CExtensionData.SetAt rest key r

/-- The loop of `CItem::CollectExtensionData` over its stack, whose top is the head of
the list; the children of a popped item are pushed in their order, so the last one
comes out first. The fuel bounds the number of pops. -/
def collectLoop (wcslwr : Text → Text) (h : Heap) :
    Nat → List Nat → CExtensionData → Option CExtensionData
  | 0, _, _ => none
  | _ + 1, [], ed => some ed
  | fuel + 1, qitem :: queue, ed =>
    match h.cell qitem with
    | none => none
    | some it =>
      if it.IsType IT_FILE then
        let ext := it.GetExtension wcslwr
        let r : SExtensionRecord :=
          match ed.Lookup ext with
          | some r => { bytes := add64 r.bytes (h.GetSize qitem), files := add64 r.files 1 }
          | none => { bytes := h.GetSize qitem, files := 1 }
        collectLoop wcslwr h fuel queue (ed.SetAt ext r)
      else
        match it.m_ci with
        | none => none
        | some ci => collectLoop wcslwr h fuel (ci.m_children.reverse ++ queue) ed

/-- `CItem::CollectExtensionData`. Every item is popped once, so one unit of fuel for
every address and one for the last test of the stack are enough. -/
def CollectExtensionData (wcslwr : Text → Text) (h : Heap) (self : Nat)
    (ed : CExtensionData) : Option CExtensionData :=
  collectLoop wcslwr h (h.next + 1) [self] ed

/-- Whether `q` is a file item with the extension `e`. -/
def Heap.isFileExt (wcslwr : Text → Text) (h : Heap) (e : Text) (q : Nat) : Bool :=
  match h.cell q with
  | none => false
  | some it => it.IsType IT_FILE && decide (it.GetExtension wcslwr = e)

/-- The file items with the extension `e` in the subtree of `self`: at `self` or
below it. -/
def Heap.filesWithExt (wcslwr : Text → Text) (h : Heap) (self : Nat) (e : Text) : List Nat :=
  (List.range h.next).filter fun q => h.below self q && h.isFileExt wcslwr e q

/-- Whether `q` lies at or below an item of the stack. -/
def Heap.pending (h : Heap) (st : List Nat) (q : Nat) : Bool := st.any fun c => h.below c q

/-- The record of an extension after `cnt` more files with `bytes` bytes in all were
counted in. -/
def SExtensionRecord.merge (old : Option SExtensionRecord) (cnt bytes : Nat) :
    Option SExtensionRecord :=
  if cnt = 0 then old
  else
    match old with
    | none => some { files := cnt % 18446744073709551616, bytes := bytes % 18446744073709551616 }
    | some r =>
      some { files := (r.files + cnt) % 18446744073709551616,
             bytes := (r.bytes + bytes) % 18446744073709551616 }

/-- A folder with the two files `a.bin` and `b.bin` of 2^63 bytes each. -/
def exHugeFiles : Heap :=
  { cells := [
      some { m_parent := none, m_name := "root", m_lastChange := 0, m_size := 0,
             m_attributes := 16, m_type := 772,
             m_ci := some { m_children := [1, 2], m_files := 2, m_subdirs := 0, m_jobs := 0 } },
      some { m_parent := some 0, m_name := "a.bin", m_lastChange := 0,
             m_size := 9223372036854775808, m_attributes := 32, m_type := 264, m_ci := none },
      some { m_parent := some 0, m_name := "b.bin", m_lastChange := 0,
             m_size := 9223372036854775808, m_attributes := 32, m_type := 264, m_ci := none } ] }

/-- The number of items that lie at or below an item of the stack. -/
def Heap.pendOf (h : Heap) (st : List Nat) : Nat :=
  ((List.range h.next).filter (h.pending st)).length

/-- The file items with the extension `e` at or below an item of the stack. -/
def Heap.pendFiles (wcslwr : Text → Text) (h : Heap) (st : List Nat) (e : Text) : List Nat :=
  (List.range h.next).filter fun q => h.pending st q && h.isFileExt wcslwr e q

/-- The items of the stack are live and no item lies below two of them. -/
def Heap.Good (h : Heap) (st : List Nat) : Prop :=
  (∀ c ∈ st, ∃ it, h.cell c = some it) ∧
  st.Pairwise fun a b => ∀ q, ¬ (h.below a q = true ∧ h.below b q = true)

/-! ## The pieces of a format string -/

/-- A piece of a format: a character that stays, or one of the four placeholders. -/
inductive Tok where
  | ch (c : Char)
  | p
  | n
  | sp
  | sn

/-- The pieces of a format, read from left to right as `expandPlaceholders` reads it. -/
def tokens : Text → Nat → List Tok
  | [], _ => []
  | _ :: cs, skip + 1 => tokens cs skip
  | c :: cs, 0 =>
    if "%p".data.isPrefixOf (c :: cs) then Tok.p :: tokens cs 1
    else if "%n".data.isPrefixOf (c :: cs) then Tok.n :: tokens cs 1
    else if "%sp".data.isPrefixOf (c :: cs) then Tok.sp :: tokens cs 2
    else if "%sn".data.isPrefixOf (c :: cs) then Tok.sn :: tokens cs 2
    else Tok.ch c :: tokens cs 0

/-- The text of a piece where the placeholders stand for the four texts. -/
def Tok.text (tp tn tsp tsn : Text) : Tok → Text
  | Tok.ch c => [c]
  | Tok.p => tp
  | Tok.n => tn
  | Tok.sp => tsp
  | Tok.sn => tsn

/-- The text of a list of pieces. -/
def render (tp tn tsp tsn : Text) : List Tok → Text
  | [] => []
  | t :: ts => t.text tp tn tsp tsn ++ render tp tn tsp tsn ts

/-! # Lemmas and theorems -/

/-! ### Heap cells -/

theorem cell_of_next_le (h : Heap) {p : Nat} (hp : h.next ≤ p) : h.cell p = none := by
  unfold Heap.cell Heap.next at *
  rw [List.getElem?_eq_none hp]

theorem lt_next_of_cell {h : Heap} {p : Nat} {it : CItem} (hc : h.cell p = some it) :
    p < h.next := by
  by_contra hlt
  rw [cell_of_next_le h (Nat.le_of_not_lt hlt)] at hc
  exact Option.noConfusion hc

@[simp] theorem next_set (h : Heap) (p : Nat) (it : CItem) : (h.set p it).next = h.next := by
  simp [Heap.set, Heap.next]

@[simp] theorem next_free (h : Heap) (p : Nat) : (h.free p).next = h.next := by
  simp [Heap.free, Heap.next]

@[simp] theorem next_alloc (h : Heap) (it : CItem) : (h.alloc it).next = h.next + 1 := by
  simp [Heap.alloc, Heap.next]

theorem cell_set (h : Heap) (p : Nat) (it : CItem) (q : Nat) :
    (h.set p it).cell q = if q = p ∧ p < h.next then some it else h.cell q := by
  unfold Heap.cell Heap.set Heap.next
  simp only [List.getElem?_set]
  by_cases hqp : p = q
  · subst hqp
    by_cases hlt : p < h.cells.length
    · simp [hlt]
    · simp [hlt, List.getElem?_eq_none (Nat.le_of_not_lt hlt)]
  · have : ¬ q = p := fun e => hqp e.symm
    simp [hqp, this]

theorem cell_set_of_live {h : Heap} {p : Nat} {it0 : CItem} (hc : h.cell p = some it0)
    (it : CItem) (q : Nat) : (h.set p it).cell q = if q = p then some it else h.cell q := by
  rw [cell_set]
  have := lt_next_of_cell hc
  by_cases hq : q = p <;> simp [hq, this]

theorem cell_free (h : Heap) (p q : Nat) :
    (h.free p).cell q = if q = p then none else h.cell q := by
  unfold Heap.cell Heap.free
  simp only [List.getElem?_set]
  by_cases hqp : p = q
  · subst hqp
    by_cases hlt : p < h.cells.length
    · simp [hlt]
    · simp [hlt, List.getElem?_eq_none (Nat.le_of_not_lt hlt)]
  · have : ¬ q = p := fun e => hqp e.symm
    simp [hqp, this]

theorem cell_alloc (h : Heap) (it : CItem) (q : Nat) :
    (h.alloc it).cell q = if q = h.next then some it else h.cell q := by
  unfold Heap.cell Heap.alloc Heap.next
  by_cases hq : q = h.cells.length
  · subst hq
    simp
  · simp only [hq, if_false]
    by_cases hlt : q < h.cells.length
    · rw [List.getElem?_append_left hlt]
    · have hgt : h.cells.length < q := by omega
      rw [List.getElem?_eq_none (by simp; omega), List.getElem?_eq_none (by omega)]

theorem chainFuel_none (h : Heap) (n : Nat) : chainFuel h n none = some [] := by
  cases n <;> rfl

theorem chainFuel_some_iff {h : Heap} {n p : Nat} {l : List Nat} :
    chainFuel h n (some p) = some l ↔
      ∃ m it l1, n = m + 1 ∧ h.cell p = some it ∧ chainFuel h m it.m_parent = some l1 ∧
        l = p :: l1 := by
  cases n with
  | zero => simp [chainFuel]
  | succ m =>
    simp only [chainFuel]
    constructor
    · intro hyp
      cases hc : h.cell p with
      | none => simp [hc] at hyp
      | some it =>
        simp only [hc] at hyp
        cases hr : chainFuel h m it.m_parent with
        | none => simp [hr] at hyp
        | some l1 =>
          simp only [hr, Option.some.injEq] at hyp
          exact ⟨m, it, l1, rfl, rfl, hr, hyp.symm⟩
    · rintro ⟨m1, it, l1, hm, hc, hr, rfl⟩
      have : m = m1 := by omega
      subst this
      simp [hc, hr]

theorem chainFuel_det {h : Heap} : ∀ {n m : Nat} {s : Option Nat} {l1 l2 : List Nat},
    chainFuel h n s = some l1 → chainFuel h m s = some l2 → l1 = l2 := by
  intro n
  induction n with
  | zero =>
    intro m s l1 l2 h1 h2
    cases s with
    | none => rw [chainFuel_none] at h1 h2; simp_all
    | some p => simp [chainFuel] at h1
  | succ n ih =>
    intro m s l1 l2 h1 h2
    cases s with
    | none => rw [chainFuel_none] at h1 h2; simp_all
    | some p =>
      obtain ⟨n1, it, la, hn, hc, hr, rfl⟩ := chainFuel_some_iff.mp h1
      obtain ⟨m1, it2, lb, hm, hc2, hr2, rfl⟩ := chainFuel_some_iff.mp h2
      rw [hc] at hc2
      cases hc2
      have : n = n1 := by omega
      subst this
      rw [ih hr hr2]

theorem chainFuel_mono {h : Heap} : ∀ {n m : Nat} {s : Option Nat} {l : List Nat},
    chainFuel h n s = some l → n ≤ m → chainFuel h m s = some l := by
  intro n
  induction n with
  | zero =>
    intro m s l h1 _
    cases s with
    | none => rw [chainFuel_none] at *; exact h1
    | some p => simp [chainFuel] at h1
  | succ n ih =>
    intro m s l h1 hle
    cases s with
    | none => rw [chainFuel_none] at *; exact h1
    | some p =>
      obtain ⟨n1, it, la, hn, hc, hr, rfl⟩ := chainFuel_some_iff.mp h1
      have : n = n1 := by omega
      subst this
      obtain ⟨m1, rfl⟩ : ∃ m1, m = m1 + 1 := ⟨m - 1, by omega⟩
      exact chainFuel_some_iff.mpr ⟨m1, it, la, rfl, hc, ih hr (by omega), rfl⟩

/-- Every member of a chain starts a chain of its own, a suffix of the first. -/
theorem chainFuel_suffix {h : Heap} : ∀ {n : Nat} {s : Option Nat} {l : List Nat},
    chainFuel h n s = some l → ∀ x ∈ l, ∃ l1, chainFuel h n (some x) = some (x :: l1) ∧
      (x :: l1) <:+ l := by
  intro n
  induction n with
  | zero =>
    intro s l h1 x hx
    cases s with
    | none => rw [chainFuel_none] at h1; simp_all
    | some p => simp [chainFuel] at h1
  | succ n ih =>
    intro s l h1 x hx
    cases s with
    | none => rw [chainFuel_none] at h1; simp_all
    | some p =>
      obtain ⟨n1, it, la, hn, hc, hr, rfl⟩ := chainFuel_some_iff.mp h1
      have : n = n1 := by omega
      subst this
      rcases List.mem_cons.mp hx with rfl | hx1
      · exact ⟨la, h1, List.suffix_refl _⟩
      · obtain ⟨l1, hl1, hsuf⟩ := ih hr x hx1
        exact ⟨l1, chainFuel_mono hl1 (Nat.le_succ _), hsuf.trans (List.suffix_cons _ _)⟩

theorem chainFuel_nodup {h : Heap} : ∀ {n : Nat} {s : Option Nat} {l : List Nat},
    chainFuel h n s = some l → l.Nodup := by
  intro n
  induction n with
  | zero =>
    intro s l h1
    cases s with
    | none => rw [chainFuel_none] at h1; cases h1; exact List.nodup_nil
    | some p => simp [chainFuel] at h1
  | succ n ih =>
    intro s l h1
    cases s with
    | none => rw [chainFuel_none] at h1; cases h1; exact List.nodup_nil
    | some p =>
      obtain ⟨n1, it, la, hn, hc, hr, rfl⟩ := chainFuel_some_iff.mp h1
      have : n = n1 := by omega
      subst this
      refine List.nodup_cons.mpr ⟨?_, ih hr⟩
      intro hmem
      obtain ⟨l1, hl1, hsuf⟩ := chainFuel_suffix hr p hmem
      have := chainFuel_det hl1 h1
      rw [this] at hsuf
      have := hsuf.length_le
      simp at this

/-- Chains only read the parent links. -/
theorem chainFuel_congr {h h1 : Heap}
    (hp : ∀ q, (h1.cell q).map CItem.m_parent = (h.cell q).map CItem.m_parent) :
    ∀ (n : Nat) (s : Option Nat), chainFuel h1 n s = chainFuel h n s := by
  intro n
  induction n with
  | zero => intro s; cases s <;> rfl
  | succ n ih =>
    intro s
    cases s with
    | none => rfl
    | some p =>
      have := hp p
      simp only [chainFuel]
      cases hc : h.cell p with
      | none =>
        rw [hc] at this
        simp only [Option.map_none', Option.map_eq_none'] at this
        rw [this]
      | some it =>
        rw [hc] at this
        simp only [Option.map_some', Option.map_eq_some'] at this
        obtain ⟨it1, hc1, hpar⟩ := this
        rw [hc1]
        simp only [hpar, ih]

theorem Heap.ext {h1 h2 : Heap} (hn : h1.next = h2.next) (hc : ∀ q, h1.cell q = h2.cell q) :
    h1 = h2 := by
  cases h1 with
  | mk c1 =>
    cases h2 with
    | mk c2 =>
      congr 1
      apply List.ext_getElem?
      intro q
      have := hc q
      simp only [Heap.next] at hn
      simp only [Heap.cell] at this
      by_cases hq : q < c1.length
      · have hq2 : q < c2.length := hn ▸ hq
        rw [List.getElem?_eq_getElem hq, List.getElem?_eq_getElem hq2] at this ⊢
        cases h1 : c1[q] <;> cases h2 : c2[q] <;> simp_all
      · rw [List.getElem?_eq_none (by omega), List.getElem?_eq_none (by omega)]

@[simp] theorem next_mapOn (h : Heap) (l : List Nat) (f : CItem → CItem) :
    (h.mapOn l f).next = h.next := by
  simp [Heap.mapOn, Heap.next]

theorem cell_mk_range (n : Nat) (g : Nat → Option CItem) (q : Nat) :
    (Heap.mk ((List.range n).map g)).cell q = if q < n then g q else none := by
  unfold Heap.cell
  by_cases hq : q < n
  · rw [List.getElem?_map, List.getElem?_range hq]
    simp only [Option.map_some', hq, if_true]
    cases g q <;> rfl
  · rw [List.getElem?_eq_none (by simpa using Nat.le_of_not_lt hq)]
    simp [hq]

theorem cell_mapOn (h : Heap) (l : List Nat) (f : CItem → CItem) (q : Nat) :
    (h.mapOn l f).cell q = if q ∈ l then (h.cell q).map f else h.cell q := by
  unfold Heap.mapOn
  rw [cell_mk_range]
  by_cases hq : q < h.next
  · simp [hq]
  · simp [hq, cell_of_next_le h (Nat.le_of_not_lt hq)]

theorem mapOn_nil (h : Heap) (f : CItem → CItem) : h.mapOn [] f = h :=
  Heap.ext (by simp) (fun q => by simp [cell_mapOn])

theorem modify_eq {h : Heap} {p : Nat} {it : CItem} (hc : h.cell p = some it) (f : CItem → CItem) :
    h.modify p f = some (h.set p (f it)) := by
  simp [Heap.modify, hc]

theorem modify?_eq {h : Heap} {p : Nat} {it it1 : CItem} (hc : h.cell p = some it)
    {f : CItem → Option CItem} (hf : f it = some it1) :
    h.modify? p f = some (h.set p it1) := by
  simp [Heap.modify?, hc, hf]

/-- A parent walk whose body rewrites the visited item alone, keeping its parent link,
rewrites exactly the items of the chain. -/
theorem upward_modify? (f : CItem → Option CItem) (g : CItem → CItem)
    (hg : ∀ it, (g it).m_parent = it.m_parent) :
    ∀ (fuel : Nat) (h : Heap) (s : Option Nat) (l : List Nat), chainFuel h fuel s = some l →
      (∀ p ∈ l, ∀ it, h.cell p = some it → f it = some (g it)) →
      upward (fun h p => h.modify? p f) fuel h s = some (h.mapOn l g) := by
  intro fuel
  induction fuel with
  | zero =>
    intro h s l hc _
    cases s with
    | none => rw [chainFuel_none] at hc; cases hc; simp [upward, mapOn_nil]
    | some p => simp [chainFuel] at hc
  | succ n ih =>
    intro h s l hc hok
    cases s with
    | none => rw [chainFuel_none] at hc; cases hc; simp [upward, mapOn_nil]
    | some p =>
      have hnd := chainFuel_nodup hc
      obtain ⟨n1, it, la, hn, hcell, hr, rfl⟩ := chainFuel_some_iff.mp hc
      have : n = n1 := by omega
      subst this
      have hfit := hok p (List.mem_cons_self _ _) it hcell
      have hpl : p ∉ la := (List.nodup_cons.mp hnd).1
      simp only [upward, modify?_eq hcell hfit, cell_set_of_live hcell, if_true, hg]
      have hpar : ∀ q, ((h.set p (g it)).cell q).map CItem.m_parent =
          (h.cell q).map CItem.m_parent := by
        intro q
        rw [cell_set_of_live hcell]
        by_cases hq : q = p
        · subst hq; simp [hcell, hg]
        · simp [hq]
      rw [ih (h.set p (g it)) it.m_parent la (by rw [chainFuel_congr hpar]; exact hr)]
      · congr 1
        apply Heap.ext (by simp)
        intro q
        simp only [cell_mapOn, cell_set_of_live hcell, List.mem_cons]
        by_cases hq : q = p
        · subst hq; simp [hpl, hcell]
        · simp [hq]
      · intro q hq it1 hc1
        rw [cell_set_of_live hcell] at hc1
        have hqp : q ≠ p := fun e => hpl (e ▸ hq)
        simp only [hqp, if_false] at hc1
        exact hok q (List.mem_cons_of_mem _ hq) it1 hc1

theorem upward_modify (g : CItem → CItem) (hg : ∀ it, (g it).m_parent = it.m_parent)
    (fuel : Nat) (h : Heap) (s : Option Nat) (l : List Nat) (hc : chainFuel h fuel s = some l) :
    upward (fun h p => h.modify p g) fuel h s = some (h.mapOn l g) := by
  have h2 : (fun (h : Heap) p => h.modify p g) = fun h p => h.modify? p (fun it => some (g it)) := by
    funext h p
    unfold Heap.modify Heap.modify?
    cases h.cell p <;> rfl
  rw [h2]
  exact upward_modify? _ g hg fuel h s l hc (fun _ _ _ _ => rfl)

/-! ### Well-formedness: the check, and the chains of a well-formed heap -/

theorem WF_of_wfCheck {h : Heap} (hc : h.wfCheck = true) : h.WF := by
  have key : ∀ p it, h.cell p = some it → h.wfAt p it = true := by
    intro p it hp
    have hlt := lt_next_of_cell hp
    have := (List.all_eq_true.mp hc) p (List.mem_range.mpr hlt)
    simpa [hp] using this
  refine ⟨?_, ?_, ?_, ?_, ?_⟩
  · intro p it hp
    have hk := key p it hp
    unfold Heap.wfAt at hk
    simp only [Bool.and_eq_true, decide_eq_true_eq] at hk
    refine ⟨hk.1.1.1, ?_⟩
    intro ci hci
    have h2 := hk.1.2
    simp only [hci, Bool.and_eq_true, decide_eq_true_eq] at h2
    exact ⟨h2.1.1.1.1.2, h2.1.1.1.2, h2.1.1.2⟩
  · intro p it hp
    have hk := key p it hp
    unfold Heap.wfAt at hk
    simp only [Bool.and_eq_true, decide_eq_true_eq] at hk
    simpa using hk.1.1.2
  · intro p it hp
    have hk := key p it hp
    unfold Heap.wfAt at hk
    simp only [Bool.and_eq_true, decide_eq_true_eq] at hk
    have h2 := hk.1.2
    cases hci : it.m_ci with
    | none => simpa [hci] using h2
    | some ci =>
      simp only [hci, Bool.and_eq_true, Bool.not_eq_true'] at h2
      simp [h2.1.1.1.1.1]
  · intro p it q hp hq
    have hk := key p it hp
    unfold Heap.wfAt at hk
    simp only [Bool.and_eq_true, decide_eq_true_eq] at hk
    have h2 := hk.2
    simp only [hq, Bool.and_eq_true, decide_eq_true_eq] at h2
    refine ⟨h2.1, ?_⟩
    have h3 := h2.2
    cases hcq : h.cell q with
    | none => simp [hcq] at h3
    | some pit =>
      simp only [hcq] at h3
      cases hci : pit.m_ci with
      | none => simp [hci] at h3
      | some ci =>
        simp only [hci] at h3
        exact ⟨pit, ci, rfl, hci, by simpa using h3⟩
  · intro p it ci hp hci
    have hk := key p it hp
    unfold Heap.wfAt at hk
    simp only [Bool.and_eq_true, decide_eq_true_eq] at hk
    have h2 := hk.1.2
    simp only [hci, Bool.and_eq_true, decide_eq_true_eq, List.all_eq_true] at h2
    refine ⟨h2.1.2, ?_⟩
    intro c hc1
    have h3 := h2.2 c hc1
    cases hcc : h.cell c with
    | none => simp [hcc] at h3
    | some cit =>
      simp only [hcc, beq_iff_eq] at h3
      exact ⟨cit, rfl, h3⟩

theorem Heap.WF.chainFuel_exists {h : Heap} (hwf : h.WF) :
    ∀ (p : Nat) (it : CItem), h.cell p = some it →
      ∃ l, chainFuel h (p + 1) (some p) = some l ∧ ∀ x ∈ l, x ≤ p := by
  intro p
  induction p using Nat.strong_induction_on with
  | _ p ih =>
    intro it hp
    cases hpar : it.m_parent with
    | none =>
      refine ⟨[p], ?_, by simp⟩
      exact chainFuel_some_iff.mpr ⟨p, it, [], rfl, hp, by rw [hpar, chainFuel_none], rfl⟩
    | some q =>
      obtain ⟨hlt, pit, ci, hq, _, _⟩ := hwf.parent p it q hp hpar
      obtain ⟨l, hl, hle⟩ := ih q hlt pit hq
      refine ⟨p :: l, ?_, ?_⟩
      · exact chainFuel_some_iff.mpr
          ⟨p, it, l, rfl, hp, by rw [hpar]; exact chainFuel_mono hl (by omega), rfl⟩
      · intro x hx
        rcases List.mem_cons.mp hx with rfl | hx1
        · exact Nat.le_refl _
        · exact Nat.le_trans (hle x hx1) (Nat.le_of_lt hlt)

theorem Heap.WF.chain_exists {h : Heap} (hwf : h.WF) {p : Nat} {it : CItem} (hp : h.cell p = some it) :
    ∃ l, h.chain p = some l := by
  obtain ⟨l, hl, _⟩ := hwf.chainFuel_exists p it hp
  exact ⟨l, chainFuel_mono hl (by have := lt_next_of_cell hp; omega)⟩

theorem chain_head {h : Heap} {p : Nat} {l : List Nat} (hc : h.chain p = some l) :
    ∃ it l1, h.cell p = some it ∧ l = p :: l1 := by
  obtain ⟨_, it, l1, _, hcell, _, rfl⟩ := chainFuel_some_iff.mp hc
  exact ⟨it, l1, hcell, rfl⟩

theorem chain_live {h : Heap} {p : Nat} {l : List Nat} (hc : h.chain p = some l) :
    ∀ x ∈ l, ∃ xit, h.cell x = some xit := by
  intro x hx
  obtain ⟨l1, hl1, _⟩ := chainFuel_suffix hc x hx
  obtain ⟨_, it, _, _, hcell, _, _⟩ := chainFuel_some_iff.mp hl1
  exact ⟨it, hcell⟩

/-! ### The closed form of the counters walks -/

theorem UpwardAddSize_eq {h : Heap} {s : Nat} {l : List Nat} (hc : h.chain s = some l)
    (bytes : Nat) : UpwardAddSize h s bytes = some (h.mapOn l (addSizeF bytes)) := by
  unfold UpwardAddSize
  by_cases hb : bytes = 0
  · subst hb
    simp only [if_true]
    congr 1
    refine Heap.ext (by simp) (fun q => ?_)
    rw [cell_mapOn]
    cases h.cell q <;> simp [addSizeF]
  · simp only [hb, if_false]
    have : (fun (it : CItem) => ({ it with m_size := add64 it.m_size bytes } : CItem)) =
        addSizeF bytes := by
      funext it; simp [addSizeF, hb]
    rw [this]
    exact upward_modify _ (fun it => by simp [addSizeF, hb]) _ h _ l hc

theorem mapOn_id (h : Heap) (l : List Nat) (f : CItem → CItem) (hf : ∀ it, f it = it) :
    h.mapOn l f = h := by
  refine Heap.ext (by simp) (fun q => ?_)
  rw [cell_mapOn]
  cases h.cell q <;> simp [hf]

theorem UpwardSubtractSize_eq {h : Heap} {s : Nat} {l : List Nat} (hc : h.chain s = some l)
    (bytes : Nat) : UpwardSubtractSize h s bytes = some (h.mapOn l (subSizeF bytes)) := by
  unfold UpwardSubtractSize
  by_cases hb : bytes = 0
  · subst hb
    rw [mapOn_id _ _ _ (fun it => by simp [subSizeF])]
    simp
  · simp only [hb, if_false]
    have : (fun (it : CItem) => ({ it with m_size := sub64 it.m_size bytes } : CItem)) =
        subSizeF bytes := by
      funext it; simp [subSizeF, hb]
    rw [this]
    exact upward_modify _ (fun it => by simp [subSizeF, hb]) _ h _ l hc

theorem UpwardUpdateLastChange_eq {h : Heap} {s : Nat} {l : List Nat} (hc : h.chain s = some l)
    (t : Nat) : UpwardUpdateLastChange h s t = some (h.mapOn l (laterF t)) := by
  unfold UpwardUpdateLastChange
  exact upward_modify (laterF t) (fun it => by unfold laterF; split <;> rfl) _ h _ l hc

theorem Heap.WF.ciOk {h : Heap} (hwf : h.WF) (l : List Nat) : CiOk h l := by
  intro p _ it hp
  by_cases hf : it.IsType IT_FILE = true
  · exact Or.inl hf
  · exact Or.inr (fun hn => hf ((hwf.hasCi p it hp).mp hn))

theorem upward_ci (F : CHILDINFO → CHILDINFO) {h : Heap} {s : Nat} {l : List Nat}
    (hc : h.chain s = some l) (hok : CiOk h l) :
    upward (fun h p => h.modify? p fun it =>
        if it.IsType IT_FILE then some it else it.updCi F) (h.next + 1) h (some s) =
      some (h.mapOn l fun it => if it.IsType IT_FILE = true then it else it.mapCi F) := by
  refine upward_modify? _ _ ?_ _ h _ l hc ?_
  · intro it
    split <;> rfl
  · intro p hp it hcell
    rcases hok p hp it hcell with hf | hci
    · simp [hf]
    · cases hm : it.m_ci with
      | none => exact absurd hm hci
      | some ci =>
        by_cases hf : it.IsType IT_FILE = true
        · simp [hf]
        · simp [hf, CItem.updCi, CItem.mapCi, hm]

theorem UpwardAddFiles_eq {h : Heap} {s : Nat} {l : List Nat} (hc : h.chain s = some l)
    (hok : CiOk h l) (n : Nat) : UpwardAddFiles h s n = some (h.mapOn l (addFilesF n)) := by
  unfold UpwardAddFiles
  by_cases hb : n = 0
  · subst hb
    rw [mapOn_id _ _ _ (fun it => by simp [addFilesF])]
    simp
  · simp only [hb, if_false]
    rw [upward_ci _ hc hok]
    congr 2
    funext it
    simp [addFilesF, hb]

theorem UpwardAddSubdirs_eq {h : Heap} {s : Nat} {l : List Nat} (hc : h.chain s = some l)
    (hok : CiOk h l) (n : Nat) : UpwardAddSubdirs h s n = some (h.mapOn l (addSubdirsF n)) := by
  unfold UpwardAddSubdirs
  by_cases hb : n = 0
  · subst hb
    rw [mapOn_id _ _ _ (fun it => by simp [addSubdirsF])]
    simp
  · simp only [hb, if_false]
    rw [upward_ci _ hc hok]
    congr 2
    funext it
    simp [addSubdirsF, hb]

theorem UpwardAddReadJobs_eq {h : Heap} {s : Nat} {l : List Nat} {it : CItem}
    (hs : h.cell s = some it) (hc : h.chain s = some l) (hok : CiOk h l) (n : Nat) :
    UpwardAddReadJobs h s n =
      some (if it.m_ci = none then h else h.mapOn l (addJobsF n)) := by
  unfold UpwardAddReadJobs
  simp only [hs]
  by_cases hci : it.m_ci = none
  · simp [hci]
  · by_cases hb : n = 0
    · subst hb
      rw [mapOn_id _ _ _ (fun it => by simp [addJobsF])]
      simp
    · simp only [hci, hb, or_self, if_false]
      rw [upward_ci _ hc hok]
      congr 2
      funext it
      simp [addJobsF, hb]

/-! ### C6 -/

theorem mapCi_id_of (it : CItem) (F : CHILDINFO → CHILDINFO)
    (hF : ∀ ci, it.m_ci = some ci → F ci = ci) : it.mapCi F = it := by
  cases it with
  | mk a b c ci e f g =>
    cases ci with
    | none => rfl
    | some c1 =>
      simp only [CItem.mapCi, Option.map_some']
      rw [hF c1 rfl]

/-- C6: in a well-formed tree, with `l` the chain from `s` to the root (`s` and all
its ancestors), `UpwardAddSize(n)` replaces the size of every item of `l` by its sum
with `n` modulo 2^64, `UpwardAddFiles(n)` and `UpwardAddSubdirs(n)` replace the file
count, respectively the subdir count, of every non-file item of `l` by its sum with
`n` modulo 2^32, and every other field of every item of the heap stays as it was. -/
theorem C6_upward_add (h : Heap) (hwf : h.WF) (s : Nat) (hs : (h.cell s).isSome = true)
    (n : Nat) :
    ∃ l h1 h2 h3, h.chain s = some l ∧ UpwardAddSize h s n = some h1 ∧
      UpwardAddFiles h s n = some h2 ∧ UpwardAddSubdirs h s n = some h3 ∧
      (∀ q, h1.cell q = (h.cell q).map fun it =>
        if q ∈ l then { it with m_size := (it.m_size + n) % 2 ^ 64 } else it) ∧
      (∀ q, h2.cell q = (h.cell q).map fun it =>
        if q ∈ l ∧ it.IsType IT_FILE = false then
          it.mapCi fun ci => { ci with m_files := (ci.m_files + n) % 2 ^ 32 }
        else it) ∧
      (∀ q, h3.cell q = (h.cell q).map fun it =>
        if q ∈ l ∧ it.IsType IT_FILE = false then
          it.mapCi fun ci => { ci with m_subdirs := (ci.m_subdirs + n) % 2 ^ 32 }
        else it) := by
  obtain ⟨it, hit⟩ := Option.isSome_iff_exists.mp hs
  obtain ⟨l, hl⟩ := hwf.chain_exists hit
  refine ⟨l, _, _, _, hl, UpwardAddSize_eq hl n, UpwardAddFiles_eq hl (hwf.ciOk l) n,
    UpwardAddSubdirs_eq hl (hwf.ciOk l) n, ?_, ?_, ?_⟩
  · intro q
    rw [cell_mapOn]
    cases hq : h.cell q with
    | none => simp
    | some qit =>
      have hty := (hwf.typed q qit hq).1
      by_cases hm : q ∈ l
      · simp only [hm, if_true, Option.map_some', Option.some.injEq]
        unfold addSizeF add64
        by_cases hn : n = 0
        · subst hn
          simp only [if_true, Nat.add_zero]
          rw [Nat.mod_eq_of_lt (by simpa using hty)]
        · simp [hn]
      · simp [hm]
  · intro q
    rw [cell_mapOn]
    cases hq : h.cell q with
    | none => simp
    | some qit =>
      by_cases hm : q ∈ l
      · simp only [hm, if_true, Option.map_some', Option.some.injEq, true_and]
        unfold addFilesF add32
        by_cases hf : qit.IsType IT_FILE = true
        · simp [hf]
        · by_cases hn : n = 0
          · subst hn
            have hf2 : qit.IsType IT_FILE = false := by simpa using hf
            simp only [hf2, true_or, if_true, Nat.add_zero]
            symm
            apply mapCi_id_of
            intro ci hci
            have := ((hwf.typed q qit hq).2 ci hci).1
            cases ci
            simp only [CHILDINFO.mk.injEq, true_and, and_true]
            exact Nat.mod_eq_of_lt (by simpa using this)
          · simp [hn, hf]
      · simp [hm]
  · intro q
    rw [cell_mapOn]
    cases hq : h.cell q with
    | none => simp
    | some qit =>
      by_cases hm : q ∈ l
      · simp only [hm, if_true, Option.map_some', Option.some.injEq, true_and]
        unfold addSubdirsF add32
        by_cases hf : qit.IsType IT_FILE = true
        · simp [hf]
        · by_cases hn : n = 0
          · subst hn
            have hf2 : qit.IsType IT_FILE = false := by simpa using hf
            simp only [hf2, true_or, if_true, Nat.add_zero]
            symm
            apply mapCi_id_of
            intro ci hci
            have := ((hwf.typed q qit hq).2 ci hci).2.1
            cases ci
            simp only [CHILDINFO.mk.injEq, true_and, and_true]
            exact Nat.mod_eq_of_lt (by simpa using this)
          · simp [hn, hf]
      · simp [hm]

/-- C6 at the file 3 of the example tree and the amount 4. -/
theorem C6_upward_add_witness :
    exTree.WF ∧ (exTree.cell 3).isSome = true ∧
    ∃ l h1 h2 h3, exTree.chain 3 = some l ∧ UpwardAddSize exTree 3 4 = some h1 ∧
      UpwardAddFiles exTree 3 4 = some h2 ∧ UpwardAddSubdirs exTree 3 4 = some h3 ∧
      (∀ q, h1.cell q = (exTree.cell q).map fun it =>
        if q ∈ l then { it with m_size := (it.m_size + 4) % 2 ^ 64 } else it) ∧
      (∀ q, h2.cell q = (exTree.cell q).map fun it =>
        if q ∈ l ∧ it.IsType IT_FILE = false then
          it.mapCi fun ci => { ci with m_files := (ci.m_files + 4) % 2 ^ 32 }
        else it) ∧
      (∀ q, h3.cell q = (exTree.cell q).map fun it =>
        if q ∈ l ∧ it.IsType IT_FILE = false then
          it.mapCi fun ci => { ci with m_subdirs := (ci.m_subdirs + 4) % 2 ^ 32 }
        else it) :=
  ⟨WF_of_wfCheck (by decide), by decide,
    C6_upward_add exTree (WF_of_wfCheck (by decide)) 3 (by decide) 4⟩

/-! ### AddChild -/

@[simp] theorem next_mapIdx (h : Heap) (F : Nat → CItem → CItem) : (h.mapIdx F).next = h.next := by
  simp [Heap.mapIdx, Heap.next]

theorem cell_mapIdx (h : Heap) (F : Nat → CItem → CItem) (q : Nat) :
    (h.mapIdx F).cell q = (h.cell q).map (F q) := by
  unfold Heap.mapIdx
  rw [cell_mk_range]
  by_cases hq : q < h.next
  · simp [hq]
  · simp [hq, cell_of_next_le h (Nat.le_of_not_lt hq)]

theorem chain_congr {h h1 : Heap} (hn : h1.next = h.next)
    (hp : ∀ q, (h1.cell q).map CItem.m_parent = (h.cell q).map CItem.m_parent) (p : Nat) :
    h1.chain p = h.chain p := by
  unfold Heap.chain
  rw [hn, chainFuel_congr hp]

theorem chain_mapOn {h : Heap} {l : List Nat} {f : CItem → CItem}
    (hf : ∀ it, (f it).m_parent = it.m_parent) (p : Nat) : (h.mapOn l f).chain p = h.chain p := by
  apply chain_congr (by simp)
  intro q
  rw [cell_mapOn]
  split
  · cases h.cell q <;> simp [hf]
  · rfl

theorem addSizeF_parent (n : Nat) (it : CItem) : (addSizeF n it).m_parent = it.m_parent := by
  unfold addSizeF; split <;> rfl

theorem subSizeF_parent (n : Nat) (it : CItem) : (subSizeF n it).m_parent = it.m_parent := by
  unfold subSizeF; split <;> rfl

theorem laterF_parent (n : Nat) (it : CItem) : (laterF n it).m_parent = it.m_parent := by
  unfold laterF; split <;> rfl

theorem addSizeF_lastChange (n : Nat) (it : CItem) :
    (addSizeF n it).m_lastChange = it.m_lastChange := by
  unfold addSizeF; split <;> rfl

theorem addSizeF_ci (n : Nat) (it : CItem) : (addSizeF n it).m_ci = it.m_ci := by
  unfold addSizeF; split <;> rfl

theorem laterF_ci (n : Nat) (it : CItem) : (laterF n it).m_ci = it.m_ci := by
  unfold laterF; split <;> rfl

theorem updCi_eq {it : CItem} {ci : CHILDINFO} (hci : it.m_ci = some ci)
    (F : CHILDINFO → CHILDINFO) : it.updCi F = some (it.mapCi F) := by
  simp [CItem.updCi, CItem.mapCi, hci]

theorem propagateF_ci (l : List Nat) (sz t : Nat) (b : Bool) (q : Nat) (it : CItem) :
    (propagateF l sz t b q it).m_ci = it.m_ci := by
  unfold propagateF
  split
  · rw [laterF_ci, addSizeF_ci]
  · rfl

theorem propagateF_parent (l : List Nat) (sz t : Nat) (b : Bool) (q : Nat) (it : CItem) :
    (propagateF l sz t b q it).m_parent = it.m_parent := by
  unfold propagateF
  split
  · rw [laterF_parent, addSizeF_parent]
  · rfl

/-- The two pointer updates that end `AddChild`. -/
theorem link_eq {h : Heap} (h2 : Heap) {P child : Nat} {pit cit : CItem} (G : Nat → CItem → CItem)
    (hG : ∀ q it, (G q it).m_ci = it.m_ci)
    (hn : h2.next = h.next) (h2c : ∀ q, h2.cell q = (h.cell q).map (G q))
    (hP : h.cell P = some pit) (hci : pit.m_ci ≠ none) (hc : h.cell child = some cit) :
    (match h2.modify child fun c => { c with m_parent := some P } with
      | none => none
      | some h3 => h3.modify? P fun it => it.updCi fun ci =>
          { ci with m_children := ci.m_children ++ [child] }) =
      some (h.mapIdx fun q it =>
        let it2 := if q = child then setParentF P (G q it) else G q it
        if q = P then it2.mapCi (pushChildF child) else it2) := by
  obtain ⟨ci, hci⟩ := Option.ne_none_iff_exists'.mp hci
  have hc2 : h2.cell child = some (G child cit) := by rw [h2c, hc]; rfl
  have hP2 : h2.cell P = some (G P pit) := by rw [h2c, hP]; rfl
  rw [modify_eq hc2]
  simp only []
  have hP3 : (h2.set child (setParentF P (G child cit))).cell P =
      some (if P = child then setParentF P (G P pit) else G P pit) := by
    rw [cell_set_of_live hc2]
    by_cases e : P = child
    · subst e
      rw [hP] at hc; cases hc
      simp
    · simp [e, hP2]
  have hci3 : (if P = child then setParentF P (G P pit) else G P pit).m_ci = some ci := by
    split
    · show (G P pit).m_ci = some ci
      rw [hG]; exact hci
    · rw [hG]; exact hci
  have hm := modify?_eq (f := fun it => it.updCi (pushChildF child)) hP3
    (updCi_eq hci3 (pushChildF child))
  unfold setParentF pushChildF at hm
  unfold setParentF pushChildF
  rw [hm]
  congr 1
  refine Heap.ext (by simp [hn]) (fun q => ?_)
  have hP3b := hP3
  unfold setParentF at hP3b
  rw [cell_set_of_live hP3b, cell_set_of_live hc2, cell_mapIdx]
  by_cases hqP : q = P
  · subst hqP
    simp only [if_true, hP, Option.map_some']
  · by_cases hqc : q = child
    · subst hqc
      simp only [hqP, if_false, if_true, hc, Option.map_some']
    · simp only [hqP, hqc, if_false, h2c]

theorem AddChild_eq {h : Heap} {P child : Nat} {l : List Nat} {pit cit : CItem}
    (hl : h.chain P = some l) (hP : h.cell P = some pit) (hci : pit.m_ci ≠ none)
    (hc : h.cell child = some cit) (add_only : Bool) :
    AddChild h P child add_only =
      some (h.mapIdx (AddChildF P child l cit.m_size cit.m_lastChange add_only)) := by
  unfold AddChild
  cases add_only with
  | true =>
    simp only [if_true]
    have := link_eq h (propagateF l cit.m_size cit.m_lastChange true)
      (propagateF_ci _ _ _ _) rfl (fun q => by
        cases h.cell q <;> simp [propagateF]) hP hci hc
    exact this
  | false =>
    simp only [Bool.false_eq_true, if_false, hc]
    rw [UpwardAddSize_eq hl]
    simp only []
    have hc1 : (h.mapOn l (addSizeF cit.m_size)).cell child =
        some (if child ∈ l then addSizeF cit.m_size cit else cit) := by
      rw [cell_mapOn, hc]; split <;> rfl
    rw [hc1]
    simp only []
    have ht : (if child ∈ l then addSizeF cit.m_size cit else cit).m_lastChange =
        cit.m_lastChange := by
      split
      · exact addSizeF_lastChange _ _
      · rfl
    rw [ht, UpwardUpdateLastChange_eq (by rw [chain_mapOn (addSizeF_parent _)]; exact hl)]
    simp only []
    have := link_eq ((h.mapOn l (addSizeF cit.m_size)).mapOn l (laterF cit.m_lastChange))
      (propagateF l cit.m_size cit.m_lastChange false)
      (propagateF_ci _ _ _ _) (by simp) (fun q => by
        rw [cell_mapOn, cell_mapOn]
        unfold propagateF
        by_cases hq : q ∈ l
        · simp only [hq, if_true, and_self]; cases h.cell q <;> rfl
        · simp only [hq, if_false, and_false]; cases h.cell q <;> rfl) hP hci hc
    exact this

/-! ### C7 -/

theorem addSizeF_size (n : Nat) (it : CItem) (hty : it.m_size < 18446744073709551616) :
    (addSizeF n it).m_size = (it.m_size + n) % 2 ^ 64 := by
  unfold addSizeF add64
  by_cases hn : n = 0
  · subst hn
    simp only [if_true, Nat.add_zero]
    exact (Nat.mod_eq_of_lt (by simpa using hty)).symm
  · simp [hn]

theorem laterF_size (t : Nat) (it : CItem) : (laterF t it).m_size = it.m_size := by
  unfold laterF; split <;> rfl

theorem laterF_lastChange (t : Nat) (it : CItem) :
    (laterF t it).m_lastChange = max it.m_lastChange t := by
  unfold laterF
  split
  · rename_i hlt
    exact (Nat.max_eq_right (Nat.le_of_lt hlt)).symm
  · rename_i hlt
    exact (Nat.max_eq_left (Nat.le_of_not_lt hlt)).symm

/-- C7 (amended): let `P` be a live item with a `CHILDINFO` in a well-formed tree,
`child` a live item and `l` the chain from `P` to the root. `AddChild(child, false)`
appends `child` to the child list of `P`, makes `P` the parent of `child`, and gives
every item of `l` the size `(old size + size of child) mod 2^64` and the last-change
time `max(old time, time of child)`. `AddChild(child, true)` appends and links in the
same way and changes no size and no last-change time in the heap. -/
theorem C7_AddChild (h : Heap) (hwf : h.WF) (P child : Nat) (pit cit : CItem) (ci : CHILDINFO)
    (hP : h.cell P = some pit) (hci : pit.m_ci = some ci) (hc : h.cell child = some cit) :
    ∃ l h1 h2, h.chain P = some l ∧ AddChild h P child false = some h1 ∧
      AddChild h P child true = some h2 ∧
      (∃ p1 ci1, h1.cell P = some p1 ∧ p1.m_ci = some ci1 ∧
        ci1.m_children = ci.m_children ++ [child]) ∧
      (∃ c1, h1.cell child = some c1 ∧ c1.m_parent = some P) ∧
      (∀ a ∈ l, ∀ ait, h.cell a = some ait → ∃ a1, h1.cell a = some a1 ∧
        a1.m_size = (ait.m_size + cit.m_size) % 2 ^ 64 ∧
        a1.m_lastChange = max ait.m_lastChange cit.m_lastChange) ∧
      (∃ p2 ci2, h2.cell P = some p2 ∧ p2.m_ci = some ci2 ∧
        ci2.m_children = ci.m_children ++ [child]) ∧
      (∃ c2, h2.cell child = some c2 ∧ c2.m_parent = some P) ∧
      (∀ q qit, h.cell q = some qit → ∃ q2, h2.cell q = some q2 ∧
        q2.m_size = qit.m_size ∧ q2.m_lastChange = qit.m_lastChange) := by
  obtain ⟨l, hl⟩ := hwf.chain_exists hP
  have hne : pit.m_ci ≠ none := by rw [hci]; exact Option.some_ne_none _
  refine ⟨l, _, _, hl, AddChild_eq hl hP hne hc false, AddChild_eq hl hP hne hc true,
    ?_, ?_, ?_, ?_, ?_, ?_⟩
  · refine ⟨_, pushChildF child ci, by rw [cell_mapIdx, hP]; rfl, ?_, rfl⟩
    simp only [AddChildF, if_true, CItem.mapCi]
    split
    · simp [setParentF, propagateF_ci, hci]
    · simp [propagateF_ci, hci]
  · refine ⟨_, by rw [cell_mapIdx, hc]; rfl, ?_⟩
    simp only [AddChildF, if_true]
    split
    · simp [CItem.mapCi, setParentF]
    · simp [setParentF]
  · intro a ha ait hait
    refine ⟨_, by rw [cell_mapIdx, hait]; rfl, ?_, ?_⟩
    · have hty := (hwf.typed a ait hait).1
      have key : (propagateF l cit.m_size cit.m_lastChange false a ait).m_size =
          (ait.m_size + cit.m_size) % 2 ^ 64 := by
        simp only [propagateF, ha, and_self, if_true]
        rw [laterF_size, addSizeF_size _ _ hty]
      simp only [AddChildF]
      split <;> split <;> exact key
    · have key : (propagateF l cit.m_size cit.m_lastChange false a ait).m_lastChange =
          max ait.m_lastChange cit.m_lastChange := by
        simp only [propagateF, ha, and_self, if_true]
        rw [laterF_lastChange, addSizeF_lastChange]
      simp only [AddChildF]
      split <;> split <;> exact key
  · refine ⟨_, pushChildF child ci, by rw [cell_mapIdx, hP]; rfl, ?_, rfl⟩
    simp only [AddChildF, if_true, CItem.mapCi]
    split
    · simp [setParentF, propagateF_ci, hci]
    · simp [propagateF_ci, hci]
  · refine ⟨_, by rw [cell_mapIdx, hc]; rfl, ?_⟩
    simp only [AddChildF, if_true]
    split
    · simp [CItem.mapCi, setParentF]
    · simp [setParentF]
  · intro q qit hq
    refine ⟨_, by rw [cell_mapIdx, hq]; rfl, ?_, ?_⟩
    · simp only [AddChildF, propagateF]
      split <;> split <;> simp [CItem.mapCi, setParentF]
    · simp only [AddChildF, propagateF]
      split <;> split <;> simp [CItem.mapCi, setParentF]

/-- C7 at the two items of `exFull`. -/
theorem C7_AddChild_witness :
    exFull.WF ∧ exFull.cell 0 = some
        { m_parent := none, m_name := "root", m_lastChange := 0,
          m_size := 18446744073709551615, m_attributes := 0, m_type := 516,
          m_ci := some { m_children := [], m_files := 0, m_subdirs := 0, m_jobs := 0 } } ∧
    ∃ l h1 h2, exFull.chain 0 = some l ∧ AddChild exFull 0 1 false = some h1 ∧
      AddChild exFull 0 1 true = some h2 ∧
      (∃ p1 ci1, h1.cell 0 = some p1 ∧ p1.m_ci = some ci1 ∧ ci1.m_children = [] ++ [1]) ∧
      (∃ c1, h1.cell 1 = some c1 ∧ c1.m_parent = some 0) ∧
      (∀ a ∈ l, ∀ ait, exFull.cell a = some ait → ∃ a1, h1.cell a = some a1 ∧
        a1.m_size = (ait.m_size + 2) % 2 ^ 64 ∧ a1.m_lastChange = max ait.m_lastChange 0) ∧
      (∃ p2 ci2, h2.cell 0 = some p2 ∧ p2.m_ci = some ci2 ∧ ci2.m_children = [] ++ [1]) ∧
      (∃ c2, h2.cell 1 = some c2 ∧ c2.m_parent = some 0) ∧
      (∀ q qit, exFull.cell q = some qit → ∃ q2, h2.cell q = some q2 ∧
        q2.m_size = qit.m_size ∧ q2.m_lastChange = qit.m_lastChange) :=
  ⟨WF_of_wfCheck (by decide), by decide,
    C7_AddChild exFull (WF_of_wfCheck (by decide)) 0 1
      { m_parent := none, m_name := "root", m_lastChange := 0,
        m_size := 18446744073709551615, m_attributes := 0, m_type := 516,
        m_ci := some { m_children := [], m_files := 0, m_subdirs := 0, m_jobs := 0 } }
      { m_parent := none, m_name := "a", m_lastChange := 0, m_size := 2,
        m_attributes := 0, m_type := 8, m_ci := none }
      { m_children := [], m_files := 0, m_subdirs := 0, m_jobs := 0 }
      (by decide) rfl (by decide)⟩

/-- C7 as stated fails where the 64-bit addition wraps: the root of `exFull` has
size 2^64 - 1, the child has size 2, and after `AddChild` the root has size 1. -/
theorem C7_counterexample :
    (exFull.cell 0).map CItem.m_size = some 18446744073709551615 ∧
    (exFull.cell 1).map CItem.m_size = some 2 ∧
    (AddChild exFull 0 1 false).bind (fun h1 => (h1.cell 0).map CItem.m_size) = some 1 := by
  decide

/-! ### Subtrees and their destruction -/

@[simp] theorem next_cut (h0 h : Heap) (cs : List Nat) : (Heap.cut h0 h cs).next = h.next := by
  simp [Heap.cut, Heap.next]

theorem cell_cut (h0 h : Heap) (cs : List Nat) (q : Nat) :
    (Heap.cut h0 h cs).cell q = if cs.any (fun c => h0.below c q) then none else h.cell q := by
  unfold Heap.cut
  rw [cell_mk_range]
  by_cases hq : q < h.next
  · simp [hq]
  · simp [hq, cell_of_next_le h (Nat.le_of_not_lt hq)]

theorem chain_suffix {h : Heap} {q x : Nat} {l : List Nat} (hc : h.chain q = some l)
    (hx : x ∈ l) : ∃ l1, h.chain x = some (x :: l1) ∧ (x :: l1) <:+ l :=
  chainFuel_suffix hc x hx

theorem chain_cons_parent {h : Heap} {x : Nat} {l1 : List Nat} {it : CItem}
    (hc : h.chain x = some (x :: l1)) (hx : h.cell x = some it) :
    (it.m_parent = none ∧ l1 = []) ∨ ∃ c, it.m_parent = some c ∧ h.chain c = some l1 := by
  obtain ⟨m, it1, l2, hm, hcell, hr, hl⟩ := chainFuel_some_iff.mp hc
  rw [hx] at hcell
  cases hcell
  cases hl
  cases hp : it.m_parent with
  | none =>
    rw [hp, chainFuel_none] at hr
    cases hr
    exact Or.inl ⟨rfl, rfl⟩
  | some c =>
    rw [hp] at hr
    exact Or.inr ⟨c, rfl, chainFuel_mono hr (by omega)⟩

theorem Heap.WF.chain_le {h : Heap} (hwf : h.WF) {p : Nat} {l : List Nat}
    (hc : h.chain p = some l) : ∀ x ∈ l, x ≤ p := by
  obtain ⟨it, _, hp, _⟩ := chain_head hc
  obtain ⟨l1, hl1, hle⟩ := hwf.chainFuel_exists p it hp
  have := chainFuel_det hl1 hc
  subst this
  exact hle

theorem below_self {h : Heap} (hwf : h.WF) {c : Nat} {it : CItem} (hc : h.cell c = some it) :
    h.below c c = true := by
  obtain ⟨l, hl⟩ := hwf.chain_exists hc
  obtain ⟨_, l1, _, rfl⟩ := chain_head hl
  simp [Heap.below, hl]

theorem below_iff {h : Heap} {c q : Nat} :
    h.below c q = true ↔ ∃ l, h.chain q = some l ∧ c ∈ l := by
  unfold Heap.below
  cases h.chain q with
  | none => simp
  | some l => simp

theorem below_le {h : Heap} (hwf : h.WF) {c q : Nat} (hb : h.below c q = true) : c ≤ q := by
  obtain ⟨l, hl, hc⟩ := below_iff.mp hb
  exact hwf.chain_le hl c hc

theorem below_live {h : Heap} {c q : Nat} (hb : h.below c q = true) :
    ∃ it, h.cell q = some it := by
  obtain ⟨l, hl, _⟩ := below_iff.mp hb
  obtain ⟨it, _, hq, _⟩ := chain_head hl
  exact ⟨it, hq⟩

/-- The children of `c` lie below `c`, and so does whatever lies below them. -/
theorem below_of_child {h : Heap} {c x q : Nat} {xit : CItem} (hx : h.cell x = some xit)
    (hpar : xit.m_parent = some c) (hb : h.below x q = true) : h.below c q = true := by
  obtain ⟨l, hl, hxl⟩ := below_iff.mp hb
  obtain ⟨l1, hl1, hsuf⟩ := chain_suffix hl hxl
  rcases chain_cons_parent hl1 hx with ⟨hn, _⟩ | ⟨c1, hc1, hch⟩
  · rw [hpar] at hn; cases hn
  · rw [hpar] at hc1
    cases hc1
    obtain ⟨_, l2, _, rfl⟩ := chain_head hch
    exact below_iff.mpr ⟨l, hl, hsuf.subset (by simp)⟩

/-- Whatever lies strictly below `c` lies below a child of `c`. -/
theorem chainFuel_step_below {h : Heap} {c : Nat} : ∀ (n : Nat) (q : Nat) (l : List Nat),
    chainFuel h n (some q) = some l → c ∈ l → q ≠ c →
      ∃ x xit, x ∈ l ∧ h.cell x = some xit ∧ xit.m_parent = some c := by
  intro n
  induction n with
  | zero => intro q l hc; simp [chainFuel] at hc
  | succ n ih =>
    intro q l hc hcl hne
    obtain ⟨m, it, l1, hm, hcell, hr, rfl⟩ := chainFuel_some_iff.mp hc
    have : n = m := by omega
    subst this
    have hc1 : c ∈ l1 := by
      rcases List.mem_cons.mp hcl with e | e
      · exact absurd e.symm hne
      · exact e
    cases hp : it.m_parent with
    | none => rw [hp, chainFuel_none] at hr; cases hr; simp at hc1
    | some y =>
      rw [hp] at hr
      by_cases hy : y = c
      · subst hy
        exact ⟨q, it, List.mem_cons_self _ _, hcell, hp⟩
      · obtain ⟨x, xit, hx, hxc, hxp⟩ := ih y l1 hr hc1 hy
        exact ⟨x, xit, List.mem_cons_of_mem _ hx, hxc, hxp⟩

theorem below_child_of_below {h : Heap} (hwf : h.WF) {c q : Nat} (hb : h.below c q = true)
    (hne : q ≠ c) :
    ∃ x cit ci, h.cell c = some cit ∧ cit.m_ci = some ci ∧ x ∈ ci.m_children ∧
      h.below x q = true := by
  obtain ⟨l, hl, hcl⟩ := below_iff.mp hb
  obtain ⟨x, xit, hx, hxc, hxp⟩ := chainFuel_step_below _ q l hl hcl hne
  obtain ⟨_, pit, ci, hpc, hci, hmem⟩ := hwf.parent x xit c hxc hxp
  exact ⟨x, pit, ci, hpc, hci, hmem, below_iff.mpr ⟨l, hl, hx⟩⟩

/-- Two different children of one item have nothing below them in common. -/
theorem below_disjoint {h : Heap} (hwf : h.WF) {c x y q : Nat} {xit yit : CItem}
    (hx : h.cell x = some xit) (hy : h.cell y = some yit) (hxp : xit.m_parent = some c)
    (hyp : yit.m_parent = some c) (hne : x ≠ y) (hbx : h.below x q = true)
    (hby : h.below y q = true) : False := by
  obtain ⟨l, hl, hxl⟩ := below_iff.mp hbx
  obtain ⟨l2, hl2, hyl⟩ := below_iff.mp hby
  rw [hl] at hl2
  cases hl2
  obtain ⟨lx, hlx, hsx⟩ := chain_suffix hl hxl
  obtain ⟨ly, hly, hsy⟩ := chain_suffix hl hyl
  have hcx := (hwf.parent x xit c hx hxp).1
  have hcy := (hwf.parent y yit c hy hyp).1
  have key : ∀ (a b : Nat) (la lb : List Nat) (bit : CItem), h.cell b = some bit →
      bit.m_parent = some c → c < a → a ≠ b → h.chain b = some (b :: lb) →
      (a :: la) <:+ (b :: lb) → False := by
    intro a b la lb bit hb hbp hca hab hchb hsuf
    rcases chain_cons_parent hchb hb with ⟨hn, _⟩ | ⟨c1, hc1, hch⟩
    · rw [hbp] at hn; cases hn
    · rw [hbp] at hc1
      cases hc1
      have hmem : a ∈ lb := by
        rcases List.suffix_cons_iff.mp hsuf with e | e
        · cases e; exact absurd rfl hab
        · exact e.subset (List.mem_cons_self _ _)
      have := hwf.chain_le hch a hmem
      omega
  rcases List.suffix_or_suffix_of_suffix hsx hsy with hs | hs
  · exact key x y lx ly yit hy hyp hcx hne hly hs
  · exact key y x ly lx xit hx hxp hcy (Ne.symm hne) hlx hs

theorem cut_nil (h0 h : Heap) : Heap.cut h0 h [] = h :=
  Heap.ext (by simp) (fun q => by simp [cell_cut])

theorem cut_cut (h0 h : Heap) (x : Nat) (cs : List Nat) :
    Heap.cut h0 (Heap.cut h0 h [x]) cs = Heap.cut h0 h (x :: cs) := by
  refine Heap.ext (by simp) (fun q => ?_)
  simp only [cell_cut, List.any_cons, List.any_nil, Bool.or_false]
  by_cases h1 : h0.below x q = true <;> by_cases h2 : (cs.any fun c => h0.below c q) = true <;>
    simp [h1, h2]

/-- The destructor releases exactly the items at or below the destroyed one. -/
theorem destroy_eq {h0 : Heap} (hwf : h0.WF) : ∀ (fuel : Nat) (h : Heap) (c : Nat) (cit : CItem),
    h0.cell c = some cit → h.next = h0.next →
    (∀ q, h0.below c q = true → h.cell q = h0.cell q) → h0.next - c < fuel →
    destroy fuel h c = some (Heap.cut h0 h [c]) := by
  intro fuel
  induction fuel with
  | zero => intro h c cit _ _ _ hf; omega
  | succ n ih =>
    intro h c cit hc hn hsame hf
    have hcc : h.cell c = some cit := by rw [hsame c (below_self hwf hc)]; exact hc
    have hclt := lt_next_of_cell hc
    simp only [destroy, hcc]
    cases hci : cit.m_ci with
    | none =>
      simp only []
      congr 1
      refine Heap.ext (by simp) (fun q => ?_)
      simp only [cell_free, cell_cut, List.any_cons, List.any_nil, Bool.or_false]
      by_cases hq : q = c
      · subst hq; simp [below_self hwf hc]
      · simp only [hq, if_false]
        cases hb : h0.below c q with
        | false => simp
        | true =>
          obtain ⟨x, cit1, ci, hc1, hci1, _, _⟩ := below_child_of_below hwf hb hq
          rw [hc] at hc1; cases hc1
          rw [hci] at hci1; cases hci1
    | some ci =>
      simp only []
      obtain ⟨hnd, hch⟩ := hwf.children c cit ci hc hci
      have fold : ∀ (cs : List Nat) (h1 : Heap), (∀ x ∈ cs, x ∈ ci.m_children) → cs.Nodup →
          h1.next = h0.next → (∀ x ∈ cs, ∀ q, h0.below x q = true → h1.cell q = h0.cell q) →
          cs.foldlM (fun h2 x => destroy n h2 x) h1 = some (Heap.cut h0 h1 cs) := by
        intro cs
        induction cs with
        | nil => intro h1 _ _ _ _; simp [cut_nil]
        | cons x rest ihr =>
          intro h1 hsub hnd1 hn1 hs1
          obtain ⟨xit, hx, hxp⟩ := hch x (hsub x (List.mem_cons_self _ _))
          have hcx := (hwf.parent x xit c hx hxp).1
          have hd := ih h1 x xit hx hn1 (hs1 x (List.mem_cons_self _ _)) (by omega)
          simp only [List.foldlM_cons, hd, Option.bind_eq_bind, Option.some_bind]
          rw [ihr (Heap.cut h0 h1 [x]) (fun y hy => hsub y (List.mem_cons_of_mem _ hy))
            (List.nodup_cons.mp hnd1).2 (by simp [hn1]) ?_, cut_cut]
          intro y hy q hb
          obtain ⟨yit, hyc, hyp⟩ := hch y (hsub y (List.mem_cons_of_mem _ hy))
          have hxy : x ≠ y := fun e => (List.nodup_cons.mp hnd1).1 (e ▸ hy)
          rw [cell_cut]
          simp only [List.any_cons, List.any_nil, Bool.or_false]
          cases hbx : h0.below x q with
          | true => exact absurd hb (fun hb => below_disjoint hwf hx hyc hxp hyp hxy hbx hb)
          | false => simpa using hs1 y (List.mem_cons_of_mem _ hy) q hb
      rw [fold ci.m_children h (fun _ hx => hx) hnd hn ?_]
      · simp only []
        congr 1
        refine Heap.ext (by simp) (fun q => ?_)
        simp only [cell_free, cell_cut, List.any_cons, List.any_nil, Bool.or_false]
        by_cases hq : q = c
        · subst hq; simp [below_self hwf hc]
        · simp only [hq, if_false]
          cases hb : h0.below c q with
          | false =>
            have : ci.m_children.any (fun x => h0.below x q) = false := by
              rw [List.any_eq_false]
              intro x hx hbx
              obtain ⟨xit, hxc, hxp⟩ := hch x hx
              rw [below_of_child hxc hxp hbx] at hb
              cases hb
            simp [this]
          | true =>
            obtain ⟨x, cit1, ci1, hc1, hci1, hx, hbx⟩ := below_child_of_below hwf hb hq
            rw [hc] at hc1; cases hc1
            rw [hci] at hci1; cases hci1
            have : ci.m_children.any (fun x => h0.below x q) = true :=
              List.any_eq_true.mpr ⟨x, hx, hbx⟩
            simp [this]
      · intro x hx q hb
        obtain ⟨xit, hxc, hxp⟩ := hch x hx
        exact hsame q (below_of_child hxc hxp hb)

/-! ### C8 -/

theorem RemoveChild_eq {h : Heap} (hwf : h.WF) {P child : Nat} {pit : CItem} {ci : CHILDINFO}
    (hP : h.cell P = some pit) (hci : pit.m_ci = some ci) (hmem : child ∈ ci.m_children) :
    RemoveChild h P child = some (Heap.cut h
      (h.set P (pit.mapCi fun ci => { ci with m_children := ci.m_children.filter fun c => c != child }))
      [child]) := by
  obtain ⟨_, hch⟩ := hwf.children P pit ci hP hci
  obtain ⟨cit, hc, hcp⟩ := hch child hmem
  have hlt := (hwf.parent child cit P hc hcp).1
  unfold RemoveChild
  rw [modify?_eq hP (updCi_eq hci _)]
  simp only []
  refine destroy_eq hwf _ _ child cit hc (by simp) ?_ (by simp; omega)
  intro q hb
  have := below_le hwf hb
  rw [cell_set_of_live hP]
  have hne : q ≠ P := by omega
  simp [hne]

/-- C8: in a well-formed tree, `RemoveChild(child)` on the parent `P` of `child` leaves
`P` with its former child list without `child`, the other children in their former
order; `child` is released; `P` and every ancestor of `P` remain; every item that
remains keeps its size, file count, subdir count and read-job count. The result is
given cell by cell: the cells of `child` and of the items below it are released, the
cell of `P` is the former one but for the child list, and every other cell is the
former one, with every field; neither `P`, nor an ancestor of `P`, nor another child
of `P` is among the released ones. -/
theorem C8_RemoveChild (h : Heap) (hwf : h.WF) (P child : Nat) (pit : CItem) (ci : CHILDINFO)
    (hP : h.cell P = some pit) (hci : pit.m_ci = some ci) (hmem : child ∈ ci.m_children) :
    ∃ h2, RemoveChild h P child = some h2 ∧
      (∃ p2 ci2, h2.cell P = some p2 ∧ p2.m_ci = some ci2 ∧
        ci2.m_children = ci.m_children.filter (fun c => c != child) ∧
        child ∉ ci2.m_children) ∧
      h2.cell child = none ∧
      (∀ l, h.chain P = some l → ∀ a ∈ l, (h2.cell a).isSome = true) ∧
      (∀ q q2, h2.cell q = some q2 → ∃ q0, h.cell q = some q0 ∧ q2.m_size = q0.m_size ∧
        q2.GetFilesCount = q0.GetFilesCount ∧ q2.GetSubdirsCount = q0.GetSubdirsCount ∧
        q2.GetReadJobs = q0.GetReadJobs) ∧
      (∀ q, h2.cell q =
        if h.below child q = true then none
        else if q = P then
          some { pit with
            m_ci := some { ci with m_children := ci.m_children.filter (fun c => c != child) } }
        else h.cell q) ∧
      (∀ l, h.chain P = some l → ∀ a ∈ l, h.below child a = false) ∧
      (∀ c ∈ ci.m_children, c ≠ child → h.below child c = false ∧ h2.cell c = h.cell c ∧
        (h.cell c).isSome = true) := by
  obtain ⟨_, hch⟩ := hwf.children P pit ci hP hci
  obtain ⟨cit, hc, hcp⟩ := hch child hmem
  have hlt := (hwf.parent child cit P hc hcp).1
  have nb : ∀ a, a ≤ P → h.below child a = false := by
    intro a ha
    cases hb : h.below child a with
    | false => rfl
    | true => have := below_le hwf hb; omega
  have notbelow : ∀ a, a ≤ P → (List.any [child] fun c => h.below c a) = false := by
    intro a ha
    simp only [List.any_cons, List.any_nil, Bool.or_false]
    exact nb a ha
  have hmap : (pit.mapCi fun ci => { ci with m_children := ci.m_children.filter fun c => c != child }) =
      { pit with
        m_ci := some { ci with m_children := ci.m_children.filter (fun c => c != child) } } := by
    simp [CItem.mapCi, hci]
  have hsib : ∀ c ∈ ci.m_children, c ≠ child → h.below child c = false := by
    intro c hcm hne
    obtain ⟨sit, hs, hsp⟩ := hch c hcm
    cases hb : h.below child c with
    | false => rfl
    | true => exact (below_disjoint hwf hc hs hcp hsp (Ne.symm hne) hb (below_self hwf hs)).elim
  have hcell : ∀ q, (Heap.cut h
      (h.set P (pit.mapCi fun ci => { ci with m_children := ci.m_children.filter fun c => c != child }))
      [child]).cell q =
        if h.below child q = true then none
        else if q = P then
          some { pit with
            m_ci := some { ci with m_children := ci.m_children.filter (fun c => c != child) } }
        else h.cell q := by
    intro q
    rw [cell_cut, cell_set_of_live hP, hmap]
    simp only [List.any_cons, List.any_nil, Bool.or_false]
  refine ⟨_, RemoveChild_eq hwf hP hci hmem, ?_, ?_, ?_, ?_, hcell, ?_, ?_⟩
  · refine ⟨pit.mapCi fun ci => { ci with m_children := ci.m_children.filter fun c => c != child },
      { ci with m_children := ci.m_children.filter fun c => c != child }, ?_, ?_, rfl, ?_⟩
    · rw [cell_cut, notbelow P (Nat.le_refl _), cell_set_of_live hP]
      simp
    · simp [CItem.mapCi, hci]
    · simp
  · rw [cell_cut]
    simp [below_self hwf hc]
  · intro l hl a ha
    have hle := hwf.chain_le hl a ha
    obtain ⟨ait, hait⟩ := chain_live hl a ha
    rw [cell_cut, notbelow a hle, cell_set_of_live hP]
    by_cases e : a = P <;> simp [e, hait]
  · intro q q2 hq
    rw [cell_cut] at hq
    split at hq
    · cases hq
    · rw [cell_set_of_live hP] at hq
      by_cases e : q = P
      · subst e
        simp only [if_true, Option.some.injEq] at hq
        subst hq
        refine ⟨pit, hP, rfl, ?_, ?_, ?_⟩ <;>
          simp [CItem.mapCi, CItem.GetFilesCount, CItem.GetSubdirsCount, CItem.GetReadJobs, hci]
      · simp only [e, if_false] at hq
        exact ⟨q2, hq, rfl, rfl, rfl, rfl⟩
  · intro l hl a ha
    exact nb a (hwf.chain_le hl a ha)
  · intro c hcm hne
    obtain ⟨sit, hs, hsp⟩ := hch c hcm
    have hcP : c ≠ P := by
      have := (hwf.parent c sit P hs hsp).1
      omega
    refine ⟨hsib c hcm hne, ?_, by simp [hs]⟩
    rw [hcell, hsib c hcm hne]
    simp [hcP]

/-- C8 at the root of the example tree and its child folder. -/
theorem C8_RemoveChild_witness :
    exTree.WF ∧
    exTree.cell 0 = some
      { m_parent := none, m_name := "root", m_lastChange := 3, m_size := 12,
        m_attributes := 0, m_type := 772,
        m_ci := some { m_children := [1, 2], m_files := 2, m_subdirs := 1, m_jobs := 0 } } ∧
    2 ∈ [1, 2] ∧
    ∃ h2, RemoveChild exTree 0 2 = some h2 ∧
      (∃ p2 ci2, h2.cell 0 = some p2 ∧ p2.m_ci = some ci2 ∧
        ci2.m_children = [1, 2].filter (fun c => c != 2) ∧ 2 ∉ ci2.m_children) ∧
      h2.cell 2 = none ∧
      (∀ l, exTree.chain 0 = some l → ∀ a ∈ l, (h2.cell a).isSome = true) ∧
      (∀ q q2, h2.cell q = some q2 → ∃ q0, exTree.cell q = some q0 ∧ q2.m_size = q0.m_size ∧
        q2.GetFilesCount = q0.GetFilesCount ∧ q2.GetSubdirsCount = q0.GetSubdirsCount ∧
        q2.GetReadJobs = q0.GetReadJobs) ∧
      (∀ q, h2.cell q =
        if exTree.below 2 q = true then none
        else if q = 0 then
          some { m_parent := none, m_name := "root", m_lastChange := 3, m_size := 12,
                 m_attributes := 0, m_type := 772,
                 m_ci := some { m_children := [1, 2].filter (fun c => c != 2), m_files := 2,
                                m_subdirs := 1, m_jobs := 0 } }
        else exTree.cell q) ∧
      (∀ l, exTree.chain 0 = some l → ∀ a ∈ l, exTree.below 2 a = false) ∧
      (∀ c ∈ [1, 2], c ≠ 2 → exTree.below 2 c = false ∧ h2.cell c = exTree.cell c ∧
        (exTree.cell c).isSome = true) :=
  ⟨WF_of_wfCheck (by decide), by decide, by decide,
    C8_RemoveChild exTree (WF_of_wfCheck (by decide)) 0 2
      { m_parent := none, m_name := "root", m_lastChange := 3, m_size := 12,
        m_attributes := 0, m_type := 772,
        m_ci := some { m_children := [1, 2], m_files := 2, m_subdirs := 1, m_jobs := 0 } }
      { m_children := [1, 2], m_files := 2, m_subdirs := 1, m_jobs := 0 }
      (by decide) rfl (by decide)⟩

/-! ### Type flags -/

theorem IsType_SetType_true_other (it : CItem) (F T : ITEMTYPE) (hd : T &&& F = 0) :
    (it.SetType F true).IsType T = it.IsType T := by
  simp only [CItem.SetType, CItem.IsType, ITEMTYPE.or, if_true]
  rw [Nat.and_comm, Nat.and_or_distrib_left, hd, Nat.or_zero, Nat.and_comm]

theorem IsDone_SetType_true (it : CItem) : (it.SetType ITF_DONE true).IsDone = true := by
  simp only [CItem.IsDone, CItem.SetType, CItem.IsType, ITEMTYPE.or, if_true, ITF_DONE]
  rw [Nat.and_comm, Nat.and_or_distrib_left]
  simp only [Nat.and_self, bne_iff_ne, ne_eq]
  intro h0
  have h1 := Nat.testBit_or (256 &&& it.m_type) 256 8
  rw [h0] at h1
  have h2 : Nat.testBit 256 8 = true := by decide
  rw [h2] at h1
  simp at h1

theorem minus_done (t : Nat) : ITEMTYPE.minus t ITF_DONE = t &&& 65279 := by
  have e : (65535 ^^^ (256 &&& 65535)) = 65279 := by decide
  simp only [ITEMTYPE.minus, ITF_DONE, e]

theorem IsDone_SetType_false (it : CItem) : (it.SetType ITF_DONE false).IsDone = false := by
  simp only [CItem.IsDone, CItem.SetType, CItem.IsType, Bool.false_eq_true, if_false, minus_done]
  rw [Nat.and_assoc]
  have e : (65279 &&& ITF_DONE) = 0 := by decide
  rw [e]
  simp

theorem IsType_SetType_false_other (it : CItem) (T : ITEMTYPE) (hT : 65279 &&& T = T) :
    (it.SetType ITF_DONE false).IsType T = it.IsType T := by
  simp only [CItem.SetType, CItem.IsType, Bool.false_eq_true, if_false, minus_done]
  rw [Nat.and_assoc, hT]

/-! ### Changes of sizes only -/

theorem SizeOnly.refl (h : Heap) : SizeOnly h h := ⟨rfl, fun _ => rfl⟩

theorem SizeOnly.trans {h1 h2 h3 : Heap} (a : SizeOnly h1 h2) (b : SizeOnly h2 h3) :
    SizeOnly h1 h3 := ⟨b.1.trans a.1, fun q => (b.2 q).trans (a.2 q)⟩

theorem SizeOnly.cell {h h2 : Heap} (hs : SizeOnly h h2) {q : Nat} {it : CItem}
    (hq : h.cell q = some it) : ∃ s, h2.cell q = some (it.withSize s) := by
  have := hs.2 q
  rw [hq] at this
  cases h2q : h2.cell q with
  | none => rw [h2q] at this; simp at this
  | some it2 =>
    rw [h2q] at this
    simp only [Option.map_some', Option.some.injEq, CItem.withSize] at this
    refine ⟨it2.m_size, ?_⟩
    cases it2
    cases it
    simp_all [CItem.withSize]

theorem SizeOnly.cell_none {h h2 : Heap} (hs : SizeOnly h h2) {q : Nat}
    (hq : h.cell q = none) : h2.cell q = none := by
  have := hs.2 q
  rw [hq] at this
  simpa using this

theorem SizeOnly.symm {h h2 : Heap} (hs : SizeOnly h h2) : SizeOnly h2 h :=
  ⟨hs.1.symm, fun q => (hs.2 q).symm⟩

theorem SizeOnly.parents {h h2 : Heap} (hs : SizeOnly h h2) (q : Nat) :
    (h2.cell q).map CItem.m_parent = (h.cell q).map CItem.m_parent := by
  cases hq : h.cell q with
  | none => rw [hs.cell_none hq]
  | some it =>
    obtain ⟨s, h2q⟩ := hs.cell hq
    rw [h2q]
    rfl

theorem SizeOnly.chain {h h2 : Heap} (hs : SizeOnly h h2) (p : Nat) :
    h2.chain p = h.chain p :=
  chain_congr hs.1 hs.parents p

theorem SizeOnly.wf {h h2 : Heap} (hs : SizeOnly h h2) (hwf : h.WF) (hty : SizesTyped h2) :
    h2.WF := by
  have back : ∀ q it2, h2.cell q = some it2 →
      ∃ it, h.cell q = some it ∧ it2 = it.withSize it2.m_size := by
    intro q it2 hq
    obtain ⟨s, hh⟩ := hs.symm.cell hq
    refine ⟨_, hh, ?_⟩
    cases it2
    rfl
  refine ⟨?_, ?_, ?_, ?_, ?_⟩
  · intro p it2 hp
    obtain ⟨it, hit, e⟩ := back p it2 hp
    refine ⟨hty p it2 hp, ?_⟩
    intro ci hci
    rw [e] at hci
    exact (hwf.typed p it hit).2 ci hci
  · intro p it2 hp
    obtain ⟨it, hit, e⟩ := back p it2 hp
    have := hwf.kind p it hit
    rw [e]
    exact this
  · intro p it2 hp
    obtain ⟨it, hit, e⟩ := back p it2 hp
    have := hwf.hasCi p it hit
    rw [e]
    exact this
  · intro p it2 q hp hpar
    obtain ⟨it, hit, e⟩ := back p it2 hp
    rw [e] at hpar
    obtain ⟨hlt, pit, ci, hq, hci, hmem⟩ := hwf.parent p it q hit hpar
    obtain ⟨s, hq2⟩ := hs.cell hq
    exact ⟨hlt, _, ci, hq2, hci, hmem⟩
  · intro p it2 ci hp hci
    obtain ⟨it, hit, e⟩ := back p it2 hp
    rw [e] at hci
    obtain ⟨hnd, hch⟩ := hwf.children p it ci hit hci
    refine ⟨hnd, ?_⟩
    intro c hc
    obtain ⟨cit, hcc, hcp⟩ := hch c hc
    obtain ⟨s, hc2⟩ := hs.cell hcc
    exact ⟨_, hc2, hcp⟩

theorem SizeOnly_mapOn (h : Heap) (l : List Nat) (f : CItem → CItem)
    (hf : ∀ it, ∃ s, f it = it.withSize s) : SizeOnly h (h.mapOn l f) := by
  refine ⟨by simp, fun q => ?_⟩
  rw [cell_mapOn]
  split
  · cases h.cell q with
    | none => rfl
    | some it =>
      obtain ⟨s, hs⟩ := hf it
      simp [hs, CItem.withSize]
  · rfl

theorem addSizeF_sizeOnly (n : Nat) (it : CItem) :
    ∃ s, addSizeF n it = it.withSize s := by
  unfold addSizeF
  split
  · exact ⟨it.m_size, rfl⟩
  · exact ⟨_, rfl⟩

theorem subSizeF_sizeOnly (n : Nat) (it : CItem) :
    ∃ s, subSizeF n it = it.withSize s := by
  unfold subSizeF
  split
  · exact ⟨it.m_size, rfl⟩
  · exact ⟨_, rfl⟩

theorem addSizeF_typed (n : Nat) (it : CItem) (h : it.m_size < 18446744073709551616) :
    (addSizeF n it).m_size < 18446744073709551616 := by
  unfold addSizeF add64
  split
  · exact h
  · exact Nat.mod_lt _ (by decide)

theorem subSizeF_typed (n : Nat) (it : CItem) (h : it.m_size < 18446744073709551616) :
    (subSizeF n it).m_size < 18446744073709551616 := by
  unfold subSizeF sub64
  split
  · exact h
  · exact Nat.mod_lt _ (by decide)

theorem SizesTyped_mapOn {h : Heap} (hty : SizesTyped h) (l : List Nat) (f : CItem → CItem)
    (hf : ∀ it, it.m_size < 18446744073709551616 → (f it).m_size < 18446744073709551616) :
    SizesTyped (h.mapOn l f) := by
  intro q it hq
  rw [cell_mapOn] at hq
  split at hq
  · cases hc : h.cell q with
    | none => rw [hc] at hq; cases hq
    | some it0 =>
      rw [hc] at hq
      cases hq
      exact hf _ (hty q it0 hc)
  · exact hty q it hq

theorem Heap.WF.sizesTyped {h : Heap} (hwf : h.WF) : SizesTyped h :=
  fun q it hq => (hwf.typed q it hq).1

/-! ### The pseudo items and SetDone -/

theorem FindChildOfType_eq {h : Heap} {p : Nat} {it : CItem} {ci : CHILDINFO}
    (hp : h.cell p = some it) (hci : it.m_ci = some ci) (T : ITEMTYPE) :
    FindChildOfType h p T = some (ci.m_children.find? (h.IsTypeAt T)) := by
  simp [FindChildOfType, hp, hci]

theorem GetType_eq (it : CItem) : it.GetType = it.m_type &&& 255 := by
  have e : (65535 ^^^ ITF_FLAGS) = 255 := by decide
  simp only [CItem.GetType, e]

theorem IsType_eq_GetType (it : CItem) (T : ITEMTYPE) (hT : 255 &&& T = T) :
    it.IsType T = ((it.GetType &&& T) != 0) := by
  rw [GetType_eq, Nat.and_assoc, hT]
  rfl

theorem IsType_of_GetType (it : CItem) (k T : ITEMTYPE) (hk : it.GetType = k)
    (hT : 255 &&& T = T) : it.IsType T = ((k &&& T) != 0) := by
  rw [IsType_eq_GetType it T hT, hk]

theorem Heap.WF.drive_hasCi {h : Heap} (hwf : h.WF) {p : Nat} {it : CItem}
    (hp : h.cell p = some it) (hd : it.IsType IT_DRIVE = true) : it.m_ci ≠ none := by
  intro hn
  have hf := (hwf.hasCi p it hp).mp hn
  rcases hwf.kind p it hp with e | e | e | e | e | e <;>
    (have t1 := IsType_of_GetType it _ IT_DRIVE e (by decide)
     have t2 := IsType_of_GetType it _ IT_FILE e (by decide)
     rw [hd] at t1
     rw [hf] at t2
     first
     | exact absurd t1 (by decide)
     | exact absurd t2 (by decide))

theorem GetPath_some {h : Heap} {p : Nat} {l : List Nat} (hl : h.chain p = some l) :
    ∃ path, GetPath h p = some path := by
  simp [GetPath, UpwardGetPathWithoutBackslash, hl]

theorem UpdateFreeSpaceItem_spec (env : Env) {h : Heap} (hwf : h.WF) {p : Nat} {it : CItem}
    {ci : CHILDINFO} (hp : h.cell p = some it) (hci : it.m_ci = some ci) :
    ∃ h2, UpdateFreeSpaceItem env h p = some h2 ∧ SizeOnly h h2 ∧ SizesTyped h2 := by
  unfold UpdateFreeSpaceItem FindFreeSpaceItem
  rw [FindChildOfType_eq hp hci]
  cases hf : ci.m_children.find? (h.IsTypeAt _) with
  | none => exact ⟨h, rfl, SizeOnly.refl h, hwf.sizesTyped⟩
  | some f =>
    simp only []
    obtain ⟨fit, hfc, _⟩ := (hwf.children p it ci hp hci).2 f (List.mem_of_find?_eq_some hf)
    obtain ⟨lf, hlf⟩ := hwf.chain_exists hfc
    obtain ⟨lp, hlp⟩ := hwf.chain_exists hp
    rw [UpwardSubtractSize_eq hlf]
    simp only []
    have s1 := SizeOnly_mapOn h lf (subSizeF (h.GetSize f)) (subSizeF_sizeOnly _)
    obtain ⟨path, hpath⟩ := GetPath_some (h := h.mapOn lf (subSizeF (h.GetSize f))) (p := p)
      (by rw [s1.chain]; exact hlp)
    rw [hpath]
    simp only []
    rw [UpwardAddSize_eq (by rw [s1.chain]; exact hlf)]
    exact ⟨_, rfl, s1.trans (SizeOnly_mapOn _ lf _ (addSizeF_sizeOnly _)),
      SizesTyped_mapOn (SizesTyped_mapOn hwf.sizesTyped _ _ (subSizeF_typed _)) _ _
        (addSizeF_typed _)⟩

theorem UpdateUnknownItem_spec (env : Env) {h : Heap} (hwf : h.WF) {p : Nat} {it : CItem}
    {ci : CHILDINFO} (hp : h.cell p = some it) (hci : it.m_ci = some ci) :
    ∃ h2, UpdateUnknownItem env h p = some h2 ∧ SizeOnly h h2 ∧ SizesTyped h2 := by
  unfold UpdateUnknownItem FindUnknownItem
  rw [FindChildOfType_eq hp hci]
  cases hf : ci.m_children.find? (h.IsTypeAt _) with
  | none => exact ⟨h, rfl, SizeOnly.refl h, hwf.sizesTyped⟩
  | some f =>
    simp only []
    obtain ⟨fit, hfc, _⟩ := (hwf.children p it ci hp hci).2 f (List.mem_of_find?_eq_some hf)
    obtain ⟨lf, hlf⟩ := hwf.chain_exists hfc
    obtain ⟨lp, hlp⟩ := hwf.chain_exists hp
    rw [UpwardSubtractSize_eq hlf]
    simp only []
    have s1 := SizeOnly_mapOn h lf (subSizeF (h.GetSize f)) (subSizeF_sizeOnly _)
    obtain ⟨path, hpath⟩ := GetPath_some (h := h.mapOn lf (subSizeF (h.GetSize f))) (p := p)
      (by rw [s1.chain]; exact hlp)
    obtain ⟨s, hp1⟩ := s1.cell hp
    have hfind := FindChildOfType_eq (h := h.mapOn lf (subSizeF (h.GetSize f))) hp1
      (show (it.withSize s).m_ci = some ci from hci) IT_FREESPACE
    unfold FindFreeSpaceItem
    rw [hpath, hfind]
    simp only []
    rw [UpwardAddSize_eq (by rw [s1.chain]; exact hlf)]
    exact ⟨_, rfl, s1.trans (SizeOnly_mapOn _ lf _ (addSizeF_sizeOnly _)),
      SizesTyped_mapOn (SizesTyped_mapOn hwf.sizesTyped _ _ (subSizeF_typed _)) _ _
        (addSizeF_typed _)⟩

theorem set_set (h : Heap) (p : Nat) (a b : CItem) : (h.set p a).set p b = h.set p b := by
  refine Heap.ext (by simp) (fun q => ?_)
  simp only [cell_set, next_set]
  by_cases hq : q = p ∧ p < h.next <;> simp [hq]

theorem set_same {h : Heap} {p : Nat} {it : CItem} (hp : h.cell p = some it) :
    h.set p it = h := by
  refine Heap.ext (by simp) (fun q => ?_)
  rw [cell_set_of_live hp]
  by_cases hq : q = p
  · subst hq; simp [hp]
  · simp [hq]

theorem sortF_of_noCi (h : Heap) {it : CItem} (hci : it.m_ci = none) : sortF h it = it := by
  simp [sortF, hci]

/-- `SetDone` on an item that is not done: sizes may move (on a drive), then the
children are sorted by the sizes reached and the done flag is set. -/
theorem SetDone_spec (env : Env) {h : Heap} (hwf : h.WF) {p : Nat} {it : CItem}
    (hp : h.cell p = some it) (hnd : it.IsDone = false) :
    ∃ h2 s, SizeOnly h h2 ∧ SizesTyped h2 ∧ (it.IsType IT_DRIVE = false → h2 = h) ∧
      h2.cell p = some (it.withSize s) ∧
      SetDone env h p = some (h2.set p (doneF h2 (it.withSize s))) := by
  have hsort : ∀ (h2 : Heap) (s : Nat), h2.cell p = some (it.withSize s) →
      (if it.m_ci = none then some h2 else SortItemsBySize h2 p) =
        some (h2.set p (sortF h2 (it.withSize s))) := by
    intro h2 s hp2
    by_cases hci : it.m_ci = none
    · simp only [hci, if_true]
      rw [sortF_of_noCi h2 (show (it.withSize s).m_ci = none from hci),
        set_same hp2]
    · simp only [hci, if_false]
      unfold SortItemsBySize
      rw [modify_eq hp2]
      rfl
  have hfin : ∀ (h2 : Heap) (s : Nat), h2.cell p = some (it.withSize s) →
      (h2.set p (sortF h2 (it.withSize s))).modify p (fun it3 => it3.SetType ITF_DONE true) =
        some (h2.set p (doneF h2 (it.withSize s))) := by
    intro h2 s hp2
    have hc3 : (h2.set p (sortF h2 (it.withSize s))).cell p = some (sortF h2 (it.withSize s)) := by
      rw [cell_set_of_live hp2]; simp
    rw [modify_eq hc3, set_set]
    rfl
  unfold SetDone
  simp only [hp, hnd, Bool.false_eq_true, if_false]
  by_cases hd : it.IsType IT_DRIVE = true
  · simp only [hd, if_true]
    obtain ⟨ci, hci⟩ := Option.ne_none_iff_exists'.mp (hwf.drive_hasCi hp hd)
    obtain ⟨h1, e1, s1, t1⟩ := UpdateFreeSpaceItem_spec env hwf hp hci
    obtain ⟨s, hp1⟩ := s1.cell hp
    obtain ⟨h2, e2, s2, t2⟩ := UpdateUnknownItem_spec env (s1.wf hwf t1) hp1
      (show (it.withSize s).m_ci = some ci from hci)
    obtain ⟨s3, hp2⟩ := (s1.trans s2).cell hp
    refine ⟨h2, s3, s1.trans s2, t2, (fun hf => by simp [hd] at hf), hp2, ?_⟩
    rw [e1]
    simp only []
    rw [e2]
    simp only []
    rw [hsort h2 s3 hp2]
    simp only []
    exact hfin h2 s3 hp2
  · simp only [hd, Bool.false_eq_true, if_false]
    have hp2 : h.cell p = some (it.withSize it.m_size) := hp
    refine ⟨h, it.m_size, SizeOnly.refl h, hwf.sizesTyped, (fun _ => rfl), hp2, ?_⟩
    rw [hsort h it.m_size hp2]
    simp only []
    exact hfin h it.m_size hp2

/-! ### C9 -/

theorem GetSize_set {h : Heap} {p : Nat} {it0 : CItem} (hp : h.cell p = some it0) (it : CItem)
    (hs : it.m_size = it0.m_size) (q : Nat) : (h.set p it).GetSize q = h.GetSize q := by
  unfold Heap.GetSize
  rw [cell_set_of_live hp]
  by_cases hq : q = p
  · subst hq; simp [hp, hs]
  · simp [hq]

theorem SetType_size (it : CItem) (F : ITEMTYPE) (b : Bool) : (it.SetType F b).m_size = it.m_size := by
  unfold CItem.SetType; split <;> rfl

theorem SetType_ci (it : CItem) (F : ITEMTYPE) (b : Bool) : (it.SetType F b).m_ci = it.m_ci := by
  unfold CItem.SetType; split <;> rfl

theorem SetType_parent (it : CItem) (F : ITEMTYPE) (b : Bool) :
    (it.SetType F b).m_parent = it.m_parent := by
  unfold CItem.SetType; split <;> rfl

theorem sortF_size (h : Heap) (it : CItem) : (sortF h it).m_size = it.m_size := by
  unfold sortF; split <;> rfl

theorem sortF_parent (h : Heap) (it : CItem) : (sortF h it).m_parent = it.m_parent := by
  unfold sortF; split <;> rfl

theorem sortF_type (h : Heap) (it : CItem) : (sortF h it).m_type = it.m_type := by
  unfold sortF; split <;> rfl

theorem doneF_size (h : Heap) (it : CItem) : (doneF h it).m_size = it.m_size := by
  unfold doneF; rw [SetType_size, sortF_size]

theorem doneF_ci (h : Heap) (it : CItem) {ci : CHILDINFO} (hci : it.m_ci = some ci) :
    (doneF h it).m_ci = some { ci with
      m_children := ci.m_children.insertionSort fun a b => h.GetSize b ≤ h.GetSize a } := by
  unfold doneF
  rw [SetType_ci]
  simp [sortF, hci]

theorem sorted_by_size (f : Nat → Nat) (l : List Nat) :
    (l.insertionSort fun a b => f b ≤ f a).Sorted (fun a b => f b ≤ f a) := by
  haveI : IsTotal Nat (fun a b => f b ≤ f a) := ⟨fun a b => Nat.le_total (f b) (f a)⟩
  haveI : IsTrans Nat (fun a b => f b ≤ f a) := ⟨fun a b c hab hbc => Nat.le_trans hbc hab⟩
  exact List.sorted_insertionSort _ l

/-- C9: for a live item with a `CHILDINFO` (a directory-like item) of a well-formed
tree that is not done, `SetDone` returns; afterwards the item is done, its child list
is a permutation of the former child list, and in it every child is at least as big
as every child after it, by the sizes the children have after the call. -/
theorem C9_SetDone_sorts (env : Env) (h : Heap) (hwf : h.WF) (p : Nat) (it : CItem)
    (ci : CHILDINFO) (hp : h.cell p = some it) (hci : it.m_ci = some ci)
    (hnd : it.IsDone = false) :
    ∃ h1 it1 ci1, SetDone env h p = some h1 ∧ h1.cell p = some it1 ∧ it1.IsDone = true ∧
      it1.m_ci = some ci1 ∧ ci1.m_children.Perm ci.m_children ∧
      ci1.m_children.Sorted (fun a b => h1.GetSize b ≤ h1.GetSize a) := by
  obtain ⟨h2, s, _, _, _, hp2, hres⟩ := SetDone_spec env hwf hp hnd
  have hsz : ∀ q, (h2.set p (doneF h2 (it.withSize s))).GetSize q = h2.GetSize q :=
    GetSize_set hp2 _ (doneF_size _ _)
  refine ⟨_, doneF h2 (it.withSize s), _, hres, ?_, ?_,
    doneF_ci h2 (it.withSize s) (show (it.withSize s).m_ci = some ci from hci), ?_, ?_⟩
  · rw [cell_set_of_live hp2]; simp
  · exact IsDone_SetType_true _
  · exact List.perm_insertionSort _ _
  · have e : (fun a b => (h2.set p (doneF h2 (it.withSize s))).GetSize b ≤
        (h2.set p (doneF h2 (it.withSize s))).GetSize a) =
        fun a b => h2.GetSize b ≤ h2.GetSize a := by
      funext a b
      rw [hsz, hsz]
    rw [e]
    exact sorted_by_size _ _

/-- C9 at the root of `exUndone`. -/
theorem C9_SetDone_sorts_witness :
    exUndone.WF ∧
    exUndone.cell 0 = some
      { m_parent := none, m_name := "root", m_lastChange := 0, m_size := 12,
        m_attributes := 0, m_type := 516,
        m_ci := some { m_children := [1, 2], m_files := 2, m_subdirs := 0, m_jobs := 1 } } ∧
    ∃ h1 it1 ci1, SetDone exEnv exUndone 0 = some h1 ∧ h1.cell 0 = some it1 ∧
      it1.IsDone = true ∧ it1.m_ci = some ci1 ∧ ci1.m_children.Perm [1, 2] ∧
      ci1.m_children.Sorted (fun a b => h1.GetSize b ≤ h1.GetSize a) :=
  ⟨WF_of_wfCheck (by decide), by decide,
    C9_SetDone_sorts exEnv exUndone (WF_of_wfCheck (by decide)) 0
      { m_parent := none, m_name := "root", m_lastChange := 0, m_size := 12,
        m_attributes := 0, m_type := 516,
        m_ci := some { m_children := [1, 2], m_files := 2, m_subdirs := 0, m_jobs := 1 } }
      { m_children := [1, 2], m_files := 2, m_subdirs := 0, m_jobs := 1 }
      (by decide) rfl (by decide)⟩

/-! ### Heaps of the same shape -/

theorem SameShape.refl_shape (h : Heap) : SameShape h h := ⟨rfl, fun _ => rfl⟩

theorem SameShape.trans_shape {h1 h2 h3 : Heap} (a : SameShape h1 h2) (b : SameShape h2 h3) :
    SameShape h1 h3 := ⟨b.1.trans a.1, fun q => (b.2 q).trans (a.2 q)⟩

theorem SameShape.symm_shape {h1 h2 : Heap} (a : SameShape h1 h2) : SameShape h2 h1 :=
  ⟨a.1.symm, fun q => (a.2 q).symm⟩

theorem SameShape.cell_shape {h h2 : Heap} (hs : SameShape h h2) {q : Nat} {it : CItem}
    (hq : h.cell q = some it) : ∃ it2, h2.cell q = some it2 ∧ it2.skel = it.skel := by
  have := hs.2 q
  rw [hq] at this
  cases h2q : h2.cell q with
  | none => rw [h2q] at this; simp at this
  | some it2 =>
    rw [h2q] at this
    simp only [Option.map_some', Option.some.injEq] at this
    exact ⟨it2, rfl, this⟩

theorem SameShape.cell_none_shape {h h2 : Heap} (hs : SameShape h h2) {q : Nat}
    (hq : h.cell q = none) : h2.cell q = none := by
  have := hs.2 q
  rw [hq] at this
  simpa using this

theorem skel_parent {a b : CItem} (h : a.skel = b.skel) : a.m_parent = b.m_parent :=
  congrArg (fun s => s.1) h

theorem skel_name {a b : CItem} (h : a.skel = b.skel) : a.m_name = b.m_name :=
  congrArg (fun s => s.2.1) h

theorem skel_type {a b : CItem} (h : a.skel = b.skel) : a.GetType = b.GetType :=
  congrArg (fun s => s.2.2.1) h

theorem skel_ci_none {a b : CItem} (h : a.skel = b.skel) (hb : b.m_ci = none) : a.m_ci = none := by
  have := congrArg (fun s => s.2.2.2) h
  simp only [CItem.skel, hb, Option.map_none', Option.map_eq_none'] at this
  exact this

theorem skel_ci_some {a b : CItem} (h : a.skel = b.skel) {cb : CHILDINFO} (hb : b.m_ci = some cb) :
    ∃ ca, a.m_ci = some ca ∧ ca.m_children.Perm cb.m_children := by
  have := congrArg (fun s => s.2.2.2) h
  simp only [CItem.skel, hb, Option.map_some', Option.map_eq_some'] at this
  obtain ⟨ca, hca, hm⟩ := this
  exact ⟨ca, hca, Quotient.exact hm⟩

theorem skel_isType {a b : CItem} (h : a.skel = b.skel) (T : ITEMTYPE) (hT : 255 &&& T = T) :
    a.IsType T = b.IsType T := by
  rw [IsType_eq_GetType a T hT, IsType_eq_GetType b T hT, skel_type h]

theorem SameShape.parents_shape {h h2 : Heap} (hs : SameShape h h2) (q : Nat) :
    (h2.cell q).map CItem.m_parent = (h.cell q).map CItem.m_parent := by
  cases hq : h.cell q with
  | none => rw [hs.cell_none_shape hq]
  | some it =>
    obtain ⟨it2, h2q, hsk⟩ := hs.cell_shape hq
    rw [h2q]
    simp [skel_parent hsk]

theorem SameShape.chain_shape {h h2 : Heap} (hs : SameShape h h2) (p : Nat) :
    h2.chain p = h.chain p :=
  chain_congr hs.1 hs.parents_shape p

theorem Heap.WF.toTyped {h : Heap} (hwf : h.WF) : h.Typed := hwf.typed

theorem SameShape.wf_shape {h h2 : Heap} (hs : SameShape h h2) (hwf : h.WF) (hty : h2.Typed) :
    h2.WF := by
  have back : ∀ q it2, h2.cell q = some it2 → ∃ it, h.cell q = some it ∧ it2.skel = it.skel := by
    intro q it2 hq
    obtain ⟨it, hit, hsk⟩ := hs.symm_shape.cell_shape hq
    exact ⟨it, hit, hsk.symm⟩
  refine ⟨hty, ?_, ?_, ?_, ?_⟩
  · intro p it2 hp
    obtain ⟨it, hit, e⟩ := back p it2 hp
    rw [skel_type e]
    exact hwf.kind p it hit
  · intro p it2 hp
    obtain ⟨it, hit, e⟩ := back p it2 hp
    rw [skel_isType e IT_FILE (by decide)]
    constructor
    · intro hn
      exact (hwf.hasCi p it hit).mp (skel_ci_none e.symm hn)
    · intro hf
      exact skel_ci_none e ((hwf.hasCi p it hit).mpr hf)
  · intro p it2 q hp hpar
    obtain ⟨it, hit, e⟩ := back p it2 hp
    rw [skel_parent e] at hpar
    obtain ⟨hlt, pit, ci, hq, hci, hmem⟩ := hwf.parent p it q hit hpar
    obtain ⟨pit2, hq2, e2⟩ := hs.cell_shape hq
    obtain ⟨ci2, hci2, hperm⟩ := skel_ci_some e2 hci
    exact ⟨hlt, pit2, ci2, hq2, hci2, hperm.symm.subset hmem⟩
  · intro p it2 ci2 hp hci2
    obtain ⟨it, hit, e⟩ := back p it2 hp
    obtain ⟨ci, hci, hperm⟩ := skel_ci_some e.symm hci2
    obtain ⟨hnd, hch⟩ := hwf.children p it ci hit hci
    refine ⟨hperm.nodup_iff.mp hnd, ?_⟩
    intro c hc
    obtain ⟨cit, hcc, hcp⟩ := hch c (hperm.symm.subset hc)
    obtain ⟨cit2, hc2, e3⟩ := hs.cell_shape hcc
    exact ⟨cit2, hc2, by rw [skel_parent e3]; exact hcp⟩

theorem withSize_skel (s : Nat) (it : CItem) : (it.withSize s).skel = it.skel := rfl

theorem SizeOnly.sameShape {h h2 : Heap} (hs : SizeOnly h h2) : SameShape h h2 := by
  refine ⟨hs.1, fun q => ?_⟩
  cases hq : h.cell q with
  | none => rw [hs.cell_none hq]
  | some it =>
    obtain ⟨s, h2q⟩ := hs.cell hq
    rw [h2q]
    rfl

theorem SameShape_mapIdx (h : Heap) (F : Nat → CItem → CItem)
    (hF : ∀ q it, (F q it).skel = it.skel) : SameShape h (h.mapIdx F) := by
  refine ⟨by simp, fun q => ?_⟩
  rw [cell_mapIdx]
  cases h.cell q <;> simp [hF]

theorem SameShape_mapOn (h : Heap) (l : List Nat) (f : CItem → CItem)
    (hf : ∀ it, (f it).skel = it.skel) : SameShape h (h.mapOn l f) := by
  refine ⟨by simp, fun q => ?_⟩
  rw [cell_mapOn]
  split
  · cases h.cell q <;> simp [hf]
  · rfl

theorem SameShape_set {h : Heap} {p : Nat} {it : CItem} (hp : h.cell p = some it) (it2 : CItem)
    (hsk : it2.skel = it.skel) : SameShape h (h.set p it2) := by
  refine ⟨by simp, fun q => ?_⟩
  rw [cell_set_of_live hp]
  by_cases hq : q = p
  · subst hq; simp [hp, hsk]
  · simp [hq]

/-! ### The defect of an item -/

theorem add64_cast (a b : Nat) : ((add64 a b : Nat) : Z64) = (a : Z64) + (b : Z64) := by
  unfold add64
  rw [ZMod.natCast_mod]
  push_cast
  rfl

theorem sub64_cast (a b : Nat) : ((sub64 a b : Nat) : Z64) = (a : Z64) - (b : Z64) := by
  unfold sub64
  rw [ZMod.natCast_mod, Nat.cast_add,
    Nat.cast_sub (Nat.le_of_lt (Nat.mod_lt b (by decide))), ZMod.natCast_self, ZMod.natCast_mod]
  ring

theorem sum_cast (f : Nat → Nat) (l : List Nat) :
    (((l.map f).sum : Nat) : Z64) = (l.map fun x => (f x : Z64)).sum := by
  induction l with
  | nil => simp
  | cons a l ih => simp [ih]

theorem kids_eq {h : Heap} {a : Nat} {it : CItem} {ci : CHILDINFO} (ha : h.cell a = some it)
    (hci : it.m_ci = some ci) : h.kids a = ci.m_children := by
  simp [Heap.kids, ha, hci]

theorem sizeSum_iff_defect {h : Heap} :
    SizeSum h ↔ ∀ p it ci, h.cell p = some it → it.DirLike = true → it.m_ci = some ci →
      h.defect p = 0 := by
  constructor
  · intro hs p it ci hp hd hci
    have := hs p it ci hp hd hci
    unfold Heap.defect Heap.sizeZ
    rw [kids_eq hp hci, sub_eq_zero]
    have e : h.GetSize p = it.m_size := by simp [Heap.GetSize, hp]
    rw [e, ← sum_cast]
    exact (ZMod.natCast_eq_natCast_iff' _ _ _).mpr this
  · intro hs p it ci hp hd hci
    have := hs p it ci hp hd hci
    unfold Heap.defect Heap.sizeZ at this
    rw [kids_eq hp hci, sub_eq_zero] at this
    have e : h.GetSize p = it.m_size := by simp [Heap.GetSize, hp]
    rw [e, ← sum_cast] at this
    exact (ZMod.natCast_eq_natCast_iff' _ _ _).mp this

theorem kids_dead {h : Heap} {a : Nat} (ha : h.cell a = none) : h.kids a = [] := by
  simp [Heap.kids, ha]

theorem kids_noCi {h : Heap} {a : Nat} {it : CItem} (ha : h.cell a = some it)
    (hci : it.m_ci = none) : h.kids a = [] := by
  simp [Heap.kids, ha, hci]

theorem SameShape.kids {h h2 : Heap} (hs : SameShape h h2) (a : Nat) :
    (h2.kids a).Perm (h.kids a) := by
  cases ha : h.cell a with
  | none => rw [kids_dead ha, kids_dead (hs.cell_none_shape ha)]
  | some it =>
    obtain ⟨it2, h2a, hsk⟩ := hs.cell_shape ha
    cases hci : it.m_ci with
    | none => rw [kids_noCi ha hci, kids_noCi h2a (skel_ci_none hsk hci)]
    | some ci =>
      obtain ⟨ci2, hci2, hperm⟩ := skel_ci_some hsk hci
      rw [kids_eq ha hci, kids_eq h2a hci2]
      exact hperm

theorem Heap.WF.kids_live {h : Heap} (hwf : h.WF) {a x : Nat} (hx : x ∈ h.kids a) :
    ∃ ait ci xit, h.cell a = some ait ∧ ait.m_ci = some ci ∧ ci.m_children = h.kids a ∧
      h.cell x = some xit ∧ xit.m_parent = some a := by
  cases ha : h.cell a with
  | none => rw [kids_dead ha] at hx; simp at hx
  | some ait =>
    cases hci : ait.m_ci with
    | none => rw [kids_noCi ha hci] at hx; simp at hx
    | some ci =>
      rw [kids_eq ha hci] at hx
      obtain ⟨xit, hxc, hxp⟩ := (hwf.children a ait ci ha hci).2 x hx
      exact ⟨ait, ci, xit, rfl, hci, (kids_eq ha hci).symm, hxc, hxp⟩

theorem Heap.WF.kids_nodup {h : Heap} (hwf : h.WF) (a : Nat) : (h.kids a).Nodup := by
  cases ha : h.cell a with
  | none => rw [kids_dead ha]; exact List.nodup_nil
  | some ait =>
    cases hci : ait.m_ci with
    | none => rw [kids_noCi ha hci]; exact List.nodup_nil
    | some ci => rw [kids_eq ha hci]; exact (hwf.children a ait ci ha hci).1

/-- A child that lies on the chain of `s` has its parent on the chain, and the
parent is not `s`. -/
theorem chain_kid_parent {h : Heap} (hwf : h.WF) {s a x : Nat} {l : List Nat}
    (hl : h.chain s = some l) (hx : x ∈ h.kids a) (hxl : x ∈ l) : a ∈ l ∧ a ≠ s := by
  obtain ⟨ait, ci, xit, ha, hci, hk, hxc, hxp⟩ := hwf.kids_live hx
  have hb : h.below a s = true := below_of_child hxc hxp (below_iff.mpr ⟨l, hl, hxl⟩)
  obtain ⟨l2, hl2, hal⟩ := below_iff.mp hb
  rw [hl] at hl2
  cases hl2
  refine ⟨hal, ?_⟩
  intro e
  subst e
  have h1 := (hwf.parent x xit a hxc hxp).1
  have h2 := hwf.chain_le hl x hxl
  omega

theorem chain_kid_exists {h : Heap} (hwf : h.WF) {s a : Nat} {l : List Nat}
    (hl : h.chain s = some l) (hal : a ∈ l) (hne : a ≠ s) : ∃ x ∈ h.kids a, x ∈ l := by
  obtain ⟨x, xit, hxl, hxc, hxp⟩ := chainFuel_step_below _ s l hl hal (Ne.symm hne)
  obtain ⟨_, pit, ci, hpc, hci, hmem⟩ := hwf.parent x xit a hxc hxp
  exact ⟨x, by rw [kids_eq hpc hci]; exact hmem, hxl⟩

theorem chain_kid_unique {h : Heap} (hwf : h.WF) {s a x y : Nat} {l : List Nat}
    (hl : h.chain s = some l) (hx : x ∈ h.kids a) (hy : y ∈ h.kids a) (hxl : x ∈ l)
    (hyl : y ∈ l) : x = y := by
  by_contra hne
  obtain ⟨_, _, xit, _, _, _, hxc, hxp⟩ := hwf.kids_live hx
  obtain ⟨_, _, yit, _, _, _, hyc, hyp⟩ := hwf.kids_live hy
  exact below_disjoint hwf hxc hyc hxp hyp hne (below_iff.mpr ⟨l, hl, hxl⟩)
    (below_iff.mpr ⟨l, hl, hyl⟩)

theorem sum_change_one (cs : List Nat) (F G : Nat → Z64) (x : Nat) (hnd : cs.Nodup)
    (hx : x ∈ cs) (hsame : ∀ y ∈ cs, y ≠ x → G y = F y) :
    (cs.map G).sum = (cs.map F).sum + (G x - F x) := by
  induction cs with
  | nil => simp at hx
  | cons c cs ih =>
    obtain ⟨hc, hnd2⟩ := List.nodup_cons.mp hnd
    simp only [List.map_cons, List.sum_cons]
    by_cases hcx : c = x
    · subst hcx
      have : cs.map G = cs.map F := by
        apply List.map_congr_left
        intro y hy
        exact hsame y (List.mem_cons_of_mem _ hy) (fun e => hc (e ▸ hy))
      rw [this]
      ring
    · have hx2 : x ∈ cs := by
        rcases List.mem_cons.mp hx with e | e
        · exact absurd e.symm hcx
        · exact e
      rw [ih hnd2 hx2 (fun y hy hne => hsame y (List.mem_cons_of_mem _ hy) hne),
        hsame c (List.mem_cons_self _ _) hcx]
      ring

/-- The sum over the children of `a` of a shift applied along the chain of `s`. -/
theorem sum_chain_shift {h : Heap} (hwf : h.WF) {s : Nat} {l : List Nat}
    (hl : h.chain s = some l) (a : Nat) (F : Nat → Z64) (d : Z64) :
    ((h.kids a).map fun x => F x + (if x ∈ l then d else 0)).sum =
      ((h.kids a).map F).sum + (if a ∈ l ∧ a ≠ s then d else 0) := by
  by_cases hex : ∃ x ∈ h.kids a, x ∈ l
  · obtain ⟨x, hx, hxl⟩ := hex
    have hal := chain_kid_parent hwf hl hx hxl
    rw [sum_change_one (h.kids a) F (fun x => F x + (if x ∈ l then d else 0)) x
      (hwf.kids_nodup a) hx ?_]
    · simp [hxl, hal]
    · intro y hy hne
      have : y ∉ l := fun hyl => hne (chain_kid_unique hwf hl hy hx hyl hxl)
      simp [this]
  · have hno : ¬ (a ∈ l ∧ a ≠ s) := by
      rintro ⟨hal, hne⟩
      exact hex (chain_kid_exists hwf hl hal hne)
    have : (h.kids a).map (fun x => F x + (if x ∈ l then d else 0)) = (h.kids a).map F := by
      apply List.map_congr_left
      intro y hy
      have : y ∉ l := fun hyl => hex ⟨y, hy, hyl⟩
      simp [this]
    rw [this]
    simp [hno]

theorem defect_perm {h h2 : Heap} (hs : SameShape h h2) (a : Nat) :
    h2.defect a = h2.sizeZ a - ((h.kids a).map h2.sizeZ).sum := by
  unfold Heap.defect
  rw [((hs.kids a).map h2.sizeZ).sum_eq]

/-- A shift of the sizes along the chain of `s` moves the defect of `s` alone. -/
theorem defect_shift {h h2 : Heap} (hwf : h.WF) (hs : SameShape h h2) {s : Nat} {l : List Nat}
    (hl : h.chain s = some l) (d : Z64)
    (hsz : ∀ q, h2.sizeZ q = h.sizeZ q + (if q ∈ l then d else 0)) (a : Nat) :
    h2.defect a = h.defect a + (if a = s then d else 0) := by
  rw [defect_perm hs]
  have : (h.kids a).map h2.sizeZ = (h.kids a).map fun x => h.sizeZ x + (if x ∈ l then d else 0) :=
    List.map_congr_left (fun x _ => hsz x)
  rw [this, sum_chain_shift hwf hl, hsz]
  unfold Heap.defect
  obtain ⟨_, l1, _, rfl⟩ := chain_head hl
  by_cases has : a = s
  · subst has
    simp only [List.mem_cons, true_or, if_true, ne_eq, not_true_eq_false, and_false, if_false]
    ring
  · by_cases hal : a ∈ s :: l1
    · simp only [hal, has, if_true, if_false, ne_eq, not_false_eq_true, and_self]
      ring
    · simp only [hal, has, if_false, false_and]
      ring

/-! ### Operations that keep the shape and the defects -/

theorem skel_dirLike {a b : CItem} (h : a.skel = b.skel) : a.DirLike = b.DirLike :=
  skel_isType h _ (by decide)

theorem Rebalanced.refl_bal {h : Heap} (hwf : h.WF) : Rebalanced h h :=
  ⟨SameShape.refl_shape h, hwf.typed, fun _ _ _ _ => rfl⟩

theorem Rebalanced.trans_bal {h1 h2 h3 : Heap} (a : Rebalanced h1 h2) (b : Rebalanced h2 h3) :
    Rebalanced h1 h3 := by
  refine ⟨a.1.trans_shape b.1, b.2.1, ?_⟩
  intro x it hx hd
  obtain ⟨it2, hx2, hsk⟩ := a.1.cell_shape hx
  rw [b.2.2 x it2 hx2 (by rw [skel_dirLike hsk]; exact hd), a.2.2 x it hx hd]

theorem Rebalanced.wf_bal {h h2 : Heap} (r : Rebalanced h h2) (hwf : h.WF) : h2.WF :=
  r.1.wf_shape hwf r.2.1

theorem Rebalanced.sizeSum {h h2 : Heap} (r : Rebalanced h h2) (hs : SizeSum h) : SizeSum h2 := by
  rw [sizeSum_iff_defect] at hs ⊢
  intro p it2 ci2 hp hd hci
  obtain ⟨it, hit, hsk⟩ := r.1.symm_shape.cell_shape hp
  obtain ⟨ci, hci1, _⟩ := skel_ci_some hsk hci
  have hd1 : it.DirLike = true := by rw [skel_dirLike hsk]; exact hd
  rw [r.2.2 p it hit hd1]
  exact hs p it ci hit hd1 hci1

theorem GetSize_of_cell {h : Heap} {q : Nat} {it : CItem} (hq : h.cell q = some it) :
    h.GetSize q = it.m_size := by
  simp [Heap.GetSize, hq]

theorem GetSize_dead {h : Heap} {q : Nat} (hq : h.cell q = none) : h.GetSize q = 0 := by
  simp [Heap.GetSize, hq]

theorem addSizeF_cast (n : Nat) (it : CItem) :
    (((addSizeF n it).m_size : Nat) : Z64) = (it.m_size : Z64) + (n : Z64) := by
  unfold addSizeF
  split
  · rename_i hn; subst hn; simp
  · exact add64_cast _ _

theorem subSizeF_cast (n : Nat) (it : CItem) :
    (((subSizeF n it).m_size : Nat) : Z64) = (it.m_size : Z64) - (n : Z64) := by
  unfold subSizeF
  split
  · rename_i hn; subst hn; simp
  · exact sub64_cast _ _

theorem sizeZ_mapOn {h : Heap} {s : Nat} {l : List Nat} (hl : h.chain s = some l)
    (f : CItem → CItem) (d : Z64) (hf : ∀ it, ((f it).m_size : Z64) = (it.m_size : Z64) + d)
    (q : Nat) : (h.mapOn l f).sizeZ q = h.sizeZ q + (if q ∈ l then d else 0) := by
  unfold Heap.sizeZ
  by_cases hq : q ∈ l
  · obtain ⟨it, hit⟩ := chain_live hl q hq
    have hc2 : (h.mapOn l f).cell q = some (f it) := by rw [cell_mapOn, hit]; simp [hq]
    rw [GetSize_of_cell hit, GetSize_of_cell hc2, hf]
    simp [hq]
  · have : (h.mapOn l f).GetSize q = h.GetSize q := by
      unfold Heap.GetSize
      rw [cell_mapOn]
      simp [hq]
    rw [this]
    simp [hq]

theorem Typed_of_sizes {h h2 : Heap} (hwf : h.WF) (hs : SizeOnly h h2) (hty : SizesTyped h2) :
    h2.Typed := (hs.wf hwf hty).typed

/-- Adding `n` to the sizes along the chain of `s`. -/
theorem shift_add {h : Heap} (hwf : h.WF) {s : Nat} {l : List Nat} (hl : h.chain s = some l)
    (n : Nat) :
    (h.mapOn l (addSizeF n)).WF ∧ SizeOnly h (h.mapOn l (addSizeF n)) ∧
      ∀ a, (h.mapOn l (addSizeF n)).defect a = h.defect a + (if a = s then (n : Z64) else 0) := by
  have so := SizeOnly_mapOn h l (addSizeF n) (addSizeF_sizeOnly n)
  have ty := SizesTyped_mapOn hwf.sizesTyped l _ (addSizeF_typed n)
  exact ⟨so.wf hwf ty, so, fun a => defect_shift hwf so.sameShape hl _
    (sizeZ_mapOn hl _ _ (addSizeF_cast n)) a⟩

/-- Subtracting `n` from the sizes along the chain of `s`. -/
theorem shift_sub {h : Heap} (hwf : h.WF) {s : Nat} {l : List Nat} (hl : h.chain s = some l)
    (n : Nat) :
    (h.mapOn l (subSizeF n)).WF ∧ SizeOnly h (h.mapOn l (subSizeF n)) ∧
      ∀ a, (h.mapOn l (subSizeF n)).defect a = h.defect a + (if a = s then -(n : Z64) else 0) := by
  have so := SizeOnly_mapOn h l (subSizeF n) (subSizeF_sizeOnly n)
  have ty := SizesTyped_mapOn hwf.sizesTyped l _ (subSizeF_typed n)
  exact ⟨so.wf hwf ty, so, fun a => defect_shift hwf so.sameShape hl _
    (sizeZ_mapOn hl _ _ (fun it => by rw [subSizeF_cast]; ring)) a⟩

/-- A pseudo item is not directory-like. -/
theorem not_dirLike_of_isType {h : Heap} (hwf : h.WF) {p : Nat} {it : CItem}
    (hp : h.cell p = some it) {T : ITEMTYPE} (hT : T = IT_FREESPACE ∨ T = IT_UNKNOWN ∨ T = IT_FILE)
    (ht : it.IsType T = true) : it.DirLike = false := by
  unfold CItem.DirLike
  rcases hwf.kind p it hp with e | e | e | e | e | e <;>
    rcases hT with rfl | rfl | rfl <;>
    (have t1 := IsType_of_GetType it _ _ e (by decide : 255 &&& (ITEMTYPE.or (ITEMTYPE.or
        IT_MYCOMPUTER IT_DRIVE) IT_DIRECTORY) = (ITEMTYPE.or (ITEMTYPE.or IT_MYCOMPUTER IT_DRIVE)
        IT_DIRECTORY))
     first
     | (rw [t1]; decide)
     | (have t2 := IsType_of_GetType it _ IT_FREESPACE e (by decide)
        rw [ht] at t2
        exact absurd t2 (by decide))
     | (have t2 := IsType_of_GetType it _ IT_UNKNOWN e (by decide)
        rw [ht] at t2
        exact absurd t2 (by decide))
     | (have t2 := IsType_of_GetType it _ IT_FILE e (by decide)
        rw [ht] at t2
        exact absurd t2 (by decide)))

/-! ### Single-item updates -/

theorem GetType_SetType_done (it : CItem) (b : Bool) :
    (it.SetType ITF_DONE b).GetType = it.GetType := by
  rw [GetType_eq, GetType_eq]
  cases b
  · simp only [CItem.SetType, Bool.false_eq_true, if_false, minus_done]
    rw [Nat.and_assoc]
    have e : (65279 &&& 255) = 255 := by decide
    rw [e]
  · simp only [CItem.SetType, if_true, ITEMTYPE.or, ITF_DONE]
    rw [Nat.and_comm, Nat.and_or_distrib_left]
    have e : (255 &&& 256) = 0 := by decide
    rw [e, Nat.or_zero, Nat.and_comm]

theorem SetType_name (it : CItem) (F : ITEMTYPE) (b : Bool) :
    (it.SetType F b).m_name = it.m_name := by
  unfold CItem.SetType; split <;> rfl

theorem SetType_done_skel (it : CItem) (b : Bool) : (it.SetType ITF_DONE b).skel = it.skel := by
  unfold CItem.skel
  rw [GetType_SetType_done, SetType_parent, SetType_name, SetType_ci]

theorem sortF_skel (h : Heap) (it : CItem) : (sortF h it).skel = it.skel := by
  unfold sortF
  cases hci : it.m_ci with
  | none => rfl
  | some ci =>
    simp only [CItem.skel, CItem.GetType, hci, Option.map_some']
    refine Prod.ext rfl (Prod.ext rfl (Prod.ext rfl ?_))
    simp only [Option.some.injEq]
    exact Quot.sound (List.perm_insertionSort _ _)

theorem doneF_skel (h : Heap) (it : CItem) : (doneF h it).skel = it.skel := by
  unfold doneF
  rw [SetType_done_skel, sortF_skel]

theorem sizeZ_of_cell {h : Heap} {q : Nat} {it : CItem} (hq : h.cell q = some it) :
    h.sizeZ q = (it.m_size : Z64) := by
  unfold Heap.sizeZ
  rw [GetSize_of_cell hq]

/-- Equal sizes on the same tree give equal defects. -/
theorem defect_same_sizes {h h2 : Heap} (hs : SameShape h h2)
    (hsz : ∀ q, h2.sizeZ q = h.sizeZ q) (a : Nat) : h2.defect a = h.defect a := by
  rw [defect_perm hs]
  unfold Heap.defect
  rw [hsz a]
  congr 2
  exact List.map_congr_left (fun q _ => hsz q)

/-- Replacing an item by one of the same skeleton, size and counters. -/
theorem set_rebalanced {h : Heap} (hwf : h.WF) {p : Nat} {it : CItem} (hp : h.cell p = some it)
    (it2 : CItem) (hsk : it2.skel = it.skel) (hsz : it2.m_size = it.m_size)
    (hci : ∀ ci2, it2.m_ci = some ci2 → ∃ ci, it.m_ci = some ci ∧ ci2.m_files = ci.m_files ∧
      ci2.m_subdirs = ci.m_subdirs ∧ ci2.m_jobs = ci.m_jobs) :
    Rebalanced h (h.set p it2) := by
  have ss := SameShape_set hp it2 hsk
  refine ⟨ss, ?_, fun a _ _ _ => defect_same_sizes ss (fun q => ?_) a⟩
  · intro q qit hq
    rw [cell_set_of_live hp] at hq
    by_cases hqp : q = p
    · simp only [hqp, if_true, Option.some.injEq] at hq
      subst hq
      refine ⟨by rw [hsz]; exact (hwf.typed p it hp).1, fun ci2 h2 => ?_⟩
      obtain ⟨ci, hc, e1, e2, e3⟩ := hci ci2 h2
      rw [e1, e2, e3]
      exact (hwf.typed p it hp).2 ci hc
    · simp only [hqp, if_false] at hq
      exact hwf.typed q qit hq
  · unfold Heap.sizeZ Heap.GetSize
    rw [cell_set_of_live hp]
    by_cases hqp : q = p
    · subst hqp; simp [hp, hsz]
    · simp [hqp]

theorem setType_done_rebalanced {h : Heap} (hwf : h.WF) {p : Nat} {it : CItem}
    (hp : h.cell p = some it) (b : Bool) : Rebalanced h (h.set p (it.SetType ITF_DONE b)) :=
  set_rebalanced hwf hp _ (SetType_done_skel it b) (SetType_size it _ b)
    (fun ci2 h2 => ⟨ci2, by rw [← h2, SetType_ci], rfl, rfl, rfl⟩)

theorem doneF_rebalanced {h : Heap} (hwf : h.WF) {p : Nat} {it : CItem}
    (hp : h.cell p = some it) : Rebalanced h (h.set p (doneF h it)) := by
  refine set_rebalanced hwf hp _ (doneF_skel h it) (doneF_size h it) (fun ci2 h2 => ?_)
  cases hci : it.m_ci with
  | none =>
    have : (doneF h it).m_ci = none := by
      unfold doneF sortF
      rw [SetType_ci]
      simp [hci]
    rw [this] at h2
    cases h2
  | some ci =>
    rw [doneF_ci h it hci] at h2
    cases h2
    exact ⟨ci, rfl, rfl, rfl, rfl⟩

/-- Setting the size of the child `u` of `p` changes the defects of `u` and `p` alone. -/
theorem defect_set_size {h : Heap} (hwf : h.WF) {u p : Nat} {uit : CItem}
    (hu : h.cell u = some uit) (hpar : uit.m_parent = some p) (n : Nat) (a : Nat) :
    (h.set u (uit.withSize n)).defect a =
      h.defect a + (if a = u then (n : Z64) - (uit.m_size : Z64) else 0)
        - (if a = p then (n : Z64) - (uit.m_size : Z64) else 0) := by
  have ss : SameShape h (h.set u (uit.withSize n)) := SameShape_set hu _ (withSize_skel n uit)
  have hsz : ∀ q, (h.set u (uit.withSize n)).sizeZ q = if q = u then (n : Z64) else h.sizeZ q := by
    intro q
    unfold Heap.sizeZ Heap.GetSize
    rw [cell_set_of_live hu]
    by_cases hq : q = u
    · simp [hq, CItem.withSize]
    · simp [hq]
  obtain ⟨_, pit, ci, hpc, hci, hmem⟩ := hwf.parent u uit p hu hpar
  rw [defect_perm ss]
  unfold Heap.defect
  by_cases hap : a = p
  · subst hap
    have hne : a ≠ u := by
      intro e
      have := (hwf.parent u uit a hu hpar).1
      omega
    have hk : u ∈ h.kids a := by rw [kids_eq hpc hci]; exact hmem
    rw [sum_change_one (h.kids a) h.sizeZ _ u (hwf.kids_nodup a) hk
      (fun y _ hy => by rw [hsz y]; simp [hy]), hsz a, hsz u, sizeZ_of_cell hu]
    simp only [hne, if_false, if_true]
    ring
  · have hk : u ∉ h.kids a := by
      intro hk
      obtain ⟨_, _, xit, _, _, _, hxc, hxp⟩ := hwf.kids_live hk
      rw [hu] at hxc
      cases hxc
      rw [hpar] at hxp
      exact hap (Option.some.inj hxp).symm
    have hm : (h.kids a).map (h.set u (uit.withSize n)).sizeZ = (h.kids a).map h.sizeZ :=
      List.map_congr_left (fun y hy => by
        rw [hsz y]
        have : y ≠ u := fun e => hk (e ▸ hy)
        simp [this])
    rw [hm, hsz a]
    by_cases hau : a = u
    · subst hau
      simp only [if_true, hap, if_false, sizeZ_of_cell hu]
      ring
    · simp only [hau, hap, if_false]
      ring

theorem set_size_typed {h : Heap} (hwf : h.WF) {u : Nat} {uit : CItem}
    (hu : h.cell u = some uit) (n : Nat) (hn : n < 18446744073709551616) :
    (h.set u (uit.withSize n)).Typed := by
  intro q qit hq
  rw [cell_set_of_live hu] at hq
  by_cases hqp : q = u
  · simp only [hqp, if_true, Option.some.injEq] at hq
    subst hq
    exact ⟨hn, fun ci hc => (hwf.typed u uit hu).2 ci hc⟩
  · simp only [hqp, if_false] at hq
    exact hwf.typed q qit hq

/-! ### Parent walks that keep the shape -/

/-- A parent walk whose body keeps the tree and establishes a transitive relation
runs to completion along the chain and establishes the relation. -/
theorem upward_inv (body : Heap → Nat → Option Heap) (R : Heap → Heap → Prop)
    (hrefl : ∀ h, h.WF → R h h) (htrans : ∀ a b c, R a b → R b c → R a c)
    (hshape : ∀ a b, R a b → SameShape a b) (hkeep : ∀ a b, a.WF → R a b → b.WF)
    (hbody : ∀ h p it, h.WF → h.cell p = some it → ∃ h1, body h p = some h1 ∧ R h h1) :
    ∀ (fuel : Nat) (h : Heap) (s : Option Nat) (l : List Nat), h.WF →
      chainFuel h fuel s = some l → ∃ h2, upward body fuel h s = some h2 ∧ R h h2 := by
  intro fuel
  induction fuel with
  | zero =>
    intro h s l hwf hc
    cases s with
    | none => exact ⟨h, rfl, hrefl h hwf⟩
    | some p => simp [chainFuel] at hc
  | succ n ih =>
    intro h s l hwf hc
    cases s with
    | none => exact ⟨h, rfl, hrefl h hwf⟩
    | some p =>
      obtain ⟨m, it, l1, hm, hcell, hr, _⟩ := chainFuel_some_iff.mp hc
      have hmn : m = n := by omega
      subst hmn
      obtain ⟨h1, hb, r1⟩ := hbody h p it hwf hcell
      obtain ⟨it1, hc1, hsk⟩ := (hshape _ _ r1).cell_shape hcell
      have hr1 : chainFuel h1 m it.m_parent = some l1 := by
        rw [chainFuel_congr (hshape _ _ r1).parents_shape]; exact hr
      obtain ⟨h2, hu, r2⟩ := ih h1 it.m_parent l1 (hkeep _ _ hwf r1) hr1
      refine ⟨h2, ?_, htrans _ _ _ r1 r2⟩
      simp only [upward, hb, hc1, skel_parent hsk]
      exact hu

theorem upward_rebalanced (body : Heap → Nat → Option Heap)
    (hbody : ∀ h p it, h.WF → h.cell p = some it → ∃ h1, body h p = some h1 ∧ Rebalanced h h1)
    {h : Heap} (hwf : h.WF) {s : Nat} {it : CItem} (hs : h.cell s = some it) :
    ∃ h2, upward body (h.next + 1) h (some s) = some h2 ∧ Rebalanced h h2 := by
  obtain ⟨l, hl⟩ := hwf.chain_exists hs
  exact upward_inv body Rebalanced (fun _ w => Rebalanced.refl_bal w)
    (fun _ _ _ a b => a.trans_bal b) (fun _ _ r => r.1) (fun _ _ w r => r.wf_bal w) hbody _ h _ l hwf hl

/-! ### The pseudo items and the done flag -/

/-- Re-basing the size of an item that is not directory-like, along its chain. -/
theorem rebase_rebalanced {h : Heap} (hwf : h.WF) {f : Nat} {fit : CItem} {lf : List Nat}
    (hf : h.cell f = some fit) (hnd : fit.DirLike = false) (hlf : h.chain f = some lf)
    (n m : Nat) : Rebalanced h ((h.mapOn lf (subSizeF n)).mapOn lf (addSizeF m)) := by
  obtain ⟨w1, s1, d1⟩ := shift_sub hwf hlf n
  obtain ⟨w2, s2, d2⟩ := shift_add w1 (s := f) (l := lf) (by rw [s1.chain]; exact hlf) m
  refine ⟨(s1.trans s2).sameShape, w2.typed, fun a ait ha hd => ?_⟩
  have hne : a ≠ f := by
    intro e
    subst e
    rw [hf] at ha
    cases ha
    rw [hnd] at hd
    cases hd
  rw [d2, d1]
  simp [hne]

theorem find_isTypeAt {h : Heap} {l : List Nat} {T : ITEMTYPE} {f : Nat} {fit : CItem}
    (hfind : l.find? (h.IsTypeAt T) = some f) (hf : h.cell f = some fit) :
    fit.IsType T = true := by
  have := List.find?_some hfind
  simpa [Heap.IsTypeAt, hf] using this

theorem UpdateFreeSpaceItem_rebalanced (env : Env) {h : Heap} (hwf : h.WF) {p : Nat} {it : CItem}
    {ci : CHILDINFO} (hp : h.cell p = some it) (hci : it.m_ci = some ci) :
    ∃ h2, UpdateFreeSpaceItem env h p = some h2 ∧ Rebalanced h h2 := by
  unfold UpdateFreeSpaceItem FindFreeSpaceItem
  rw [FindChildOfType_eq hp hci]
  cases hf : ci.m_children.find? (h.IsTypeAt _) with
  | none => exact ⟨h, rfl, Rebalanced.refl_bal hwf⟩
  | some f =>
    simp only []
    obtain ⟨fit, hfc, _⟩ := (hwf.children p it ci hp hci).2 f (List.mem_of_find?_eq_some hf)
    obtain ⟨lf, hlf⟩ := hwf.chain_exists hfc
    obtain ⟨lp, hlp⟩ := hwf.chain_exists hp
    rw [UpwardSubtractSize_eq hlf]
    simp only []
    have s1 := SizeOnly_mapOn h lf (subSizeF (h.GetSize f)) (subSizeF_sizeOnly _)
    obtain ⟨path, hpath⟩ := GetPath_some (h := h.mapOn lf (subSizeF (h.GetSize f))) (p := p)
      (by rw [s1.chain]; exact hlp)
    rw [hpath]
    simp only []
    rw [UpwardAddSize_eq (by rw [s1.chain]; exact hlf)]
    exact ⟨_, rfl, rebase_rebalanced hwf hfc
      (not_dirLike_of_isType hwf hfc (Or.inl rfl) (find_isTypeAt hf hfc)) hlf _ _⟩

theorem UpdateUnknownItem_rebalanced (env : Env) {h : Heap} (hwf : h.WF) {p : Nat} {it : CItem}
    {ci : CHILDINFO} (hp : h.cell p = some it) (hci : it.m_ci = some ci) :
    ∃ h2, UpdateUnknownItem env h p = some h2 ∧ Rebalanced h h2 := by
  unfold UpdateUnknownItem FindUnknownItem
  rw [FindChildOfType_eq hp hci]
  cases hf : ci.m_children.find? (h.IsTypeAt _) with
  | none => exact ⟨h, rfl, Rebalanced.refl_bal hwf⟩
  | some f =>
    simp only []
    obtain ⟨fit, hfc, _⟩ := (hwf.children p it ci hp hci).2 f (List.mem_of_find?_eq_some hf)
    obtain ⟨lf, hlf⟩ := hwf.chain_exists hfc
    obtain ⟨lp, hlp⟩ := hwf.chain_exists hp
    rw [UpwardSubtractSize_eq hlf]
    simp only []
    have s1 := SizeOnly_mapOn h lf (subSizeF (h.GetSize f)) (subSizeF_sizeOnly _)
    obtain ⟨path, hpath⟩ := GetPath_some (h := h.mapOn lf (subSizeF (h.GetSize f))) (p := p)
      (by rw [s1.chain]; exact hlp)
    obtain ⟨s, hp1⟩ := s1.cell hp
    have hfind := FindChildOfType_eq (h := h.mapOn lf (subSizeF (h.GetSize f))) hp1
      (show (it.withSize s).m_ci = some ci from hci) IT_FREESPACE
    unfold FindFreeSpaceItem
    rw [hpath, hfind]
    simp only []
    rw [UpwardAddSize_eq (by rw [s1.chain]; exact hlf)]
    exact ⟨_, rfl, rebase_rebalanced hwf hfc
      (not_dirLike_of_isType hwf hfc (Or.inr (Or.inl rfl)) (find_isTypeAt hf hfc)) hlf _ _⟩

theorem sort_step {h2 : Heap} {p : Nat} {it it2 : CItem} (hp2 : h2.cell p = some it2)
    (hci : it.m_ci = none → it2.m_ci = none) :
    (if it.m_ci = none then some h2 else SortItemsBySize h2 p) =
      some (h2.set p (sortF h2 it2)) := by
  by_cases hc : it.m_ci = none
  · simp only [hc, if_true]
    rw [sortF_of_noCi h2 (hci hc), set_same hp2]
  · simp only [hc, if_false]
    unfold SortItemsBySize
    rw [modify_eq hp2]
    rfl

theorem done_step {h2 : Heap} {p : Nat} {it2 : CItem} (hp2 : h2.cell p = some it2) :
    (h2.set p (sortF h2 it2)).modify p (fun it3 => it3.SetType ITF_DONE true) =
      some (h2.set p (doneF h2 it2)) := by
  have hc3 : (h2.set p (sortF h2 it2)).cell p = some (sortF h2 it2) := by
    rw [cell_set_of_live hp2]; simp
  rw [modify_eq hc3, set_set]
  rfl

/-- `SetDone` returns and keeps the tree and the defects of the directory-like items. -/
theorem SetDone_rebalanced (env : Env) {h : Heap} (hwf : h.WF) {p : Nat} {it : CItem}
    (hp : h.cell p = some it) : ∃ h2, SetDone env h p = some h2 ∧ Rebalanced h h2 := by
  unfold SetDone
  simp only [hp]
  by_cases hnd : it.IsDone = true
  · simp only [hnd, if_true]
    exact ⟨h, rfl, Rebalanced.refl_bal hwf⟩
  · simp only [hnd, Bool.false_eq_true, if_false]
    by_cases hd : it.IsType IT_DRIVE = true
    · simp only [hd, if_true]
      obtain ⟨ci, hci⟩ := Option.ne_none_iff_exists'.mp (hwf.drive_hasCi hp hd)
      obtain ⟨h1, e1, r1⟩ := UpdateFreeSpaceItem_rebalanced env hwf hp hci
      obtain ⟨it1, hp1, hsk1⟩ := r1.1.cell_shape hp
      obtain ⟨ci1, hci1, _⟩ := skel_ci_some hsk1 hci
      obtain ⟨h2, e2, r2⟩ := UpdateUnknownItem_rebalanced env (r1.wf_bal hwf) hp1 hci1
      obtain ⟨it2, hp2, hsk2⟩ := (r1.trans_bal r2).1.cell_shape hp
      refine ⟨_, ?_, (r1.trans_bal r2).trans_bal (doneF_rebalanced ((r1.trans_bal r2).wf_bal hwf) hp2)⟩
      rw [e1]
      simp only []
      rw [e2]
      simp only []
      rw [sort_step hp2 (fun hc => skel_ci_none hsk2 hc)]
      simp only []
      exact done_step hp2
    · simp only [hd, Bool.false_eq_true, if_false]
      refine ⟨_, ?_, doneF_rebalanced hwf hp⟩
      rw [sort_step hp (fun hc => hc)]
      simp only []
      exact done_step hp

/-- `UpwardSetDone` returns and keeps the tree and the defects. -/
theorem UpwardSetDone_rebalanced (env : Env) {h : Heap} (hwf : h.WF) {p : Nat} {it : CItem}
    (hp : h.cell p = some it) : ∃ h2, UpwardSetDone env h p = some h2 ∧ Rebalanced h h2 :=
  upward_rebalanced _ (fun _ _ _ w c => SetDone_rebalanced env w c) hwf hp

/-- One iteration of `UpwardSetUndone`. -/
theorem undone_step {h : Heap} (hwf : h.WF) {p : Nat} {it : CItem} (hp : h.cell p = some it) :
    ∃ h1, (match h.cell p with
      | none => none
      | some it =>
        let rebased : Option Heap :=
          if it.IsType IT_DRIVE && it.IsDone then
            match FindUnknownItem h p with
            | none => none
            | some none => some h
            | some (some unknown) =>
              match UpwardSubtractSize h p (h.GetSize unknown) with
              | none => none
              | some h1 => h1.modify unknown fun u => { u with m_size := 0 }
          else some h
        match rebased with
        | none => none
        | some h2 => h2.modify p fun it2 => it2.SetType ITF_DONE false) = some h1 ∧
      Rebalanced h h1 := by
  simp only [hp]
  have fin : ∀ h2, Rebalanced h h2 →
      ∃ h1, (h2.modify p fun it2 => it2.SetType ITF_DONE false) = some h1 ∧ Rebalanced h h1 := by
    intro h2 r
    obtain ⟨it2, hp2, _⟩ := r.1.cell_shape hp
    exact ⟨_, modify_eq hp2 _, r.trans_bal (setType_done_rebalanced (r.wf_bal hwf) hp2 false)⟩
  by_cases hd : (it.IsType IT_DRIVE && it.IsDone) = true
  · simp only [hd, if_true]
    have hdr : it.IsType IT_DRIVE = true := by
      simp only [Bool.and_eq_true] at hd
      exact hd.1
    obtain ⟨ci, hci⟩ := Option.ne_none_iff_exists'.mp (hwf.drive_hasCi hp hdr)
    unfold FindUnknownItem
    rw [FindChildOfType_eq hp hci]
    cases hf : ci.m_children.find? (h.IsTypeAt _) with
    | none =>
      simp only []
      exact fin h (Rebalanced.refl_bal hwf)
    | some u =>
      simp only []
      obtain ⟨uit, huc, hup⟩ := (hwf.children p it ci hp hci).2 u (List.mem_of_find?_eq_some hf)
      obtain ⟨lp, hlp⟩ := hwf.chain_exists hp
      rw [UpwardSubtractSize_eq hlp]
      simp only []
      obtain ⟨w1, s1, d1⟩ := shift_sub hwf hlp (h.GetSize u)
      have hul : u ∉ lp := by
        intro hm
        have h1 := hwf.chain_le hlp u hm
        have h2 := (hwf.parent u uit p huc hup).1
        omega
      have hu1 : (h.mapOn lp (subSizeF (h.GetSize u))).cell u = some uit := by
        rw [cell_mapOn]
        simp [hul, huc]
      rw [modify_eq hu1]
      simp only []
      have hnotdir : uit.DirLike = false :=
        not_dirLike_of_isType hwf huc (Or.inr (Or.inl rfl)) (find_isTypeAt hf huc)
      refine fin _ ⟨s1.sameShape.trans_shape (SameShape_set hu1 _ (withSize_skel 0 uit)),
        set_size_typed w1 hu1 0 (by decide), fun a ait ha hda => ?_⟩
      have hne : a ≠ u := by
        intro e
        subst e
        rw [huc] at ha
        cases ha
        rw [hnotdir] at hda
        cases hda
      have := defect_set_size w1 hu1 hup 0 a
      rw [show (h.mapOn lp (subSizeF (h.GetSize u))).set u { uit with m_size := 0 } =
        (h.mapOn lp (subSizeF (h.GetSize u))).set u (uit.withSize 0) from rfl, this, d1,
        GetSize_of_cell huc]
      by_cases hap : a = p
      · have hpu : p ≠ u := hap ▸ hne
        simp [hap, hpu]
      · simp [hap, hne]
  · simp only [hd, Bool.false_eq_true, if_false]
    exact fin h (Rebalanced.refl_bal hwf)

/-- `UpwardSetUndone` returns and keeps the tree and the defects. -/
theorem UpwardSetUndone_rebalanced {h : Heap} (hwf : h.WF) {p : Nat} {it : CItem}
    (hp : h.cell p = some it) : ∃ h2, UpwardSetUndone h p = some h2 ∧ Rebalanced h h2 :=
  upward_rebalanced _ (fun _ _ _ w c => undone_step w c) hwf hp

/-! ### Allocation and linking -/

theorem SameKinds.refl_kinds (h : Heap) : SameKinds h h := fun _ => rfl

theorem SameKinds.trans_kinds {h1 h2 h3 : Heap} (a : SameKinds h1 h2) (b : SameKinds h2 h3) :
    SameKinds h1 h3 := fun q => (b q).trans (a q)

theorem SameKinds.back {h h2 : Heap} (hk : SameKinds h h2) {q : Nat} {it2 : CItem}
    (hq : h2.cell q = some it2) :
    ∃ it, h.cell q = some it ∧ it.GetType = it2.GetType ∧ it.m_ci.isSome = it2.m_ci.isSome := by
  have := hk q
  rw [hq] at this
  cases hc : h.cell q with
  | none => rw [hc] at this; simp at this
  | some it =>
    rw [hc] at this
    simp only [Option.map_some', Option.some.injEq, Prod.mk.injEq] at this
    exact ⟨it, rfl, this.1.symm, this.2.symm⟩

theorem SameShape.sameKinds {h h2 : Heap} (hs : SameShape h h2) : SameKinds h h2 := by
  intro q
  cases hq : h.cell q with
  | none => rw [hs.cell_none_shape hq]
  | some it =>
    obtain ⟨it2, h2q, hsk⟩ := hs.cell_shape hq
    rw [h2q]
    simp only [Option.map_some', Option.some.injEq, Prod.mk.injEq]
    refine ⟨skel_type hsk, ?_⟩
    cases hci : it.m_ci with
    | none => rw [skel_ci_none hsk hci]
    | some ci =>
      obtain ⟨ci2, h2, _⟩ := skel_ci_some hsk hci
      rw [h2]
      rfl

theorem dirLike_of_getType {a b : CItem} (h : a.GetType = b.GetType) : a.DirLike = b.DirLike := by
  unfold CItem.DirLike
  rw [IsType_eq_GetType a _ (by decide), IsType_eq_GetType b _ (by decide), h]

/-- The size-sum invariant passes to a heap with the same kinds and the same
defects at the directory-like items. -/
theorem SizeSum_of_defects {h h2 : Heap} (hk : SameKinds h h2)
    (hd : ∀ a it, h.cell a = some it → it.DirLike = true → h2.defect a = h.defect a)
    (hs : SizeSum h) : SizeSum h2 := by
  rw [sizeSum_iff_defect] at hs ⊢
  intro p it2 ci2 hp hdl hci
  obtain ⟨it, hit, ht, hc⟩ := hk.back hp
  have hdl1 : it.DirLike = true := by rw [dirLike_of_getType ht]; exact hdl
  rw [hci] at hc
  obtain ⟨ci, hci1⟩ := Option.isSome_iff_exists.mp hc
  rw [hd p it hit hdl1]
  exact hs p it ci hit hdl1 hci1

theorem mapIdx_mapIdx (h : Heap) (F G : Nat → CItem → CItem) :
    (h.mapIdx F).mapIdx G = h.mapIdx fun q it => G q (F q it) := by
  refine Heap.ext (by simp) (fun q => ?_)
  simp only [cell_mapIdx, Option.map_map]
  rfl

theorem AddChild_link (h : Heap) (P child : Nat) (l : List Nat) (sz t : Nat) (b : Bool) :
    h.mapIdx (AddChildF P child l sz t b) = (h.mapIdx (propagateF l sz t b)).link P child := by
  unfold Heap.link
  rw [mapIdx_mapIdx]
  rfl

theorem cell_link (h : Heap) (P child q : Nat) :
    (h.link P child).cell q = (h.cell q).map (linkF P child q) := cell_mapIdx h _ q

theorem next_link (h : Heap) (P child : Nat) : (h.link P child).next = h.next := by
  simp [Heap.link]

theorem mapCi_size (f : CHILDINFO → CHILDINFO) (it : CItem) : (it.mapCi f).m_size = it.m_size := rfl

theorem linkF_size (P child q : Nat) (it : CItem) : (linkF P child q it).m_size = it.m_size := by
  unfold linkF
  dsimp only
  split_ifs <;> rfl

theorem linkF_type (P child q : Nat) (it : CItem) : (linkF P child q it).m_type = it.m_type := by
  unfold linkF
  dsimp only
  split_ifs <;> rfl

theorem linkF_ci (P child q : Nat) (it : CItem) :
    (linkF P child q it).m_ci = if q = P then it.m_ci.map (pushChildF child) else it.m_ci := by
  unfold linkF
  dsimp only
  split_ifs <;> rfl

theorem linkF_parent (P child q : Nat) (it : CItem) :
    (linkF P child q it).m_parent = if q = child then some P else it.m_parent := by
  unfold linkF
  dsimp only
  split_ifs <;> rfl

theorem sizeZ_link (h : Heap) (P child q : Nat) : (h.link P child).sizeZ q = h.sizeZ q := by
  unfold Heap.sizeZ Heap.GetSize
  rw [cell_link]
  cases h.cell q with
  | none => rfl
  | some it => simp [linkF_size]

theorem kids_link (h : Heap) {P child : Nat} {pit : CItem} {ci : CHILDINFO}
    (hP : h.cell P = some pit) (hci : pit.m_ci = some ci) (a : Nat) :
    (h.link P child).kids a = if a = P then h.kids a ++ [child] else h.kids a := by
  unfold Heap.kids
  rw [cell_link]
  by_cases ha : a = P
  · subst ha
    simp [hP, linkF_ci, hci, pushChildF]
  · cases hc : h.cell a with
    | none => simp [ha]
    | some it => simp [ha, linkF_ci]

theorem SameKinds_link (h : Heap) (P child : Nat) : SameKinds h (h.link P child) := by
  intro q
  rw [cell_link]
  cases h.cell q with
  | none => rfl
  | some it =>
    simp only [Option.map_some', Option.some.injEq, Prod.mk.injEq]
    refine ⟨by rw [GetType_eq, GetType_eq, linkF_type], ?_⟩
    rw [linkF_ci]
    split
    · cases it.m_ci <;> rfl
    · rfl

/-- Linking `child` below `P` lowers the defect of `P` by the size of `child`. -/
theorem defect_link (h : Heap) {P child : Nat} {pit : CItem} {ci : CHILDINFO}
    (hP : h.cell P = some pit) (hci : pit.m_ci = some ci) (a : Nat) :
    (h.link P child).defect a = h.defect a - (if a = P then h.sizeZ child else 0) := by
  unfold Heap.defect
  rw [kids_link h hP hci, sizeZ_link]
  have e : ∀ l : List Nat, l.map (h.link P child).sizeZ = l.map h.sizeZ :=
    fun l => List.map_congr_left (fun q _ => sizeZ_link h P child q)
  by_cases ha : a = P
  · simp only [ha, if_true, e, List.map_append, List.sum_append, List.map_cons, List.map_nil,
      List.sum_cons, List.sum_nil]
    ring
  · simp only [ha, if_false, e]
    ring

theorem link_back {h : Heap} {P child q : Nat} {it2 : CItem}
    (hq : (h.link P child).cell q = some it2) :
    ∃ it, h.cell q = some it ∧ it2 = linkF P child q it := by
  rw [cell_link] at hq
  cases hc : h.cell q with
  | none => rw [hc] at hq; cases hq
  | some it =>
    rw [hc] at hq
    exact ⟨it, rfl, (Option.some.inj hq).symm⟩

theorem linkF_isType (P child q : Nat) (it : CItem) (T : ITEMTYPE) :
    (linkF P child q it).IsType T = it.IsType T := by
  unfold CItem.IsType
  rw [linkF_type]

theorem linkF_getType (P child q : Nat) (it : CItem) :
    (linkF P child q it).GetType = it.GetType := by
  unfold CItem.GetType
  rw [linkF_type]

/-- Linking a detached item below an item allocated before it keeps the heap
well formed. -/
theorem wf_link {h : Heap} (hwf : h.WF) {P child : Nat} {pit cit : CItem} {ci : CHILDINFO}
    (hP : h.cell P = some pit) (hci : pit.m_ci = some ci) (hc : h.cell child = some cit)
    (hdet : cit.m_parent = none) (hlt : P < child) : (h.link P child).WF := by
  have hnotin : child ∉ ci.m_children := by
    intro hm
    obtain ⟨cit2, h1, h2⟩ := (hwf.children P pit ci hP hci).2 child hm
    rw [hc] at h1
    cases h1
    rw [hdet] at h2
    cases h2
  have hPl : (h.link P child).cell P = some (linkF P child P pit) := by
    rw [cell_link, hP]; rfl
  have hPci : (linkF P child P pit).m_ci = some (pushChildF child ci) := by
    rw [linkF_ci]; simp [hci]
  constructor
  · intro q it2 hq
    obtain ⟨it, hit, rfl⟩ := link_back hq
    rw [linkF_size, linkF_ci]
    refine ⟨(hwf.typed q it hit).1, fun ci2 h2 => ?_⟩
    by_cases hqP : q = P
    · simp only [hqP, if_true, Option.map_eq_some'] at h2
      obtain ⟨ci0, h0, rfl⟩ := h2
      exact (hwf.typed q it hit).2 ci0 h0
    · simp only [hqP, if_false] at h2
      exact (hwf.typed q it hit).2 ci2 h2
  · intro q it2 hq
    obtain ⟨it, hit, rfl⟩ := link_back hq
    rw [linkF_getType]
    exact hwf.kind q it hit
  · intro q it2 hq
    obtain ⟨it, hit, rfl⟩ := link_back hq
    rw [linkF_isType, linkF_ci, ← hwf.hasCi q it hit]
    split
    · simp
    · rfl
  · intro p it2 q hp hpar
    obtain ⟨it, hit, rfl⟩ := link_back hp
    rw [linkF_parent] at hpar
    by_cases hpc : p = child
    · simp only [hpc, if_true, Option.some.injEq] at hpar
      subst hpar
      subst hpc
      exact ⟨hlt, _, _, hPl, hPci, by simp [pushChildF]⟩
    · simp only [hpc, if_false] at hpar
      obtain ⟨hqp, qit, qci, hqc, hqci, hmem⟩ := hwf.parent p it q hit hpar
      refine ⟨hqp, linkF P child q qit, ?_⟩
      by_cases hqP : q = P
      · refine ⟨pushChildF child qci, by rw [cell_link, hqc]; rfl, ?_, by
          simp [pushChildF, hmem]⟩
        rw [linkF_ci]
        simp [hqP, hqci]
      · refine ⟨qci, by rw [cell_link, hqc]; rfl, ?_, hmem⟩
        rw [linkF_ci]
        simp [hqP, hqci]
  · intro p it2 ci2 hp hci2
    obtain ⟨it, hit, rfl⟩ := link_back hp
    rw [linkF_ci] at hci2
    by_cases hpP : p = P
    · subst hpP
      rw [hP] at hit
      cases hit
      simp only [if_true, hci, Option.map_some', Option.some.injEq] at hci2
      subst hci2
      obtain ⟨hnd, hch⟩ := hwf.children p pit ci hP hci
      refine ⟨?_, fun c hcm => ?_⟩
      · simp only [pushChildF]
        rw [List.nodup_append]
        refine ⟨hnd, List.nodup_singleton _, ?_⟩
        intro x hx hx2
        simp only [List.mem_singleton] at hx2
        subst hx2
        exact hnotin hx
      · simp only [pushChildF, List.mem_append, List.mem_singleton] at hcm
        rcases hcm with hcm | rfl
        · obtain ⟨cit2, h1, h2⟩ := hch c hcm
          refine ⟨linkF p child c cit2, by rw [cell_link, h1]; rfl, ?_⟩
          rw [linkF_parent]
          split
          · rfl
          · exact h2
        · refine ⟨linkF p c c cit, by rw [cell_link, hc]; rfl, ?_⟩
          rw [linkF_parent]
          simp
    · simp only [hpP, if_false] at hci2
      obtain ⟨hnd, hch⟩ := hwf.children p it ci2 hit hci2
      refine ⟨hnd, fun c hcm => ?_⟩
      obtain ⟨cit2, h1, h2⟩ := hch c hcm
      refine ⟨linkF P child c cit2, by rw [cell_link, h1]; rfl, ?_⟩
      rw [linkF_parent]
      have hcc : c ≠ child := by
        intro e
        subst e
        rw [hc] at h1
        cases h1
        rw [hdet] at h2
        cases h2
      simp [hcc, h2]

/-! ### Allocation -/

theorem cell_alloc_old {h : Heap} {q : Nat} {it : CItem} (hq : h.cell q = some it) (it0 : CItem) :
    (h.alloc it0).cell q = some it := by
  rw [cell_alloc]
  have := lt_next_of_cell hq
  have hne : q ≠ h.next := by omega
  simp [hne, hq]

theorem alloc_back {h : Heap} {it0 : CItem} {q : Nat} {it : CItem}
    (hq : (h.alloc it0).cell q = some it) :
    (q = h.next ∧ it = it0) ∨ (q ≠ h.next ∧ h.cell q = some it) := by
  rw [cell_alloc] at hq
  by_cases hn : q = h.next
  · simp only [hn, if_true, Option.some.injEq] at hq
    exact Or.inl ⟨hn, hq.symm⟩
  · simp only [hn, if_false] at hq
    exact Or.inr ⟨hn, hq⟩

/-- Allocating a fresh item keeps the heap well formed. -/
theorem wf_alloc {h : Heap} (hwf : h.WF) {it0 : CItem} (hf : it0.Fresh) : (h.alloc it0).WF := by
  obtain ⟨f1, f2, f3, f4, f5⟩ := hf
  constructor
  · intro q it hq
    rcases alloc_back hq with ⟨_, rfl⟩ | ⟨_, hq1⟩
    · exact ⟨f2, fun ci hc => (f5 ci hc).2⟩
    · exact hwf.typed q it hq1
  · intro q it hq
    rcases alloc_back hq with ⟨_, rfl⟩ | ⟨_, hq1⟩
    · exact f3
    · exact hwf.kind q it hq1
  · intro q it hq
    rcases alloc_back hq with ⟨_, rfl⟩ | ⟨_, hq1⟩
    · exact f4
    · exact hwf.hasCi q it hq1
  · intro p it q hp hpar
    rcases alloc_back hp with ⟨_, rfl⟩ | ⟨_, hp1⟩
    · rw [f1] at hpar; cases hpar
    · obtain ⟨hlt, pit, ci, h1, h2, h3⟩ := hwf.parent p it q hp1 hpar
      exact ⟨hlt, pit, ci, cell_alloc_old h1 it0, h2, h3⟩
  · intro p it ci hp hci
    rcases alloc_back hp with ⟨_, rfl⟩ | ⟨_, hp1⟩
    · rw [(f5 ci hci).1]
      exact ⟨List.nodup_nil, fun c hc => by simp at hc⟩
    · obtain ⟨hnd, hch⟩ := hwf.children p it ci hp1 hci
      refine ⟨hnd, fun c hc => ?_⟩
      obtain ⟨cit, h1, h2⟩ := hch c hc
      exact ⟨cit, cell_alloc_old h1 it0, h2⟩

theorem sizeZ_alloc {h : Heap} (it0 : CItem) {q : Nat} (hq : q ≠ h.next) :
    (h.alloc it0).sizeZ q = h.sizeZ q := by
  unfold Heap.sizeZ Heap.GetSize
  rw [cell_alloc]
  simp [hq]

theorem kids_alloc {h : Heap} (it0 : CItem) {a : Nat} (ha : a ≠ h.next) :
    (h.alloc it0).kids a = h.kids a := by
  unfold Heap.kids
  rw [cell_alloc]
  simp [ha]

theorem defect_alloc {h : Heap} (hwf : h.WF) (it0 : CItem) {a : Nat} (ha : a ≠ h.next) :
    (h.alloc it0).defect a = h.defect a := by
  unfold Heap.defect
  rw [kids_alloc it0 ha, sizeZ_alloc it0 ha]
  congr 2
  refine List.map_congr_left (fun x hx => sizeZ_alloc it0 ?_)
  obtain ⟨_, _, xit, _, _, _, hxc, _⟩ := hwf.kids_live hx
  have := lt_next_of_cell hxc
  omega

/-- Allocating a fresh item that is empty if it is directory-like keeps the
size-sum invariant. -/
theorem sizeSum_alloc {h : Heap} (hwf : h.WF) (hs : SizeSum h) {it0 : CItem} (hf : it0.Fresh)
    (h0 : it0.DirLike = true → it0.m_size = 0) : SizeSum (h.alloc it0) := by
  rw [sizeSum_iff_defect] at hs ⊢
  intro p it ci hp hd hci
  rcases alloc_back hp with ⟨hpn, rfl⟩ | ⟨hpn, hp1⟩
  · unfold Heap.defect
    rw [kids_eq hp hci, (hf.2.2.2.2 ci hci).1, sizeZ_of_cell hp, h0 hd]
    simp
  · rw [defect_alloc hwf it0 hpn]
    exact hs p it ci hp1 hd hci

/-! ### `AddChild` and the operations that allocate -/

theorem laterF_skel (t : Nat) (it : CItem) : (laterF t it).skel = it.skel := by
  unfold laterF; split <;> rfl

theorem addSizeF_skel (n : Nat) (it : CItem) : (addSizeF n it).skel = it.skel := by
  unfold addSizeF; split <;> rfl

theorem propagateF_skel (l : List Nat) (sz t : Nat) (b : Bool) (q : Nat) (it : CItem) :
    (propagateF l sz t b q it).skel = it.skel := by
  unfold propagateF
  split
  · rw [laterF_skel, addSizeF_skel]
  · rfl

/-- The propagation part of `AddChild`: the sizes along the chain of `P` grow by
the size of the child, so the defect of `P` alone grows. -/
theorem propagate_facts {h : Heap} (hwf : h.WF) {P : Nat} {l : List Nat}
    (hl : h.chain P = some l) (c t : Nat) :
    (h.mapIdx (propagateF l c t false)).WF ∧ SameShape h (h.mapIdx (propagateF l c t false)) ∧
      ∀ a, (h.mapIdx (propagateF l c t false)).defect a =
        h.defect a + (if a = P then (c : Z64) else 0) := by
  have ss : SameShape h (h.mapIdx (propagateF l c t false)) :=
    SameShape_mapIdx h _ (propagateF_skel l c t false)
  have ty : (h.mapIdx (propagateF l c t false)).Typed := by
    intro q it2 hq
    rw [cell_mapIdx] at hq
    cases hc : h.cell q with
    | none => rw [hc] at hq; cases hq
    | some it =>
      rw [hc] at hq
      simp only [Option.map_some', Option.some.injEq] at hq
      subst hq
      refine ⟨?_, fun ci hci => ?_⟩
      · unfold propagateF
        split
        · rw [laterF_size]
          exact addSizeF_typed c it (hwf.typed q it hc).1
        · exact (hwf.typed q it hc).1
      · rw [propagateF_ci] at hci
        exact (hwf.typed q it hc).2 ci hci
  refine ⟨ss.wf_shape hwf ty, ss, defect_shift hwf ss hl _ (fun q => ?_)⟩
  unfold Heap.sizeZ Heap.GetSize
  rw [cell_mapIdx]
  cases hc : h.cell q with
  | none =>
    have : q ∉ l := fun hm => by
      obtain ⟨_, hx⟩ := chain_live hl q hm
      rw [hc] at hx
      cases hx
    simp [this]
  | some it =>
    simp only [Option.map_some']
    unfold propagateF
    by_cases hq : q ∈ l
    · simp only [hq, and_self, if_true, laterF_size, addSizeF_cast]
    · simp [hq]

/-- `AddChild` with propagation of a detached item that is not above `P`: the call
returns, no defect changes, and the heap stays well formed if `P` was allocated
before the child. -/
theorem AddChild_spec {h : Heap} (hwf : h.WF) {P child : Nat} {pit cit : CItem} {ci : CHILDINFO}
    (hP : h.cell P = some pit) (hci : pit.m_ci = some ci) (hc : h.cell child = some cit)
    (hdet : cit.m_parent = none) (hnb : h.below child P = false) :
    ∃ h2, AddChild h P child false = some h2 ∧ SameKinds h h2 ∧
      (∀ a, h2.defect a = h.defect a) ∧ (P < child → h2.WF) := by
  obtain ⟨l, hl⟩ := hwf.chain_exists hP
  have hcl : child ∉ l := by
    intro hm
    have := below_iff.mpr ⟨l, hl, hm⟩
    rw [hnb] at this
    cases this
  obtain ⟨w1, ss, d1⟩ := propagate_facts hwf hl cit.m_size cit.m_lastChange
  obtain ⟨pit1, hP1, hskP⟩ := ss.cell_shape hP
  obtain ⟨ci1, hci1, _⟩ := skel_ci_some hskP hci
  obtain ⟨cit1, hc1, hskc⟩ := ss.cell_shape hc
  have hsc : (h.mapIdx (propagateF l cit.m_size cit.m_lastChange false)).sizeZ child =
      (cit.m_size : Z64) := by
    unfold Heap.sizeZ Heap.GetSize
    rw [cell_mapIdx, hc]
    simp [propagateF, hcl]
  refine ⟨_, AddChild_eq hl hP (by rw [hci]; simp) hc false, ?_, fun a => ?_, fun hlt => ?_⟩
  · rw [AddChild_link]
    exact ss.sameKinds.trans_kinds (SameKinds_link _ P child)
  · rw [AddChild_link, defect_link _ hP1 hci1, d1, hsc]
    by_cases ha : a = P
    · simp [ha]
    · simp [ha]
  · rw [AddChild_link]
    exact wf_link w1 hP1 hci1 hc1 (by rw [skel_parent hskc]; exact hdet) hlt

/-- A freshly allocated item is not above an older item. -/
theorem not_below_new {h : Heap} (hwf : h.WF) {self c : Nat} (hlt : self < c) : h.below c self = false := by
  cases hb : h.below c self with
  | false => rfl
  | true =>
    have := below_le hwf hb
    omega

theorem fresh_new (T : ITEMTYPE) (name : String) (s lc attrs : Nat)
    (hT : T = IT_DIRECTORY ∨ T = IT_FILE ∨ T = IT_FREESPACE ∨ T = IT_UNKNOWN)
    (hs : s < 18446744073709551616) :
    CItem.Fresh { CItem.new T name with m_size := s, m_lastChange := lc, m_attributes := attrs } := by
  have e1 : ((IT_DIRECTORY &&& IT_FILE) != 0) = false := by decide
  have e2 : ((IT_FILE &&& IT_FILE) != 0) = true := by decide
  have e3 : ((IT_FREESPACE &&& IT_FILE) != 0) = false := by decide
  have e4 : ((IT_UNKNOWN &&& IT_FILE) != 0) = false := by decide
  have g1 : IT_DIRECTORY &&& (65535 ^^^ ITF_FLAGS) = IT_DIRECTORY := by decide
  have g2 : IT_FILE &&& (65535 ^^^ ITF_FLAGS) = IT_FILE := by decide
  have g3 : IT_FREESPACE &&& (65535 ^^^ ITF_FLAGS) = IT_FREESPACE := by decide
  have g4 : IT_UNKNOWN &&& (65535 ^^^ ITF_FLAGS) = IT_UNKNOWN := by decide
  unfold CItem.Fresh
  simp only [CItem.new, CItem.GetType, CItem.IsType]
  rcases hT with rfl | rfl | rfl | rfl
  · simp only [e1, g1]
    refine ⟨trivial, hs, by simp, by simp, fun ci hci => ?_⟩
    simp only [Bool.false_eq_true, if_false, Option.some.injEq] at hci
    subst hci
    exact ⟨rfl, by decide, by decide, by decide⟩
  · simp only [e2, g2]
    refine ⟨trivial, hs, by simp, by simp, fun ci hci => ?_⟩
    simp at hci
  · simp only [e3, g3]
    refine ⟨trivial, hs, by simp, by simp, fun ci hci => ?_⟩
    simp only [Bool.false_eq_true, if_false, Option.some.injEq] at hci
    subst hci
    exact ⟨rfl, by decide, by decide, by decide⟩
  · simp only [e4, g4]
    refine ⟨trivial, hs, by simp, by simp, fun ci hci => ?_⟩
    simp only [Bool.false_eq_true, if_false, Option.some.injEq] at hci
    subst hci
    exact ⟨rfl, by decide, by decide, by decide⟩

theorem mapCi_skel (f : CHILDINFO → CHILDINFO) (hf : ∀ ci, (f ci).m_children = ci.m_children)
    (it : CItem) : (it.mapCi f).skel = it.skel := by
  unfold CItem.skel CItem.mapCi CItem.GetType
  cases h : it.m_ci with
  | none => simp [h]
  | some ci => simp [h, hf]

/-- A rewrite of counters along a list of items keeps the tree and the defects. -/
theorem mapOn_rebalanced {h : Heap} (hwf : h.WF) (l : List Nat) (f : CItem → CItem)
    (hsk : ∀ it, (f it).skel = it.skel) (hsz : ∀ it, (f it).m_size = it.m_size)
    (hty : ∀ it, (∀ ci, it.m_ci = some ci →
        ci.m_files < 4294967296 ∧ ci.m_subdirs < 4294967296 ∧ ci.m_jobs < 4294967296) →
      ∀ ci, (f it).m_ci = some ci →
        ci.m_files < 4294967296 ∧ ci.m_subdirs < 4294967296 ∧ ci.m_jobs < 4294967296) :
    Rebalanced h (h.mapOn l f) := by
  have ss := SameShape_mapOn h l f hsk
  refine ⟨ss, ?_, fun a _ _ _ => defect_same_sizes ss (fun q => ?_) a⟩
  · intro q it2 hq
    rw [cell_mapOn] at hq
    by_cases hql : q ∈ l
    · simp only [hql, if_true, Option.map_eq_some'] at hq
      obtain ⟨it, hit, rfl⟩ := hq
      exact ⟨by rw [hsz]; exact (hwf.typed q it hit).1, hty it (hwf.typed q it hit).2⟩
    · simp only [hql, if_false] at hq
      exact hwf.typed q it2 hq
  · unfold Heap.sizeZ Heap.GetSize
    rw [cell_mapOn]
    by_cases hql : q ∈ l
    · cases h.cell q <;> simp [hql, hsz]
    · simp [hql]

theorem add32_lt (a b : Nat) : add32 a b < 4294967296 := Nat.mod_lt _ (by decide)

theorem addJobsF_rebalanced {h : Heap} (hwf : h.WF) (l : List Nat) (n : Nat) :
    Rebalanced h (h.mapOn l (addJobsF n)) := by
  refine mapOn_rebalanced hwf l _ (fun it => ?_) (fun it => ?_) (fun it hit ci hci => ?_)
  · unfold addJobsF
    split
    · rfl
    · exact mapCi_skel (fun ci => { ci with m_jobs := add32 ci.m_jobs n }) (fun _ => rfl) it
  · unfold addJobsF
    split <;> rfl
  · unfold addJobsF at hci
    split at hci
    · exact hit ci hci
    · simp only [CItem.mapCi, Option.map_eq_some'] at hci
      obtain ⟨ci0, h0, rfl⟩ := hci
      obtain ⟨a, b, _⟩ := hit ci0 h0
      exact ⟨a, b, add32_lt _ _⟩

theorem UpwardAddReadJobs_rebalanced {h : Heap} (hwf : h.WF) {s : Nat} {it : CItem}
    (hs : h.cell s = some it) (n : Nat) :
    ∃ h2, UpwardAddReadJobs h s n = some h2 ∧ Rebalanced h h2 := by
  obtain ⟨l, hl⟩ := hwf.chain_exists hs
  refine ⟨_, UpwardAddReadJobs_eq hs hl (hwf.ciOk l) n, ?_⟩
  split
  · exact Rebalanced.refl_bal hwf
  · exact addJobsF_rebalanced hwf l n

theorem SameKinds.live {h h2 : Heap} (hk : SameKinds h h2) {q : Nat} {it : CItem}
    (hq : h.cell q = some it) : ∃ it2, h2.cell q = some it2 := by
  have := hk q
  rw [hq] at this
  cases hc : h2.cell q with
  | none => rw [hc] at this; simp at this
  | some it2 => exact ⟨it2, rfl⟩

theorem new_dirLike (T : ITEMTYPE) (name : String) (s lc attrs : Nat) :
    CItem.DirLike { CItem.new T name with m_size := s, m_lastChange := lc, m_attributes := attrs } =
      ((T &&& 7) != 0) := rfl

theorem cell_alloc_new (h : Heap) (it0 : CItem) : (h.alloc it0).cell h.next = some it0 := by
  rw [cell_alloc]; simp

/-- Allocation followed by `AddChild` of the new item. -/
theorem alloc_AddChild {h : Heap} (hwf : h.WF) (hss : SizeSum h) {self : Nat} {it : CItem}
    {ci : CHILDINFO} (hself : h.cell self = some it) (hci : it.m_ci = some ci) {it0 : CItem}
    (hf : it0.Fresh) (h0 : it0.DirLike = true → it0.m_size = 0) :
    ∃ h2 c2, AddChild (h.alloc it0) self h.next false = some h2 ∧ h2.WF ∧ SizeSum h2 ∧
      h2.cell h.next = some c2 := by
  have w1 := wf_alloc hwf hf
  have s1 := sizeSum_alloc hwf hss hf h0
  have hlt := lt_next_of_cell hself
  obtain ⟨h2, e2, k2, d2, w2⟩ := AddChild_spec w1 (cell_alloc_old hself it0) hci
    (cell_alloc_new h it0) hf.1 (not_below_new w1 hlt)
  obtain ⟨c2, hc2⟩ := k2.live (cell_alloc_new h it0)
  exact ⟨h2, c2, e2, w2 hlt, SizeSum_of_defects k2 (fun a _ _ _ => d2 a) s1, hc2⟩

/-- `AddFile` returns the new item, allocated at `h.next`, and keeps the heap well
formed and the size-sum invariant. -/
theorem AddFile_spec (env : Env) {h : Heap} (hwf : h.WF) (hss : SizeSum h) {self : Nat}
    {it : CItem} {ci : CHILDINFO} (hself : h.cell self = some it) (hci : it.m_ci = some ci)
    (finder : FindData) (hsz : finder.size < 18446744073709551616) :
    ∃ h3, AddFile env h self finder = some (h3, h.next) ∧ h3.WF ∧ SizeSum h3 := by
  have hf := fresh_new IT_FILE finder.name finder.size finder.lastWrite finder.attributes
    (Or.inr (Or.inl rfl)) hsz
  obtain ⟨h2, c2, e2, w2, s2, hc2⟩ := alloc_AddChild hwf hss hself hci hf (fun hd => by
    rw [new_dirLike] at hd
    exact absurd hd (by decide))
  obtain ⟨h3, e3, r3⟩ := SetDone_rebalanced env w2 hc2
  refine ⟨h3, ?_, r3.wf_bal w2, r3.sizeSum s2⟩
  unfold AddFile
  simp only []
  rw [e2]
  simp only []
  rw [e3]

/-- `AddDirectory` returns the new item, allocated at `h.next`, and keeps the heap
well formed and the size-sum invariant. -/
theorem AddDirectory_spec (env : Env) {h : Heap} (hwf : h.WF) (hss : SizeSum h) {self : Nat}
    {it : CItem} {ci : CHILDINFO} (hself : h.cell self = some it) (hci : it.m_ci = some ci)
    (base : Path) (finder : FindData) :
    ∃ h3, AddDirectory env h self base finder = some (h3, h.next) ∧ h3.WF ∧ SizeSum h3 := by
  have hf := fresh_new IT_DIRECTORY finder.name 0 finder.lastWrite finder.attributes
    (Or.inl rfl) (by decide)
  obtain ⟨h2, c2, e2, w2, s2, hc2⟩ := alloc_AddChild hwf hss hself hci hf (fun _ => rfl)
  obtain ⟨h3, e3, r3⟩ := UpwardAddReadJobs_rebalanced w2 hc2
    (if (!finder.isProtectedReparsePoint &&
      env.IsFollowingAllowed (base ++ [finder.name]) finder.attributes) = true then 1 else 0)
  refine ⟨h3, ?_, r3.wf_bal w2, r3.sizeSum s2⟩
  unfold AddDirectory
  simp only []
  have e2b : AddChild (h.alloc { CItem.new IT_DIRECTORY finder.name with
      m_lastChange := finder.lastWrite, m_attributes := finder.attributes }) self h.next false =
      some h2 := e2
  rw [e2b]
  simp only []
  rw [e3]

/-- A pseudo item allocated on `h2`, set done and added below `self`. -/
theorem pseudo_AddChild (env : Env) {h : Heap} (hwf : h.WF) (hss : SizeSum h) {self : Nat}
    {it : CItem} {ci : CHILDINFO} (hself : h.cell self = some it) (hci : it.m_ci = some ci)
    {it0 : CItem} (hf : it0.Fresh) (h0 : it0.DirLike = false) :
    ∃ h3 h4, SetDone env (h.alloc it0) h.next = some h3 ∧
      AddChild h3 self h.next false = some h4 ∧ h4.WF ∧ SizeSum h4 := by
  have w1 := wf_alloc hwf hf
  have s1 := sizeSum_alloc hwf hss hf (fun hd => by rw [h0] at hd; cases hd)
  have hlt := lt_next_of_cell hself
  obtain ⟨h3, e3, r3⟩ := SetDone_rebalanced env w1 (cell_alloc_new h it0)
  have w3 := r3.wf_bal w1
  obtain ⟨it3, hs3, hsk3⟩ := r3.1.cell_shape (cell_alloc_old hself it0)
  obtain ⟨ci3, hci3, _⟩ := skel_ci_some hsk3 hci
  obtain ⟨c3, hc3, hskc⟩ := r3.1.cell_shape (cell_alloc_new h it0)
  obtain ⟨h4, e4, k4, d4, w4⟩ := AddChild_spec w3 hs3 hci3 hc3
    (by rw [skel_parent hskc]; exact hf.1) (not_below_new w3 hlt)
  exact ⟨h3, h4, e3, e4, w4 hlt, SizeSum_of_defects k4 (fun a _ _ _ => d4 a) (r3.sizeSum s1)⟩

/-- `CreateFreeSpaceItem` returns and keeps the heap well formed and the size-sum
invariant. -/
theorem CreateFreeSpaceItem_spec (env : Env) {h : Heap} (hwf : h.WF) (hss : SizeSum h)
    {self : Nat} {it : CItem} {ci : CHILDINFO} (hself : h.cell self = some it)
    (hci : it.m_ci = some ci)
    (hfree : ∀ path, (env.getDiskFreeSpace path).2 < 18446744073709551616) :
    ∃ h4, CreateFreeSpaceItem env h self = some h4 ∧ h4.WF ∧ SizeSum h4 := by
  obtain ⟨h1, e1, r1⟩ := UpwardSetUndone_rebalanced hwf hself
  have w1 := r1.wf_bal hwf
  obtain ⟨it1, hs1, hsk1⟩ := r1.1.cell_shape hself
  obtain ⟨ci1, hci1, _⟩ := skel_ci_some hsk1 hci
  obtain ⟨l1, hl1⟩ := w1.chain_exists hs1
  obtain ⟨path, hpath⟩ := GetPath_some hl1
  have hf := fresh_new IT_FREESPACE IDS_FREESPACE_ITEM (env.getDiskFreeSpace path).2 0 0
    (Or.inr (Or.inr (Or.inl rfl))) (hfree path)
  obtain ⟨h3, h4, e3, e4, w4, s4⟩ := pseudo_AddChild env w1 (r1.sizeSum hss) hs1 hci1 hf
    (by rw [new_dirLike]; decide)
  refine ⟨h4, ?_, w4, s4⟩
  unfold CreateFreeSpaceItem
  rw [e1]
  simp only []
  rw [hpath]
  simp only []
  have e3b : SetDone env (h1.alloc { CItem.new IT_FREESPACE IDS_FREESPACE_ITEM with
      m_size := (env.getDiskFreeSpace path).2 }) h1.next = some h3 := e3
  rw [e3b]
  simp only []
  exact e4

/-- `CreateUnknownItem` returns and keeps the heap well formed and the size-sum
invariant. -/
theorem CreateUnknownItem_spec (env : Env) {h : Heap} (hwf : h.WF) (hss : SizeSum h)
    {self : Nat} {it : CItem} {ci : CHILDINFO} (hself : h.cell self = some it)
    (hci : it.m_ci = some ci) :
    ∃ h4, CreateUnknownItem env h self = some h4 ∧ h4.WF ∧ SizeSum h4 := by
  obtain ⟨h1, e1, r1⟩ := UpwardSetUndone_rebalanced hwf hself
  have w1 := r1.wf_bal hwf
  obtain ⟨it1, hs1, hsk1⟩ := r1.1.cell_shape hself
  obtain ⟨ci1, hci1, _⟩ := skel_ci_some hsk1 hci
  have hf := fresh_new IT_UNKNOWN IDS_UNKNOWN_ITEM 0 0 0
    (Or.inr (Or.inr (Or.inr rfl))) (by decide)
  obtain ⟨h3, h4, e3, e4, w4, s4⟩ := pseudo_AddChild env w1 (r1.sizeSum hss) hs1 hci1 hf
    (by rw [new_dirLike]; decide)
  refine ⟨h4, ?_, w4, s4⟩
  unfold CreateUnknownItem
  rw [e1]
  simp only []
  have e3b : SetDone env (h1.alloc (CItem.new IT_UNKNOWN IDS_UNKNOWN_ITEM)) h1.next = some h3 := e3
  rw [e3b]
  simp only []
  exact e4

/-! ### `RemoveChild` and the size-sum invariant -/

theorem cell_cut1 (h hs : Heap) (child q : Nat) :
    (Heap.cut h hs [child]).cell q = if h.below child q = true then none else hs.cell q := by
  rw [cell_cut]
  simp

theorem kid_not_below {h : Heap} (hwf : h.WF) {a x child : Nat} (hx : x ∈ h.kids a)
    (ha : h.below child a = false) (hne : x ≠ child) : h.below child x = false := by
  cases hb : h.below child x with
  | false => rfl
  | true =>
    obtain ⟨_, _, xit, _, _, _, hxc, hxp⟩ := hwf.kids_live hx
    obtain ⟨l, hl, hcl⟩ := below_iff.mp hb
    obtain ⟨_, l1, _, rfl⟩ := chain_head hl
    rcases chain_cons_parent hl hxc with ⟨hn, _⟩ | ⟨c, hc, hch⟩
    · rw [hxp] at hn; cases hn
    · rw [hxp] at hc
      cases hc
      have hm : child ∈ l1 := by
        rcases List.mem_cons.mp hcl with e | e
        · exact absurd e.symm hne
        · exact e
      have := below_iff.mpr ⟨l1, hch, hm⟩
      rw [ha] at this
      cases this

theorem sum_filter_ne (l : List Nat) (F : Nat → Z64) (x : Nat) (hnd : l.Nodup) (hx : x ∈ l) :
    ((l.filter fun c => c != x).map F).sum = (l.map F).sum - F x := by
  induction l with
  | nil => simp at hx
  | cons a l ih =>
    rw [List.nodup_cons] at hnd
    by_cases hax : a = x
    · subst hax
      have hf : (l.filter fun c => c != a) = l := by
        rw [List.filter_eq_self]
        intro c hc
        have : c ≠ a := fun e => hnd.1 (e ▸ hc)
        simpa using this
      simp only [List.filter_cons, bne_self_eq_false, Bool.false_eq_true, if_false, hf,
        List.map_cons, List.sum_cons]
      ring
    · have hx2 : x ∈ l := by
        rcases List.mem_cons.mp hx with e | e
        · exact absurd e.symm hax
        · exact e
      have hb : (a != x) = true := by simpa using hax
      simp only [List.filter_cons, hb, if_true, List.map_cons, List.sum_cons, ih hnd.2 hx2]
      ring

theorem eraseF_size (child : Nat) (it : CItem) : (eraseF child it).m_size = it.m_size := rfl

theorem eraseF_dirLike (child : Nat) (it : CItem) : (eraseF child it).DirLike = it.DirLike := rfl

theorem sizeZ_cut {h : Heap} {P child : Nat} {pit : CItem} (hP : h.cell P = some pit)
    {q : Nat} (hq : h.below child q = false) :
    (Heap.cut h (h.set P (eraseF child pit)) [child]).sizeZ q = h.sizeZ q := by
  unfold Heap.sizeZ Heap.GetSize
  rw [cell_cut1, cell_set_of_live hP]
  by_cases hqP : q = P
  · subst hqP
    simp [hq, hP, eraseF_size]
  · simp [hq, hqP]

theorem kids_cut {h : Heap} {P child : Nat} {pit : CItem} (hP : h.cell P = some pit)
    {a : Nat} (ha : h.below child a = false) :
    (Heap.cut h (h.set P (eraseF child pit)) [child]).kids a =
      if a = P then (h.kids a).filter (fun c => c != child) else h.kids a := by
  unfold Heap.kids
  rw [cell_cut1, cell_set_of_live hP]
  by_cases haP : a = P
  · subst haP
    simp only [ha, Bool.false_eq_true, if_false, if_true, hP, eraseF, CItem.mapCi]
    cases pit.m_ci <;> simp
  · simp [ha, haP]

/-- `RemoveChild` raises the defect of the parent by the size of the child and
leaves the defects of the other remaining items. -/
theorem defect_cut {h : Heap} (hwf : h.WF) {P child : Nat} {pit : CItem} {ci : CHILDINFO}
    (hP : h.cell P = some pit) (hci : pit.m_ci = some ci) (hmem : child ∈ ci.m_children)
    {a : Nat} (ha : h.below child a = false) :
    (Heap.cut h (h.set P (eraseF child pit)) [child]).defect a =
      h.defect a + (if a = P then h.sizeZ child else 0) := by
  have hkP : h.kids P = ci.m_children := kids_eq hP hci
  unfold Heap.defect
  rw [sizeZ_cut hP ha, kids_cut hP ha]
  by_cases haP : a = P
  · subst haP
    simp only [if_true]
    have e : ((h.kids a).filter fun c => c != child).map
        (Heap.cut h (h.set a (eraseF child pit)) [child]).sizeZ =
        ((h.kids a).filter fun c => c != child).map h.sizeZ := by
      refine List.map_congr_left (fun x hx => sizeZ_cut hP ?_)
      have hx1 := List.mem_filter.mp hx
      exact kid_not_below hwf hx1.1 ha (by simpa using hx1.2)
    rw [e, sum_filter_ne _ _ child (hwf.kids_nodup a) (by rw [hkP]; exact hmem)]
    ring
  · simp only [haP, if_false]
    have e : (h.kids a).map (Heap.cut h (h.set P (eraseF child pit)) [child]).sizeZ =
        (h.kids a).map h.sizeZ := by
      refine List.map_congr_left (fun x hx => sizeZ_cut hP ?_)
      refine kid_not_below hwf hx ha ?_
      intro e
      subst e
      obtain ⟨_, _, xit, _, _, _, hxc, hxp⟩ := hwf.kids_live hx
      obtain ⟨cit, hc, hcp⟩ := (hwf.children P pit ci hP hci).2 x hmem
      rw [hxc] at hc
      cases hc
      rw [hxp] at hcp
      exact haP (Option.some.inj hcp)
    rw [e]
    ring

/-- The size-sum invariant after `RemoveChild`, from the defects before it. -/
theorem sizeSum_cut {h : Heap} (hwf : h.WF) {P child : Nat} {pit : CItem} {ci : CHILDINFO}
    (hP : h.cell P = some pit) (hci : pit.m_ci = some ci) (hmem : child ∈ ci.m_children)
    (hd : ∀ a it ci, h.cell a = some it → it.DirLike = true → it.m_ci = some ci →
      h.defect a + (if a = P then h.sizeZ child else 0) = 0) :
    SizeSum (Heap.cut h (h.set P (eraseF child pit)) [child]) := by
  rw [sizeSum_iff_defect]
  intro p it2 ci2 hp hdl hci2
  rw [cell_cut1] at hp
  cases hb : h.below child p with
  | true => rw [hb] at hp; simp at hp
  | false =>
    rw [hb, cell_set_of_live hP] at hp
    simp only [Bool.false_eq_true, if_false] at hp
    rw [defect_cut hwf hP hci hmem hb]
    by_cases hpP : p = P
    · subst hpP
      simp only [if_true, Option.some.injEq] at hp
      subst hp
      exact hd p pit ci hP hdl hci
    · simp only [hpP, if_false] at hp
      exact hd p it2 ci2 hp hdl hci2

/-- The removal of a pseudo item found among the children of `self`. -/
theorem remove_pseudo {h : Heap} (hwf : h.WF) (hss : SizeSum h) {self : Nat} {it : CItem}
    {ci : CHILDINFO} (hself : h.cell self = some it) (hci : it.m_ci = some ci) {f : Nat}
    (hmem : f ∈ ci.m_children) :
    ∃ h1 h2 h3, UpwardSetUndone h self = some h1 ∧
      UpwardSubtractSize h1 self (h1.GetSize f) = some h2 ∧
      RemoveChild h2 self f = some h3 ∧ SizeSum h3 := by
  obtain ⟨h1, e1, r1⟩ := UpwardSetUndone_rebalanced hwf hself
  have w1 := r1.wf_bal hwf
  have s1 := r1.sizeSum hss
  obtain ⟨it1, hs1, hsk1⟩ := r1.1.cell_shape hself
  obtain ⟨ci1, hci1, hperm⟩ := skel_ci_some hsk1 hci
  have hmem1 : f ∈ ci1.m_children := hperm.mem_iff.mpr hmem
  obtain ⟨fit, hf1, hfp⟩ := (w1.children self it1 ci1 hs1 hci1).2 f hmem1
  obtain ⟨l1, hl1⟩ := w1.chain_exists hs1
  obtain ⟨w2, so2, d2⟩ := shift_sub w1 hl1 (h1.GetSize f)
  obtain ⟨s, hs2⟩ := so2.cell hs1
  have hfl : f ∉ l1 := by
    intro hm
    have a1 := w1.chain_le hl1 f hm
    have a2 := (w1.parent f fit self hf1 hfp).1
    omega
  have hsf : (h1.mapOn l1 (subSizeF (h1.GetSize f))).sizeZ f = h1.sizeZ f := by
    rw [sizeZ_mapOn hl1 _ (-(h1.GetSize f : Z64)) (fun it => by rw [subSizeF_cast]; ring)]
    simp [hfl]
  refine ⟨h1, _, _, e1, UpwardSubtractSize_eq hl1 _,
    RemoveChild_eq w2 hs2 (show (it1.withSize s).m_ci = some ci1 from hci1) hmem1, ?_⟩
  refine sizeSum_cut w2 hs2 (show (it1.withSize s).m_ci = some ci1 from hci1) hmem1 ?_
  intro a ait aci ha hda haci
  obtain ⟨ait1, ha1, hska⟩ := so2.sameShape.symm_shape.cell_shape ha
  obtain ⟨aci1, haci1, _⟩ := skel_ci_some hska haci
  have hz := (sizeSum_iff_defect.mp s1) a ait1 aci1 ha1
    (by rw [skel_dirLike hska]; exact hda) haci1
  rw [d2, hsf, hz]
  unfold Heap.sizeZ
  by_cases haP : a = self
  · simp [haP]
  · simp [haP]

theorem RemoveFreeSpaceItem_spec {h : Heap} (hwf : h.WF) (hss : SizeSum h) {self : Nat}
    {it : CItem} {ci : CHILDINFO} (hself : h.cell self = some it) (hci : it.m_ci = some ci) :
    ∃ h3, RemoveFreeSpaceItem h self = some h3 ∧ SizeSum h3 := by
  unfold RemoveFreeSpaceItem FindFreeSpaceItem
  rw [FindChildOfType_eq hself hci]
  cases hf : ci.m_children.find? (h.IsTypeAt _) with
  | none => exact ⟨h, rfl, hss⟩
  | some f =>
    simp only []
    obtain ⟨h1, h2, h3, e1, e2, e3, s3⟩ :=
      remove_pseudo hwf hss hself hci (List.mem_of_find?_eq_some hf)
    rw [e1]
    simp only []
    rw [e2]
    exact ⟨h3, e3, s3⟩

theorem RemoveUnknownItem_spec {h : Heap} (hwf : h.WF) (hss : SizeSum h) {self : Nat}
    {it : CItem} {ci : CHILDINFO} (hself : h.cell self = some it) (hci : it.m_ci = some ci) :
    ∃ h3, RemoveUnknownItem h self = some h3 ∧ SizeSum h3 := by
  unfold RemoveUnknownItem FindUnknownItem
  rw [FindChildOfType_eq hself hci]
  cases hf : ci.m_children.find? (h.IsTypeAt _) with
  | none => exact ⟨h, rfl, hss⟩
  | some f =>
    simp only []
    obtain ⟨h1, h2, h3, e1, e2, e3, s3⟩ :=
      remove_pseudo hwf hss hself hci (List.mem_of_find?_eq_some hf)
    rw [e1]
    simp only []
    rw [e2]
    exact ⟨h3, e3, s3⟩

/-! ### C1 -/

theorem SizeSum_of_check {h : Heap} (hc : h.sizeSumCheck = true) : SizeSum h := by
  intro p it ci hp hd hci
  have hlt := lt_next_of_cell hp
  unfold Heap.sizeSumCheck at hc
  rw [List.all_eq_true] at hc
  have := hc p (List.mem_range.mpr hlt)
  simp only [hp, hci, hd, Bool.not_true, Bool.false_or, decide_eq_true_eq] at this
  exact this

/-- C1: in a well-formed tree in which the size of every directory-like item is the
sum of the sizes of its children modulo 2^64, each of `AddChild` with propagation (of
a detached item that is not above the parent), `AddFile`, `AddDirectory`,
`CreateFreeSpaceItem`, `CreateUnknownItem`, `RemoveFreeSpaceItem`, `RemoveUnknownItem`,
`UpdateFreeSpaceItem` and `UpdateUnknownItem` on an item with a child info, and
`UpwardSetUndone` and `SetDone` on any item, returns a heap in which the size of every
directory-like item is again the sum of the sizes of its children modulo 2^64. -/
theorem C1_size_sum (env : Env) (h : Heap) (self : Nat) (it : CItem) (ci : CHILDINFO)
    (base : Path) (finder : FindData) (hwf : h.WF) (hss : SizeSum h)
    (hself : h.cell self = some it) (hci : it.m_ci = some ci)
    (hfree : ∀ path, (env.getDiskFreeSpace path).2 < 18446744073709551616)
    (hsz : finder.size < 18446744073709551616) :
    (∀ child cit, h.cell child = some cit → cit.m_parent = none →
      h.below child self = false →
      ∃ h2, AddChild h self child false = some h2 ∧ SizeSum h2) ∧
    (∃ h2 c, AddFile env h self finder = some (h2, c) ∧ SizeSum h2) ∧
    (∃ h2 c, AddDirectory env h self base finder = some (h2, c) ∧ SizeSum h2) ∧
    (∃ h2, CreateFreeSpaceItem env h self = some h2 ∧ SizeSum h2) ∧
    (∃ h2, CreateUnknownItem env h self = some h2 ∧ SizeSum h2) ∧
    (∃ h2, RemoveFreeSpaceItem h self = some h2 ∧ SizeSum h2) ∧
    (∃ h2, RemoveUnknownItem h self = some h2 ∧ SizeSum h2) ∧
    (∃ h2, UpdateFreeSpaceItem env h self = some h2 ∧ SizeSum h2) ∧
    (∃ h2, UpdateUnknownItem env h self = some h2 ∧ SizeSum h2) ∧
    (∀ q qit, h.cell q = some qit → ∃ h2, UpwardSetUndone h q = some h2 ∧ SizeSum h2) ∧
    (∀ q qit, h.cell q = some qit → ∃ h2, SetDone env h q = some h2 ∧ SizeSum h2) := by
  refine ⟨?_, ?_, ?_, ?_, ?_, ?_, ?_, ?_, ?_, ?_, ?_⟩
  · intro child cit hc hdet hnb
    obtain ⟨h2, e2, k2, d2, _⟩ := AddChild_spec hwf hself hci hc hdet hnb
    exact ⟨h2, e2, SizeSum_of_defects k2 (fun a _ _ _ => d2 a) hss⟩
  · obtain ⟨h2, e, _, s⟩ := AddFile_spec env hwf hss hself hci finder hsz
    exact ⟨h2, _, e, s⟩
  · obtain ⟨h2, e, _, s⟩ := AddDirectory_spec env hwf hss hself hci base finder
    exact ⟨h2, _, e, s⟩
  · obtain ⟨h2, e, _, s⟩ := CreateFreeSpaceItem_spec env hwf hss hself hci hfree
    exact ⟨h2, e, s⟩
  · obtain ⟨h2, e, _, s⟩ := CreateUnknownItem_spec env hwf hss hself hci
    exact ⟨h2, e, s⟩
  · exact RemoveFreeSpaceItem_spec hwf hss hself hci
  · exact RemoveUnknownItem_spec hwf hss hself hci
  · obtain ⟨h2, e, r⟩ := UpdateFreeSpaceItem_rebalanced env hwf hself hci
    exact ⟨h2, e, r.sizeSum hss⟩
  · obtain ⟨h2, e, r⟩ := UpdateUnknownItem_rebalanced env hwf hself hci
    exact ⟨h2, e, r.sizeSum hss⟩
  · intro q qit hq
    obtain ⟨h2, e, r⟩ := UpwardSetUndone_rebalanced hwf hq
    exact ⟨h2, e, r.sizeSum hss⟩
  · intro q qit hq
    obtain ⟨h2, e, r⟩ := SetDone_rebalanced env hwf hq
    exact ⟨h2, e, r.sizeSum hss⟩

/-- C1 at the root of the example tree, with the detached file 4 as the child to
add and a file of three bytes as the entry found. -/
theorem C1_size_sum_witness :
    exDetached.WF ∧ SizeSum exDetached ∧
    (∃ h2, AddChild exDetached 0 4 false = some h2 ∧ SizeSum h2) ∧
    (∃ h2 c, AddFile exEnv exDetached 0 (FindData.plain "f" 3) = some (h2, c) ∧ SizeSum h2) ∧
    (∃ h2, SetDone exEnv exDetached 2 = some h2 ∧ SizeSum h2) :=
  have t := C1_size_sum exEnv exDetached 0
    { m_parent := none, m_name := "root", m_lastChange := 3, m_size := 12,
      m_attributes := 0, m_type := 772,
      m_ci := some { m_children := [1, 2], m_files := 2, m_subdirs := 1, m_jobs := 0 } }
    { m_children := [1, 2], m_files := 2, m_subdirs := 1, m_jobs := 0 }
    ["R"] (FindData.plain "f" 3) (WF_of_wfCheck (by decide)) (SizeSum_of_check (by decide))
    (by decide) rfl
    (fun path => by cases path <;> simp [exEnv, Snapshot.env, Snapshot.volume])
    (by decide)
  ⟨WF_of_wfCheck (by decide), SizeSum_of_check (by decide),
    t.1 4 { m_parent := none, m_name := "n", m_lastChange := 9, m_size := 4,
            m_attributes := 0, m_type := 8, m_ci := none } (by decide) rfl (by decide),
    t.2.1,
    t.2.2.2.2.2.2.2.2.2.2 2
      { m_parent := some 0, m_name := "d", m_lastChange := 3, m_size := 7,
        m_attributes := 0, m_type := 260,
        m_ci := some { m_children := [3], m_files := 1, m_subdirs := 0, m_jobs := 0 } }
      (by decide)⟩

/-! ### Read jobs and the done flag -/

theorem withSize_jobs (s : Nat) (it : CItem) : (it.withSize s).GetReadJobs = it.GetReadJobs := rfl

theorem withSize_done (s : Nat) (it : CItem) : (it.withSize s).IsDone = it.IsDone := rfl

theorem SizeOnly.flags {h h2 : Heap} (hs : SizeOnly h h2) {q : Nat} {qit : CItem}
    (hq : h.cell q = some qit) :
    ∃ qit2, h2.cell q = some qit2 ∧ qit2.GetReadJobs = qit.GetReadJobs ∧
      qit2.IsDone = qit.IsDone := by
  obtain ⟨s, h2q⟩ := hs.cell hq
  exact ⟨_, h2q, rfl, rfl⟩

theorem doneF_jobs (h : Heap) (it : CItem) : (doneF h it).GetReadJobs = it.GetReadJobs := by
  unfold CItem.GetReadJobs
  cases hci : it.m_ci with
  | none =>
    have : (doneF h it).m_ci = none := by
      unfold doneF sortF
      rw [SetType_ci]
      simp [hci]
    rw [this]
  | some ci => rw [doneF_ci h it hci]

/-- `SetDone` sets the done flag of the item and changes no other flag and no
read-job counter. -/
theorem SetDone_flags (env : Env) {h : Heap} (hwf : h.WF) {p : Nat} {it : CItem}
    (hp : h.cell p = some it) :
    ∃ h2, SetDone env h p = some h2 ∧ Rebalanced h h2 ∧
      ∀ q qit, h.cell q = some qit → ∃ qit2, h2.cell q = some qit2 ∧
        qit2.GetReadJobs = qit.GetReadJobs ∧
        (q = p → qit2.IsDone = true) ∧ (q ≠ p → qit2.IsDone = qit.IsDone) := by
  obtain ⟨h2, e2, r2⟩ := SetDone_rebalanced env hwf hp
  refine ⟨h2, e2, r2, ?_⟩
  by_cases hnd : it.IsDone = true
  · have e : SetDone env h p = some h := by
      unfold SetDone
      simp [hp, hnd]
    rw [e] at e2
    cases e2
    intro q qit hq
    refine ⟨qit, hq, rfl, fun hqp => ?_, fun _ => rfl⟩
    subst hqp
    rw [hp] at hq
    cases hq
    exact hnd
  · obtain ⟨h3, s, so, _, _, hp3, e3⟩ := SetDone_spec env hwf hp (by simpa using hnd)
    rw [e3] at e2
    cases e2
    intro q qit hq
    rw [cell_set_of_live hp3]
    by_cases hqp : q = p
    · subst hqp
      rw [hp] at hq
      cases hq
      refine ⟨doneF h3 (it.withSize s), by simp, ?_,
        fun _ => IsDone_SetType_true (sortF h3 (it.withSize s)), fun hne => absurd rfl hne⟩
      rw [doneF_jobs]
      rfl
    · obtain ⟨qit2, h2q, hj, hd⟩ := so.flags hq
      exact ⟨qit2, by simp [hqp, h2q], hj, fun e => absurd e hqp, fun _ => hd⟩

theorem sub32_lt (a b : Nat) : sub32 a b < 4294967296 := Nat.mod_lt _ (by decide)

theorem subJobsF_rebalanced {h : Heap} (hwf : h.WF) {p : Nat} {it : CItem}
    (hp : h.cell p = some it) (n : Nat) : Rebalanced h (h.set p (subJobsF n it)) := by
  have hsk : (subJobsF n it).skel = it.skel :=
    mapCi_skel (fun ci => { ci with m_jobs := sub32 ci.m_jobs n }) (fun _ => rfl) it
  have ss := SameShape_set hp _ hsk
  refine ⟨ss, ?_, fun a _ _ _ => defect_same_sizes ss (fun q => ?_) a⟩
  · intro q qit hq
    rw [cell_set_of_live hp] at hq
    by_cases hqp : q = p
    · simp only [hqp, if_true, Option.some.injEq] at hq
      subst hq
      refine ⟨(hwf.typed p it hp).1, fun ci2 h2 => ?_⟩
      simp only [subJobsF, CItem.mapCi, Option.map_eq_some'] at h2
      obtain ⟨ci0, h0, rfl⟩ := h2
      obtain ⟨a, b, _⟩ := (hwf.typed p it hp).2 ci0 h0
      exact ⟨a, b, sub32_lt _ _⟩
    · simp only [hqp, if_false] at hq
      exact hwf.typed q qit hq
  · unfold Heap.sizeZ Heap.GetSize
    rw [cell_set_of_live hp]
    by_cases hqp : q = p
    · subst hqp
      simp only [if_true, hp]
      rfl
    · simp [hqp]

/-- One iteration of `UpwardSubtractReadJobs`. -/
theorem subJobs_step (env : Env) (n : Nat) {h : Heap} (hwf : h.WF) {p : Nat} {it : CItem}
    {ci : CHILDINFO} (hp : h.cell p = some it) (hci : it.m_ci = some ci) :
    ∃ h1, (match h.modify? p fun it => it.updCi fun ci =>
          { ci with m_jobs := sub32 ci.m_jobs n } with
        | none => none
        | some h1 =>
          match h1.cell p with
          | none => none
          | some it1 => if it1.GetReadJobs = 0 then SetDone env h1 p else some h1) = some h1 ∧
      Rebalanced h h1 ∧ JobsStep n [p] h h1 := by
  have ra := subJobsF_rebalanced hwf hp n
  have hpa : (h.set p (subJobsF n it)).cell p = some (subJobsF n it) := by
    rw [cell_set_of_live hp]; simp
  have hja : (subJobsF n it).GetReadJobs = sub32 it.GetReadJobs n := by
    simp [subJobsF, CItem.mapCi, CItem.GetReadJobs, hci]
  have hda : (subJobsF n it).IsDone = it.IsDone := rfl
  have e1 : (h.modify? p fun it => it.updCi fun ci =>
      { ci with m_jobs := sub32 ci.m_jobs n }) = some (h.set p (subJobsF n it)) :=
    modify?_eq hp (updCi_eq hci _)
  rw [e1]
  simp only [hpa]
  by_cases hz : (subJobsF n it).GetReadJobs = 0
  · simp only [hz, if_true]
    obtain ⟨h2, e2, r2, f2⟩ := SetDone_flags env (ra.wf_bal hwf) hpa
    refine ⟨h2, e2, ra.trans_bal r2, fun q qit hq => ?_⟩
    by_cases hqp : q = p
    · subst hqp
      rw [hp] at hq
      cases hq
      obtain ⟨qit2, hq2, hj, hd, _⟩ := f2 q _ hpa
      refine ⟨qit2, hq2, fun _ => ⟨by rw [hj, hja], fun _ => hd rfl, fun hne => ?_⟩,
        fun hn => absurd (List.mem_singleton.mpr rfl) hn⟩
      rw [hj, hz] at hne
      exact absurd rfl hne
    · have hqa : (h.set p (subJobsF n it)).cell q = some qit := by
        rw [cell_set_of_live hp]; simp [hqp, hq]
      obtain ⟨qit2, hq2, hj, _, hd⟩ := f2 q qit hqa
      exact ⟨qit2, hq2, fun hm => absurd (List.mem_singleton.mp hm) hqp, fun _ => ⟨hj, hd hqp⟩⟩
  · simp only [hz, if_false]
    refine ⟨_, rfl, ra, fun q qit hq => ?_⟩
    by_cases hqp : q = p
    · subst hqp
      rw [hp] at hq
      cases hq
      exact ⟨_, hpa, fun _ => ⟨hja, fun h0 => absurd h0 hz, fun _ => hda⟩,
        fun hn => absurd (List.mem_singleton.mpr rfl) hn⟩
    · refine ⟨qit, by rw [cell_set_of_live hp]; simp [hqp, hq],
        fun hm => absurd (List.mem_singleton.mp hm) hqp, fun _ => ⟨rfl, rfl⟩⟩

theorem JobsStep.nil (n : Nat) (h : Heap) : JobsStep n [] h h :=
  fun q qit hq => ⟨qit, hq, fun hm => by simp at hm, fun _ => ⟨rfl, rfl⟩⟩

theorem JobsStep.cons {n p : Nat} {l : List Nat} {h h1 h2 : Heap} (a : JobsStep n [p] h h1)
    (b : JobsStep n l h1 h2) (hpl : p ∉ l) : JobsStep n (p :: l) h h2 := by
  intro q qit hq
  obtain ⟨qit1, hq1, a1, a2⟩ := a q qit hq
  obtain ⟨qit2, hq2, b1, b2⟩ := b q qit1 hq1
  refine ⟨qit2, hq2, fun hm => ?_, fun hn => ?_⟩
  · by_cases hqp : q = p
    · subst hqp
      obtain ⟨c1, c2, c3⟩ := a1 (List.mem_singleton.mpr rfl)
      obtain ⟨d1, d2⟩ := b2 hpl
      rw [d1, d2]
      exact ⟨c1, c2, c3⟩
    · have hql : q ∈ l := by
        rcases List.mem_cons.mp hm with e | e
        · exact absurd e hqp
        · exact e
      obtain ⟨c1, c2⟩ := a2 (fun hm1 => hqp (List.mem_singleton.mp hm1))
      obtain ⟨d1, d2, d3⟩ := b1 hql
      rw [← c1, ← c2]
      exact ⟨d1, d2, d3⟩
  · have hqp : q ≠ p := fun e => hn (e ▸ List.mem_cons_self _ _)
    have hql : q ∉ l := fun e => hn (List.mem_cons_of_mem _ e)
    obtain ⟨c1, c2⟩ := a2 (fun hm1 => hqp (List.mem_singleton.mp hm1))
    obtain ⟨d1, d2⟩ := b2 hql
    exact ⟨d1.trans c1, d2.trans c2⟩

/-- A parent walk whose body keeps the tree, over items that have a child info:
the relation `S` established at each item composes along the chain. -/
theorem upward_chain (body : Heap → Nat → Option Heap) (S : List Nat → Heap → Heap → Prop)
    (hnil : ∀ h, h.WF → S [] h h)
    (hcons : ∀ p l h h1 h2, S [p] h h1 → S l h1 h2 → p ∉ l → S (p :: l) h h2)
    (hshape : ∀ l a b, S l a b → SameShape a b) (hkeep : ∀ l a b, a.WF → S l a b → b.WF)
    (hbody : ∀ h p it ci, h.WF → h.cell p = some it → it.m_ci = some ci →
      ∃ h1, body h p = some h1 ∧ S [p] h h1) :
    ∀ (fuel : Nat) (h : Heap) (s : Option Nat) (l : List Nat), h.WF →
      chainFuel h fuel s = some l →
      (∀ p it, s = some p → h.cell p = some it → it.m_ci ≠ none) →
      ∃ h2, upward body fuel h s = some h2 ∧ S l h h2 := by
  intro fuel
  induction fuel with
  | zero =>
    intro h s l hwf hc _
    cases s with
    | none =>
      simp only [chainFuel, Option.some.injEq] at hc
      subst hc
      exact ⟨h, rfl, hnil h hwf⟩
    | some p => simp [chainFuel] at hc
  | succ n ih =>
    intro h s l hwf hc hs
    cases s with
    | none =>
      simp only [chainFuel, Option.some.injEq] at hc
      subst hc
      exact ⟨h, rfl, hnil h hwf⟩
    | some p =>
      have hnd := chainFuel_nodup hc
      obtain ⟨m, it, l1, hm, hcell, hr, rfl⟩ := chainFuel_some_iff.mp hc
      have hmn : m = n := by omega
      subst hmn
      obtain ⟨ci, hci⟩ := Option.ne_none_iff_exists'.mp (hs p it rfl hcell)
      obtain ⟨h1, hb, r1⟩ := hbody h p it ci hwf hcell hci
      have ss := hshape _ _ _ r1
      have w1 := hkeep _ _ _ hwf r1
      obtain ⟨it1, hc1, hsk⟩ := ss.cell_shape hcell
      have hr1 : chainFuel h1 m it.m_parent = some l1 := by
        rw [chainFuel_congr ss.parents_shape]; exact hr
      obtain ⟨h2, hu, r2⟩ := ih h1 it.m_parent l1 w1 hr1 (fun q qit hq hqc => by
        obtain ⟨_, pit, pci, hpc, hpci, _⟩ := w1.parent p it1 q hc1 (by
          rw [skel_parent hsk]; exact hq)
        rw [hqc] at hpc
        cases hpc
        rw [hpci]
        simp)
      refine ⟨h2, ?_, hcons p l1 h h1 h2 r1 r2 (List.nodup_cons.mp hnd).1⟩
      simp only [upward, hb, hc1, skel_parent hsk]
      exact hu

/-! ### C10 -/

/-- C10, amended: on a well-formed tree, `UpwardSubtractReadJobs(count)` with
`count ≠ 0` on an item with a child info returns; every item on the chain from the
item to the root has `count` read jobs less (modulo 2^32), is done if its counter is
now zero and keeps its done flag otherwise; every other item keeps its counter and
its done flag. -/
theorem C10_jobs_done (env : Env) (h : Heap) (hwf : h.WF) (self : Nat) (it : CItem)
    (ci : CHILDINFO) (hself : h.cell self = some it) (hci : it.m_ci = some ci)
    (count : Nat) (hcount : count ≠ 0) :
    ∃ h2 l, h.chain self = some l ∧ UpwardSubtractReadJobs env h self count = some h2 ∧
      ∀ q qit, h.cell q = some qit → ∃ qit2, h2.cell q = some qit2 ∧
        (q ∈ l → qit2.GetReadJobs = sub32 qit.GetReadJobs count ∧
          (qit2.GetReadJobs = 0 → qit2.IsDone = true) ∧
          (qit2.GetReadJobs ≠ 0 → qit2.IsDone = qit.IsDone)) ∧
        (q ∉ l → qit2.GetReadJobs = qit.GetReadJobs ∧ qit2.IsDone = qit.IsDone) := by
  obtain ⟨l, hl⟩ := hwf.chain_exists hself
  have hnf : it.IsType IT_FILE = false := by
    cases hf : it.IsType IT_FILE with
    | false => rfl
    | true =>
      have := (hwf.hasCi self it hself).mpr hf
      rw [hci] at this
      cases this
  obtain ⟨h2, e2, _, j2⟩ := upward_chain _
    (fun l a b => Rebalanced a b ∧ JobsStep count l a b)
    (fun a w => ⟨Rebalanced.refl_bal w, JobsStep.nil count a⟩)
    (fun _ _ _ _ _ a b hpl => ⟨a.1.trans_bal b.1, a.2.cons b.2 hpl⟩)
    (fun _ _ _ r => r.1.1) (fun _ _ _ w r => r.1.wf_bal w)
    (fun _ _ _ _ w c k => subJobs_step env count w c k)
    (h.next + 1) h (some self) l hwf hl (fun p pit hp hpc => by
      cases hp
      rw [hself] at hpc
      cases hpc
      rw [hci]
      simp)
  refine ⟨h2, l, hl, ?_, j2⟩
  unfold UpwardSubtractReadJobs
  simp only [hself, hcount, hnf, Bool.false_eq_true, or_self, if_false]
  exact e2

/-- C10 at the root of `exUndone`, whose one read job is taken: the root is done
afterwards. -/
theorem C10_jobs_done_witness :
    exUndone.WF ∧ 1 ≠ 0 ∧
    ∃ h2 l, exUndone.chain 0 = some l ∧ UpwardSubtractReadJobs exEnv exUndone 0 1 = some h2 ∧
      ∀ q qit, exUndone.cell q = some qit → ∃ qit2, h2.cell q = some qit2 ∧
        (q ∈ l → qit2.GetReadJobs = sub32 qit.GetReadJobs 1 ∧
          (qit2.GetReadJobs = 0 → qit2.IsDone = true) ∧
          (qit2.GetReadJobs ≠ 0 → qit2.IsDone = qit.IsDone)) ∧
        (q ∉ l → qit2.GetReadJobs = qit.GetReadJobs ∧ qit2.IsDone = qit.IsDone) :=
  ⟨WF_of_wfCheck (by decide), by decide,
    C10_jobs_done exEnv exUndone (WF_of_wfCheck (by decide)) 0
      { m_parent := none, m_name := "root", m_lastChange := 0, m_size := 12,
        m_attributes := 0, m_type := 516,
        m_ci := some { m_children := [1, 2], m_files := 2, m_subdirs := 0, m_jobs := 1 } }
      { m_children := [1, 2], m_files := 2, m_subdirs := 0, m_jobs := 1 }
      (by decide) rfl 1 (by decide)⟩

/-- C10 as stated fails in both directions. A freshly constructed folder has no read
job and is not done. A folder that `AddDirectory` creates where following is not
allowed has no read job and is not done. A folder on which `SetDone` and then
`UpwardAddReadJobs(1)` ran is done and has one read job. -/
theorem C10_counterexample :
    (∃ it, (Heap.empty.alloc (CItem.new IT_DIRECTORY "d")).cell 0 = some it ∧
      it.GetReadJobs = 0 ∧ it.IsDone = false) ∧
    (∃ h1 it, AddDirectory exEnvNoFollow (Heap.empty.alloc (CItem.new IT_DIRECTORY "r")) 0 ["r"]
        exFolderEntry = some (h1, 1) ∧ h1.cell 1 = some it ∧
      it.GetReadJobs = 0 ∧ it.IsDone = false) ∧
    (∃ h1 h2 it, SetDone exEnv (Heap.empty.alloc (CItem.new IT_DIRECTORY "d")) 0 = some h1 ∧
      UpwardAddReadJobs h1 0 1 = some h2 ∧ h2.cell 0 = some it ∧
      it.GetReadJobs = 1 ∧ it.IsDone = true) :=
  ⟨⟨_, rfl, rfl, rfl⟩, ⟨_, _, rfl, rfl, rfl, rfl⟩, ⟨_, _, _, rfl, rfl, rfl, rfl, rfl⟩⟩

/-! ### C5 and C3: the refresh on concrete snapshots -/

/-- C5, evaluated. My Computer is opened on the drives C: (with the empty folder
`d`) and D: (empty) and scanned to the end: the root counts one subdirectory, and
one directory item lies below it. D: disappears and is refreshed: the coordinator
prunes it, finds it gone, removes it and pushes nothing; the root now counts no
subdirectory although the directory item `d` still lies below it. On two empty
drives the count of the root goes from 0 to 4294967295. -/
theorem C5_vanished_drive :
    ∃ c c2 e e2,
      OnOpenDocument (exTwoDrives.env (fun _ _ => true) false false false false) 20
        ["C:\\", "D:\\"] "" true = some c ∧
      c.heap.aggregates 0 = some (0, 0, 1) ∧ c.heap.dirsBelow 0 = 1 ∧
      c.heap.filesBelow 0 = 0 ∧ c.heap.IsTypeAt IT_DRIVE 2 = true ∧
      (c.heap.cell 2).map CItem.IsDone = some true ∧
      StartupCoordinator (exOneDrive.env (fun _ _ => true) false false false false) 20 none
        { heap := c.heap, m_rootItem := c.m_rootItem } [2] = some c2 ∧
      c2.pushed = [] ∧ c2.heap.cell 2 = none ∧ c2.heap.kids 0 = [1] ∧
      c2.heap.aggregates 0 = some (0, 0, 0) ∧ c2.heap.dirsBelow 0 = 1 ∧
      OnOpenDocument (exEmptyDrives.env (fun _ _ => true) false false false false) 20
        ["C:\\", "D:\\"] "" true = some e ∧
      e.heap.aggregates 0 = some (0, 0, 0) ∧
      StartupCoordinator (exEmptyDrive.env (fun _ _ => true) false false false false) 20 none
        { heap := e.heap, m_rootItem := e.m_rootItem } [2] = some e2 ∧
      e2.heap.aggregates 0 = some (0, 0, 4294967295) ∧ e2.heap.dirsBelow 0 = 0 :=
  ⟨_, _, _, _, rfl, rfl, rfl, rfl, rfl, rfl, rfl, rfl, rfl, rfl, rfl, rfl, rfl, rfl, rfl, rfl,
    rfl⟩

/-- C3, evaluated. The folder `R` is scanned to the end, every folder may be
followed: `AddDirectory` gives the protected reparse point `j` no read job, so `j`
is not entered and the root has size 1, one file and one subdirectory. The done
directory item `j` is refreshed against the same snapshot: the coordinator consults
`IsFollowingAllowed` alone, `j` is scanned, and the root has size 10 and two files. -/
theorem C3_refresh_reparse :
    ∃ c c2,
      OnOpenDocument (exReparse.env (fun _ _ => true) false false false false) 20 [] "R"
        false = some c ∧
      c.finalized = true ∧ c.heap.aggregates 0 = some (1, 1, 1) ∧
      c.heap.aggregates 1 = some (0, 0, 0) ∧ c.heap.IsTypeAt IT_DIRECTORY 1 = true ∧
      (c.heap.cell 1).map CItem.IsDone = some true ∧
      StartupCoordinator (exReparse.env (fun _ _ => true) false false false false) 20 none
        { heap := c.heap, m_rootItem := c.m_rootItem } [1] = some c2 ∧
      c2.finalized = true ∧ c2.pushed = [1] ∧ c2.heap.aggregates 0 = some (10, 2, 1) ∧
      c2.heap.aggregates 1 = some (9, 1, 0) :=
  ⟨_, _, rfl, rfl, rfl, rfl, rfl, rfl, rfl, rfl, rfl, rfl, rfl⟩

/-! ### Heaps that grow -/

theorem KeptShape.refl_kept (h : Heap) : KeptShape h h := ⟨Nat.le_refl _, fun _ _ => rfl⟩

theorem KeptShape.trans_kept {h1 h2 h3 : Heap} (a : KeptShape h1 h2) (b : KeptShape h2 h3) :
    KeptShape h1 h3 :=
  ⟨Nat.le_trans a.1 b.1, fun q hq => (b.2 q (Nat.lt_of_lt_of_le hq a.1)).trans (a.2 q hq)⟩

theorem skel_key {a b : CItem} (h : a.skel = b.skel) : a.key = b.key := by
  unfold CItem.key
  rw [skel_parent h, skel_name h, skel_type h]

theorem SameShape.keptShape {h h2 : Heap} (hs : SameShape h h2) : KeptShape h h2 := by
  refine ⟨Nat.le_of_eq hs.1.symm, fun q _ => ?_⟩
  cases hq : h.cell q with
  | none => rw [hs.cell_none_shape hq]
  | some it =>
    obtain ⟨it2, h2q, hsk⟩ := hs.cell_shape hq
    rw [h2q]
    simp only [Option.map_some', skel_key hsk]

theorem KeptShape.cell_kept {h h2 : Heap} (hk : KeptShape h h2) {q : Nat} {it : CItem}
    (hq : h.cell q = some it) : ∃ it2, h2.cell q = some it2 ∧ it2.key = it.key := by
  have := hk.2 q (lt_next_of_cell hq)
  rw [hq] at this
  cases h2q : h2.cell q with
  | none => rw [h2q] at this; simp at this
  | some it2 =>
    rw [h2q] at this
    exact ⟨it2, rfl, by simpa using this⟩

theorem KeptShape.dead_kept {h h2 : Heap} (hk : KeptShape h h2) {q : Nat} (hlt : q < h.next)
    (hq : h.cell q = none) : h2.cell q = none := by
  have := hk.2 q hlt
  rw [hq] at this
  simpa using this

theorem KeptShape.back_kept {h h2 : Heap} (hk : KeptShape h h2) {q : Nat} {it2 : CItem}
    (hlt : q < h.next) (hq : h2.cell q = some it2) :
    ∃ it, h.cell q = some it ∧ it2.key = it.key := by
  cases hc : h.cell q with
  | none =>
    rw [hk.dead_kept hlt hc] at hq
    cases hq
  | some it =>
    obtain ⟨it3, h3, hkey⟩ := hk.cell_kept hc
    rw [hq] at h3
    cases h3
    exact ⟨it, rfl, hkey⟩

theorem key_parent {a b : CItem} (h : a.key = b.key) : a.m_parent = b.m_parent :=
  congrArg (fun s => s.1) h

theorem key_name {a b : CItem} (h : a.key = b.key) : a.m_name = b.m_name :=
  congrArg (fun s => s.2.1) h

theorem key_type {a b : CItem} (h : a.key = b.key) : a.GetType = b.GetType :=
  congrArg (fun s => s.2.2) h

theorem key_isType {a b : CItem} (h : a.key = b.key) (T : ITEMTYPE) (hT : 255 &&& T = T) :
    a.IsType T = b.IsType T := by
  rw [IsType_eq_GetType a T hT, IsType_eq_GetType b T hT, key_type h]

theorem chainFuel_kept {h h2 : Heap} (hk : KeptShape h h2) :
    ∀ (n : Nat) (s : Option Nat) (l : List Nat), chainFuel h n s = some l →
      chainFuel h2 n s = some l := by
  intro n
  induction n with
  | zero =>
    intro s l hc
    cases s with
    | none => exact hc
    | some p => simp [chainFuel] at hc
  | succ n ih =>
    intro s l hc
    cases s with
    | none => exact hc
    | some p =>
      obtain ⟨m, it, l1, hm, hcell, hr, rfl⟩ := chainFuel_some_iff.mp hc
      have hmn : m = n := by omega
      subst hmn
      obtain ⟨it2, h2c, hkey⟩ := hk.cell_kept hcell
      refine chainFuel_some_iff.mpr ⟨m, it2, l1, rfl, h2c, ?_, rfl⟩
      rw [key_parent hkey]
      exact ih _ _ hr

theorem chain_dead {h : Heap} {q : Nat} (hq : h.cell q = none) : h.chain q = none := by
  unfold Heap.chain
  simp [chainFuel, hq]

/-- The chain of an item of `h` is the same in a heap that keeps the shape. -/
theorem chain_kept {h h2 : Heap} (hwf : h.WF) (hk : KeptShape h h2) {q : Nat} (hlt : q < h.next) :
    h2.chain q = h.chain q := by
  cases hq : h.cell q with
  | none => rw [chain_dead hq, chain_dead (hk.dead_kept hlt hq)]
  | some it =>
    obtain ⟨l, hl⟩ := hwf.chain_exists hq
    rw [hl]
    exact chainFuel_mono (chainFuel_kept hk _ _ _ hl) (by have := hk.1; omega)

theorem below_kept {h h2 : Heap} (hwf : h.WF) (hk : KeptShape h h2) (p : Nat) {q : Nat}
    (hlt : q < h.next) : h2.below p q = h.below p q := by
  unfold Heap.below
  rw [chain_kept hwf hk hlt]

theorem below_dead {h : Heap} {q : Nat} (hq : h.cell q = none) (p : Nat) :
    h.below p q = false := by
  unfold Heap.below
  rw [chain_dead hq]

/-- The chain of an item allocated on top of `h` below `item`. -/
theorem chain_new {h h2 : Heap} (hk : KeptShape h h2) {item : Nat} {l : List Nat}
    (hl : h.chain item = some l) {nit : CItem} (hn : h2.cell h.next = some nit)
    (hpar : nit.m_parent = some item) : h2.chain h.next = some (h.next :: l) := by
  have h1 : chainFuel h2 (h.next + 1 + 1) (some h.next) = some (h.next :: l) := by
    refine chainFuel_some_iff.mpr ⟨h.next + 1, nit, l, rfl, hn, ?_, rfl⟩
    rw [hpar]
    exact chainFuel_kept hk _ _ _ hl
  have := lt_next_of_cell hn
  exact chainFuel_mono h1 (by omega)

theorem below_new {h h2 : Heap} (hk : KeptShape h h2) {item : Nat} {l : List Nat}
    (hl : h.chain item = some l) {nit : CItem} (hn : h2.cell h.next = some nit)
    (hpar : nit.m_parent = some item) (p : Nat) :
    h2.below p h.next = (decide (p = h.next) || h.below p item) := by
  unfold Heap.below
  rw [chain_new hk hl hn hpar, hl]
  simp only [List.mem_cons, Bool.decide_or]

/-! ### Paths and listings -/

theorem GetPath_eq (h : Heap) (q : Nat) :
    GetPath h q = (h.chain q).map fun l => l.foldl (pathStep h) [] := by
  unfold GetPath UpwardGetPathWithoutBackslash
  cases h.chain q <;> rfl

theorem foldl_congr_mem {α β : Type} (f g : β → α → β) :
    ∀ (l : List α) (init : β), (∀ b, ∀ x ∈ l, f b x = g b x) →
      l.foldl f init = l.foldl g init := by
  intro l
  induction l with
  | nil => intro _ _; rfl
  | cons a l ih =>
    intro init hfg
    simp only [List.foldl_cons]
    rw [hfg init a (List.mem_cons_self _ _)]
    exact ih _ (fun b x hx => hfg b x (List.mem_cons_of_mem _ hx))

theorem pathStep_kept {h h2 : Heap} (hk : KeptShape h h2) {x : Nat} {xit : CItem}
    (hx : h.cell x = some xit) (path : Path) : pathStep h2 path x = pathStep h path x := by
  obtain ⟨it2, h2x, hkey⟩ := hk.cell_kept hx
  unfold pathStep
  rw [hx, h2x]
  simp only []
  rw [key_isType hkey IT_DIRECTORY (by decide), key_isType hkey IT_FILE (by decide),
    key_isType hkey IT_DRIVE (by decide), key_name hkey]

/-- The path of an item of `h` is the same in a heap that keeps the shape. -/
theorem GetPath_kept {h h2 : Heap} (hwf : h.WF) (hk : KeptShape h h2) {q : Nat}
    (hlt : q < h.next) : GetPath h2 q = GetPath h q := by
  rw [GetPath_eq, GetPath_eq, chain_kept hwf hk hlt]
  cases hl : h.chain q with
  | none => rfl
  | some l =>
    simp only [Option.map_some', Option.some.injEq]
    refine foldl_congr_mem _ _ l [] (fun b x hx => ?_)
    obtain ⟨xit, hxc⟩ := chain_live hl x hx
    exact pathStep_kept hk hxc b

theorem listing_kept (snap : Snapshot) {h h2 : Heap} (hwf : h.WF) (hk : KeptShape h h2) {q : Nat}
    (hlt : q < h.next) : h2.listing snap q = h.listing snap q := by
  unfold Heap.listing
  rw [GetPath_kept hwf hk hlt]

theorem listTot_kept (snap : Snapshot) {h h2 : Heap} (hwf : h.WF) (hk : KeptShape h h2) {q : Nat}
    (hlt : q < h.next) : h2.listTot snap q = h.listTot snap q := by
  unfold Heap.listTot
  rw [listing_kept snap hwf hk hlt]

theorem pend_kept (snap : Snapshot) {h h2 : Heap} (hwf : h.WF) (hk : KeptShape h h2)
    {queue : List Nat} (hq : ∀ q ∈ queue, q < h.next) (p : Nat) :
    pend snap h2 queue p = pend snap h queue p := by
  unfold pend
  have e1 : (queue.filter fun q => h2.below p q) = queue.filter fun q => h.below p q :=
    List.filter_congr (fun q hm => below_kept hwf hk p (hq q hm))
  rw [e1]
  congr 1
  refine List.map_congr_left (fun q hm => listTot_kept snap hwf hk (hq q ?_))
  exact (List.mem_filter.mp hm).1

/-- The items of the chain of an item that is not a file are not files. -/
theorem chain_not_file {h : Heap} (hwf : h.WF) {item : Nat} {it : CItem} {l : List Nat}
    (hit : h.cell item = some it) (hnf : it.IsType IT_FILE = false)
    (hl : h.chain item = some l) {x : Nat} {xit : CItem} (hx : x ∈ l)
    (hxc : h.cell x = some xit) : xit.IsType IT_FILE = false := by
  by_cases hxi : x = item
  · subst hxi
    rw [hit] at hxc
    cases hxc
    exact hnf
  · obtain ⟨c, cit, _, hcc, hcp⟩ := chainFuel_step_below _ item l hl hx (Ne.symm hxi)
    obtain ⟨_, pit, ci, hpc, hci, _⟩ := hwf.parent c cit x hcc hcp
    rw [hxc] at hpc
    cases hpc
    cases hf : xit.IsType IT_FILE with
    | false => rfl
    | true =>
      have := (hwf.hasCi x xit hxc).mpr hf
      rw [hci] at this
      cases this

theorem pathStep_append {h : Heap} {x : Nat} {xit : CItem} (hx : h.cell x = some xit)
    (hnf : xit.IsType IT_FILE = false) (path : Path) :
    pathStep h path x = pathStep h [] x ++ path := by
  unfold pathStep
  rw [hx]
  simp only [hnf, Bool.false_eq_true, if_false]
  split
  · rfl
  · split
    · rfl
    · rfl

theorem foldl_pathStep_append {h : Heap} :
    ∀ (l : List Nat) (init : Path),
      (∀ x ∈ l, ∃ xit, h.cell x = some xit ∧ xit.IsType IT_FILE = false) →
      l.foldl (pathStep h) init = l.foldl (pathStep h) [] ++ init := by
  intro l
  induction l with
  | nil => intro init _; rfl
  | cons a l ih =>
    intro init hl
    obtain ⟨ait, ha, hnf⟩ := hl a (List.mem_cons_self _ _)
    have hl2 : ∀ x ∈ l, ∃ xit, h.cell x = some xit ∧ xit.IsType IT_FILE = false :=
      fun x hx => hl x (List.mem_cons_of_mem _ hx)
    simp only [List.foldl_cons]
    rw [ih _ hl2, ih (pathStep h [] a) hl2, pathStep_append ha hnf init, List.append_assoc]

/-- The path of a directory is the path of its parent followed by its name. -/
theorem GetPath_child {h : Heap} (hwf : h.WF) {n item : Nat} {nit it : CItem}
    (hn : h.cell n = some nit) (hpar : nit.m_parent = some item)
    (hdir : nit.IsType IT_DIRECTORY = true) (hit : h.cell item = some it)
    (hnf : it.IsType IT_FILE = false) :
    ∃ path, GetPath h item = some path ∧ GetPath h n = some (path ++ [nit.m_name]) := by
  obtain ⟨ln, hln⟩ := hwf.chain_exists hn
  obtain ⟨_, l1, _, rfl⟩ := chain_head hln
  rcases chain_cons_parent hln hn with ⟨hnone, _⟩ | ⟨c, hc, hl⟩
  · rw [hpar] at hnone; cases hnone
  · rw [hpar] at hc
    cases hc
    refine ⟨l1.foldl (pathStep h) [], by rw [GetPath_eq, hl]; rfl, ?_⟩
    rw [GetPath_eq, hln]
    simp only [Option.map_some', List.foldl_cons, Option.some.injEq]
    rw [foldl_pathStep_append l1 _ (fun x hx => by
      obtain ⟨xit, hxc⟩ := chain_live hl x hx
      exact ⟨xit, hxc, chain_not_file hwf hit hnf hl hx hxc⟩)]
    congr 1
    unfold pathStep
    rw [hn]
    simp [hdir]

/-- The path of a directory is not empty. -/
theorem GetPath_ne_nil {h : Heap} (hwf : h.WF) {item : Nat} {it : CItem}
    (hit : h.cell item = some it) (hdir : it.IsType IT_DIRECTORY = true) :
    ∃ r rest, GetPath h item = some (r :: rest) := by
  obtain ⟨l, hl⟩ := hwf.chain_exists hit
  obtain ⟨_, l1, _, rfl⟩ := chain_head hl
  have hnf : it.IsType IT_FILE = false := by
    cases hf : it.IsType IT_FILE with
    | false => rfl
    | true =>
      rcases hwf.kind item it hit with e | e | e | e | e | e <;>
        (have t1 := IsType_of_GetType it _ IT_DIRECTORY e (by decide)
         have t2 := IsType_of_GetType it _ IT_FILE e (by decide)
         rw [hdir] at t1
         rw [hf] at t2
         first
         | exact absurd t1 (by decide)
         | exact absurd t2 (by decide))
  have hstep : pathStep h [] item = [it.m_name] := by
    unfold pathStep
    rw [hit]
    simp [hdir]
  have happ := foldl_pathStep_append (h := h) l1 [it.m_name] (fun x hx => by
    have hx2 : x ∈ item :: l1 := List.mem_cons_of_mem _ hx
    obtain ⟨xit, hxc⟩ := chain_live hl x hx2
    exact ⟨xit, hxc, chain_not_file hwf hit hnf hl hx2 hxc⟩)
  have hp : GetPath h item = some (l1.foldl (pathStep h) [] ++ [it.m_name]) := by
    rw [GetPath_eq, hl]
    simp only [Option.map_some', List.foldl_cons, hstep, happ]
  rw [hp]
  cases hh : l1.foldl (pathStep h) [] with
  | nil => exact ⟨it.m_name, [], rfl⟩
  | cons r rest => exact ⟨r, rest ++ [it.m_name], rfl⟩

theorem Fs.walk_append (fs : Fs) (p : Path) (name : String) :
    fs.walk (p ++ [name]) = (fs.walk p).bind fun s => s.sub name := by
  induction p generalizing fs with
  | nil =>
    simp only [List.nil_append, Fs.walk, Option.some_bind]
    cases fs.sub name <;> rfl
  | cons a p ih =>
    simp only [List.cons_append, Fs.walk]
    cases fs.sub a with
    | none => rfl
    | some s => exact ih s

theorem Snapshot.listing_append (snap : Snapshot) (r : String) (rest : Path) (name : String) :
    snap.listing (r :: rest ++ [name]) = (snap.listing (r :: rest)).bind fun s => s.sub name := by
  unfold Snapshot.listing Snapshot.volume
  simp only [List.cons_append, List.tail_cons]
  cases snap.find? fun v => v.root == r with
  | none => rfl
  | some v => exact Fs.walk_append _ _ _

/-- The listing of a directory is the sublisting of its name in the listing of its
parent. -/
theorem listing_child (snap : Snapshot) {h : Heap} (hwf : h.WF) {n item : Nat} {nit it : CItem}
    (hn : h.cell n = some nit) (hpar : nit.m_parent = some item)
    (hdir : nit.IsType IT_DIRECTORY = true) (hit : h.cell item = some it)
    (hidir : it.IsType IT_DIRECTORY = true) (hnf : it.IsType IT_FILE = false) :
    h.listing snap n = (h.listing snap item).bind fun s => s.sub nit.m_name := by
  obtain ⟨path, hp, hpn⟩ := GetPath_child hwf hn hpar hdir hit hnf
  obtain ⟨r, rest, hr⟩ := GetPath_ne_nil hwf hit hidir
  rw [hp] at hr
  cases hr
  unfold Heap.listing
  rw [hp, hpn]
  exact Snapshot.listing_append snap r rest _

/-! ### Aggregates under the operations of the scanner -/

theorem TotStep.comp {d1 d2 : Tot} {l : List Nat} {h h1 h2 : Heap} (a : TotStep d1 l h h1)
    (b : TotStep d2 l h1 h2) (hle : h.next ≤ h1.next) : TotStep (d1 + d2) l h h2 := by
  intro q hq
  rw [b q (Nat.lt_of_lt_of_le hq hle), a q hq]
  split <;> abel

theorem TotStep.of_same {h h2 : Heap} (l : List Nat) (hs : ∀ q, h2.totAt q = h.totAt q) :
    TotStep 0 l h h2 := by
  intro q _
  rw [hs q]
  simp

theorem totAt_of_cell {h : Heap} {q : Nat} {it : CItem} (hq : h.cell q = some it) :
    h.totAt q = it.tot := by
  simp [Heap.totAt, hq]

theorem totAt_dead {h : Heap} {q : Nat} (hq : h.cell q = none) : h.totAt q = 0 := by
  simp [Heap.totAt, hq]

theorem tot_eq_of {a b : CItem} (hs : a.m_size = b.m_size) (hf : a.GetFilesCount = b.GetFilesCount)
    (hd : a.GetSubdirsCount = b.GetSubdirsCount) : a.tot = b.tot := by
  unfold CItem.tot
  rw [hs, hf, hd]

theorem mapCi_files (f : CHILDINFO → CHILDINFO) (hf : ∀ ci, (f ci).m_files = ci.m_files)
    (it : CItem) : (it.mapCi f).GetFilesCount = it.GetFilesCount := by
  unfold CItem.GetFilesCount CItem.mapCi
  cases it.m_ci with
  | none => rfl
  | some ci => simp [hf]

theorem mapCi_subdirs (f : CHILDINFO → CHILDINFO) (hf : ∀ ci, (f ci).m_subdirs = ci.m_subdirs)
    (it : CItem) : (it.mapCi f).GetSubdirsCount = it.GetSubdirsCount := by
  unfold CItem.GetSubdirsCount CItem.mapCi
  cases it.m_ci with
  | none => rfl
  | some ci => simp [hf]

theorem mapCi_tot (f : CHILDINFO → CHILDINFO) (hf : ∀ ci, (f ci).m_files = ci.m_files)
    (hd : ∀ ci, (f ci).m_subdirs = ci.m_subdirs) (it : CItem) : (it.mapCi f).tot = it.tot :=
  tot_eq_of rfl (mapCi_files f hf it) (mapCi_subdirs f hd it)

theorem SetType_tot (it : CItem) (F : ITEMTYPE) (b : Bool) : (it.SetType F b).tot = it.tot := by
  unfold CItem.SetType
  split <;> rfl

theorem sortF_tot (h : Heap) (it : CItem) : (sortF h it).tot = it.tot := by
  unfold sortF CItem.tot CItem.GetFilesCount CItem.GetSubdirsCount
  cases hci : it.m_ci with
  | none => simp [hci]
  | some ci => simp [hci]

theorem doneF_tot (h : Heap) (it : CItem) : (doneF h it).tot = it.tot := by
  unfold doneF
  rw [SetType_tot, sortF_tot]

theorem add32_cast (a b : Nat) : ((add32 a b : Nat) : Z32) = (a : Z32) + (b : Z32) := by
  unfold add32
  rw [ZMod.natCast_mod]
  push_cast
  rfl

theorem addFilesF_tot {it : CItem} (hnf : it.IsType IT_FILE = false) {ci : CHILDINFO}
    (hci : it.m_ci = some ci) (n : Nat) :
    (addFilesF n it).tot = it.tot + (0, (n : Z32), 0) := by
  unfold addFilesF
  by_cases hn : n = 0
  · subst hn
    simp
  · simp only [hn, hnf, Bool.false_eq_true, or_self, if_false]
    simp only [CItem.tot, CItem.mapCi, CItem.GetFilesCount, CItem.GetSubdirsCount, hci,
      Option.map_some', Prod.mk_add_mk, add_zero, add32_cast]

theorem addSubdirsF_tot {it : CItem} (hnf : it.IsType IT_FILE = false) {ci : CHILDINFO}
    (hci : it.m_ci = some ci) (n : Nat) :
    (addSubdirsF n it).tot = it.tot + (0, 0, (n : Z32)) := by
  unfold addSubdirsF
  by_cases hn : n = 0
  · subst hn
    simp
  · simp only [hn, hnf, Bool.false_eq_true, or_self, if_false]
    simp only [CItem.tot, CItem.mapCi, CItem.GetFilesCount, CItem.GetSubdirsCount, hci,
      Option.map_some', Prod.mk_add_mk, add_zero, add32_cast]

theorem addSizeF_tot (n : Nat) (it : CItem) :
    (addSizeF n it).tot = it.tot + ((n : Z64), 0, 0) := by
  have hc := addSizeF_cast n it
  have h1 : (addSizeF n it).GetFilesCount = it.GetFilesCount := by
    unfold addSizeF; split <;> rfl
  have h2 : (addSizeF n it).GetSubdirsCount = it.GetSubdirsCount := by
    unfold addSizeF; split <;> rfl
  simp only [CItem.tot, Prod.mk_add_mk, add_zero, hc, h1, h2]

theorem laterF_tot (t : Nat) (it : CItem) : (laterF t it).tot = it.tot := by
  unfold laterF; split <;> rfl

theorem linkF_tot (P child q : Nat) (it : CItem) : (linkF P child q it).tot = it.tot := by
  unfold linkF
  dsimp only
  split_ifs <;>
    first
    | rfl
    | exact mapCi_tot (pushChildF child) (fun _ => rfl) (fun _ => rfl) _

theorem addJobsF_tot (n : Nat) (it : CItem) : (addJobsF n it).tot = it.tot := by
  unfold addJobsF
  split
  · rfl
  · exact mapCi_tot (fun ci => { ci with m_jobs := add32 ci.m_jobs n }) (fun _ => rfl)
      (fun _ => rfl) it

theorem subJobsF_tot (n : Nat) (it : CItem) : (subJobsF n it).tot = it.tot :=
  mapCi_tot (fun ci => { ci with m_jobs := sub32 ci.m_jobs n }) (fun _ => rfl) (fun _ => rfl) it

/-- `SetDone` on an item that is not a drive changes no aggregate. -/
theorem SetDone_tot (env : Env) {h : Heap} (hwf : h.WF) {p : Nat} {it : CItem}
    (hp : h.cell p = some it) (hnd : it.IsType IT_DRIVE = false) :
    ∃ h2, SetDone env h p = some h2 ∧ Rebalanced h h2 ∧ ∀ q, h2.totAt q = h.totAt q := by
  obtain ⟨h2, e2, r2⟩ := SetDone_rebalanced env hwf hp
  refine ⟨h2, e2, r2, ?_⟩
  by_cases hdone : it.IsDone = true
  · have e : SetDone env h p = some h := by
      unfold SetDone
      simp [hp, hdone]
    rw [e] at e2
    cases e2
    intro q
    rfl
  · obtain ⟨h3, s, _, _, heq, hp3, e3⟩ := SetDone_spec env hwf hp (by simpa using hdone)
    rw [e3] at e2
    cases e2
    have := heq hnd
    subst this
    intro q
    unfold Heap.totAt
    rw [cell_set_of_live hp3]
    by_cases hqp : q = p
    · subst hqp
      simp only [if_true, doneF_tot, hp3]
    · simp [hqp]

/-! ### Trees without pseudo items -/

theorem OnlyDF.noPseudo_of {h : Heap} (hd : OnlyDF h) : NoPseudo h := by
  intro p it hp
  rcases hd p it hp with e | e
  · exact ⟨by rw [IsType_of_GetType it _ IT_FREESPACE e (by decide)]; rfl,
      by rw [IsType_of_GetType it _ IT_UNKNOWN e (by decide)]; rfl⟩
  · exact ⟨by rw [IsType_of_GetType it _ IT_FREESPACE e (by decide)]; rfl,
      by rw [IsType_of_GetType it _ IT_UNKNOWN e (by decide)]; rfl⟩

/-- In a tree without pseudo items no item has a child of the type of one. -/
theorem find_pseudo_none {h : Heap} (hnp : NoPseudo h) (cs : List Nat) :
    cs.find? (h.IsTypeAt IT_FREESPACE) = none ∧ cs.find? (h.IsTypeAt IT_UNKNOWN) = none := by
  constructor
  · rw [List.find?_eq_none]
    intro c _
    unfold Heap.IsTypeAt
    cases hc : h.cell c with
    | none => simp
    | some cit => simp [(hnp c cit hc).1]
  · rw [List.find?_eq_none]
    intro c _
    unfold Heap.IsTypeAt
    cases hc : h.cell c with
    | none => simp
    | some cit => simp [(hnp c cit hc).2]

/-- In a tree without pseudo items the updates of the pseudo items change nothing. -/
theorem update_pseudo_none (env : Env) {h : Heap} (hnp : NoPseudo h) {p : Nat} {it : CItem}
    {ci : CHILDINFO} (hp : h.cell p = some it) (hci : it.m_ci = some ci) :
    UpdateFreeSpaceItem env h p = some h ∧ UpdateUnknownItem env h p = some h := by
  obtain ⟨a, b⟩ := find_pseudo_none hnp ci.m_children
  constructor
  · unfold UpdateFreeSpaceItem FindFreeSpaceItem
    rw [FindChildOfType_eq hp hci, a]
  · unfold UpdateUnknownItem FindUnknownItem
    rw [FindChildOfType_eq hp hci, b]

/-- `SetDone` on an item whose pseudo items, if it is a drive, need no update changes
no aggregate. -/
theorem SetDone_quiet (env : Env) {h : Heap} (hwf : h.WF) {p : Nat} {it : CItem}
    (hp : h.cell p = some it)
    (hq : it.IsType IT_DRIVE = true →
      UpdateFreeSpaceItem env h p = some h ∧ UpdateUnknownItem env h p = some h) :
    ∃ h2, SetDone env h p = some h2 ∧ Rebalanced h h2 ∧ ∀ q, h2.totAt q = h.totAt q := by
  by_cases hdr : it.IsType IT_DRIVE = true
  · obtain ⟨h2, e2, r2⟩ := SetDone_rebalanced env hwf hp
    refine ⟨h2, e2, r2, ?_⟩
    by_cases hdone : it.IsDone = true
    · have e : SetDone env h p = some h := by
        unfold SetDone
        simp [hp, hdone]
      rw [e] at e2
      cases e2
      intro q
      rfl
    · have e : SetDone env h p = some (h.set p (doneF h it)) := by
        unfold SetDone
        simp only [hp, hdone, Bool.false_eq_true, if_false, hdr, if_true, (hq hdr).1,
          (hq hdr).2]
        have hsort : (if it.m_ci = none then some h else SortItemsBySize h p) =
            some (h.set p (sortF h it)) := by
          by_cases hci : it.m_ci = none
          · simp only [hci, if_true]
            rw [sortF_of_noCi h hci, set_same hp]
          · simp only [hci, if_false]
            unfold SortItemsBySize
            rw [modify_eq hp]
            rfl
        rw [hsort]
        simp only []
        have hc3 : (h.set p (sortF h it)).cell p = some (sortF h it) := by
          rw [cell_set_of_live hp]; simp
        rw [modify_eq hc3, set_set]
        rfl
      rw [e] at e2
      cases e2
      intro q
      unfold Heap.totAt
      rw [cell_set_of_live hp]
      by_cases hqp : q = p
      · subst hqp
        simp only [if_true, doneF_tot, hp]
      · simp [hqp]
  · exact SetDone_tot env hwf hp (by simpa using hdr)

/-- `SetDone` in a tree without pseudo items changes no aggregate. -/
theorem SetDone_calm (env : Env) {h : Heap} (hwf : h.WF) (hnp : NoPseudo h) {p : Nat}
    {it : CItem} (hp : h.cell p = some it) :
    ∃ h2, SetDone env h p = some h2 ∧ Rebalanced h h2 ∧ ∀ q, h2.totAt q = h.totAt q :=
  SetDone_quiet env hwf hp (fun hd => by
    obtain ⟨ci, hci⟩ := Option.ne_none_iff_exists'.mp (hwf.drive_hasCi hp hd)
    exact update_pseudo_none env hnp hp hci)

theorem TotStep.cast {d d2 : Tot} {l : List Nat} {h h2 : Heap} (a : TotStep d l h h2)
    (hd : d = d2) : TotStep d2 l h h2 := hd ▸ a

theorem alloc_kept (h : Heap) (it0 : CItem) : KeptShape h (h.alloc it0) := by
  refine ⟨by simp, fun q hq => ?_⟩
  rw [cell_alloc]
  have : q ≠ h.next := by omega
  simp [this]

theorem propagateF_key (l : List Nat) (sz t : Nat) (b : Bool) (q : Nat) (it : CItem) :
    (propagateF l sz t b q it).key = it.key := skel_key (propagateF_skel l sz t b q it)

theorem linkF_name (P child q : Nat) (it : CItem) : (linkF P child q it).m_name = it.m_name := by
  unfold linkF
  dsimp only
  split_ifs <;> rfl

theorem linkF_key {P child q : Nat} (hq : q ≠ child) (it : CItem) :
    (linkF P child q it).key = it.key := by
  unfold CItem.key
  rw [linkF_parent, linkF_name, linkF_getType]
  simp [hq]

theorem propagateF_tot (l : List Nat) (sz t : Nat) (q : Nat) (it : CItem) :
    (propagateF l sz t false q it).tot = it.tot + if q ∈ l then ((sz : Z64), 0, 0) else 0 := by
  unfold propagateF
  by_cases hq : q ∈ l
  · simp only [hq, and_self, if_true, laterF_tot, addSizeF_tot]
  · simp [hq]

/-- Allocation of a fresh item followed by `AddChild` of it, cell by cell. -/
theorem alloc_link {h : Heap} (hwf : h.WF) {item : Nat} {it : CItem} {ci : CHILDINFO}
    {l : List Nat} (hit : h.cell item = some it) (hci : it.m_ci = some ci)
    (hl : h.chain item = some l) {it0 : CItem} (hf : it0.Fresh) :
    ∃ h2, AddChild (h.alloc it0) item h.next false = some h2 ∧ h2.WF ∧
      h2.next = h.next + 1 ∧ KeptShape h h2 ∧ TotStep ((it0.m_size : Z64), 0, 0) l h h2 ∧
      (∀ a, a ≠ h.next → h2.kids a = if a = item then h.kids a ++ [h.next] else h.kids a) ∧
      h2.kids h.next = [] ∧
      ∃ nit, h2.cell h.next = some nit ∧ nit.m_parent = some item ∧
        nit.m_name = it0.m_name ∧ nit.m_type = it0.m_type ∧ nit.tot = it0.tot ∧
        nit.m_ci = it0.m_ci := by
  have w1 := wf_alloc hwf hf
  have hlt := lt_next_of_cell hit
  have hk := alloc_kept h it0
  have hl1 : (h.alloc it0).chain item = some l := by rw [chain_kept hwf hk hlt]; exact hl
  have hit1 := cell_alloc_old hit it0
  have hn1 := cell_alloc_new h it0
  obtain ⟨h2, e2, _, _, w2⟩ := AddChild_spec w1 hit1 hci hn1 hf.1 (not_below_new w1 hlt)
  have e2b := AddChild_eq hl1 hit1 (by rw [hci]; simp) hn1 false
  rw [e2] at e2b
  have e2c := Option.some.inj e2b
  rw [AddChild_link] at e2c
  have hnl : h.next ∉ l := by
    intro hm
    have := hwf.chain_le hl _ hm
    omega
  have hcell : ∀ q, h2.cell q = ((h.alloc it0).cell q).map fun x =>
      linkF item h.next q (propagateF l it0.m_size it0.m_lastChange false q x) := by
    intro q
    rw [e2c, cell_link, cell_mapIdx, Option.map_map]
    rfl
  have hkm : ∀ a, ((h.alloc it0).mapIdx (propagateF l it0.m_size it0.m_lastChange false)).kids a =
      (h.alloc it0).kids a := by
    intro a
    unfold Heap.kids
    rw [cell_mapIdx]
    cases (h.alloc it0).cell a with
    | none => rfl
    | some x => simp only [Option.map_some', propagateF_ci]
  have hPm : ((h.alloc it0).mapIdx (propagateF l it0.m_size it0.m_lastChange false)).cell item =
      some (propagateF l it0.m_size it0.m_lastChange false item it) := by
    rw [cell_mapIdx, hit1]
    rfl
  have hkl : ∀ a, (((h.alloc it0).mapIdx (propagateF l it0.m_size it0.m_lastChange false)).link
      item h.next).kids a = if a = item then
        ((h.alloc it0).mapIdx (propagateF l it0.m_size it0.m_lastChange false)).kids a ++ [h.next]
      else ((h.alloc it0).mapIdx (propagateF l it0.m_size it0.m_lastChange false)).kids a :=
    kids_link _ hPm (by rw [propagateF_ci]; exact hci)
  have hkn : (h.alloc it0).kids h.next = [] := by
    cases hc0 : it0.m_ci with
    | none => exact kids_noCi hn1 hc0
    | some c0 =>
      rw [kids_eq hn1 hc0]
      exact (hf.2.2.2.2 c0 hc0).1
  refine ⟨h2, e2, w2 hlt, ?_, ⟨?_, fun q hq => ?_⟩, fun q hq => ?_, fun a ha => ?_, ?_, ?_⟩
  · rw [e2c, next_link, next_mapIdx, next_alloc]
  · rw [e2c, next_link, next_mapIdx, next_alloc]
    omega
  · have hne : q ≠ h.next := by omega
    rw [hcell, cell_alloc]
    simp only [hne, if_false, Option.map_map]
    cases h.cell q with
    | none => rfl
    | some x =>
      simp only [Option.map_some', Function.comp, linkF_key hne, propagateF_key]
  · have hne : q ≠ h.next := by omega
    unfold Heap.totAt
    rw [hcell, cell_alloc]
    simp only [hne, if_false]
    cases hc : h.cell q with
    | none =>
      have hql : q ∉ l := fun hm => by
        obtain ⟨x, hx⟩ := chain_live hl q hm
        rw [hc] at hx
        cases hx
      simp [hql]
    | some x =>
      simp only [Option.map_some', linkF_tot, propagateF_tot]
  · rw [e2c, hkl a, hkm, kids_alloc it0 ha]
  · rw [e2c, hkl, hkm, hkn]
    have : h.next ≠ item := by omega
    simp [this]
  · refine ⟨_, by rw [hcell, hn1]; rfl, ?_, ?_, ?_, ?_, ?_⟩
    · rw [linkF_parent]; simp
    · rw [linkF_name]
      exact skel_name (propagateF_skel _ _ _ _ _ _)
    · rw [linkF_type]
      unfold propagateF
      simp [hnl]
    · rw [linkF_tot, propagateF_tot]
      simp [hnl]
    · rw [linkF_ci, propagateF_ci]
      have : h.next ≠ item := by omega
      simp [this]

theorem mapOn_counter_steps {h : Heap} (hwf : h.WF) {item : Nat} {it : CItem}
    (hit : h.cell item = some it) (hnf : it.IsType IT_FILE = false) {l : List Nat}
    (hl : h.chain item = some l) (f : CItem → CItem) (d : Tot)
    (hf : ∀ x ci, x.IsType IT_FILE = false → x.m_ci = some ci → (f x).tot = x.tot + d) :
    TotStep d l h (h.mapOn l f) := by
  intro q _
  unfold Heap.totAt
  rw [cell_mapOn]
  by_cases hq : q ∈ l
  · obtain ⟨x, hx⟩ := chain_live hl q hq
    have hxf := chain_not_file hwf hit hnf hl hq hx
    have hxci : x.m_ci ≠ none := fun hn => by
      have := (hwf.hasCi q x hx).mp hn
      rw [hxf] at this
      cases this
    obtain ⟨ci, hci⟩ := Option.ne_none_iff_exists'.mp hxci
    simp only [hq, if_true, hx, Option.map_some', hf x ci hxf hci]
  · simp [hq]

theorem addFilesF_rebalanced {h : Heap} (hwf : h.WF) (l : List Nat) (n : Nat) :
    Rebalanced h (h.mapOn l (addFilesF n)) := by
  refine mapOn_rebalanced hwf l _ (fun it => ?_) (fun it => ?_) (fun it hit ci hci => ?_)
  · unfold addFilesF
    split
    · rfl
    · exact mapCi_skel (fun ci => { ci with m_files := add32 ci.m_files n }) (fun _ => rfl) it
  · unfold addFilesF
    split <;> rfl
  · unfold addFilesF at hci
    split at hci
    · exact hit ci hci
    · simp only [CItem.mapCi, Option.map_eq_some'] at hci
      obtain ⟨ci0, h0, rfl⟩ := hci
      obtain ⟨_, b, c⟩ := hit ci0 h0
      exact ⟨add32_lt _ _, b, c⟩

theorem addSubdirsF_rebalanced {h : Heap} (hwf : h.WF) (l : List Nat) (n : Nat) :
    Rebalanced h (h.mapOn l (addSubdirsF n)) := by
  refine mapOn_rebalanced hwf l _ (fun it => ?_) (fun it => ?_) (fun it hit ci hci => ?_)
  · unfold addSubdirsF
    split
    · rfl
    · exact mapCi_skel (fun ci => { ci with m_subdirs := add32 ci.m_subdirs n }) (fun _ => rfl) it
  · unfold addSubdirsF
    split <;> rfl
  · unfold addSubdirsF at hci
    split at hci
    · exact hit ci hci
    · simp only [CItem.mapCi, Option.map_eq_some'] at hci
      obtain ⟨ci0, h0, rfl⟩ := hci
      obtain ⟨a, _, c⟩ := hit ci0 h0
      exact ⟨a, add32_lt _ _, c⟩

theorem not_file_of_ci {h : Heap} (hwf : h.WF) {p : Nat} {it : CItem} {ci : CHILDINFO}
    (hp : h.cell p = some it) (hci : it.m_ci = some ci) : it.IsType IT_FILE = false := by
  cases hf : it.IsType IT_FILE with
  | false => rfl
  | true =>
    have := (hwf.hasCi p it hp).mpr hf
    rw [hci] at this
    cases this

theorem getType_of_type {a b : CItem} (h : a.m_type = b.m_type) : a.GetType = b.GetType := by
  unfold CItem.GetType
  rw [h]

theorem leafTot_file {it : CItem} (ht : it.GetType = IT_FILE) :
    it.leafTot = ((it.m_size : Z64), 1, 0) := by
  unfold CItem.leafTot
  rw [IsType_of_GetType it _ IT_FILE ht (by decide)]
  rfl

theorem leafTot_dir {it : CItem} (ht : it.GetType = IT_DIRECTORY) : it.leafTot = (0, 0, 1) := by
  unfold CItem.leafTot
  rw [IsType_of_GetType it _ IT_FILE ht (by decide),
    IsType_of_GetType it _ IT_DIRECTORY ht (by decide)]
  rfl

theorem isDir_of_getType {it : CItem} (ht : it.GetType = IT_DIRECTORY) :
    it.IsType IT_DIRECTORY = true := by
  rw [IsType_of_GetType it _ IT_DIRECTORY ht (by decide)]; rfl

theorem notFile_of_dir {it : CItem} (ht : it.GetType = IT_DIRECTORY) :
    it.IsType IT_FILE = false := by
  rw [IsType_of_GetType it _ IT_FILE ht (by decide)]; rfl

theorem isDrive_of_getType {it : CItem} (ht : it.GetType = IT_DIRECTORY ∨ it.GetType = IT_FILE) :
    it.IsType IT_DRIVE = false := by
  rcases ht with e | e
  · rw [IsType_of_GetType it _ IT_DRIVE e (by decide)]; rfl
  · rw [IsType_of_GetType it _ IT_DRIVE e (by decide)]; rfl

/-- The file branch of `ScanEntry`: `UpwardAddFiles(1)` and `AddFile`. -/
theorem file_entry (env : Env) {h : Heap} (hwf : h.WF) {item : Nat} {it : CItem}
    {ci : CHILDINFO} {l : List Nat} (hit : h.cell item = some it) (hci : it.m_ci = some ci)
    (hl : h.chain item = some l) (finder : FindData)
    (hsz : finder.size < 18446744073709551616) :
    ∃ h1 h3, UpwardAddFiles h item 1 = some h1 ∧ AddFile env h1 item finder = some (h3, h.next) ∧
      Grown h h3 item l ((finder.size : Z64), 1, 0) ((finder.size : Z64), 0, 0) IT_FILE
        finder.name := by
  have hnf := not_file_of_ci hwf hit hci
  have r1 := addFilesF_rebalanced hwf l 1
  have w1 := r1.wf_bal hwf
  have t1 : TotStep (0, 1, 0) l h (h.mapOn l (addFilesF 1)) :=
    mapOn_counter_steps hwf hit hnf hl _ _ (fun x ci hx hc => by
      rw [addFilesF_tot hx hc]; simp)
  obtain ⟨it1, hit1, hsk1⟩ := r1.1.cell_shape hit
  obtain ⟨ci1, hci1, _⟩ := skel_ci_some hsk1 hci
  have hl1 : (h.mapOn l (addFilesF 1)).chain item = some l := by
    rw [r1.1.chain_shape]; exact hl
  have hn1 : (h.mapOn l (addFilesF 1)).next = h.next := r1.1.1
  have hf := fresh_new IT_FILE finder.name finder.size finder.lastWrite finder.attributes
    (Or.inr (Or.inl rfl)) hsz
  obtain ⟨h2, e2, w2, n2, k2, t2, kd2, kn2, nit, hn, hpar, hname, htype, htot, _⟩ :=
    alloc_link w1 hit1 hci1 hl1 hf
  rw [hn1] at e2 n2 hn kd2 kn2
  have hgt : nit.GetType = IT_FILE := by
    rw [getType_of_type htype]
    show IT_FILE &&& (65535 ^^^ ITF_FLAGS) = IT_FILE
    decide
  obtain ⟨h3, e3, r3, t3⟩ := SetDone_tot env w2 hn (isDrive_of_getType (Or.inr hgt))
  obtain ⟨nit3, hn3, hsk3⟩ := r3.1.cell_shape hn
  have htot3 : nit3.tot = ((finder.size : Z64), 0, 0) := by
    rw [← totAt_of_cell hn3, t3, totAt_of_cell hn, htot]
    rfl
  have hgt3 : nit3.GetType = IT_FILE := by rw [skel_type hsk3]; exact hgt
  refine ⟨_, h3, UpwardAddFiles_eq hl (hwf.ciOk l) 1, ?_, ?_⟩
  · unfold AddFile
    simp only [hn1]
    rw [e2]
    simp only []
    rw [e3]
  · refine ⟨r3.wf_bal w2, by rw [r3.1.1, n2], (r1.1.keptShape.trans_kept k2).trans_kept
      r3.1.keptShape, ?_, ⟨nit3, hn3, by rw [skel_parent hsk3]; exact hpar,
      by rw [skel_name hsk3]; exact hname, hgt3, htot3, ?_⟩, fun a ha => ?_, ?_⟩
    · have a := (t1.comp t2 (Nat.le_of_eq hn1.symm)).comp (TotStep.of_same l t3)
        (by rw [n2]; omega)
      exact a.cast (by simp)
    · rw [leafTot_file hgt3]
      have := congrArg (fun s => s.1) htot3
      simp only [CItem.tot] at this
      rw [this]
    · refine (r3.1.kids a).trans ?_
      rw [kd2 a (by omega)]
      by_cases hai : a = item
      · simp only [hai, if_true]
        exact (r1.1.kids item).append_right _
      · simp only [hai, if_false]
        exact r1.1.kids a
    · exact (kn2 ▸ r3.1.kids h.next).eq_nil

/-- The directory branch of `ScanEntry`: `UpwardAddSubdirs(1)` and `AddDirectory`; the
new item has one read job if the directory may be followed, and none if not. -/
theorem dir_entry (env : Env) {h : Heap} (hwf : h.WF) {item : Nat} {it : CItem}
    {ci : CHILDINFO} {l : List Nat} (hit : h.cell item = some it) (hci : it.m_ci = some ci)
    (hl : h.chain item = some l) (base : Path) (finder : FindData) :
    ∃ h1 h3, UpwardAddSubdirs h item 1 = some h1 ∧
      AddDirectory env h1 item base finder = some (h3, h.next) ∧
      Grown h h3 item l (0, 0, 1) 0 IT_DIRECTORY finder.name ∧
      ∃ nit, h3.cell h.next = some nit ∧
        nit.GetReadJobs = if (!finder.isProtectedReparsePoint &&
          env.IsFollowingAllowed (base ++ [finder.name]) finder.attributes) = true then 1
          else 0 := by
  have hnf := not_file_of_ci hwf hit hci
  have r1 := addSubdirsF_rebalanced hwf l 1
  have w1 := r1.wf_bal hwf
  have t1 : TotStep (0, 0, 1) l h (h.mapOn l (addSubdirsF 1)) :=
    mapOn_counter_steps hwf hit hnf hl _ _ (fun x ci hx hc => by
      rw [addSubdirsF_tot hx hc]; simp)
  obtain ⟨it1, hit1, hsk1⟩ := r1.1.cell_shape hit
  obtain ⟨ci1, hci1, _⟩ := skel_ci_some hsk1 hci
  have hl1 : (h.mapOn l (addSubdirsF 1)).chain item = some l := by
    rw [r1.1.chain_shape]; exact hl
  have hn1 : (h.mapOn l (addSubdirsF 1)).next = h.next := r1.1.1
  have hf := fresh_new IT_DIRECTORY finder.name 0 finder.lastWrite finder.attributes
    (Or.inl rfl) (by decide)
  obtain ⟨h2, e2, w2, n2, k2, t2, kd2, kn2, nit, hn, hpar, hname, htype, htot, hnci⟩ :=
    alloc_link w1 hit1 hci1 hl1 hf
  rw [hn1] at e2 n2 hn kd2 kn2
  have hgt : nit.GetType = IT_DIRECTORY := by
    rw [getType_of_type htype]
    show IT_DIRECTORY &&& (65535 ^^^ ITF_FLAGS) = IT_DIRECTORY
    decide
  obtain ⟨ln, hln⟩ := w2.chain_exists hn
  obtain ⟨_, ln1, _, rfl⟩ := chain_head hln
  generalize hcount : (if (!finder.isProtectedReparsePoint &&
      env.IsFollowingAllowed (base ++ [finder.name]) finder.attributes) = true then 1
      else 0 : Nat) = n
  have hn01 : n < 4294967296 := by
    rw [← hcount]
    split <;> decide
  have e3 := UpwardAddReadJobs_eq hn hln (w2.ciOk _) n
  have hnci2 : nit.m_ci = some { m_children := [], m_files := 0, m_subdirs := 0, m_jobs := 0 } := by
    rw [hnci]
    rfl
  rw [hnci2, if_neg (by simp)] at e3
  have r3 := addJobsF_rebalanced w2 (h.next :: ln1) n
  have hn3 : (h2.mapOn (h.next :: ln1) (addJobsF n)).cell h.next = some (addJobsF n nit) := by
    rw [cell_mapOn, hn]
    simp
  have t3 : ∀ q, (h2.mapOn (h.next :: ln1) (addJobsF n)).totAt q = h2.totAt q := by
    intro q
    unfold Heap.totAt
    rw [cell_mapOn]
    by_cases hq : q ∈ h.next :: ln1
    · simp only [hq, if_true]
      cases h2.cell q with
      | none => rfl
      | some x => simp only [Option.map_some', addJobsF_tot]
    · simp only [hq, if_false]
  have hsk3 : (addJobsF n nit).skel = nit.skel := by
    obtain ⟨x, hx, hs⟩ := r3.1.cell_shape hn
    rw [hn3] at hx
    cases hx
    exact hs
  have hgt3 : (addJobsF n nit).GetType = IT_DIRECTORY := by rw [skel_type hsk3]; exact hgt
  refine ⟨_, _, UpwardAddSubdirs_eq hl (hwf.ciOk l) 1, ?_, ?_, _, hn3, ?_⟩
  · unfold AddDirectory
    simp only [hn1]
    have e2b : AddChild ((h.mapOn l (addSubdirsF 1)).alloc { CItem.new IT_DIRECTORY finder.name with
        m_lastChange := finder.lastWrite, m_attributes := finder.attributes }) item h.next false =
        some h2 := e2
    rw [e2b]
    simp only []
    rw [hcount, e3]
  · refine ⟨r3.wf_bal w2, by rw [r3.1.1, n2], (r1.1.keptShape.trans_kept k2).trans_kept
      r3.1.keptShape, ?_, ⟨_, hn3, by rw [skel_parent hsk3]; exact hpar,
      by rw [skel_name hsk3]; exact hname, hgt3, ?_, leafTot_dir hgt3⟩, fun a ha => ?_, ?_⟩
    · have a := (t1.comp t2 (Nat.le_of_eq hn1.symm)).comp (TotStep.of_same l t3)
        (by rw [n2]; omega)
      exact a.cast (by simp)
    · rw [addJobsF_tot, htot]
      rfl
    · refine (r3.1.kids a).trans ?_
      rw [kd2 a (by omega)]
      by_cases hai : a = item
      · simp only [hai, if_true]
        exact (r1.1.kids item).append_right _
      · simp only [hai, if_false]
        exact r1.1.kids a
    · exact (kn2 ▸ r3.1.kids h.next).eq_nil
  · have hnf2 : nit.IsType IT_FILE = false := by
      rw [IsType_of_GetType nit _ IT_FILE hgt (by decide)]; rfl
    by_cases hz : n = 0
    · subst hz
      simp [addJobsF, CItem.GetReadJobs, hnci2]
    · simp [addJobsF, hz, hnf2, CItem.mapCi, CItem.GetReadJobs, hnci2, add32,
        Nat.mod_eq_of_lt hn01]

/-! ### What lies below an item, as the heap grows -/

theorem leafAt_kept {h h2 : Heap} (hk : KeptShape h h2) {q : Nat} (hlt : q < h.next)
    (hsz : h.IsTypeAt IT_FILE q = true → h2.totAt q = h.totAt q) : h2.leafAt q = h.leafAt q := by
  unfold Heap.leafAt
  cases hq : h.cell q with
  | none => rw [hk.dead_kept hlt hq]
  | some it =>
    obtain ⟨it2, h2q, hkey⟩ := hk.cell_kept hq
    rw [h2q]
    simp only []
    unfold CItem.leafTot
    rw [key_isType hkey IT_FILE (by decide), key_isType hkey IT_DIRECTORY (by decide)]
    by_cases hf : it.IsType IT_FILE = true
    · have := hsz (by simp [Heap.IsTypeAt, hq, hf])
      rw [totAt_of_cell h2q, totAt_of_cell hq] at this
      have h1 := congrArg (fun s => s.1) this
      simp only [CItem.tot] at h1
      simp only [hf, if_true, h1]
    · simp only [hf, Bool.false_eq_true, if_false]

theorem descendants_lt {h : Heap} {p q : Nat} (hq : q ∈ h.descendants p) : q < h.next := by
  unfold Heap.descendants at hq
  exact List.mem_range.mp (List.mem_filter.mp hq).1

theorem descendants_below {h : Heap} {p q : Nat} (hq : q ∈ h.descendants p) :
    h.below p q = true ∧ q ≠ p := by
  unfold Heap.descendants at hq
  have := (List.mem_filter.mp hq).2
  simp only [Bool.and_eq_true, bne_iff_ne, ne_eq] at this
  exact ⟨this.2, this.1⟩

/-- In a heap that keeps the shape and has no new item, the same items lie below
`p`. -/
theorem descendants_same {h h2 : Heap} (hwf : h.WF) (hk : KeptShape h h2)
    (hn : h2.next = h.next) (p : Nat) : h2.descendants p = h.descendants p := by
  unfold Heap.descendants
  rw [hn]
  refine List.filter_congr (fun q hq => ?_)
  rw [below_kept hwf hk p (List.mem_range.mp hq)]

/-- The items below `p` after a new item was linked below `item`. -/
theorem descendants_grown {h h3 : Heap} (hwf : h.WF) (hk : KeptShape h h3)
    (hn : h3.next = h.next + 1) {item : Nat} {l : List Nat} (hl : h.chain item = some l)
    {nit : CItem} (hc : h3.cell h.next = some nit) (hpar : nit.m_parent = some item)
    {p : Nat} (hp : p < h.next) :
    h3.descendants p = h.descendants p ++ if h.below p item then [h.next] else [] := by
  unfold Heap.descendants
  rw [hn, List.range_succ, List.filter_append]
  congr 1
  · refine List.filter_congr (fun q hq => ?_)
    rw [below_kept hwf hk p (List.mem_range.mp hq)]
  · have hne : (h.next != p) = true := by
      simp only [bne_iff_ne, ne_eq]
      omega
    have hpn : ¬ p = h.next := by omega
    rw [List.filter_cons, List.filter_nil, below_new hk hl hc hpar p, hne]
    simp [hpn]

theorem descendants_new {h h3 : Heap} (hwf : h.WF) (hk : KeptShape h h3)
    (hn : h3.next = h.next + 1) : h3.descendants h.next = [] := by
  unfold Heap.descendants
  rw [List.filter_eq_nil_iff]
  intro q hq
  rw [hn] at hq
  have hq2 := List.mem_range.mp hq
  by_cases hqn : q = h.next
  · simp [hqn]
  · have hlt : q < h.next := by omega
    rw [below_kept hwf hk _ hlt]
    cases hb : h.below h.next q with
    | false => simp
    | true =>
      have := below_le hwf hb
      omega

theorem below_iff_mem {h : Heap} {item : Nat} {l : List Nat} (hl : h.chain item = some l)
    (p : Nat) : h.below p item = decide (p ∈ l) := by
  unfold Heap.below
  rw [hl]

theorem file_not_on_chain {h : Heap} (hwf : h.WF) {item : Nat} {it : CItem} {l : List Nat}
    (hit : h.cell item = some it) (hnf : it.IsType IT_FILE = false)
    (hl : h.chain item = some l) {q : Nat} (hq : h.IsTypeAt IT_FILE q = true) : q ∉ l := by
  intro hm
  obtain ⟨x, hx⟩ := chain_live hl q hm
  have := chain_not_file hwf hit hnf hl hm hx
  simp [Heap.IsTypeAt, hx, this] at hq

/-- What lies below an item of `h` after a new item was linked below `item`. -/
theorem totBelow_grown {h h3 : Heap} (hwf : h.WF) {item : Nat} {it : CItem} {l : List Nat}
    (hit : h.cell item = some it) (hnf : it.IsType IT_FILE = false)
    (hl : h.chain item = some l) {d v : Tot} {T : ITEMTYPE} {name : String}
    (g : Grown h h3 item l d v T name) {p : Nat} (hp : p < h.next) :
    h3.totBelow p = h.totBelow p + if p ∈ l then d else 0 := by
  obtain ⟨nit, hc, hpar, _, _, _, hleaf⟩ := g.fresh
  unfold Heap.totBelow
  rw [descendants_grown hwf g.kept g.next hl hc hpar hp, List.map_append, List.sum_append,
    below_iff_mem hl]
  congr 1
  · congr 1
    refine List.map_congr_left (fun q hq => leafAt_kept g.kept (descendants_lt hq) (fun hf => ?_))
    rw [g.tots q (descendants_lt hq)]
    simp [file_not_on_chain hwf hit hnf hl hf]
  · by_cases hpl : p ∈ l
    · simp [hpl, Heap.leafAt, hc, hleaf]
    · simp [hpl]

/-- The gap of an item of `h` does not change when a new item is linked. -/
theorem gap_grown {h h3 : Heap} (hwf : h.WF) {item : Nat} {it : CItem} {l : List Nat}
    (hit : h.cell item = some it) (hnf : it.IsType IT_FILE = false)
    (hl : h.chain item = some l) {d v : Tot} {T : ITEMTYPE} {name : String}
    (g : Grown h h3 item l d v T name) {p : Nat} (hp : p < h.next) : h3.gap p = h.gap p := by
  unfold Heap.gap
  rw [totBelow_grown hwf hit hnf hl g hp, g.tots p hp]
  abel

/-- The gap of the new item is what it holds. -/
theorem gap_new {h h3 : Heap} (hwf : h.WF) {item : Nat} {l : List Nat} {d v : Tot}
    {T : ITEMTYPE} {name : String} (g : Grown h h3 item l d v T name) : h3.gap h.next = v := by
  obtain ⟨nit, hc, _, _, _, htot, _⟩ := g.fresh
  unfold Heap.gap Heap.totBelow
  rw [descendants_new hwf g.kept g.next, totAt_of_cell hc, htot]
  simp

/-- The gap of an item does not change in a heap that keeps shape and aggregates. -/
theorem gap_same {h h2 : Heap} (hwf : h.WF) (hk : KeptShape h h2) (hn : h2.next = h.next)
    (ht : ∀ q, h2.totAt q = h.totAt q) (p : Nat) : h2.gap p = h.gap p := by
  unfold Heap.gap Heap.totBelow
  rw [descendants_same hwf hk hn, ht]
  congr 2
  exact List.map_congr_left (fun q hq => leafAt_kept hk (descendants_lt hq) (fun _ => ht q))

/-! ### The invariant of the scan -/

theorem plain_resolves_aux : ∀ (cur top : Fs),
    (∀ name s, cur.sub name = some s → top.sub name = some s) → cur.plain = true →
      Fs.resolves top cur := by
  intro cur
  induction cur with
  | nil => intro _ _ _; trivial
  | file d rest ih =>
    intro top hsub hp
    simp only [Fs.plain, Bool.and_eq_true] at hp
    exact ih top (fun name s hs => hsub name s hs) hp.2
  | dir d sub rest ihs ih =>
    intro top hsub hp
    simp only [Fs.plain, Bool.and_eq_true, Option.isNone_iff_eq_none] at hp
    refine ⟨hsub d.name sub (by simp [Fs.sub]), ih top (fun name s hs => ?_) hp.2⟩
    apply hsub
    simp only [Fs.sub]
    by_cases hn : d.name = name
    · subst hn
      rw [hp.1.1.2] at hs
      cases hs
    · simp [hn, hs]

theorem plain_resolves {fs : Fs} (hp : fs.plain = true) : Fs.resolves fs fs :=
  plain_resolves_aux fs fs (fun _ _ h => h) hp

theorem counts_lt {h : Heap} (hwf : h.WF) {p : Nat} {it : CItem} (hp : h.cell p = some it) :
    it.GetFilesCount < 4294967296 ∧ it.GetSubdirsCount < 4294967296 := by
  have t := hwf.typed p it hp
  unfold CItem.GetFilesCount CItem.GetSubdirsCount
  cases hci : it.m_ci with
  | none => exact ⟨by decide, by decide⟩
  | some ci => exact ⟨(t.2 ci hci).1, (t.2 ci hci).2.1⟩

theorem tot_nat {h : Heap} (hwf : h.WF) {p : Nat} {it : CItem} (hp : h.cell p = some it)
    {a b c : Nat} (ht : it.tot = ((a : Z64), (b : Z32), (c : Z32))) :
    it.m_size = a % 2 ^ 64 ∧ it.GetFilesCount = b % 2 ^ 32 ∧ it.GetSubdirsCount = c % 2 ^ 32 := by
  unfold CItem.tot at ht
  simp only [Prod.mk.injEq] at ht
  obtain ⟨h1, h2, h3⟩ := ht
  have t := hwf.typed p it hp
  have e1 := (ZMod.natCast_eq_natCast_iff' _ _ _).mp h1
  have e2 := (ZMod.natCast_eq_natCast_iff' _ _ _).mp h2
  have e3 := (ZMod.natCast_eq_natCast_iff' _ _ _).mp h3
  obtain ⟨f2, f3⟩ := counts_lt hwf hp
  rw [Nat.mod_eq_of_lt t.1] at e1
  rw [Nat.mod_eq_of_lt f2] at e2
  rw [Nat.mod_eq_of_lt f3] at e3
  exact ⟨e1, e2, e3⟩

/-- Items in range with the same aggregates modulo have the same aggregates. -/
theorem agg_of_tot {h h2 : Heap} (w : h.WF) (w2 : h2.WF) {p p2 : Nat} {it it2 : CItem}
    (hp : h.cell p = some it) (hp2 : h2.cell p2 = some it2) (ht : it2.tot = it.tot) :
    it2.agg = it.agg := by
  obtain ⟨a, b, c⟩ := tot_nat w2 hp2 ht
  have t := (w.typed p it hp).1
  obtain ⟨f2, f3⟩ := counts_lt w hp
  unfold CItem.agg
  rw [a, b, c, Nat.mod_eq_of_lt (show it.m_size < 2 ^ 64 from t),
    Nat.mod_eq_of_lt (show it.GetFilesCount < 2 ^ 32 from f2),
    Nat.mod_eq_of_lt (show it.GetSubdirsCount < 2 ^ 32 from f3)]

theorem kids_lt {h : Heap} (hwf : h.WF) {p c : Nat} (hc : c ∈ h.kids p) :
    ∃ cit, h.cell c = some cit ∧ cit.m_parent = some p := by
  unfold Heap.kids at hc
  cases hp : h.cell p with
  | none => simp [hp] at hc
  | some it =>
    cases hci : it.m_ci with
    | none => simp [hp, hci] at hc
    | some ci =>
      simp only [hp, hci] at hc
      exact (hwf.children p it ci hp hci).2 c hc

theorem tagAt_kept (snap : Snapshot) {h h2 : Heap} (w : h.WF) (w2 : h2.WF) (hk : KeptShape h h2)
    {c : Nat} {it : CItem} (hc : h.cell c = some it)
    (ht : it.IsType IT_FILE = true → h2.totAt c = h.totAt c) :
    h2.tagAt snap c = h.tagAt snap c := by
  obtain ⟨it2, hc2, hkey⟩ := hk.cell_kept hc
  unfold Heap.tagAt
  rw [hc2, hc, listing_kept snap w hk (lt_next_of_cell hc)]
  simp only [key_name hkey, key_type hkey, key_isType hkey IT_FILE (by decide)]
  by_cases hf : it.IsType IT_FILE = true
  · have := ht hf
    rw [totAt_of_cell hc2, totAt_of_cell hc] at this
    simp only [hf, if_true, agg_of_tot w w2 hc hc2 this]
  · simp [hf]

theorem kidTags_perm (snap : Snapshot) {h h2 : Heap} {p : Nat} {ks : List Nat}
    (hperm : (h2.kids p).Perm ks) (ht : ∀ c ∈ ks, h2.tagAt snap c = h.tagAt snap c) :
    h2.kidTags snap p = Multiset.map (h.tagAt snap) (ks : Multiset Nat) := by
  unfold Heap.kidTags
  rw [Multiset.coe_eq_coe.mpr hperm]
  exact Multiset.map_congr rfl (fun c hc => ht c (Multiset.mem_coe.mp hc))

/-- A step that keeps the shape and the aggregates keeps the children. -/
theorem kidTags_same (snap : Snapshot) {h h2 : Heap} (w : h.WF) (w2 : h2.WF)
    (hs : SameShape h h2) (ht : ∀ q, h2.totAt q = h.totAt q) (p : Nat) :
    h2.kidTags snap p = h.kidTags snap p := by
  rw [kidTags_perm snap (hs.kids p)]
  · rfl
  · intro c hc
    obtain ⟨cit, hcc, _⟩ := kids_lt w hc
    exact tagAt_kept snap w w2 hs.keptShape hcc (fun _ => ht c)

/-- The children of an old item after a new item was linked below `item`. -/
theorem kidTags_grown (snap : Snapshot) {h h3 : Heap} (w : h.WF) {item : Nat} {it : CItem}
    {l : List Nat} (hit : h.cell item = some it) (hnf : it.IsType IT_FILE = false)
    (hl : h.chain item = some l) {d v : Tot} {T : ITEMTYPE} {name : String}
    (g : Grown h h3 item l d v T name) {p : Nat} (hp : p < h.next) :
    h3.kidTags snap p =
      h.kidTags snap p + if p = item then {h3.tagAt snap h.next} else 0 := by
  have old : ∀ c ∈ h.kids p, h3.tagAt snap c = h.tagAt snap c := by
    intro c hc
    obtain ⟨cit, hcc, _⟩ := kids_lt w hc
    refine tagAt_kept snap w g.wf g.kept hcc (fun hf => ?_)
    have hq : h.IsTypeAt IT_FILE c = true := by simp [Heap.IsTypeAt, hcc, hf]
    rw [g.tots c (lt_next_of_cell hcc)]
    simp [file_not_on_chain w hit hnf hl hq]
  unfold Heap.kidTags
  rw [Multiset.coe_eq_coe.mpr (g.kids p hp)]
  by_cases hpi : p = item
  · simp only [hpi, if_true]
    rw [← Multiset.coe_add, Multiset.map_add]
    congr 1
    exact Multiset.map_congr rfl (fun c hc => old c (by rw [hpi]; exact Multiset.mem_coe.mp hc))
  · simp only [hpi, if_false, add_zero]
    exact Multiset.map_congr rfl (fun c hc => old c (Multiset.mem_coe.mp hc))

theorem listTags_kept (snap : Snapshot) {h h2 : Heap} (hwf : h.WF) (hk : KeptShape h h2) {q : Nat}
    (hlt : q < h.next) : h2.listTags snap q = h.listTags snap q := by
  unfold Heap.listTags
  rw [listing_kept snap hwf hk hlt]

theorem pendTags_kept (snap : Snapshot) {h h2 : Heap} (hwf : h.WF) (hk : KeptShape h h2)
    {queue : List Nat} (hq : ∀ q ∈ queue, q < h.next) (p : Nat) :
    pendTags snap h2 queue p = pendTags snap h queue p := by
  unfold pendTags
  congr 1
  refine List.map_congr_left (fun q hm => ?_)
  exact listTags_kept snap hwf hk (hq q (List.mem_filter.mp hm).1)

theorem pendTags_append (snap : Snapshot) (h : Heap) (queue : List Nat) (n p : Nat) :
    pendTags snap h (queue ++ [n]) p =
      pendTags snap h queue p + if n = p then h.listTags snap n else 0 := by
  unfold pendTags
  rw [List.filter_append, List.map_append, List.sum_append]
  congr 1
  by_cases hb : n = p
  · simp [List.filter_cons, hb]
  · simp [List.filter_cons, hb]

theorem pendTags_cons (snap : Snapshot) (h : Heap) (queue : List Nat) (n p : Nat) :
    pendTags snap h (n :: queue) p =
      (if n = p then h.listTags snap n else 0) + pendTags snap h queue p := by
  unfold pendTags
  by_cases hb : n = p
  · simp [List.filter_cons, hb]
  · simp [List.filter_cons, hb]

theorem pendTags_none (snap : Snapshot) (h : Heap) (queue : List Nat) (p : Nat)
    (hq : p ∉ queue) : pendTags snap h queue p = 0 := by
  unfold pendTags
  have : (queue.filter fun q => q == p) = [] := by
    rw [List.filter_eq_nil_iff]
    intro q hm
    simp only [beq_iff_eq]
    intro e
    exact hq (e ▸ hm)
  rw [this]
  rfl

theorem pend_append (snap : Snapshot) (h : Heap) (queue : List Nat) (n p : Nat) :
    pend snap h (queue ++ [n]) p =
      pend snap h queue p + if h.below p n then h.listTot snap n else 0 := by
  unfold pend
  rw [List.filter_append, List.map_append, List.sum_append]
  congr 1
  by_cases hb : h.below p n = true
  · simp [List.filter_cons, hb]
  · simp [List.filter_cons, hb]

theorem pend_cons (snap : Snapshot) (h : Heap) (queue : List Nat) (n p : Nat) :
    pend snap h (n :: queue) p =
      (if h.below p n then h.listTot snap n else 0) + pend snap h queue p := by
  unfold pend
  by_cases hb : h.below p n = true
  · simp [List.filter_cons, hb]
  · simp [List.filter_cons, hb]

theorem pend_none (snap : Snapshot) (h : Heap) (queue : List Nat) (p : Nat)
    (hq : ∀ q ∈ queue, h.below p q = false) : pend snap h queue p = 0 := by
  unfold pend
  have : (queue.filter fun q => h.below p q) = [] := by
    rw [List.filter_eq_nil_iff]
    intro q hm
    simp [hq q hm]
  rw [this]
  rfl

theorem work_kept (snap : Snapshot) {h h2 : Heap} (hwf : h.WF) (hk : KeptShape h h2)
    {queue : List Nat} (hq : ∀ q ∈ queue, q < h.next) : work snap h2 queue = work snap h queue := by
  unfold work
  congr 1
  refine List.map_congr_left (fun q hm => ?_)
  rw [listing_kept snap hwf hk (hq q hm)]

theorem work_append (snap : Snapshot) (h : Heap) (queue : List Nat) (n : Nat) {fs : Fs}
    (hl : h.listing snap n = some fs) :
    work snap h (queue ++ [n]) = work snap h queue + (1 + fs.countDirs) := by
  unfold work
  simp [hl]

theorem work_cons (snap : Snapshot) (h : Heap) (queue : List Nat) (n : Nat) {fs : Fs}
    (hl : h.listing snap n = some fs) :
    work snap h (n :: queue) = (1 + fs.countDirs) + work snap h queue := by
  unfold work
  simp [hl]

theorem Inv.queue_lt {snap : Snapshot} {hb h : Heap} {qb queue : List Nat} {item : Nat}
    {cur : Fs} (i : Inv snap hb qb h queue item cur) : ∀ q ∈ queue, q < h.next := by
  intro q hq
  obtain ⟨it, _, hc, _⟩ := i.queued q hq
  exact lt_next_of_cell hc

theorem OnlyDF_kept {h h2 : Heap} (hd : OnlyDF h) (hk : KeptShape h h2)
    (hnew : ∀ p it, h.next ≤ p → h2.cell p = some it →
      it.GetType = IT_DIRECTORY ∨ it.GetType = IT_FILE) : OnlyDF h2 := by
  intro p it2 hp
  by_cases hlt : p < h.next
  · obtain ⟨it, hit, hkey⟩ := hk.back_kept hlt hp
    rw [key_type hkey]
    exact hd p it hit
  · exact hnew p it2 (Nat.le_of_not_lt hlt) hp

theorem not_pseudo_of_getType {it : CItem}
    (ht : it.GetType = IT_DIRECTORY ∨ it.GetType = IT_FILE) :
    it.IsType IT_FREESPACE = false ∧ it.IsType IT_UNKNOWN = false := by
  rcases ht with e | e
  · exact ⟨by rw [IsType_of_GetType it _ IT_FREESPACE e (by decide)]; rfl,
      by rw [IsType_of_GetType it _ IT_UNKNOWN e (by decide)]; rfl⟩
  · exact ⟨by rw [IsType_of_GetType it _ IT_FREESPACE e (by decide)]; rfl,
      by rw [IsType_of_GetType it _ IT_UNKNOWN e (by decide)]; rfl⟩

theorem NoPseudo_kept {h h2 : Heap} (hd : NoPseudo h) (hk : KeptShape h h2)
    (hnew : ∀ p it, h.next ≤ p → h2.cell p = some it →
      it.GetType = IT_DIRECTORY ∨ it.GetType = IT_FILE) : NoPseudo h2 := by
  intro p it2 hp
  by_cases hlt : p < h.next
  · obtain ⟨it, hit, hkey⟩ := hk.back_kept hlt hp
    rw [key_isType hkey IT_FREESPACE (by decide), key_isType hkey IT_UNKNOWN (by decide)]
    exact hd p it hit
  · exact not_pseudo_of_getType (hnew p it2 (Nat.le_of_not_lt hlt) hp)

theorem getType_ne_file {it : CItem} (hnf : it.IsType IT_FILE = false) :
    it.GetType ≠ IT_FILE := by
  intro e
  rw [IsType_of_GetType it _ IT_FILE e (by decide)] at hnf
  exact absurd hnf (by decide)

/-- A step that keeps the shape and the aggregates keeps the invariant. -/
theorem Inv.same {snap : Snapshot} {hb h : Heap} {qb queue : List Nat} {item : Nat} {cur : Fs}
    (i : Inv snap hb qb h queue item cur) {h2 : Heap} (hs : SameShape h h2) (w2 : h2.WF)
    (ht : ∀ q, h2.totAt q = h.totAt q) : Inv snap hb qb h2 queue item cur := by
  have hitem := i.live
  have hk := hs.keptShape
  have hn : h2.next = h.next := hs.1
  have back : ∀ p it2, h2.cell p = some it2 → ∃ it, h.cell p = some it ∧ it2.key = it.key :=
    fun p it2 hp => hk.back_kept (by have := lt_next_of_cell hp; omega) hp
  refine ⟨w2, NoPseudo_kept i.df hk (fun p it hle hp => ?_), fun p it2 hle hp => ?_,
    i.kept.trans_kept hk,
    by rw [hn]; exact hitem, fun q hq => ?_, fun p it2 hp hd => ?_, fun p it2 hp hd => ?_,
    fun p it2 hp hd => ?_, fun p it2 hp hd hnb => ?_⟩
  · have := lt_next_of_cell hp
    omega
  · obtain ⟨it, hit, hkey⟩ := back p it2 hp
    rw [key_type hkey]
    exact i.news p it hle hit
  · obtain ⟨it, fs, hc, hty, hl, hpl⟩ := i.queued q hq
    obtain ⟨it2, h2c, hkey⟩ := hk.cell_kept hc
    exact ⟨it2, fs, h2c, by rw [key_type hkey]; exact hty,
      by rw [listing_kept snap i.wf hk (lt_next_of_cell hc)]; exact hl, hpl⟩
  · obtain ⟨it, hit, hkey⟩ := back p it2 hp
    have hplt := lt_next_of_cell hit
    rw [ht, pend_kept snap i.wf hk i.queue_lt, below_kept i.wf hk p hitem,
      listTot_kept snap i.wf hk hplt]
    exact i.phi p it hit (by rw [← key_isType hkey IT_FILE (by decide)]; exact hd)
  · obtain ⟨it, hit, hkey⟩ := back p it2 hp
    rw [gap_same i.wf hk hn ht]
    exact i.gaps p it hit (by rw [← key_type hkey]; exact hd)
  · obtain ⟨it, hit, hkey⟩ := back p it2 hp
    rw [kidTags_same snap i.wf w2 hs ht, pendTags_kept snap i.wf hk i.queue_lt,
      listTags_kept snap i.wf hk (lt_next_of_cell hit)]
    exact i.tags p it hit (by rw [← key_type hkey]; exact hd)
  · obtain ⟨it, hit, hkey⟩ := back p it2 hp
    rw [listing_kept snap i.wf hk (lt_next_of_cell hit)]
    exact i.listed p it hit (by rw [← key_type hkey]; exact hd) hnb

theorem Grown.old {h h3 : Heap} {item : Nat} {l : List Nat} {d v : Tot} {T : ITEMTYPE}
    {name : String} (g : Grown h h3 item l d v T name) {p : Nat} {it3 : CItem}
    (hp : h3.cell p = some it3) (hne : it3.GetType ≠ T) :
    p < h.next ∧ ∃ it, h.cell p = some it ∧ it3.key = it.key := by
  obtain ⟨nit, hc, _, _, hty, _, _⟩ := g.fresh
  have hlt3 := lt_next_of_cell hp
  rw [g.next] at hlt3
  have hpn : p ≠ h.next := by
    intro e
    subst e
    rw [hc] at hp
    cases hp
    exact hne hty
  have hlt : p < h.next := by omega
  exact ⟨hlt, g.kept.back_kept hlt hp⟩

theorem tagAt_new_file (snap : Snapshot) {h h3 : Heap} {item : Nat} {l : List Nat} {d : Tot}
    {e : FindData} (g : Grown h h3 item l d ((e.size : Z64), 0, 0) IT_FILE e.name)
    (hsz : e.size < 18446744073709551616) :
    h3.tagAt snap h.next = (e.name, IT_FILE, e.size, 0, 0) := by
  obtain ⟨nit, hc, _, hname, hty, htot, _⟩ := g.fresh
  have hf : nit.IsType IT_FILE = true := by
    rw [IsType_of_GetType nit _ IT_FILE hty (by decide)]; rfl
  obtain ⟨a, b, c⟩ := tot_nat g.wf hc (show nit.tot = ((e.size : Z64), ((0 : Nat) : Z32),
    ((0 : Nat) : Z32)) by rw [htot]; simp)
  rw [Nat.mod_eq_of_lt (show e.size < 2 ^ 64 from hsz)] at a
  unfold Heap.tagAt
  rw [hc]
  simp only [hf, if_true, CItem.agg, a, b, c, hname, hty]
  rfl

theorem tagAt_new_dir (snap : Snapshot) {h h3 : Heap} {item : Nat} {l : List Nat} {d v : Tot}
    {name : String} (g : Grown h h3 item l d v IT_DIRECTORY name) {sub : Fs}
    (hl3 : h3.listing snap h.next = some sub) :
    h3.tagAt snap h.next = (name, IT_DIRECTORY, sub.natTot) := by
  obtain ⟨nit, hc, _, hname, hty, _, _⟩ := g.fresh
  unfold Heap.tagAt
  rw [hc, hl3]
  simp only [notFile_of_dir hty, hname, hty]
  rfl

/-- The invariant after a file entry was read. -/
theorem Inv.file_step {snap : Snapshot} {hb h : Heap} {qb queue : List Nat} {item : Nat}
    {e : FindData} {rest : Fs} (i : Inv snap hb qb h queue item (.file e rest)) {it : CItem}
    {l : List Nat} (hit : h.cell item = some it) (hnf : it.IsType IT_FILE = false)
    (hl : h.chain item = some l) {h3 : Heap}
    (g : Grown h h3 item l ((e.size : Z64), 1, 0) ((e.size : Z64), 0, 0) IT_FILE e.name)
    (hsz : e.size < 18446744073709551616) :
    Inv snap hb qb h3 queue item rest := by
  have hitem := lt_next_of_cell hit
  obtain ⟨nit, hc, _, _, hty, _, _⟩ := g.fresh
  have hnew : ∀ p x, h.next ≤ p → h3.cell p = some x →
      x.GetType = IT_DIRECTORY ∨ x.GetType = IT_FILE := by
    intro p x hle hp
    have := lt_next_of_cell hp
    rw [g.next] at this
    have hpn : p = h.next := by omega
    subst hpn
    rw [hc] at hp
    cases hp
    exact Or.inr hty
  refine ⟨g.wf, NoPseudo_kept i.df g.kept hnew, fun p x hle hp => ?_,
    i.kept.trans_kept g.kept,
    by rw [g.next]; omega, fun q hq => ?_, fun p it3 hp hd => ?_, fun p it3 hp hd => ?_,
    fun p it3 hp hd => ?_, fun p it3 hp hd hnb => ?_⟩
  · by_cases hlt : p < h.next
    · obtain ⟨x0, hx0, hkey⟩ := g.kept.back_kept hlt hp
      rw [key_type hkey]
      exact i.news p x0 hle hx0
    · exact hnew p x (Nat.le_of_not_lt hlt) hp
  · obtain ⟨x, fs, hx, hxt, hxl, hpl⟩ := i.queued q hq
    obtain ⟨x2, h2c, hkey⟩ := g.kept.cell_kept hx
    exact ⟨x2, fs, h2c, by rw [key_type hkey]; exact hxt,
      by rw [listing_kept snap i.wf g.kept (lt_next_of_cell hx)]; exact hxl, hpl⟩
  · obtain ⟨hlt, x, hx, hkey⟩ := g.old hp (getType_ne_file hd)
    have hphi := i.phi p x hx (by rw [← key_isType hkey IT_FILE (by decide)]; exact hd)
    rw [g.tots p hlt, pend_kept snap i.wf g.kept i.queue_lt, below_kept i.wf g.kept p hitem,
      listTot_kept snap i.wf g.kept hlt, ← hphi, below_iff_mem hl]
    simp only [Fs.tot]
    by_cases hpl : p ∈ l
    · simp only [hpl, if_true, decide_True]
      abel
    · simp [hpl]
  · obtain ⟨hlt, x, hx, hkey⟩ := g.old hp (by rw [hd]; decide)
    rw [gap_grown i.wf hit hnf hl g hlt]
    exact i.gaps p x hx (by rw [← key_type hkey]; exact hd)
  · obtain ⟨hlt, x, hx, hkey⟩ := g.old hp (by rw [hd]; decide)
    have ht := i.tags p x hx (by rw [← key_type hkey]; exact hd)
    rw [kidTags_grown snap i.wf hit hnf hl g hlt, pendTags_kept snap i.wf g.kept i.queue_lt,
      listTags_kept snap i.wf g.kept hlt, ← ht, tagAt_new_file snap g hsz]
    by_cases hpi : p = item
    · simp only [hpi, if_true, Fs.tags, ← Multiset.singleton_add]
      abel
    · simp [hpi]
  · obtain ⟨hlt, x, hx, hkey⟩ := g.old hp (by rw [hd]; decide)
    rw [listing_kept snap i.wf g.kept hlt]
    exact i.listed p x hx (by rw [← key_type hkey]; exact hd) hnb

/-- The invariant after a directory entry was read and the new item queued. -/
theorem Inv.dir_step {snap : Snapshot} {hb h : Heap} {qb queue : List Nat} {item : Nat}
    {e : FindData} {sub rest : Fs} (i : Inv snap hb qb h queue item (.dir e sub rest))
    {it : CItem} {l : List Nat} (hit : h.cell item = some it)
    (hdir : it.GetType = IT_DIRECTORY) (hl : h.chain item = some l) {top : Fs}
    (hlist : h.listing snap item = some top) (hsub : top.sub e.name = some sub)
    (hplain : sub.plain = true) {h3 : Heap}
    (g : Grown h h3 item l (0, 0, 1) 0 IT_DIRECTORY e.name) :
    Inv snap hb qb h3 (queue ++ [h.next]) item rest ∧
      h3.listing snap h.next = some sub := by
  have hitem := lt_next_of_cell hit
  have hnf : it.IsType IT_FILE = false := notFile_of_dir hdir
  obtain ⟨nit, hc, hpar, hname, hty, htot, _⟩ := g.fresh
  obtain ⟨it3, hit3, hkey3⟩ := g.kept.cell_kept hit
  have hdir3 : it3.GetType = IT_DIRECTORY := by rw [key_type hkey3]; exact hdir
  have hl3 : h3.listing snap h.next = some sub := by
    rw [listing_child snap g.wf hc hpar (isDir_of_getType hty) hit3 (isDir_of_getType hdir3)
      (notFile_of_dir hdir3), listing_kept snap i.wf g.kept hitem, hlist, hname]
    exact hsub
  have hnew : ∀ p x, h.next ≤ p → h3.cell p = some x →
      x.GetType = IT_DIRECTORY ∨ x.GetType = IT_FILE := by
    intro p x hle hp
    have := lt_next_of_cell hp
    rw [g.next] at this
    have hpn : p = h.next := by omega
    subst hpn
    rw [hc] at hp
    cases hp
    exact Or.inl hty
  refine ⟨⟨g.wf, NoPseudo_kept i.df g.kept hnew, fun p x hle hp => ?_,
    i.kept.trans_kept g.kept,
    by rw [g.next]; omega, fun q hq => ?_, fun p x3 hp hd => ?_, fun p x3 hp hd => ?_,
    fun p x3 hp hd => ?_, fun p x3 hp hd hnb => ?_⟩, hl3⟩
  · by_cases hlt : p < h.next
    · obtain ⟨x0, hx0, hkey⟩ := g.kept.back_kept hlt hp
      rw [key_type hkey]
      exact i.news p x0 hle hx0
    · exact hnew p x (Nat.le_of_not_lt hlt) hp
  · rcases List.mem_append.mp hq with hq | hq
    · obtain ⟨x, fs, hx, hxt, hxl, hpl⟩ := i.queued q hq
      obtain ⟨x2, h2c, hkey⟩ := g.kept.cell_kept hx
      exact ⟨x2, fs, h2c, by rw [key_type hkey]; exact hxt,
        by rw [listing_kept snap i.wf g.kept (lt_next_of_cell hx)]; exact hxl, hpl⟩
    · rw [List.mem_singleton] at hq
      subst hq
      exact ⟨nit, sub, hc, hty, hl3, hplain⟩
  · have hlt3 := lt_next_of_cell hp
    rw [g.next] at hlt3
    rw [pend_append, pend_kept snap i.wf g.kept i.queue_lt, below_kept i.wf g.kept p hitem,
      below_new g.kept hl hc hpar p]
    by_cases hpn : p = h.next
    · subst hpn
      have hle : ¬ h.next < hb.next := by
        have := i.kept.1
        omega
      have hb1 : h.below h.next item = false := not_below_new i.wf hitem
      have hp0 : pend snap h queue h.next = 0 :=
        pend_none snap h queue _ (fun q hq => not_below_new i.wf (i.queue_lt q hq))
      unfold Heap.listTot
      rw [hl3, totAt_of_cell hc, htot, hp0]
      simp [hle, hb1]
    · have hlt : p < h.next := by omega
      obtain ⟨x, hx, hkey⟩ := g.kept.back_kept hlt hp
      have hphi := i.phi p x hx (by rw [← key_isType hkey IT_FILE (by decide)]; exact hd)
      rw [g.tots p hlt, listTot_kept snap i.wf g.kept hlt, ← hphi, below_iff_mem hl]
      unfold Heap.listTot
      rw [hl3]
      simp only [Fs.tot, hpn, decide_False, Bool.false_or]
      by_cases hpl : p ∈ l
      · simp only [hpl, if_true, decide_True]
        abel
      · simp [hpl]
  · have hlt3 := lt_next_of_cell hp
    rw [g.next] at hlt3
    by_cases hpn : p = h.next
    · subst hpn
      have hle : ¬ h.next < hb.next := by
        have := i.kept.1
        omega
      rw [gap_new i.wf g]
      simp [hle]
    · have hlt : p < h.next := by omega
      obtain ⟨x, hx, hkey⟩ := g.kept.back_kept hlt hp
      rw [gap_grown i.wf hit hnf hl g hlt]
      exact i.gaps p x hx (by rw [← key_type hkey]; exact hd)
  · have hlt3 := lt_next_of_cell hp
    rw [g.next] at hlt3
    rw [pendTags_append, pendTags_kept snap i.wf g.kept i.queue_lt]
    by_cases hpn : p = h.next
    · subst hpn
      have hle : ¬ h.next < hb.next := by
        have := i.kept.1
        omega
      have hni : h.next ≠ item := by omega
      have hnq : h.next ∉ queue := fun hm => by
        have := i.queue_lt _ hm
        omega
      unfold Heap.kidTags
      rw [g.kidsNew, pendTags_none snap h queue _ hnq]
      simp [hle, hni]
    · have hlt : p < h.next := by omega
      obtain ⟨x, hx, hkey⟩ := g.kept.back_kept hlt hp
      have ht := i.tags p x hx (by rw [← key_type hkey]; exact hd)
      have hnp : ¬ h.next = p := fun e => hpn e.symm
      rw [kidTags_grown snap i.wf hit hnf hl g hlt, listTags_kept snap i.wf g.kept hlt, ← ht,
        tagAt_new_dir snap g hl3]
      rw [if_neg hnp]
      by_cases hpi : p = item
      · simp only [hpi, if_true, Fs.tags, ← Multiset.singleton_add]
        abel
      · simp [hpi]
  · have hlt3 := lt_next_of_cell hp
    rw [g.next] at hlt3
    by_cases hpn : p = h.next
    · subst hpn
      exact ⟨sub, hl3, hplain⟩
    · have hlt : p < h.next := by omega
      obtain ⟨x, hx, hkey⟩ := g.kept.back_kept hlt hp
      rw [listing_kept snap i.wf g.kept hlt]
      exact i.listed p x hx (by rw [← key_type hkey]; exact hd) hnb

/-- A queued item with an empty listing may leave the queue. -/
theorem Inv.drop_last {snap : Snapshot} {hb h : Heap} {qb queue : List Nat} {item n : Nat}
    {cur : Fs} (i : Inv snap hb qb h (queue ++ [n]) item cur)
    (hl : h.listing snap n = some .nil) : Inv snap hb qb h queue item cur := by
  have ht : h.listTot snap n = 0 := by
    unfold Heap.listTot
    rw [hl]
    rfl
  have hg : h.listTags snap n = 0 := by
    unfold Heap.listTags
    rw [hl]
    rfl
  refine ⟨i.wf, i.df, i.news, i.kept, i.live,
    fun q hq => i.queued q (List.mem_append_left _ hq), fun p x hp hd => ?_, i.gaps,
    fun p x hp hd => ?_, i.listed⟩
  · have := i.phi p x hp hd
    rw [pend_append, ht] at this
    simpa using this
  · have := i.tags p x hp hd
    rw [pendTags_append, hg] at this
    simpa using this

/-! ### The scanner, entry by entry -/

theorem isTypeAt_shape {h h2 : Heap} (hs : SameShape h h2) (T : ITEMTYPE) (hT : 255 &&& T = T)
    (q : Nat) : h2.IsTypeAt T q = h.IsTypeAt T q := by
  unfold Heap.IsTypeAt
  cases hq : h.cell q with
  | none => rw [hs.cell_none_shape hq]
  | some it =>
    obtain ⟨it2, h2q, hsk⟩ := hs.cell_shape hq
    rw [h2q]
    exact skel_isType hsk T hT

theorem noPseudo_shape {h h2 : Heap} (hd : NoPseudo h) (hs : SameShape h h2) : NoPseudo h2 :=
  NoPseudo_kept hd hs.keptShape (fun p it hle hp => by
    have := lt_next_of_cell hp
    rw [hs.1] at this
    omega)

theorem JobsKeep.keep_nil {h : Heap} (hwf : h.WF) : JobsKeep [] h h :=
  ⟨Rebalanced.refl_bal hwf, fun _ _ => rfl⟩

theorem JobsKeep.keep_cons {p : Nat} {l : List Nat} {h h1 h2 : Heap} (a : JobsKeep [p] h h1)
    (b : JobsKeep l h1 h2) : JobsKeep (p :: l) h h2 := by
  refine ⟨a.1.trans_bal b.1, fun hnp q => ?_⟩
  rw [b.2 (noPseudo_shape hnp a.1.1), a.2 hnp]

/-- One iteration of `UpwardSubtractReadJobs`, for the aggregates. -/
theorem subJobs_keep (env : Env) (n : Nat) {h : Heap} (hwf : h.WF) {p : Nat} {it : CItem}
    {ci : CHILDINFO} (hp : h.cell p = some it) (hci : it.m_ci = some ci) :
    ∃ h1, (match h.modify? p fun it => it.updCi fun ci =>
          { ci with m_jobs := sub32 ci.m_jobs n } with
        | none => none
        | some h1 =>
          match h1.cell p with
          | none => none
          | some it1 => if it1.GetReadJobs = 0 then SetDone env h1 p else some h1) = some h1 ∧
      JobsKeep [p] h h1 := by
  have ra := subJobsF_rebalanced hwf hp n
  have hpa : (h.set p (subJobsF n it)).cell p = some (subJobsF n it) := by
    rw [cell_set_of_live hp]; simp
  have hta : ∀ q, (h.set p (subJobsF n it)).totAt q = h.totAt q := by
    intro q
    unfold Heap.totAt
    rw [cell_set_of_live hp]
    by_cases hqp : q = p
    · subst hqp
      simp only [if_true, hp, subJobsF_tot]
    · simp [hqp]
  have e1 : (h.modify? p fun it => it.updCi fun ci =>
      { ci with m_jobs := sub32 ci.m_jobs n }) = some (h.set p (subJobsF n it)) :=
    modify?_eq hp (updCi_eq hci _)
  rw [e1]
  simp only [hpa]
  by_cases hz : (subJobsF n it).GetReadJobs = 0
  · simp only [hz, if_true]
    obtain ⟨h2, e2, r2⟩ := SetDone_rebalanced env (ra.wf_bal hwf) hpa
    refine ⟨h2, e2, ra.trans_bal r2, fun hnp q => ?_⟩
    obtain ⟨h2b, e2b, _, t2⟩ := SetDone_calm env (ra.wf_bal hwf) (noPseudo_shape hnp ra.1) hpa
    rw [e2] at e2b
    cases e2b
    rw [t2, hta]
  · simp only [hz, if_false]
    exact ⟨_, rfl, ra, fun _ => hta⟩

/-- `UpwardSubtractReadJobs` on a directory of a tree without pseudo items returns and
changes no aggregate. -/
theorem UpwardSubtractReadJobs_tot (env : Env) {h : Heap} (hwf : h.WF) (hnp : NoPseudo h)
    {self : Nat} {it : CItem} (hself : h.cell self = some it)
    (hdir : it.GetType = IT_DIRECTORY) (count : Nat) :
    ∃ h2, UpwardSubtractReadJobs env h self count = some h2 ∧ Rebalanced h h2 ∧
      ∀ q, h2.totAt q = h.totAt q := by
  have hnf := notFile_of_dir hdir
  by_cases hcount : count = 0
  · refine ⟨h, ?_, Rebalanced.refl_bal hwf, fun _ => rfl⟩
    unfold UpwardSubtractReadJobs
    simp [hself, hcount]
  · obtain ⟨l, hl⟩ := hwf.chain_exists hself
    have hci : it.m_ci ≠ none := fun hn => by
      have := (hwf.hasCi self it hself).mp hn
      rw [hnf] at this
      cases this
    obtain ⟨h2, e2, r2, t2⟩ := upward_chain _ JobsKeep (fun a w => JobsKeep.keep_nil w)
      (fun _ _ _ _ _ a b _ => a.keep_cons b) (fun _ _ _ r => r.1.1) (fun _ _ _ w r => r.1.wf_bal w)
      (fun _ _ _ _ w c k => subJobs_keep env count w c k)
      (h.next + 1) h (some self) l hwf hl (fun p pit hp hpc => by
        cases hp
        rw [hself] at hpc
        cases hpc
        exact hci)
    refine ⟨h2, ?_, r2, t2 hnp⟩
    unfold UpwardSubtractReadJobs
    simp only [hself, hcount, hnf, Bool.false_eq_true, or_self, if_false]
    exact e2

theorem ci_of_dir {h : Heap} (hwf : h.WF) {p : Nat} {it : CItem} (hp : h.cell p = some it)
    (hdir : it.GetType = IT_DIRECTORY) : ∃ ci, it.m_ci = some ci := by
  apply Option.ne_none_iff_exists'.mp
  intro hn
  have := (hwf.hasCi p it hp).mp hn
  rw [notFile_of_dir hdir] at this
  cases this

theorem skips_false {env : Env} {e : FindData} (hs : env.skips e = false) :
    e.isDots = false ∧
    (env.SkipHidden && e.isHidden || env.SkipProtected && e.isHiddenSystem) = false := by
  unfold Env.skips at hs
  cases hd : e.isDots with
  | false =>
    rw [hd] at hs
    exact ⟨rfl, by simpa using hs⟩
  | true =>
    rw [hd] at hs
    simp at hs

/-- `ScanEntry` on an entry the scanner passes over. -/
theorem scan_entry_skip (env : Env) (item : Nat) (path : Path) (s : Scan) {e : FindData}
    (hs : env.skips e = true) : ScanEntry env item path s e = some s := by
  unfold Env.skips at hs
  unfold ScanEntry
  cases hd : e.isDots with
  | true => simp
  | false =>
    rw [hd] at hs
    simp only [Bool.false_or] at hs
    simp only [Bool.false_eq_true, if_false, hs, if_true]

/-- `ScanEntry` on a file entry. -/
theorem scan_entry_file {env : Env} {snap : Snapshot} {hb h : Heap}
    {qb queue : List Nat} {item : Nat} {e e2 : FindData} {rest : Fs}
    (i : Inv snap hb qb h queue item (.file e2 rest)) {it : CItem}
    (hit : h.cell item = some it) (hdir : it.GetType = IT_DIRECTORY) (path : Path)
    (hs : env.skips e = false) (hfile : e.isDirectory = false) (hname : e2.name = e.name)
    (hsize : e2.size = e.size) (hplain : (Fs.file e2 rest).plain = true) :
    ∃ h3, ScanEntry env item path { heap := h, queue := queue } e =
        some { heap := h3, queue := queue } ∧
      Inv snap hb qb h3 queue item rest ∧ KeptShape h h3 := by
  simp only [Fs.plain, Bool.and_eq_true, Bool.not_eq_true', decide_eq_true_eq] at hplain
  obtain ⟨ci, hci⟩ := ci_of_dir i.wf hit hdir
  obtain ⟨l, hl⟩ := i.wf.chain_exists hit
  obtain ⟨h1, h3, e1, e3, g⟩ := file_entry env i.wf hit hci hl e (by
    rw [← hsize]; exact hplain.1.2)
  rw [← hsize, ← hname] at g
  refine ⟨h3, ?_, i.file_step hit (notFile_of_dir hdir) hl g hplain.1.2, g.kept⟩
  obtain ⟨s1, s2⟩ := skips_false hs
  unfold ScanEntry
  simp only [s1, s2, hfile, Bool.false_eq_true, if_false]
  rw [e1]
  simp only []
  rw [e3]

/-- `ScanEntry` on a directory entry the scanner follows: the new item is queued. -/
theorem scan_entry_dir {env : Env} {snap : Snapshot} {hb h : Heap}
    {qb queue : List Nat} {item : Nat} {e e2 : FindData} {sub rest : Fs}
    (i : Inv snap hb qb h queue item (.dir e2 sub rest)) {it : CItem}
    (hit : h.cell item = some it) (hdir : it.GetType = IT_DIRECTORY) {path : Path}
    (hpath : GetPath h item = some path) {top : Fs}
    (hlist : h.listing snap item = some top) (hsub : top.sub e2.name = some sub)
    (hs : env.skips e = false) (hd : e.isDirectory = true) (hname : e2.name = e.name)
    (hfollow : env.follows path e = true)
    (hplain : (Fs.dir e2 sub rest).plain = true) :
    ∃ h3, ScanEntry env item path { heap := h, queue := queue } e =
        some { heap := h3, queue := queue ++ [h.next] } ∧
      Inv snap hb qb h3 (queue ++ [h.next]) item rest ∧ KeptShape h h3 ∧
      h3.listing snap h.next = some sub ∧ GetPath h3 h.next = some (path ++ [e.name]) := by
  simp only [Fs.plain, Bool.and_eq_true, Bool.not_eq_true', Option.isNone_iff_eq_none]
    at hplain
  obtain ⟨ci, hci⟩ := ci_of_dir i.wf hit hdir
  obtain ⟨l, hl⟩ := i.wf.chain_exists hit
  obtain ⟨h1, h3, e1, e3, g, nit, hn, hjobs⟩ := dir_entry env i.wf hit hci hl path e
  rw [← hname] at g
  obtain ⟨i3, hl3⟩ := i.dir_step hit hdir hl hlist hsub hplain.1.2 g
  have hf2 : (!e.isProtectedReparsePoint &&
      env.IsFollowingAllowed (path ++ [e.name]) e.attributes) = true := hfollow
  rw [if_pos hf2] at hjobs
  have hpath3 : GetPath h3 h.next = some (path ++ [e.name]) := by
    obtain ⟨nit2, hc2, hpar2, hname2, hty2, _, _⟩ := g.fresh
    obtain ⟨it3, hit3, hkey3⟩ := g.kept.cell_kept hit
    have hnf3 : it3.IsType IT_FILE = false := by
      rw [key_isType hkey3 IT_FILE (by decide)]; exact notFile_of_dir hdir
    obtain ⟨p0, hp0, hpn⟩ := GetPath_child g.wf hc2 hpar2 (isDir_of_getType hty2) hit3 hnf3
    rw [GetPath_kept i.wf g.kept (lt_next_of_cell hit), hpath] at hp0
    cases hp0
    rw [hpn, hname2, hname]
  refine ⟨h3, ?_, i3, g.kept, hl3, hpath3⟩
  obtain ⟨s1, s2⟩ := skips_false hs
  unfold ScanEntry
  simp only [s1, s2, hd, Bool.false_eq_true, if_false, if_true]
  rw [e1]
  simp only []
  rw [e3]
  simp only [hn, hjobs, Nat.lt_one_iff, if_true]

/-- `ScanEntry` on a directory entry the scanner does not follow: the new item is
not queued. -/
theorem scan_entry_stop {env : Env} {snap : Snapshot} {hb h : Heap}
    {qb queue : List Nat} {item : Nat} {e e2 : FindData} {rest : Fs}
    (i : Inv snap hb qb h queue item (.dir e2 .nil rest)) {it : CItem}
    (hit : h.cell item = some it) (hdir : it.GetType = IT_DIRECTORY) (path : Path) {top : Fs}
    (hlist : h.listing snap item = some top) (hsub : top.sub e2.name = some .nil)
    (hs : env.skips e = false) (hd : e.isDirectory = true) (hname : e2.name = e.name)
    (hfollow : env.follows path e = false) :
    ∃ h3, ScanEntry env item path { heap := h, queue := queue } e =
        some { heap := h3, queue := queue } ∧
      Inv snap hb qb h3 queue item rest ∧ KeptShape h h3 := by
  obtain ⟨ci, hci⟩ := ci_of_dir i.wf hit hdir
  obtain ⟨l, hl⟩ := i.wf.chain_exists hit
  obtain ⟨h1, h3, e1, e3, g, nit, hn, hjobs⟩ := dir_entry env i.wf hit hci hl path e
  rw [← hname] at g
  obtain ⟨i3, hl3⟩ := i.dir_step hit hdir hl hlist hsub rfl g
  have hf2 : ¬ (!e.isProtectedReparsePoint &&
      env.IsFollowingAllowed (path ++ [e.name]) e.attributes) = true := by
    have : (!e.isProtectedReparsePoint &&
      env.IsFollowingAllowed (path ++ [e.name]) e.attributes) = false := hfollow
    rw [this]
    simp
  rw [if_neg hf2] at hjobs
  refine ⟨h3, ?_, i3.drop_last hl3, g.kept⟩
  obtain ⟨s1, s2⟩ := skips_false hs
  unfold ScanEntry
  simp only [s1, s2, hd, Bool.false_eq_true, if_false, if_true]
  rw [e1]
  simp only []
  rw [e3]
  simp only [hn, hjobs, Nat.lt_irrefl, if_false]

/-! ### The scanner, folder by folder -/

theorem foldlM_cons_some {α β : Type} (f : β → α → Option β) (b : β) (a : α) (l : List α)
    {b1 : β} (h : f b a = some b1) : (a :: l).foldlM f b = l.foldlM f b1 := by
  simp [List.foldlM, h]

theorem QueueReads.kept_reads {env : Env} {snap : Snapshot} {h h2 : Heap} {queue : List Nat}
    (q : QueueReads env snap h queue) (hwf : h.WF) (hk : KeptShape h h2)
    (hlt : ∀ x ∈ queue, x < h.next) : QueueReads env snap h2 queue := by
  intro x hx path fs hp hl
  rw [GetPath_kept hwf hk (hlt x hx)] at hp
  rw [listing_kept snap hwf hk (hlt x hx)] at hl
  exact q x hx path fs hp hl

/-- The enumeration loop of `ScanItems` over the remaining entries `es` of the folder
of `item`, of which the scanner makes the listing `cur`. -/
theorem scan_loop {env : Env} {snap : Snapshot} {hb : Heap}
    {qb : List Nat} {item : Nat} {top : Fs} {path : Path} {es : List FindData} {cur : Fs}
    (hr : Reads env path es cur) :
    ∀ (h : Heap) (queue : List Nat), Inv snap hb qb h queue item cur →
      QueueReads env snap h queue →
      (∃ it, h.cell item = some it ∧ it.GetType = IT_DIRECTORY) →
      GetPath h item = some path →
      h.listing snap item = some top → Fs.resolves top cur → cur.plain = true →
      ∃ s, es.foldlM (ScanEntry env item path) { heap := h, queue := queue } = some s ∧
        Inv snap hb qb s.heap s.queue item .nil ∧ QueueReads env snap s.heap s.queue ∧
        KeptShape h s.heap ∧
        work snap s.heap s.queue ≤ work snap h queue + cur.countDirs := by
  induction hr with
  | done path =>
    intro h queue i qr _ _ _ _ _
    exact ⟨{ heap := h, queue := queue }, rfl, i, qr, KeptShape.refl_kept h, Nat.le_refl _⟩
  | @skip path e es fs hs _ ih =>
    intro h queue i qr hitem hpath hlist hres hplain
    obtain ⟨s, es2, is, qs, ks, ws⟩ := ih h queue i qr hitem hpath hlist hres hplain
    refine ⟨s, ?_, is, qs, ks, ws⟩
    rw [foldlM_cons_some _ _ _ _ (scan_entry_skip env item path _ hs)]
    exact es2
  | @file path e es e2 rest hs hfile hname hsize _ ih =>
    intro h queue i qr hitem hpath hlist hres hplain
    obtain ⟨it, hit, hdir⟩ := hitem
    obtain ⟨h3, e3, i3, k3⟩ := scan_entry_file i hit hdir path hs hfile hname hsize hplain
    obtain ⟨it3, hit3, hkey3⟩ := k3.cell_kept hit
    have hplain2 : rest.plain = true := by
      simp only [Fs.plain, Bool.and_eq_true] at hplain
      exact hplain.2
    obtain ⟨s, es2, is, qs, ks, ws⟩ := ih h3 queue i3 (qr.kept_reads i.wf k3 i.queue_lt)
      ⟨it3, hit3, by rw [key_type hkey3]; exact hdir⟩
      (by rw [GetPath_kept i.wf k3 (lt_next_of_cell hit)]; exact hpath)
      (by rw [listing_kept snap i.wf k3 (lt_next_of_cell hit)]; exact hlist) hres hplain2
    refine ⟨s, ?_, is, qs, k3.trans_kept ks, ?_⟩
    · rw [foldlM_cons_some _ _ _ _ e3]
      exact es2
    · rw [work_kept snap i.wf k3 i.queue_lt] at ws
      exact ws
  | @dir path e es e2 sub rest hs hd hname hfollow hsub _ _ ih =>
    intro h queue i qr hitem hpath hlist hres hplain
    obtain ⟨it, hit, hdir⟩ := hitem
    obtain ⟨h3, e3, i3, k3, hl3, hp3⟩ := scan_entry_dir i hit hdir hpath hlist hres.1 hs hd
      hname hfollow hplain
    obtain ⟨it3, hit3, hkey3⟩ := k3.cell_kept hit
    have hplain2 : rest.plain = true := by
      simp only [Fs.plain, Bool.and_eq_true] at hplain
      exact hplain.2
    have qr3 : QueueReads env snap h3 (queue ++ [h.next]) := by
      intro x hx p fs hp hl
      rcases List.mem_append.mp hx with hx | hx
      · exact qr.kept_reads i.wf k3 i.queue_lt x hx p fs hp hl
      · rw [List.mem_singleton] at hx
        subst hx
        rw [hp3] at hp
        rw [hl3] at hl
        cases hp
        cases hl
        exact hsub
    obtain ⟨s, es2, is, qs, ks, ws⟩ := ih h3 (queue ++ [h.next]) i3 qr3
      ⟨it3, hit3, by rw [key_type hkey3]; exact hdir⟩
      (by rw [GetPath_kept i.wf k3 (lt_next_of_cell hit)]; exact hpath)
      (by rw [listing_kept snap i.wf k3 (lt_next_of_cell hit)]; exact hlist) hres.2 hplain2
    refine ⟨s, ?_, is, qs, k3.trans_kept ks, ?_⟩
    · rw [foldlM_cons_some _ _ _ _ e3]
      exact es2
    · rw [work_append snap h3 queue h.next hl3, work_kept snap i.wf k3 i.queue_lt] at ws
      simp only [Fs.countDirs]
      omega
  | @stop path e es e2 rest hs hd hname hfollow _ ih =>
    intro h queue i qr hitem hpath hlist hres hplain
    obtain ⟨it, hit, hdir⟩ := hitem
    obtain ⟨h3, e3, i3, k3⟩ := scan_entry_stop i hit hdir path hlist hres.1 hs hd hname hfollow
    obtain ⟨it3, hit3, hkey3⟩ := k3.cell_kept hit
    have hplain2 : rest.plain = true := by
      simp only [Fs.plain, Bool.and_eq_true] at hplain
      exact hplain.2
    obtain ⟨s, es2, is, qs, ks, ws⟩ := ih h3 queue i3 (qr.kept_reads i.wf k3 i.queue_lt)
      ⟨it3, hit3, by rw [key_type hkey3]; exact hdir⟩
      (by rw [GetPath_kept i.wf k3 (lt_next_of_cell hit)]; exact hpath)
      (by rw [listing_kept snap i.wf k3 (lt_next_of_cell hit)]; exact hlist) hres.2 hplain2
    refine ⟨s, ?_, is, qs, k3.trans_kept ks, ?_⟩
    · rw [foldlM_cons_some _ _ _ _ e3]
      exact es2
    · rw [work_kept snap i.wf k3 i.queue_lt] at ws
      simp only [Fs.countDirs]
      omega

theorem isType_dirLike_of_dir {it : CItem} (hdir : it.GetType = IT_DIRECTORY) :
    it.IsType (ITEMTYPE.or IT_DRIVE IT_DIRECTORY) = true := by
  rw [IsType_of_GetType it _ _ hdir (by decide)]; rfl

/-- One pass of the loop of `ScanItems`: the popped folder is read to its end. -/
theorem scan_item {env : Env} {snap : Snapshot} {hb h : Heap}
    {qb queue : List Nat} {q0 item : Nat} (i : Inv snap hb qb h (q0 :: queue) item .nil)
    (qr : QueueReads env snap h (q0 :: queue)) :
    ∃ s, ScanItem env { heap := h, queue := queue } q0 = some s ∧
      Inv snap hb qb s.heap s.queue q0 .nil ∧ QueueReads env snap s.heap s.queue ∧
      work snap s.heap s.queue + 1 ≤ work snap h (q0 :: queue) := by
  obtain ⟨it, top, hit, hdir, hlist, hplain⟩ := i.queued q0 (List.mem_cons_self _ _)
  have hq0 := lt_next_of_cell hit
  -- the invariant with the listing of `q0` as the entries to come
  have i0 : Inv snap hb qb h queue q0 top := by
    refine ⟨i.wf, i.df, i.news, i.kept, hq0,
      fun q hq => i.queued q (List.mem_cons_of_mem _ hq),
      fun p x hp hd => ?_, i.gaps, fun p x hp hd => ?_, i.listed⟩
    · have := i.phi p x hp hd
      rw [pend_cons] at this
      rw [← this]
      have hlt : h.listTot snap q0 = top.tot := by
        unfold Heap.listTot
        rw [hlist]
      rw [hlt]
      simp only [Fs.tot]
      split <;> split <;> abel
    · have := i.tags p x hp hd
      rw [pendTags_cons] at this
      rw [← this]
      have hlt : h.listTags snap q0 = top.tags := by
        unfold Heap.listTags
        rw [hlist]
      rw [hlt]
      by_cases hpq : p = q0
      · subst hpq
        simp only [if_true, Fs.tags]
        split <;> abel
      · have hqp : ¬ q0 = p := fun e => hpq e.symm
        simp only [hpq, hqp, if_false, Fs.tags]
        split <;> abel
  obtain ⟨path, hpath⟩ : ∃ path, GetPath h q0 = some path := by
    unfold Heap.listing at hlist
    cases hp : GetPath h q0 with
    | none => rw [hp] at hlist; cases hlist
    | some path => exact ⟨path, rfl⟩
  have hreads := qr q0 (List.mem_cons_self _ _) path top hpath hlist
  have qr0 : QueueReads env snap h queue :=
    fun q hq => qr q (List.mem_cons_of_mem _ hq)
  obtain ⟨s, es, is, qs, ks, ws⟩ := scan_loop hreads h queue i0 qr0 ⟨it, hit, hdir⟩ hpath
    hlist (plain_resolves hplain) hplain
  obtain ⟨it2, hit2, hkey2⟩ := ks.cell_kept hit
  have hdir2 : it2.GetType = IT_DIRECTORY := by rw [key_type hkey2]; exact hdir
  obtain ⟨h2, e2, r2, t2⟩ := UpwardSubtractReadJobs_tot env is.wf is.df hit2 hdir2 1
  have i2 := is.same r2.1 (r2.wf_bal is.wf) t2
  refine ⟨{ s with heap := h2 }, ?_, i2, qs.kept_reads is.wf r2.1.keptShape is.queue_lt, ?_⟩
  · unfold ScanItem
    simp only [hit, isType_dirLike_of_dir hdir, if_true, hpath]
    rw [es]
    simp only []
    rw [e2]
  · show work snap h2 s.queue + 1 ≤ work snap h (q0 :: queue)
    rw [work_kept snap is.wf r2.1.keptShape is.queue_lt, work_cons snap h queue q0 hlist]
    omega

/-- `ScanItems` with a single worker runs until the queue is empty, given fuel for
every folder to be read, and keeps the invariant. -/
theorem scan_items {env : Env} {snap : Snapshot} {hb : Heap}
    {qb : List Nat} :
    ∀ (fuel : Nat) (h : Heap) (queue : List Nat) (item : Nat),
      Inv snap hb qb h queue item .nil → QueueReads env snap h queue →
      work snap h queue ≤ fuel →
      ∃ s item2, ScanItems env fuel { heap := h, queue := queue } = some s ∧ s.queue = [] ∧
        Inv snap hb qb s.heap [] item2 .nil := by
  intro fuel
  induction fuel with
  | zero =>
    intro h queue item i _ hw
    cases queue with
    | nil => exact ⟨{ heap := h, queue := [] }, item, rfl, rfl, i⟩
    | cons q0 rest =>
      obtain ⟨_, fs, _, _, hl, _⟩ := i.queued q0 (List.mem_cons_self _ _)
      rw [work_cons snap h rest q0 hl] at hw
      omega
  | succ n ih =>
    intro h queue item i qr hw
    cases queue with
    | nil => exact ⟨{ heap := h, queue := [] }, item, rfl, rfl, i⟩
    | cons q0 rest =>
      obtain ⟨s1, e1, i1, q1, w1⟩ := scan_item i qr
      obtain ⟨s, item2, es, hq, is⟩ := ih s1.heap s1.queue q0 i1 q1 (by omega)
      refine ⟨s, item2, ?_, hq, is⟩
      simp only [ScanItems]
      rw [e1]
      exact es

/-- Where the operating system answers from the snapshot, follows every folder and
skips nothing, the scanner makes of a plain listing that listing. -/
theorem reads_of_ok {env : Env} {snap : Snapshot} (hok : EnvOk env snap) (r : String) :
    ∀ (cur top : Fs) (rest : Path), snap.listing (r :: rest) = some top →
      Fs.resolves top cur → cur.plain = true → Reads env (r :: rest) cur.entries cur := by
  intro cur
  induction cur with
  | nil => intro _ _ _ _ _; exact Reads.done _
  | file d fs ih =>
    intro top rest hl hres hplain
    simp only [Fs.plain, Bool.and_eq_true, Bool.not_eq_true', decide_eq_true_eq] at hplain
    refine Reads.file ?_ rfl rfl rfl (ih top rest hl hres hplain.2)
    simp [Env.skips, hplain.1.1, hok.hidden, hok.prot]
  | dir d sub fs ihs ih =>
    intro top rest hl hres hplain
    simp only [Fs.plain, Bool.and_eq_true, Bool.not_eq_true', Option.isNone_iff_eq_none]
      at hplain
    have hl2 : snap.listing (r :: rest ++ [d.name]) = some sub := by
      rw [Snapshot.listing_append, hl]
      exact hres.1
    have hfind : env.FindFile (r :: rest ++ [d.name]) = sub.entries := by
      rw [hok.find, hl2]
    refine Reads.dir ?_ rfl rfl ?_ ?_ (ih top rest hl hres.2 hplain.2)
    · simp [Env.skips, hplain.1.1.1.1, hok.hidden, hok.prot]
    · simp [Env.follows, hplain.1.1.1.2, hok.follow]
    · show Reads env (r :: rest ++ [d.name]) (env.FindFile (r :: rest ++ [d.name])) sub
      rw [hfind]
      exact ihs sub (rest ++ [d.name]) hl2 (plain_resolves hplain.1.2) hplain.1.2

/-- Where the operating system answers from the snapshot, follows every folder and
skips nothing, every queued item has the listing the scanner makes of its folder. -/
theorem queueReads_of_ok {env : Env} {snap : Snapshot} (hok : EnvOk env snap) {hb h : Heap}
    {qb queue : List Nat} {item : Nat} {cur : Fs} (i : Inv snap hb qb h queue item cur) :
    QueueReads env snap h queue := by
  intro q hq path fs hp hl
  obtain ⟨_, fs2, _, _, hl2, hplain⟩ := i.queued q hq
  rw [hl] at hl2
  cases hl2
  unfold Heap.listing at hl
  rw [hp] at hl
  simp only [] at hl
  cases path with
  | nil => simp [Snapshot.listing, Snapshot.volume] at hl
  | cons r rest =>
    have := reads_of_ok hok r fs fs rest hl (plain_resolves hplain) hplain
    rw [hok.find, hl]
    exact this

/-! ### C2 -/

theorem Fs.tot_eq (fs : Fs) :
    fs.tot = ((fs.totalSize : Z64), (fs.countFiles : Z32), (fs.countDirs : Z32)) := by
  induction fs with
  | nil => simp [Fs.tot, Fs.totalSize, Fs.countFiles, Fs.countDirs]
  | file d rest ih =>
    simp only [Fs.tot, Fs.totalSize, Fs.countFiles, Fs.countDirs, ih, Prod.mk_add_mk]
    push_cast
    simp
  | dir d sub rest ihs ih =>
    simp only [Fs.tot, Fs.totalSize, Fs.countFiles, Fs.countDirs, ihs, ih, Prod.mk_add_mk]
    push_cast
    simp

theorem leaf_sum {h : Heap} (hdf : OnlyDF h) :
    ∀ (l : List Nat), (∀ q ∈ l, ∃ it, h.cell q = some it) →
      (l.map h.leafAt).sum =
        (((((l.filter (h.IsTypeAt IT_FILE)).map h.GetSize).sum : Nat) : Z64),
          (((l.filter (h.IsTypeAt IT_FILE)).length : Nat) : Z32),
          (((l.filter (h.IsTypeAt IT_DIRECTORY)).length : Nat) : Z32)) := by
  intro l
  induction l with
  | nil => intro _; simp
  | cons q l ih =>
    intro hl
    obtain ⟨it, hq⟩ := hl q (List.mem_cons_self _ _)
    have ih2 := ih (fun x hx => hl x (List.mem_cons_of_mem _ hx))
    rw [List.map_cons, List.sum_cons, ih2]
    rcases hdf q it hq with hd | hf
    · have a1 : h.IsTypeAt IT_FILE q = false := by
        simp [Heap.IsTypeAt, hq, notFile_of_dir hd]
      have a2 : h.IsTypeAt IT_DIRECTORY q = true := by
        simp [Heap.IsTypeAt, hq, isDir_of_getType hd]
      have a3 : h.leafAt q = (0, 0, 1) := by
        simp [Heap.leafAt, hq, leafTot_dir hd]
      simp only [List.filter_cons, a1, a2, a3, Bool.false_eq_true, if_false, if_true,
        List.length_cons, Prod.mk_add_mk, zero_add]
      push_cast
      congr 2
      ring
    · have a1 : h.IsTypeAt IT_FILE q = true := by
        simp only [Heap.IsTypeAt, hq]
        rw [IsType_of_GetType it _ IT_FILE hf (by decide)]; rfl
      have a2 : h.IsTypeAt IT_DIRECTORY q = false := by
        simp only [Heap.IsTypeAt, hq]
        rw [IsType_of_GetType it _ IT_DIRECTORY hf (by decide)]; rfl
      have a3 : h.leafAt q = ((it.m_size : Z64), 1, 0) := by
        simp [Heap.leafAt, hq, leafTot_file hf]
      simp only [List.filter_cons, a1, a2, a3, Bool.false_eq_true, if_false, if_true,
        List.length_cons, List.map_cons, List.sum_cons, Prod.mk_add_mk, zero_add,
        GetSize_of_cell hq]
      push_cast
      congr 2
      ring

/-- In a tree of directories and files, what lies below `p`. -/
theorem totBelow_eq {h : Heap} (hdf : OnlyDF h) (p : Nat) :
    h.totBelow p = ((h.fileSizeBelow p : Z64), (h.filesBelow p : Z32), (h.dirsBelow p : Z32)) := by
  unfold Heap.totBelow Heap.fileSizeBelow Heap.filesBelow Heap.dirsBelow
  exact leaf_sum hdf _ (fun q hq => below_live (descendants_below hq).1)

theorem ScanItems_mono (env : Env) : ∀ (n : Nat) (s r : Scan), ScanItems env n s = some r →
    ∀ m, n ≤ m → ScanItems env m s = some r := by
  intro n
  induction n with
  | zero =>
    intro s r hs m _
    obtain ⟨h, queue⟩ := s
    cases queue with
    | nil =>
      simp only [ScanItems] at hs
      cases m <;> simpa [ScanItems] using hs
    | cons q rest => simp [ScanItems] at hs
  | succ n ih =>
    intro s r hs m hm
    obtain ⟨h, queue⟩ := s
    cases queue with
    | nil =>
      simp only [ScanItems] at hs
      cases m <;> simpa [ScanItems] using hs
    | cons q rest =>
      cases m with
      | zero => omega
      | succ m =>
        simp only [ScanItems] at hs ⊢
        cases h1 : ScanItem env { heap := h, queue := rest } q with
        | none => rw [h1] at hs; cases hs
        | some s1 =>
          rw [h1] at hs
          exact ih s1 r hs m (by omega)

/-- The fresh root directory item with its one pending read job. -/
theorem fresh_root (name : String) :
    ∃ h1 it1, UpwardAddReadJobs
        (Heap.empty.alloc (CItem.new (ITEMTYPE.or IT_DIRECTORY ITF_ROOTITEM) name)) 0 1 =
        some h1 ∧
      h1.cell 0 = some it1 ∧ h1.next = 1 ∧ it1.GetType = IT_DIRECTORY ∧ it1.tot = 0 ∧
      h1.WF ∧ it1.m_name = name := by
  have hT : ITEMTYPE.or IT_DIRECTORY ITF_ROOTITEM = 516 := by decide
  rw [hT]
  have hci0 : (CItem.new 516 name).m_ci =
      some { m_children := [], m_files := 0, m_subdirs := 0, m_jobs := 0 } := by
    have e : ((516 &&& IT_FILE) != 0) = false := by decide
    simp only [CItem.new, e, Bool.false_eq_true, if_false]
  have hgt : (CItem.new 516 name).GetType = IT_DIRECTORY := by
    rw [GetType_eq]
    show 516 &&& 255 = IT_DIRECTORY
    decide
  have hfresh : (CItem.new 516 name).Fresh := by
    refine ⟨rfl, by show 0 < 18446744073709551616; decide, Or.inr (Or.inr (Or.inl hgt)), ?_,
      fun ci hci => ?_⟩
    · rw [hci0, notFile_of_dir hgt]
      simp
    · rw [hci0] at hci
      cases hci
      exact ⟨rfl, by decide, by decide, by decide⟩
  have hwfe : Heap.empty.WF := WF_of_wfCheck (by decide)
  have w0 := wf_alloc hwfe hfresh
  have hc : (Heap.empty.alloc (CItem.new 516 name)).cell 0 = some (CItem.new 516 name) :=
    cell_alloc_new Heap.empty _
  obtain ⟨l, hl⟩ := w0.chain_exists hc
  have e := UpwardAddReadJobs_eq hc hl (w0.ciOk l) 1
  rw [hci0, if_neg (by simp)] at e
  have r := addJobsF_rebalanced w0 l 1
  obtain ⟨it1, h1c, hsk⟩ := r.1.cell_shape hc
  have ht : it1.tot = (CItem.new 516 name).tot := by
    have := totAt_of_cell h1c
    unfold Heap.totAt at this
    rw [cell_mapOn, hc] at this
    by_cases hm : 0 ∈ l
    · simp only [hm, if_true, Option.map_some', addJobsF_tot] at this
      exact this.symm
    · simp only [hm, if_false] at this
      exact this.symm
  refine ⟨_, it1, e, h1c, by rw [r.1.1]; rfl, by rw [skel_type hsk]; exact hgt, ?_,
    r.wf_bal w0, by rw [skel_name hsk]; rfl⟩
  rw [ht]
  rfl

theorem pend_nil (snap : Snapshot) (h : Heap) (p : Nat) : pend snap h [] p = 0 := rfl

/-- C2, amended: for every finite directory tree `fs` that the scanner reads in full
(no `.` and `..` entries, no protected reparse point, distinct directory names in a
folder, 64-bit file sizes), with nothing skipped and every folder followed, `ScanItems`
with a single worker, started on a fresh root directory item with one pending read job,
empties the queue, given fuel for every folder. In the tree it leaves, the root has
the total file size of `fs` modulo 2^64 as its size and the numbers of files and of
directories of `fs` modulo 2^32 as its counts, and every directory item has as its
size the sum of the sizes of the file items below it modulo 2^64, as its file count
the number of file items below it modulo 2^32, and as its subdir count the number of
directory items strictly below it modulo 2^32. -/
theorem C2_scan_sums (name : String) (fs : Fs) (total free : Nat) (lastWrite : Option Nat)
    (showFreeSpace showUnknown : Bool) (hplain : fs.plain = true) :
    ∃ h1 s root,
      UpwardAddReadJobs
        (Heap.empty.alloc (CItem.new (ITEMTYPE.or IT_DIRECTORY ITF_ROOTITEM) name)) 0 1 =
        some h1 ∧
      (∀ fuel, fs.countDirs + 1 ≤ fuel →
        ScanItems (Snapshot.env [Volume.mk name fs total free lastWrite] (fun _ _ => true) false false showFreeSpace showUnknown)
          fuel { heap := h1, queue := [0] } = some s) ∧
      s.queue = [] ∧ s.heap.cell 0 = some root ∧
      root.m_size = fs.totalSize % 2 ^ 64 ∧ root.GetFilesCount = fs.countFiles % 2 ^ 32 ∧
      root.GetSubdirsCount = fs.countDirs % 2 ^ 32 ∧
      ∀ p it, s.heap.cell p = some it → it.IsType IT_DIRECTORY = true →
        it.m_size = s.heap.fileSizeBelow p % 2 ^ 64 ∧
        it.GetFilesCount = s.heap.filesBelow p % 2 ^ 32 ∧
        it.GetSubdirsCount = s.heap.dirsBelow p % 2 ^ 32 := by
  have hok : EnvOk (Snapshot.env [Volume.mk name fs total free lastWrite] (fun _ _ => true) false false showFreeSpace showUnknown)
      [Volume.mk name fs total free lastWrite] :=
    ⟨fun _ => rfl, fun _ _ => rfl, rfl, rfl⟩
  obtain ⟨h1, it1, e1, hc0, hn1, hty1, htot1, hwf1, hname1⟩ := fresh_root name
  have honly : ∀ p x, h1.cell p = some x → p = 0 ∧ x = it1 := by
    intro p x hp
    have hlt := lt_next_of_cell hp
    rw [hn1] at hlt
    have hp0 : p = 0 := by omega
    subst hp0
    rw [hc0] at hp
    exact ⟨rfl, (Option.some.inj hp).symm⟩
  have hchain : h1.chain 0 = some [0] := by
    obtain ⟨l, hl⟩ := hwf1.chain_exists hc0
    obtain ⟨_, l1, _, rfl⟩ := chain_head hl
    have hle := hwf1.chain_le hl
    cases l1 with
    | nil => exact hl
    | cons a l2 =>
      have ha : a ≤ 0 := hle a (by simp)
      have hnd := chainFuel_nodup hl
      have ha0 : a = 0 := by omega
      subst ha0
      simp at hnd
  have hpath : GetPath h1 0 = some [name] := by
    rw [GetPath_eq, hchain]
    simp only [Option.map_some', List.foldl_cons, List.foldl_nil, pathStep, hc0,
      isDir_of_getType hty1, if_true, hname1]
  have hlist : h1.listing [Volume.mk name fs total free lastWrite] 0 = some fs := by
    unfold Heap.listing
    rw [hpath]
    simp [Snapshot.listing, Snapshot.volume, Fs.walk]
  have hbelow : h1.below 0 0 = true := below_self hwf1 hc0
  have hdesc : h1.descendants 0 = [] := by
    unfold Heap.descendants
    rw [hn1]
    rfl
  have i0 : Inv [Volume.mk name fs total free lastWrite] h1 [0] h1 [0] 0 .nil := by
    refine ⟨hwf1, OnlyDF.noPseudo_of (fun p x hp => ?_),
      fun p x hle hp => absurd (lt_next_of_cell hp) (Nat.not_lt.mpr hle),
      KeptShape.refl_kept h1, by rw [hn1]; decide,
      fun q hq => ?_, fun p x hp _ => ?_, fun p x hp _ => ?_, fun p x hp _ => ?_,
      fun p x hp _ hnb => absurd (lt_next_of_cell hp) hnb⟩
    · obtain ⟨_, rfl⟩ := honly p x hp
      exact Or.inl hty1
    · rw [List.mem_singleton] at hq
      subst hq
      exact ⟨it1, fs, hc0, hty1, hlist, hplain⟩
    · have hlt := lt_next_of_cell hp
      simp [hlt, Fs.tot]
    · have hlt := lt_next_of_cell hp
      simp [hlt]
    · have hlt := lt_next_of_cell hp
      simp [hlt, Fs.tags]
  have hw : work [Volume.mk name fs total free lastWrite] h1 [0] = 1 + fs.countDirs := by
    simp [work, hlist]
  obtain ⟨s, item2, es, hq, is⟩ := scan_items (fs.countDirs + 1) h1 [0] 0 i0
    (queueReads_of_ok hok i0) (by rw [hw]; omega)
  obtain ⟨root, hroot, hkey⟩ := is.kept.cell_kept hc0
  have hrd : root.GetType = IT_DIRECTORY := by rw [key_type hkey]; exact hty1
  have hgap0 : h1.gap 0 = 0 := by
    unfold Heap.gap Heap.totBelow
    rw [hdesc, totAt_of_cell hc0, htot1]
    simp
  have hdf : OnlyDF s.heap := by
    intro p it hp
    by_cases hlt : p < h1.next
    · rw [hn1] at hlt
      have hp0 : p = 0 := by omega
      subst hp0
      rw [hroot] at hp
      cases hp
      exact Or.inl hrd
    · exact is.news p it (Nat.le_of_not_lt hlt) hp
  have hphi := is.phi 0 root hroot (notFile_of_dir hrd)
  rw [pend_nil, hn1, totAt_of_cell hroot, totAt_of_cell hc0, htot1, pend_cons, pend_nil, hbelow]
    at hphi
  simp only [Fs.tot, ite_self, add_zero, Nat.lt_one_iff, if_true, zero_add] at hphi
  unfold Heap.listTot at hphi
  rw [hlist] at hphi
  simp only [] at hphi
  rw [Fs.tot_eq] at hphi
  obtain ⟨r1, r2, r3⟩ := tot_nat is.wf hroot hphi
  refine ⟨h1, s, root, e1, fun fuel hf => ScanItems_mono _ _ _ _ es fuel hf, hq, hroot, r1, r2,
    r3, fun p it hp hd => ?_⟩
  have hpd : it.GetType = IT_DIRECTORY := by
    rcases hdf p it hp with e | e
    · exact e
    · rw [IsType_of_GetType it _ IT_DIRECTORY e (by decide)] at hd
      exact absurd hd (by decide)
  have hg := is.gaps p it hp hpd
  have hg0 : s.heap.gap p = 0 := by
    rw [hg]
    split
    · rename_i hlt
      rw [hn1] at hlt
      have hp0 : p = 0 := by omega
      rw [hp0]
      exact hgap0
    · rfl
  unfold Heap.gap at hg0
  rw [totAt_of_cell hp, sub_eq_zero, totBelow_eq hdf] at hg0
  exact tot_nat is.wf hp hg0

/-- C2 on the folder of the scenario: the root ends with size 10, file count 2 and
subdir count 1. -/
theorem C2_scan_sums_witness :
    exScenario.plain = true ∧
    exScenario.totalSize % 2 ^ 64 = 10 ∧ exScenario.countFiles % 2 ^ 32 = 2 ∧
    exScenario.countDirs % 2 ^ 32 = 1 ∧
    ∃ h1 s root,
      UpwardAddReadJobs
        (Heap.empty.alloc (CItem.new (ITEMTYPE.or IT_DIRECTORY ITF_ROOTITEM) "R")) 0 1 =
        some h1 ∧
      (∀ fuel, exScenario.countDirs + 1 ≤ fuel →
        ScanItems (Snapshot.env [Volume.mk "R" exScenario 0 0 none] (fun _ _ => true) false false
            false false)
          fuel { heap := h1, queue := [0] } = some s) ∧
      s.queue = [] ∧ s.heap.cell 0 = some root ∧
      root.m_size = exScenario.totalSize % 2 ^ 64 ∧
      root.GetFilesCount = exScenario.countFiles % 2 ^ 32 ∧
      root.GetSubdirsCount = exScenario.countDirs % 2 ^ 32 ∧
      ∀ p it, s.heap.cell p = some it → it.IsType IT_DIRECTORY = true →
        it.m_size = s.heap.fileSizeBelow p % 2 ^ 64 ∧
        it.GetFilesCount = s.heap.filesBelow p % 2 ^ 32 ∧
        it.GetSubdirsCount = s.heap.dirsBelow p % 2 ^ 32 :=
  ⟨by decide, by decide, by decide, by decide,
    C2_scan_sums "R" exScenario 0 0 none false false (by decide)⟩

/-- C2 as stated fails when a counter wraps: a folder with two files of 2^63 bytes
is scanned to the end, the file items below the root have 2^64 bytes together, and the
size of the root is 0. -/
theorem C2_counterexample :
    exHuge.plain = true ∧
    ∃ h1 s root,
      UpwardAddReadJobs
        (Heap.empty.alloc (CItem.new (ITEMTYPE.or IT_DIRECTORY ITF_ROOTITEM) "R")) 0 1 =
        some h1 ∧
      ScanItems (Snapshot.env [Volume.mk "R" exHuge 0 0 none] (fun _ _ => true) false false
          false false) 1 { heap := h1, queue := [0] } = some s ∧
      s.queue = [] ∧ s.heap.cell 0 = some root ∧ root.IsDone = true ∧
      s.heap.fileSizeBelow 0 = 18446744073709551616 ∧ root.m_size = 0 :=
  ⟨by decide, _, _, _, rfl, rfl, rfl, rfl, rfl, rfl, rfl⟩

/-! ### Walks that change no aggregate -/

/-- `UpwardAddReadJobs` returns, keeps the tree and changes no aggregate. -/
theorem UpwardAddReadJobs_tot {h : Heap} (hwf : h.WF) {s : Nat} {it : CItem}
    (hs : h.cell s = some it) (n : Nat) :
    ∃ h2, UpwardAddReadJobs h s n = some h2 ∧ Rebalanced h h2 ∧ ∀ q, h2.totAt q = h.totAt q := by
  obtain ⟨l, hl⟩ := hwf.chain_exists hs
  refine ⟨_, UpwardAddReadJobs_eq hs hl (hwf.ciOk l) n, ?_, fun q => ?_⟩
  · split
    · exact Rebalanced.refl_bal hwf
    · exact addJobsF_rebalanced hwf l n
  · split
    · rfl
    · unfold Heap.totAt
      rw [cell_mapOn]
      by_cases hq : q ∈ l
      · simp only [hq, if_true]
        cases h.cell q with
        | none => rfl
        | some x => simp only [Option.map_some', addJobsF_tot]
      · simp only [hq, if_false]

/-- One iteration of `UpwardSetUndone`, for the aggregates. -/
theorem undone_keep {h : Heap} (hwf : h.WF) {p : Nat} {it : CItem} (hp : h.cell p = some it) :
    ∃ h1, (match h.cell p with
      | none => none
      | some it =>
        let rebased : Option Heap :=
          if it.IsType IT_DRIVE && it.IsDone then
            match FindUnknownItem h p with
            | none => none
            | some none => some h
            | some (some unknown) =>
              match UpwardSubtractSize h p (h.GetSize unknown) with
              | none => none
              | some h1 => h1.modify unknown fun u => { u with m_size := 0 }
          else some h
        match rebased with
        | none => none
        | some h2 => h2.modify p fun it2 => it2.SetType ITF_DONE false) = some h1 ∧
      JobsKeep [p] h h1 := by
  obtain ⟨h1, e1, r1⟩ := undone_step hwf hp
  refine ⟨h1, e1, r1, fun hnp q => ?_⟩
  have e1b : h.modify p (fun it2 => it2.SetType ITF_DONE false) = some h1 := by
    by_cases hd : (it.IsType IT_DRIVE && it.IsDone) = true
    · have hdr : it.IsType IT_DRIVE = true := by
        simp only [Bool.and_eq_true] at hd
        exact hd.1
      obtain ⟨ci, hci⟩ := Option.ne_none_iff_exists'.mp (hwf.drive_hasCi hp hdr)
      simp only [hp, hd, if_true, FindUnknownItem, FindChildOfType_eq hp hci,
        (find_pseudo_none hnp ci.m_children).2] at e1
      exact e1
    · simp only [hp, hd, Bool.false_eq_true, if_false] at e1
      exact e1
  rw [modify_eq hp] at e1b
  cases e1b
  unfold Heap.totAt
  rw [cell_set_of_live hp]
  by_cases hq : q = p
  · subst hq
    simp only [if_true, hp, SetType_tot]
  · simp only [hq, if_false]

/-- `UpwardSetUndone` in a tree without pseudo items returns, keeps the tree and
changes no aggregate. -/
theorem UpwardSetUndone_tot {h : Heap} (hwf : h.WF) (hnp : NoPseudo h) {self : Nat} {it : CItem}
    (hself : h.cell self = some it) (hdir : it.GetType = IT_DIRECTORY) :
    ∃ h2, UpwardSetUndone h self = some h2 ∧ Rebalanced h h2 ∧
      ∀ q, h2.totAt q = h.totAt q := by
  obtain ⟨l, hl⟩ := hwf.chain_exists hself
  obtain ⟨ci, hci⟩ := ci_of_dir hwf hself hdir
  obtain ⟨h2, e2, r2, t2⟩ := upward_chain _ JobsKeep (fun a w => JobsKeep.keep_nil w)
    (fun _ _ _ _ _ a b _ => a.keep_cons b) (fun _ _ _ r => r.1.1) (fun _ _ _ w r => r.1.wf_bal w)
    (fun _ _ _ _ w c _ => undone_keep w c)
    (h.next + 1) h (some self) l hwf hl (fun p pit hp hpc => by
      cases hp
      rw [hself] at hpc
      cases hpc
      rw [hci]
      simp)
  exact ⟨h2, e2, r2, t2 hnp⟩

/-! ### `UpwardRecalcLastChange` -/

theorem CItem.Retimed.refl_times (a : CItem) : a.Retimed a := ⟨rfl, rfl, rfl, rfl, rfl⟩

theorem CItem.Retimed.tot_times {a b : CItem} (x : a.Retimed b) : b.tot = a.tot := by
  unfold CItem.tot CItem.GetFilesCount CItem.GetSubdirsCount
  rw [x.2.2.1, x.2.2.2.1]

theorem CItem.Retimed.skel_times {a b : CItem} (x : a.Retimed b) : b.skel = a.skel := by
  unfold CItem.skel CItem.GetType
  rw [x.1, x.2.1, x.2.2.1, x.2.2.2.2]

/-- Replacing an item by a retimed one keeps the tree, the defects and the
aggregates. -/
theorem set_retimed {h : Heap} (hwf : h.WF) {p : Nat} {it it2 : CItem} (hp : h.cell p = some it)
    (x : it.Retimed it2) :
    Rebalanced h (h.set p it2) ∧ ∀ q, (h.set p it2).totAt q = h.totAt q := by
  refine ⟨set_rebalanced hwf hp it2 x.skel_times x.2.2.2.1 (fun ci2 h2 =>
    ⟨ci2, by rw [← x.2.2.1]; exact h2, rfl, rfl, rfl⟩), fun q => ?_⟩
  unfold Heap.totAt
  rw [cell_set_of_live hp]
  by_cases hq : q = p
  · subst hq
    simp only [if_true, hp, x.tot_times]
  · simp only [hq, if_false]

/-- `UpdateStatsFromDisk` on an item that is not a file changes its times alone. -/
theorem UpdateStatsFromDisk_retimed (env : Env) {h : Heap} (hwf : h.WF) {p : Nat} {it : CItem}
    {ci : CHILDINFO} (hp : h.cell p = some it) (hci : it.m_ci = some ci) :
    ∃ it2, UpdateStatsFromDisk env h p = some (h.set p it2) ∧ it.Retimed it2 := by
  have hnf : it.IsType IT_FILE = false := not_file_of_ci hwf hp hci
  obtain ⟨l, hl⟩ := hwf.chain_exists hp
  obtain ⟨path, hpath⟩ := GetPath_some hl
  have hsame : some h = some (h.set p it) := by rw [set_same hp]
  unfold UpdateStatsFromDisk
  simp only [hp]
  split
  · have hfp : ∃ folder, GetFolderPath h p = some folder := by
      unfold GetFolderPath
      simp only [hp, hpath, hnf]
      split
      · exact ⟨_, rfl⟩
      · exact ⟨_, rfl⟩
    obtain ⟨folder, hfolder⟩ := hfp
    simp only [hfolder]
    split
    · exact ⟨it, hsame, CItem.Retimed.refl_times it⟩
    · simp only [hnf, Bool.false_eq_true, if_false]
      exact ⟨_, rfl, rfl, rfl, rfl, rfl, rfl⟩
  · split
    · simp only [hpath]
      split
      · exact ⟨it, hsame, CItem.Retimed.refl_times it⟩
      · exact ⟨_, rfl, rfl, rfl, rfl, rfl, rfl⟩
    · exact ⟨it, hsame, CItem.Retimed.refl_times it⟩

theorem cell_pruned (h : Heap) (x q : Nat) :
    (h.pruned x).cell q =
      if q = x then (h.cell x).map fun it => it.mapCi fun ci => { ci with m_children := [] }
      else if h.below x q then none else h.cell q := by
  unfold Heap.pruned
  rw [cell_mk_range]
  by_cases hq : q < h.next
  · simp [hq]
  · have hc := cell_of_next_le h (Nat.le_of_not_lt hq)
    by_cases hqx : q = x
    · subst hqx
      simp [hq, hc]
    · simp [hq, hc, hqx]

theorem chain_of_parent {h : Heap} (hwf : h.WF) {c p : Nat} {cit : CItem}
    (hc : h.cell c = some cit) (hpar : cit.m_parent = some p) :
    ∃ l, h.chain p = some l ∧ h.chain c = some (c :: l) := by
  obtain ⟨l0, hl0⟩ := hwf.chain_exists hc
  obtain ⟨_, l1, _, rfl⟩ := chain_head hl0
  rcases chain_cons_parent hl0 hc with ⟨hn, _⟩ | ⟨c1, hc1, hch⟩
  · rw [hpar] at hn
    cases hn
  · rw [hpar] at hc1
    cases hc1
    exact ⟨l1, hch, hl0⟩

/-- The items below the children of `x` are the items strictly below `x`. -/
theorem any_kid_below {h : Heap} (hwf : h.WF) {x : Nat} {it : CItem} {ci : CHILDINFO}
    (hx : h.cell x = some it) (hci : it.m_ci = some ci) (q : Nat) :
    (ci.m_children.any fun c => h.below c q) = (h.below x q && decide (q ≠ x)) := by
  obtain ⟨_, hch⟩ := hwf.children x it ci hx hci
  cases hb : (h.below x q && decide (q ≠ x)) with
  | true =>
    simp only [Bool.and_eq_true, decide_eq_true_eq] at hb
    obtain ⟨c, xit, xci, hxc, hxci, hmem, hbc⟩ := below_child_of_below hwf hb.1 hb.2
    rw [hx] at hxc
    cases hxc
    rw [hci] at hxci
    cases hxci
    exact List.any_eq_true.mpr ⟨c, hmem, hbc⟩
  | false =>
    rw [List.any_eq_false]
    intro c hc hbc
    obtain ⟨cit, hcc, hcp⟩ := hch c hc
    have h1 := below_of_child hcc hcp hbc
    have h2 := below_le hwf hbc
    have h3 := (hwf.parent c cit x hcc hcp).1
    have hne : q ≠ x := by omega
    simp [h1, hne] at hb

theorem pruned_cases {h : Heap} {x : Nat} {it : CItem} (hx : h.cell x = some it) {q : Nat}
    {i5 : CItem} (hq : (h.pruned x).cell q = some i5) :
    (q = x ∧ i5 = it.mapCi fun ci => { ci with m_children := [] }) ∨
      (q ≠ x ∧ h.below x q = false ∧ h.cell q = some i5) := by
  rw [cell_pruned] at hq
  by_cases hqx : q = x
  · subst hqx
    simp only [if_true, hx, Option.map_some', Option.some.injEq] at hq
    exact Or.inl ⟨rfl, hq.symm⟩
  · simp only [hqx, if_false] at hq
    cases hb : h.below x q with
    | true => simp [hb] at hq
    | false =>
      simp only [hb, Bool.false_eq_true, if_false] at hq
      exact Or.inr ⟨hqx, rfl, hq⟩

theorem mapCi_fields (f : CHILDINFO → CHILDINFO) (it : CItem) :
    (it.mapCi f).m_parent = it.m_parent ∧ (it.mapCi f).m_name = it.m_name ∧
      (it.mapCi f).m_size = it.m_size ∧ (it.mapCi f).m_type = it.m_type ∧
      (it.mapCi f).m_ci = it.m_ci.map f := ⟨rfl, rfl, rfl, rfl, rfl⟩

theorem onlyDF_pruned {h : Heap} (hdf : OnlyDF h) {x : Nat} {it : CItem}
    (hx : h.cell x = some it) : OnlyDF (h.pruned x) := by
  intro p i5 hp
  rcases pruned_cases hx hp with ⟨rfl, rfl⟩ | ⟨_, _, h0⟩
  · exact hdf p it hx
  · exact hdf p i5 h0

theorem below_shape {h h2 : Heap} (hs : SameShape h h2) (a q : Nat) :
    h2.below a q = h.below a q := by
  unfold Heap.below
  rw [hs.chain_shape]

theorem key_shape {h h2 : Heap} (hs : SameShape h h2) {q : Nat} {it : CItem}
    (hq : h.cell q = some it) : ∃ it2, h2.cell q = some it2 ∧ it2.key = it.key := by
  obtain ⟨it2, h2q, hsk⟩ := hs.cell_shape hq
  exact ⟨it2, h2q, skel_key hsk⟩

theorem onlyDF_shape {h h2 : Heap} (hd : OnlyDF h) (hs : SameShape h h2) : OnlyDF h2 :=
  OnlyDF_kept hd hs.keptShape (fun p it hle hp => by
    have := lt_next_of_cell hp
    rw [hs.1] at this
    omega)

/-- The stack after the children of an item were looked at: the children that are
not done lie on top, the last one topmost. -/
theorem push_eq (h1 : Heap) : ∀ (cs stack : List Nat),
    cs.foldl (fun st child =>
      match h1.cell child with
      | none => st
      | some c => if c.IsDone then st else child :: st) stack =
    (cs.filter h1.notDone).reverse ++ stack := by
  intro cs
  induction cs with
  | nil => intro stack; rfl
  | cons c rest ih =>
    intro stack
    simp only [List.foldl_cons]
    rw [ih]
    unfold Heap.notDone
    cases hc : h1.cell c with
    | none => simp [List.filter_cons, hc]
    | some cit =>
      by_cases hd : cit.IsDone = true
      · simp [List.filter_cons, hc, hd]
      · simp [List.filter_cons, hc, hd]

theorem undone_le (h : Heap) : h.undone ≤ h.next := by
  unfold Heap.undone
  exact (List.length_filter_le _ _).trans (by simp)

theorem undone_pos {h : Heap} {y : Nat} {yit : CItem} (hy : h.cell y = some yit)
    (hnd : yit.IsDone = false) : 0 < h.undone := by
  unfold Heap.undone
  apply List.length_pos_of_mem (a := y)
  rw [List.mem_filter]
  exact ⟨List.mem_range.mpr (lt_next_of_cell hy), by simp [Heap.notDone, hy, hnd]⟩

/-- Marking one more item done lowers the number of items that are not done. -/
theorem undone_step_done {h h1 : Heap} (hn : h1.next = h.next) {y : Nat} {yit : CItem}
    (hy : h.cell y = some yit) (hnd : yit.IsDone = false)
    (hfl : ∀ q, h1.notDone q = (h.notDone q && decide (q ≠ y))) :
    h1.undone + 1 = h.undone := by
  unfold Heap.undone
  rw [hn]
  have e : (List.range h.next).filter h1.notDone =
      ((List.range h.next).filter h.notDone).erase y := by
    rw [((List.nodup_range _).filter _).erase_eq_filter, List.filter_filter]
    refine List.filter_congr (fun q _ => ?_)
    rw [hfl q]
    by_cases hq : q = y
    · simp [hq]
    · simp [hq]
  have hm : y ∈ (List.range h.next).filter h.notDone := by
    rw [List.mem_filter]
    exact ⟨List.mem_range.mpr (lt_next_of_cell hy), by simp [Heap.notDone, hy, hnd]⟩
  rw [e, List.length_erase_of_mem hm]
  have := List.length_pos_of_mem hm
  omega

theorem SetDone_done (env : Env) {h : Heap} {p : Nat} {it : CItem} (hp : h.cell p = some it)
    (hd : it.IsDone = true) : SetDone env h p = some h := by
  unfold SetDone
  simp [hp, hd]

/-- `SetDone` on an item of a tree without pseudo items: the item is done, the
other flags, the tree and the aggregates are as before. -/
theorem SetDone_step (env : Env) {h : Heap} (hwf : h.WF) (hdf : NoPseudo h) {y : Nat}
    {yit : CItem} (hy : h.cell y = some yit) :
    ∃ h1 y1, SetDone env h y = some h1 ∧ SameShape h h1 ∧ h1.WF ∧
      (∀ q, h1.totAt q = h.totAt q) ∧ h1.cell y = some y1 ∧ y1.IsDone = true ∧
      ∀ q qit, q ≠ y → h.cell q = some qit → ∃ q1, h1.cell q = some q1 ∧
        q1.IsDone = qit.IsDone := by
  obtain ⟨h1, e1, r1, fl⟩ := SetDone_flags env hwf hy
  obtain ⟨h1b, e1b, _, t1⟩ := SetDone_calm env hwf hdf hy
  rw [e1] at e1b
  cases e1b
  obtain ⟨y1, hy1, _, hd1, _⟩ := fl y yit hy
  refine ⟨h1, y1, e1, r1.1, r1.wf_bal hwf, t1, hy1, hd1 rfl, fun q qit hq hqc => ?_⟩
  obtain ⟨q1, hq1, _, _, hd⟩ := fl q qit hqc
  exact ⟨q1, hq1, hd hq⟩

/-- The loop of `ScanItemsFinalize` over a stack of different items that are not
done and whose parents are done: it ends within as many steps as there are items
that are not done, and keeps the tree and the aggregates. -/
theorem finalize_loop (env : Env) : ∀ (fuel : Nat) (h : Heap) (stack : List Nat),
    h.WF → NoPseudo h → stack.Nodup →
    (∀ y ∈ stack, ∃ yit, h.cell y = some yit ∧ yit.IsDone = false ∧
      ∀ q pit, yit.m_parent = some q → h.cell q = some pit → pit.IsDone = true) →
    h.undone ≤ fuel →
    ∃ h2, ScanItemsFinalizeLoop env fuel h stack = some h2 ∧ SameShape h h2 ∧ h2.WF ∧
      ∀ q, h2.totAt q = h.totAt q := by
  intro fuel
  induction fuel with
  | zero =>
    intro h stack hwf _ _ hst hf
    cases stack with
    | nil => exact ⟨h, rfl, SameShape.refl_shape h, hwf, fun _ => rfl⟩
    | cons y rest =>
      obtain ⟨yit, hy, hnd, _⟩ := hst y (List.mem_cons_self _ _)
      have := undone_pos hy hnd
      omega
  | succ n ih =>
    intro h stack hwf hdf hnodup hst hf
    cases stack with
    | nil => exact ⟨h, rfl, SameShape.refl_shape h, hwf, fun _ => rfl⟩
    | cons y rest =>
      obtain ⟨yit, hy, hnd, _⟩ := hst y (List.mem_cons_self _ _)
      obtain ⟨h1, y1, e1, s1, w1, t1, hy1, hd1, oth⟩ := SetDone_step env hwf hdf hy
      have df1 := noPseudo_shape hdf s1
      have hfl : ∀ q, h1.notDone q = (h.notDone q && decide (q ≠ y)) := by
        intro q
        unfold Heap.notDone
        by_cases hq : q = y
        · subst hq
          simp [hy1, hd1]
        · cases hc : h.cell q with
          | none => simp [s1.cell_none_shape hc]
          | some qit =>
            obtain ⟨q1, hq1, hqd⟩ := oth q qit hq hc
            simp [hq1, hqd, hq]
      have hund : h1.undone ≤ n := by
        have := undone_step_done s1.1 hy hnd hfl
        omega
      -- the items that stay on the stack
      have hrest : ∀ z ∈ rest, ∃ zit, h1.cell z = some zit ∧ zit.IsDone = false ∧
          ∀ q pit, zit.m_parent = some q → h1.cell q = some pit → pit.IsDone = true := by
        intro z hz
        have hzy : z ≠ y := fun e => (List.nodup_cons.mp hnodup).1 (e ▸ hz)
        obtain ⟨zit, hzc, hznd, hzp⟩ := hst z (List.mem_cons_of_mem _ hz)
        obtain ⟨z1, hz1, hzd⟩ := oth z zit hzy hzc
        obtain ⟨z1b, hz1b, hsk⟩ := s1.cell_shape hzc
        rw [hz1] at hz1b
        cases hz1b
        refine ⟨z1, hz1, by rw [hzd]; exact hznd, fun q pit hpar hq => ?_⟩
        rw [skel_parent hsk] at hpar
        by_cases hqy : q = y
        · subst hqy
          rw [hy1] at hq
          cases hq
          exact hd1
        · obtain ⟨p0, hp0, _⟩ := s1.symm_shape.cell_shape hq
          obtain ⟨p1, hp1, hpd⟩ := oth q p0 hqy hp0
          rw [hq] at hp1
          cases hp1
          rw [hpd]
          exact hzp q p0 hpar hp0
      simp only [ScanItemsFinalizeLoop, e1, hy1]
      by_cases hfile : y1.IsType IT_FILE = true
      · simp only [hfile, if_true]
        obtain ⟨h2, e2, s2, w2, t2⟩ := ih h1 rest w1 df1 (List.nodup_cons.mp hnodup).2 hrest hund
        exact ⟨h2, e2, s1.trans_shape s2, w2, fun q => by rw [t2, t1]⟩
      · simp only [hfile, Bool.false_eq_true, if_false]
        cases hci : y1.m_ci with
        | none => exact absurd ((w1.hasCi y y1 hy1).mp hci) hfile
        | some ci =>
          simp only []
          have hpush := push_eq h1 ci.m_children rest
          obtain ⟨cnd, cch⟩ := w1.children y y1 ci hy1 hci
          have hkid : ∀ c ∈ (ci.m_children.filter h1.notDone).reverse,
              ∃ cit, h1.cell c = some cit ∧ cit.IsDone = false ∧ cit.m_parent = some y := by
            intro c hc
            rw [List.mem_reverse, List.mem_filter] at hc
            obtain ⟨cit, hcc, hcp⟩ := cch c hc.1
            have := hc.2
            simp only [Heap.notDone, hcc, Bool.not_eq_true'] at this
            exact ⟨cit, hcc, this, hcp⟩
          have hnd2 : ((ci.m_children.filter h1.notDone).reverse ++ rest).Nodup := by
            rw [List.nodup_append]
            refine ⟨List.nodup_reverse.mpr (cnd.filter _), (List.nodup_cons.mp hnodup).2, ?_⟩
            intro c hc hcr
            obtain ⟨cit, hcc, _, hcp⟩ := hkid c hc
            obtain ⟨zit, hzc, _, hzp⟩ := hst c (List.mem_cons_of_mem _ hcr)
            obtain ⟨c1, hc1, hsk⟩ := s1.cell_shape hzc
            rw [hcc] at hc1
            cases hc1
            have := hzp y yit (by rw [← skel_parent hsk]; exact hcp) hy
            rw [hnd] at this
            cases this
          have hst2 : ∀ c ∈ (ci.m_children.filter h1.notDone).reverse ++ rest,
              ∃ cit, h1.cell c = some cit ∧ cit.IsDone = false ∧
                ∀ q pit, cit.m_parent = some q → h1.cell q = some pit → pit.IsDone = true := by
            intro c hc
            rcases List.mem_append.mp hc with hc | hc
            · obtain ⟨cit, hcc, hcd, hcp⟩ := hkid c hc
              refine ⟨cit, hcc, hcd, fun q pit hpar hq => ?_⟩
              rw [hcp] at hpar
              cases hpar
              rw [hy1] at hq
              cases hq
              exact hd1
            · exact hrest c hc
          obtain ⟨h2, e2, s2, w2, t2⟩ := ih h1 _ w1 df1 hnd2 hst2 hund
          rw [← hpush] at e2
          exact ⟨h2, e2, s1.trans_shape s2, w2, fun q => by rw [t2, t1]⟩

/-- `ScanItemsFinalize` on the root of a tree without pseudo items returns and
keeps the tree and the aggregates. -/
theorem ScanItemsFinalize_spec (env : Env) {h : Heap} (hwf : h.WF) (hdf : NoPseudo h) {r : Nat}
    {rit : CItem} (hr : h.cell r = some rit) (hroot : rit.m_parent = none) :
    ∃ h2, ScanItemsFinalize env h (some r) = some h2 ∧ SameShape h h2 ∧ h2.WF ∧
      ∀ q, h2.totAt q = h.totAt q := by
  unfold ScanItemsFinalize
  simp only []
  by_cases hd : rit.IsDone = true
  · simp only [ScanItemsFinalizeLoop, SetDone_done env hr hd, hr]
    by_cases hfile : rit.IsType IT_FILE = true
    · simp only [hfile, if_true]
      exact ⟨h, rfl, SameShape.refl_shape h, hwf, fun _ => rfl⟩
    · simp only [hfile, Bool.false_eq_true, if_false]
      cases hci : rit.m_ci with
      | none => exact absurd ((hwf.hasCi r rit hr).mp hci) hfile
      | some ci =>
        simp only []
        have hpush := push_eq h ci.m_children []
        obtain ⟨cnd, cch⟩ := hwf.children r rit ci hr hci
        obtain ⟨h2, e2, rest⟩ := finalize_loop env h.next h
          ((ci.m_children.filter h.notDone).reverse ++ []) hwf hdf
          (by rw [List.append_nil]; exact List.nodup_reverse.mpr (cnd.filter _))
          (fun c hc => by
            rw [List.append_nil, List.mem_reverse, List.mem_filter] at hc
            obtain ⟨cit, hcc, hcp⟩ := cch c hc.1
            have := hc.2
            simp only [Heap.notDone, hcc, Bool.not_eq_true'] at this
            refine ⟨cit, hcc, this, fun q pit hpar hq => ?_⟩
            rw [hcp] at hpar
            cases hpar
            rw [hr] at hq
            cases hq
            exact hd)
          (undone_le h)
        rw [← hpush] at e2
        exact ⟨h2, e2, rest⟩
  · exact finalize_loop env (h.next + 1) h [r] hwf hdf (List.nodup_singleton r)
      (fun y hy => by
        rw [List.mem_singleton] at hy
        subst hy
        exact ⟨rit, hr, by simpa using hd, fun q _ hpar _ => by rw [hroot] at hpar; cases hpar⟩)
      ((undone_le h).trans (Nat.le_succ _))

/-! ### The coordinator on one folder -/

/-- The worker of `StartupCoordinator`, stage by stage, for an undrained scan. -/
theorem coordinator_after {env : Env} {fuel : Nat} {doc : Doc} {items : List Nat}
    {pruned : Pruning}
    (hp : items.foldlM (PruneStep env)
      { heap := doc.heap, items := items, rootDeleted := false } = some pruned)
    (hnd : pruned.rootDeleted = false) {filled : Scan}
    (hf : pruned.items.foldlM (PushStep env) { heap := pruned.heap, queue := [] } = some filled)
    {scanned : Scan} (hs : ScanItems env fuel filled = some scanned) {restored : Heap}
    (hr : pruned.items.foldlM (RestoreStep env) scanned.heap = some restored) {hfin : Heap}
    (hz : ScanItemsFinalize env restored doc.m_rootItem = some hfin) :
    StartupCoordinator env fuel none doc items =
      some { heap := hfin, m_rootItem := doc.m_rootItem, pushed := filled.queue,
             finalized := true } := by
  unfold StartupCoordinator
  simp only [hp, hnd, Bool.false_eq_true, if_false, hf, ite_self, hs, hr, hz]

theorem root_parent {h : Heap} (hwf : h.WF) {it : CItem} (h0 : h.cell 0 = some it) :
    it.m_parent = none := by
  cases hp : it.m_parent with
  | none => rfl
  | some q =>
    have := (hwf.parent 0 it q h0 hp).1
    omega

/-- The invariant at the start of a scan: nothing read yet. -/
theorem Inv.start (snap : Snapshot) {hb : Heap} (hwf : hb.WF) (hdf : NoPseudo hb) {x : Nat}
    {xit : CItem} {fsx : Fs} (hx : hb.cell x = some xit) (hdir : xit.GetType = IT_DIRECTORY)
    (hlist : hb.listing snap x = some fsx) (hplain : fsx.plain = true) :
    Inv snap hb [x] hb [x] x .nil := by
  refine ⟨hwf, hdf, fun p y hle hp => absurd (lt_next_of_cell hp) (Nat.not_lt.mpr hle),
    KeptShape.refl_kept hb, lt_next_of_cell hx, fun q hq => ?_,
    fun p y hp _ => ?_, fun p y hp _ => ?_, fun p y hp _ => ?_,
    fun p y hp _ hnb => absurd (lt_next_of_cell hp) hnb⟩
  · rw [List.mem_singleton] at hq
    subst hq
    exact ⟨xit, fsx, hx, hdir, hlist, hplain⟩
  · have hlt := lt_next_of_cell hp
    simp [hlt, Fs.tot]
  · have hlt := lt_next_of_cell hp
    simp [hlt]
  · have hlt := lt_next_of_cell hp
    simp [hlt, Fs.tags]

theorem ScanItems_nil (env : Env) (fuel : Nat) (h : Heap) :
    ScanItems env fuel { heap := h, queue := [] } = some { heap := h, queue := [] } := by
  cases fuel <;> rfl

/-- The coordinator after the pruning loop left the heap `hp` and the folder `x`, in a
tree without pseudo items: it returns and finalizes the tree; the folder is pushed
unless it is no root item and `IsFollowingAllowed` denies it; if it is pushed, it is
scanned to the end. -/
theorem coord_from {env : Env} {snap : Snapshot} {h hp : Heap}
    {x : Nat} (hprune : [x].foldlM (PruneStep env)
      { heap := h, items := [x], rootDeleted := false } =
      some { heap := hp, items := [x], rootDeleted := false })
    (hwf : hp.WF) (hdf : NoPseudo hp) {xit rit : CItem} (hx : hp.cell x = some xit)
    (hdir : xit.GetType = IT_DIRECTORY) (h0 : hp.cell 0 = some rit) {path : Path}
    (hpath : GetPath hp x = some path) {fsx : Fs}
    (hlist : hp.listing snap x = some fsx) (hplain : fsx.plain = true)
    (hreads : Reads env path (env.FindFile path) fsx) {fuel : Nat}
    (hfuel : fsx.countDirs + 1 ≤ fuel) :
    ∃ c2, StartupCoordinator env fuel none { heap := h, m_rootItem := some 0 } [x] =
        some c2 ∧ c2.m_rootItem = some 0 ∧ c2.finalized = true ∧
      c2.pushed = (if (!xit.IsType ITF_ROOTITEM &&
        !env.IsFollowingAllowed path xit.m_attributes) = true then [] else [x]) ∧
      (c2.pushed = [x] → ∃ hb item, SameShape hp hb ∧ hb.WF ∧
        (∀ q, hb.totAt q = hp.totAt q) ∧ Inv snap hb [x] c2.heap [] item .nil) := by
  have hnd : xit.IsType IT_DRIVE = false := isDrive_of_getType (Or.inl hdir)
  by_cases hc : (!xit.IsType ITF_ROOTITEM && !env.IsFollowingAllowed path xit.m_attributes) = true
  · -- the folder is not pushed
    have hpush : [x].foldlM (PushStep env) { heap := hp, queue := [] } =
        some { heap := hp, queue := [] } := by
      simp only [List.foldlM_cons, List.foldlM_nil, PushStep, hx, hpath, hc, if_true,
        Option.bind_eq_bind, Option.some_bind, Option.pure_def]
    have hrest : [x].foldlM (RestoreStep env) hp = some hp := by
      simp only [List.foldlM_cons, List.foldlM_nil, RestoreStep, hx, hnd, Bool.not_false,
        if_true, Option.bind_eq_bind, Option.some_bind, Option.pure_def]
    obtain ⟨hfin, ef, sf, wf, tf⟩ := ScanItemsFinalize_spec env hwf hdf h0 (root_parent hwf h0)
    refine ⟨_, coordinator_after hprune rfl hpush (ScanItems_nil env fuel hp) hrest ef, rfl,
      rfl, ?_, ?_⟩
    · rw [if_pos hc]
    · intro hq
      cases hq
  · -- the push
    obtain ⟨l, hl⟩ := hwf.chain_exists hx
    obtain ⟨h1, e1, r1, t1⟩ := UpwardAddReadJobs_tot hwf hx 1
    have w1 := r1.wf_bal hwf
    obtain ⟨x1, hx1, hsk1⟩ := r1.1.cell_shape hx
    obtain ⟨hb, e2, r2, t2⟩ := UpwardSetUndone_tot w1 (noPseudo_shape hdf r1.1) hx1
      (by rw [skel_type hsk1]; exact hdir)
    have ss : SameShape hp hb := r1.1.trans_shape r2.1
    have wb := r2.wf_bal w1
    have dfb := noPseudo_shape hdf ss
    have tb : ∀ q, hb.totAt q = hp.totAt q := fun q => by rw [t2, t1]
    have hpush : [x].foldlM (PushStep env) { heap := hp, queue := [] } =
        some { heap := hb, queue := [x] } := by
      simp only [List.foldlM_cons, List.foldlM_nil, PushStep, hx, hpath, hc,
        Bool.false_eq_true, if_false, e1, e2, List.nil_append,
        Option.bind_eq_bind, Option.some_bind, Option.pure_def]
    -- the scan
    obtain ⟨xb, hxb, hkb⟩ := key_shape ss hx
    have hdirb : xb.GetType = IT_DIRECTORY := by rw [key_type hkb]; exact hdir
    have hlistb : hb.listing snap x = some fsx := by
      rw [listing_kept snap hwf ss.keptShape (lt_next_of_cell hx)]; exact hlist
    have hpathb : GetPath hb x = some path := by
      rw [GetPath_kept hwf ss.keptShape (lt_next_of_cell hx)]; exact hpath
    have i0 := Inv.start snap wb dfb hxb hdirb hlistb hplain
    have qr0 : QueueReads env snap hb [x] := by
      intro q hq p fs hp1 hl1
      rw [List.mem_singleton] at hq
      subst hq
      rw [hpathb] at hp1
      rw [hlistb] at hl1
      cases hp1
      cases hl1
      exact hreads
    have hw : work snap hb [x] = 1 + fsx.countDirs := by
      simp [work, hlistb]
    obtain ⟨s, item2, es, hq, is⟩ := scan_items fuel hb [x] x i0 qr0 (by rw [hw]; omega)
    -- the pseudo items
    obtain ⟨xs, hxs, hks⟩ := is.kept.cell_kept hxb
    have hrest : [x].foldlM (RestoreStep env) s.heap = some s.heap := by
      have hnd2 : xs.IsType IT_DRIVE = false :=
        isDrive_of_getType (Or.inl (by rw [key_type hks]; exact hdirb))
      simp only [List.foldlM_cons, List.foldlM_nil, RestoreStep, hxs, hnd2, Bool.not_false,
        if_true, Option.bind_eq_bind, Option.some_bind, Option.pure_def]
    -- the end
    obtain ⟨r1b, hr1b, _⟩ := key_shape ss h0
    obtain ⟨rs, hrs, _⟩ := is.kept.cell_kept hr1b
    obtain ⟨hfin, ef, sf, wf, tf⟩ := ScanItemsFinalize_spec env is.wf is.df hrs
      (root_parent is.wf hrs)
    refine ⟨_, coordinator_after hprune rfl hpush es hrest ef, rfl, rfl, ?_, fun _ =>
      ⟨hb, item2, ss, wb, tb, is.same sf wf tf⟩⟩
    rw [if_neg hc]

/-! ### What the coordinator leaves -/

theorem pendTags_nil (snap : Snapshot) (h : Heap) (p : Nat) : pendTags snap h [] p = 0 := rfl

/-- After the scan, an old item that is not a file holds what it held plus the listing
of the scanned folder, if that lies at or below it. -/
theorem Inv.final_old {snap : Snapshot} {hb hf : Heap} {x item : Nat}
    (i : Inv snap hb [x] hf [] item .nil) {p : Nat} {pit : CItem} (hp : hf.cell p = some pit)
    (hd : pit.IsType IT_FILE = false) (hlt : p < hb.next) :
    hf.totAt p = hb.totAt p + if hb.below p x then hb.listTot snap x else 0 := by
  have := i.phi p pit hp hd
  rw [pend_nil, pend_cons, pend_nil] at this
  simpa [hlt, Fs.tot] using this

/-- After the scan, a new directory holds the aggregates of its listing. -/
theorem Inv.final_new {snap : Snapshot} {hb hf : Heap} {x item : Nat}
    (i : Inv snap hb [x] hf [] item .nil) {p : Nat} {pit : CItem} (hp : hf.cell p = some pit)
    (hd : pit.GetType = IT_DIRECTORY) (hlt : ¬ p < hb.next) :
    ∃ fs, hf.listing snap p = some fs ∧ fs.plain = true ∧ hf.totAt p = fs.tot ∧
      hf.kidTags snap p = fs.tags := by
  obtain ⟨fs, hl, hpl⟩ := i.listed p pit hp hd hlt
  have a := i.phi p pit hp (notFile_of_dir hd)
  have b := i.tags p pit hp hd
  rw [pend_nil] at a
  rw [pendTags_nil] at b
  unfold Heap.listTot at a
  unfold Heap.listTags at b
  rw [hl] at a b
  refine ⟨fs, hl, hpl, ?_, ?_⟩
  · simpa [hlt, Fs.tot] using a
  · simpa [hlt, Fs.tags] using b

/-- After the scan, the scanned folder has the children it had plus those of its
listing. -/
theorem Inv.final_kids {snap : Snapshot} {hb hf : Heap} {x item : Nat}
    (i : Inv snap hb [x] hf [] item .nil) {pit : CItem} (hp : hf.cell x = some pit)
    (hd : pit.GetType = IT_DIRECTORY) (hlt : x < hb.next) :
    hf.kidTags snap x = hb.kidTags snap x + hb.listTags snap x := by
  have b := i.tags x pit hp hd
  rw [pendTags_nil, pendTags_cons, pendTags_nil] at b
  simpa [hlt, Fs.tags] using b

/-- After the scan, a new item shows what `tagAt` says. -/
theorem Inv.final_tag {snap : Snapshot} {hb hf : Heap} {x item : Nat}
    (i : Inv snap hb [x] hf [] item .nil) {c : Nat} (hc : ¬ c < hb.next) :
    hf.aggTag c = hf.tagAt snap c := by
  unfold Heap.aggTag Heap.tagAt
  cases hcc : hf.cell c with
  | none => rfl
  | some cit =>
    simp only []
    rcases i.news c cit (Nat.le_of_not_lt hc) hcc with hd | hfile
    · obtain ⟨fs, hl, _, ht, _⟩ := i.final_new hcc hd hc
      rw [totAt_of_cell hcc, Fs.tot_eq] at ht
      obtain ⟨a, b, d⟩ := tot_nat i.wf hcc ht
      rw [hl]
      simp only [notFile_of_dir hd, Bool.false_eq_true, if_false, CItem.agg, Fs.natTot, a, b, d]
      rfl
    · have : cit.IsType IT_FILE = true := by
        rw [IsType_of_GetType cit _ IT_FILE hfile (by decide)]; rfl
      simp only [this, if_true]

/-- After the scan, a directory all of whose children are new shows them as
`kidTags` says. -/
theorem Inv.final_aggs {snap : Snapshot} {hb hf : Heap} {x item : Nat}
    (i : Inv snap hb [x] hf [] item .nil) {p : Nat}
    (hnew : ∀ c ∈ hf.kids p, ¬ c < hb.next) : hf.kidAggs p = hf.kidTags snap p := by
  unfold Heap.kidAggs Heap.kidTags
  exact Multiset.map_congr rfl (fun c hc => i.final_tag (hnew c (Multiset.mem_coe.mp hc)))

/-! ### The pruning loop on one folder -/

/-- The pruning loop leaves a folder that is not done alone. -/
theorem prune_skip (env : Env) {h : Heap} {x : Nat} {xit : CItem} (hx : h.cell x = some xit)
    (hnd : xit.IsDone = false) :
    [x].foldlM (PruneStep env) { heap := h, items := [x], rootDeleted := false } =
      some { heap := h, items := [x], rootDeleted := false } := by
  simp only [List.foldlM_cons, List.foldlM_nil, PruneStep, Bool.false_eq_true, if_false, hx, hnd,
    Bool.not_false, if_true, Option.bind_eq_bind, Option.some_bind, Option.pure_def]

theorem root_chain {h : Heap} (hwf : h.WF) {it : CItem} (h0 : h.cell 0 = some it) :
    h.chain 0 = some [0] := by
  obtain ⟨l, hl⟩ := hwf.chain_exists h0
  obtain ⟨_, l1, _, rfl⟩ := chain_head hl
  have hle := hwf.chain_le hl
  cases l1 with
  | nil => exact hl
  | cons a l2 =>
    have ha : a ≤ 0 := hle a (by simp)
    have hnd := chainFuel_nodup hl
    have ha0 : a = 0 := by omega
    subst ha0
    simp at hnd

theorem root_path {h : Heap} (hwf : h.WF) {it : CItem} (h0 : h.cell 0 = some it)
    (hd : it.GetType = IT_DIRECTORY) : GetPath h 0 = some [it.m_name] := by
  rw [GetPath_eq, root_chain hwf h0]
  simp only [Option.map_some', List.foldl_cons, List.foldl_nil, pathStep, h0,
    isDir_of_getType hd, if_true]

theorem root_listing (name : String) (fs : Fs) (total free : Nat) (lastWrite : Option Nat)
    {h : Heap} (hwf : h.WF) {it : CItem} (h0 : h.cell 0 = some it)
    (hd : it.GetType = IT_DIRECTORY) (hname : it.m_name = name) :
    h.listing [Volume.mk name fs total free lastWrite] 0 = some fs := by
  unfold Heap.listing
  rw [root_path hwf h0 hd, hname]
  simp [Snapshot.listing, Snapshot.volume, Fs.walk]

/-- The document `OnOpenDocument` starts from for a folder: the root item alone. -/
theorem new_doc (env : Env) (name : String) :
    ∃ h0 it0, NewDocument env [] name false = some { heap := h0, m_rootItem := some 0 } ∧
      h0.WF ∧ h0.next = 1 ∧ h0.cell 0 = some it0 ∧ it0.GetType = IT_DIRECTORY ∧
      it0.IsDone = false ∧ it0.tot = 0 ∧ it0.m_name = name ∧ h0.kids 0 = [] := by
  have hT : ITEMTYPE.or IT_DIRECTORY ITF_ROOTITEM = 516 := by decide
  have hci0 : (CItem.new 516 name).m_ci =
      some { m_children := [], m_files := 0, m_subdirs := 0, m_jobs := 0 } := by
    have e : ((516 &&& IT_FILE) != 0) = false := by decide
    simp only [CItem.new, e, Bool.false_eq_true, if_false]
  have hgt : (CItem.new 516 name).GetType = IT_DIRECTORY := by
    rw [GetType_eq]
    show 516 &&& 255 = IT_DIRECTORY
    decide
  have hfresh : (CItem.new 516 name).Fresh := by
    refine ⟨rfl, by show 0 < 18446744073709551616; decide, Or.inr (Or.inr (Or.inl hgt)), ?_,
      fun ci hci => ?_⟩
    · rw [hci0, notFile_of_dir hgt]
      simp
    · rw [hci0] at hci
      cases hci
      exact ⟨rfl, by decide, by decide, by decide⟩
  have hwfe : Heap.empty.WF := WF_of_wfCheck (by decide)
  have w0 := wf_alloc hwfe hfresh
  have hc : (Heap.empty.alloc (CItem.new 516 name)).cell 0 = some (CItem.new 516 name) :=
    cell_alloc_new Heap.empty _
  obtain ⟨it2, e2, r2⟩ := UpdateStatsFromDisk_retimed env w0 hc hci0
  have k := set_retimed w0 hc r2
  have hc2 : ((Heap.empty.alloc (CItem.new 516 name)).set 0 it2).cell 0 = some it2 := by
    rw [cell_set_of_live hc]; simp
  have hty : it2.m_type = 516 := r2.2.2.2.2
  refine ⟨_, it2, ?_, k.1.wf_bal w0, by rw [k.1.1.1]; rfl, hc2, ?_, ?_, ?_, r2.2.1, ?_⟩
  · rw [NewDocument]
    simp only [Bool.false_eq_true, if_false, hT, e2]
  · rw [GetType_eq, hty]
    decide
  · unfold CItem.IsDone CItem.IsType
    rw [hty]
    decide
  · rw [r2.tot_times]
    rfl
  · rw [kids_eq hc2 (r2.2.2.1.trans hci0)]

theorem kids_gt {h : Heap} (hwf : h.WF) {p c : Nat} (hc : c ∈ h.kids p) : p < c := by
  obtain ⟨cit, hcc, hcp⟩ := kids_lt hwf hc
  exact (hwf.parent c cit p hcc hcp).1

/-- `OnOpenDocument` on a folder whose tree the scanner reads in full, given fuel for
every folder: the tree it leaves shows the snapshot. -/
theorem open_scanned {env : Env} {snap : Snapshot} (hok : EnvOk env snap) (name : String)
    {fs : Fs} (hl : snap.listing [name] = some fs) (hplain : fs.plain = true) {fuel : Nat}
    (hfuel : fs.countDirs + 1 ≤ fuel) :
    ∃ c rit, OnOpenDocument env fuel [] name false = some c ∧
      c.m_rootItem = some 0 ∧ c.heap.cell 0 = some rit ∧ rit.GetType = IT_DIRECTORY ∧
      Scanned snap c.heap := by
  obtain ⟨h0, it0, enew, w0, n0, h0c, hdir0, hnd0, htot0, hname0, hkids0⟩ := new_doc env name
  have df0 : NoPseudo h0 := by
    apply OnlyDF.noPseudo_of
    intro p x hp
    have hlt := lt_next_of_cell hp
    rw [n0] at hlt
    have hp0 : p = 0 := by omega
    subst hp0
    rw [h0c] at hp
    cases hp
    exact Or.inl hdir0
  have hlist0 : h0.listing snap 0 = some fs := by
    unfold Heap.listing
    rw [root_path w0 h0c hdir0, hname0]
    exact hl
  have hpr := prune_skip env h0c hnd0
  have hpath0 : GetPath h0 0 = some [name] := by rw [root_path w0 h0c hdir0, hname0]
  have hreads : Reads env [name] (env.FindFile [name]) fs := by
    rw [hok.find, hl]
    exact reads_of_ok hok name fs fs [] hl (plain_resolves hplain) hplain
  obtain ⟨c2, e, hroot, _, hpushed, himp⟩ :=
    coord_from hpr w0 df0 h0c hdir0 h0c hpath0 hlist0 hplain hreads hfuel
  rw [hok.follow] at hpushed
  obtain ⟨hb, item, ss, wb, tb, i⟩ := himp (by simpa using hpushed)
  have nb : hb.next = 1 := by rw [ss.1, n0]
  obtain ⟨itb, hbc, hkb⟩ := key_shape ss h0c
  obtain ⟨rit, hrc, hkr⟩ := i.kept.cell_kept hbc
  have hdirr : rit.GetType = IT_DIRECTORY := by rw [key_type hkr, key_type hkb]; exact hdir0
  have hlistb : hb.listing snap 0 = some fs := by
    rw [listing_kept snap w0 ss.keptShape (lt_next_of_cell h0c)]; exact hlist0
  have hopen : OnOpenDocument env fuel [] name false = some c2 := by
    rw [OnOpenDocument, enew]
    exact e
  refine ⟨c2, rit, hopen, hroot, hrc, hdirr, i.wf, i.df, fun d dit hd hdd => ?_⟩
  by_cases hlt : d < hb.next
  · have hd0 : d = 0 := by omega
    subst hd0
    have hnew : ∀ c ∈ c2.heap.kids 0, ¬ c < hb.next := by
      intro c hc
      have := kids_gt i.wf hc
      omega
    have hkb0 : hb.kidTags snap 0 = 0 := by
      unfold Heap.kidTags
      have := ss.kids 0
      rw [hkids0] at this
      rw [this.eq_nil]
      rfl
    refine ⟨fs, ?_, hplain, ?_, ?_⟩
    · rw [listing_kept snap wb i.kept (lt_next_of_cell hbc)]; exact hlistb
    · rw [i.final_old hd (notFile_of_dir hdd) hlt, tb, totAt_of_cell h0c, htot0, below_self wb hbc]
      unfold Heap.listTot
      rw [hlistb]
      simp
    · rw [i.final_aggs hnew, i.final_kids hd hdd hlt, hkb0]
      unfold Heap.listTags
      rw [hlistb]
      simp
  · obtain ⟨fsd, hl, hpl, ht, hk⟩ := i.final_new hd hdd hlt
    refine ⟨fsd, hl, hpl, ht, ?_⟩
    rw [i.final_aggs (fun c hc => by
      have := kids_gt i.wf hc
      omega), hk]

/-! ### A file leaves a listing -/

/-- The chain transition of `UpwardSubtractReadJobs(count)` with `count ≠ 0` on a
well-formed tree, from an item with a child info. -/
theorem subtract_jobs_chain (env : Env) {h : Heap} (hwf : h.WF) {self : Nat} {it : CItem}
    {ci : CHILDINFO} (hself : h.cell self = some it) (hci : it.m_ci = some ci)
    {count : Nat} (hcount : count ≠ 0) :
    ∃ h2 l, h.chain self = some l ∧ UpwardSubtractReadJobs env h self count = some h2 ∧
      h2.WF ∧ Rebalanced h h2 ∧ JobsStep count l h h2 := by
  obtain ⟨l, hl⟩ := hwf.chain_exists hself
  have hnf : it.IsType IT_FILE = false := by
    cases hf : it.IsType IT_FILE with
    | false => rfl
    | true =>
      have := (hwf.hasCi self it hself).mpr hf
      rw [hci] at this
      cases this
  obtain ⟨h2, e2, r2, j2⟩ := upward_chain _
    (fun l a b => Rebalanced a b ∧ JobsStep count l a b)
    (fun a w => ⟨Rebalanced.refl_bal w, JobsStep.nil count a⟩)
    (fun _ _ _ _ _ a b hpl => ⟨a.1.trans_bal b.1, a.2.cons b.2 hpl⟩)
    (fun _ _ _ r => r.1.1) (fun _ _ _ w r => r.1.wf_bal w)
    (fun _ _ _ _ w c k => subJobs_step env count w c k)
    (h.next + 1) h (some self) l hwf hl (fun p pit hp hpc => by
      cases hp
      rw [hself] at hpc
      cases hpc
      rw [hci]
      simp)
  refine ⟨h2, l, hl, ?_, r2.wf_bal hwf, r2, j2⟩
  unfold UpwardSubtractReadJobs
  simp only [hself, hcount, hnf, Bool.false_eq_true, or_self, if_false]
  exact e2

/-- C11, amended: on a well-formed tree, `UpwardSubtractReadJobs(count)` with
`count > 0` on an item with a child info returns; the read-job counter of every item
on the chain from the item to the root is lower by `count` modulo 2^32, exactly
lower by `count` where the counter was at least `count`, and every item on the chain
whose counter is now zero is done. -/
theorem C11_jobs_lower (env : Env) (h : Heap) (hwf : h.WF) (s : Nat) (it : CItem)
    (ci : CHILDINFO) (hs : h.cell s = some it) (hci : it.m_ci = some ci)
    (count : Nat) (hcount : 0 < count) :
    ∃ h2 l, h.chain s = some l ∧ UpwardSubtractReadJobs env h s count = some h2 ∧
      ∀ q ∈ l, ∀ qit, h.cell q = some qit → ∃ qit2, h2.cell q = some qit2 ∧
        qit2.GetReadJobs = (qit.GetReadJobs + (2 ^ 32 - count % 2 ^ 32)) % 2 ^ 32 ∧
        (count ≤ qit.GetReadJobs → qit2.GetReadJobs = qit.GetReadJobs - count) ∧
        (qit2.GetReadJobs = 0 → qit2.IsDone = true) := by
  obtain ⟨h2, l, hl, e2, _, _, j2⟩ := subtract_jobs_chain env hwf hs hci (Nat.pos_iff_ne_zero.mp hcount)
  refine ⟨h2, l, hl, e2, fun q hq qit hqc => ?_⟩
  obtain ⟨qit2, hq2, hin, _⟩ := j2 q qit hqc
  obtain ⟨hj, hd, _⟩ := hin hq
  refine ⟨qit2, hq2, ?_, ?_, hd⟩
  · rw [hj]
    rfl
  · intro hle
    rw [hj]
    have hlt : qit.GetReadJobs < 4294967296 := by
      have t := hwf.typed q qit hqc
      unfold CItem.GetReadJobs
      cases hc : qit.m_ci with
      | none => decide
      | some c => exact (t.2 c hc).2.2
    unfold sub32
    omega

/-- C11 at the root of `exUndone`, whose one read job is taken: the root is done
afterwards. -/
theorem C11_jobs_lower_witness :
    exUndone.WF ∧ 0 < 1 ∧
    ∃ h2 l, exUndone.chain 0 = some l ∧ UpwardSubtractReadJobs exEnv exUndone 0 1 = some h2 ∧
      ∀ q ∈ l, ∀ qit, exUndone.cell q = some qit → ∃ qit2, h2.cell q = some qit2 ∧
        qit2.GetReadJobs = (qit.GetReadJobs + (2 ^ 32 - 1 % 2 ^ 32)) % 2 ^ 32 ∧
        (1 ≤ qit.GetReadJobs → qit2.GetReadJobs = qit.GetReadJobs - 1) ∧
        (qit2.GetReadJobs = 0 → qit2.IsDone = true) :=
  ⟨WF_of_wfCheck (by decide), by decide,
    C11_jobs_lower exEnv exUndone (WF_of_wfCheck (by decide)) 0
      { m_parent := none, m_name := "root", m_lastChange := 0, m_size := 12,
        m_attributes := 0, m_type := 516,
        m_ci := some { m_children := [1, 2], m_files := 2, m_subdirs := 0, m_jobs := 1 } }
      { m_children := [1, 2], m_files := 2, m_subdirs := 0, m_jobs := 1 }
      (by decide) rfl 1 (by decide)⟩

/-- C11 as stated fails where the counter is below `count`: the root of `exUndone`
has one read job, and after `UpwardSubtractReadJobs(2)` its counter is 4294967295,
which is higher than before and not lower by two. -/
theorem C11_counterexample :
    exUndone.WF ∧
    (∃ it, exUndone.cell 0 = some it ∧ it.GetReadJobs = 1) ∧
    ∃ h2 it2, UpwardSubtractReadJobs exEnv exUndone 0 2 = some h2 ∧ h2.cell 0 = some it2 ∧
      it2.GetReadJobs = 4294967295 ∧ ¬ (it2.GetReadJobs + 2 = 1) :=
  ⟨WF_of_wfCheck (by decide), ⟨_, rfl, rfl⟩, _, _, rfl, rfl, rfl, by decide⟩

/-! ### C12 -/

/-- C12, evaluated. `ScanItems` meets the folder entry `d` in the folder `r` where
following is not allowed: the item `AddDirectory` returns is linked below `r`, has
no read job and is not pushed, and it is not done. The folder `R` of `exDenied` is
opened and scanned to the end, every folder may be followed: the protected reparse
point `j` at address 2 is linked below `p`, has no read job and was never pushed,
and after `ScanItemsFinalize` it is still not done, while `p` and the root are. -/
theorem C12_denied_not_done :
    (∃ s it rit ci,
      ScanEntry exEnvNoFollow 0 ["r"]
        { heap := Heap.empty.alloc (CItem.new IT_DIRECTORY "r"), queue := [] }
        exFolderEntry = some s ∧
      s.queue = [] ∧ s.heap.cell 1 = some it ∧ it.m_parent = some 0 ∧
      s.heap.cell 0 = some rit ∧ rit.m_ci = some ci ∧ ci.m_children = [1] ∧
      it.GetReadJobs = 0 ∧ it.IsDone = false) ∧
    ∃ c it pit ci rit,
      OnOpenDocument (exDenied.env (fun _ _ => true) false false false false) 20 [] "R"
        false = some c ∧
      c.finalized = true ∧ c.pushed = [0] ∧
      c.heap.cell 2 = some it ∧ it.m_name = "j" ∧ it.m_parent = some 1 ∧
      c.heap.cell 1 = some pit ∧ pit.m_ci = some ci ∧ ci.m_children = [2] ∧
      it.GetReadJobs = 0 ∧ it.IsDone = false ∧ pit.IsDone = true ∧
      c.heap.cell 0 = some rit ∧ rit.IsDone = true :=
  ⟨⟨_, _, _, _, rfl, rfl, rfl, rfl, rfl, rfl, rfl, rfl, rfl⟩,
    _, _, _, _, _, rfl, rfl, rfl, rfl, rfl, rfl, rfl, rfl, rfl, rfl, rfl, rfl, rfl, rfl⟩

/-! ### The done flags after `ScanItemsFinalize` -/

/-- An item strictly below `item` has a parent that lies below `item`. -/
theorem below_parent {h : Heap} (hwf : h.WF) {item q : Nat} {qit : CItem}
    (hq : h.cell q = some qit) (hb : h.below item q = true) (hne : q ≠ item) :
    ∃ p, qit.m_parent = some p ∧ p < q ∧ h.below item p = true := by
  obtain ⟨l, hl, hmem⟩ := below_iff.mp hb
  obtain ⟨_, l1, _, rfl⟩ := chain_head hl
  rcases chain_cons_parent hl hq with ⟨_, hnil⟩ | ⟨p, hpar, hch⟩
  · subst hnil
    simp only [List.mem_singleton] at hmem
    exact absurd hmem.symm hne
  · refine ⟨p, hpar, (hwf.parent q qit p hq hpar).1, below_iff.mpr ⟨l1, hch, ?_⟩⟩
    rcases List.mem_cons.mp hmem with e | e
    · exact absurd e.symm hne
    · exact e

/-- The loop of `ScanItemsFinalize` on a well-formed tree, started either on a
single item or on a stack of different items that are not done and whose parents
are done: it ends, every item that was on the stack is done and so are its children,
no done flag is taken away, and an item whose flag changed has only done children. -/
theorem finalize_flags (env : Env) : ∀ (fuel : Nat) (h : Heap) (stack : List Nat),
    h.WF → stack.Nodup → (∀ y ∈ stack, ∃ yit, h.cell y = some yit) →
    ((∃ y, stack = [y]) ∧ h.undone + 1 ≤ fuel ∨
      h.undone ≤ fuel ∧ ∀ y ∈ stack, ∀ yit, h.cell y = some yit → yit.IsDone = false ∧
        ∀ q pit, yit.m_parent = some q → h.cell q = some pit → pit.IsDone = true) →
    ∃ h2, ScanItemsFinalizeLoop env fuel h stack = some h2 ∧ Rebalanced h h2 ∧ h2.WF ∧
      (∀ y ∈ stack, ∃ y2, h2.cell y = some y2 ∧ y2.IsDone = true ∧
        ∀ c cit, h2.cell c = some cit → cit.m_parent = some y → cit.IsDone = true) ∧
      ∀ q qit, h.cell q = some qit → ∃ q2, h2.cell q = some q2 ∧
        (qit.IsDone = true → q2.IsDone = true) ∧
        (q2.IsDone = qit.IsDone ∨
          ∀ c cit, h2.cell c = some cit → cit.m_parent = some q → cit.IsDone = true) := by
  intro fuel
  induction fuel with
  | zero =>
    intro h stack hwf _ hlive hpre
    cases stack with
    | nil =>
      exact ⟨h, rfl, Rebalanced.refl_bal hwf, hwf, fun _ hy => absurd hy (List.not_mem_nil _),
        fun q qit hq => ⟨qit, hq, id, Or.inl rfl⟩⟩
    | cons y rest =>
      exfalso
      rcases hpre with ⟨_, hf⟩ | ⟨hf, hst⟩
      · omega
      · obtain ⟨yit, hy⟩ := hlive y (List.mem_cons_self _ _)
        have := undone_pos hy (hst y (List.mem_cons_self _ _) yit hy).1
        omega
  | succ n ih =>
    intro h stack hwf hnodup hlive hpre
    cases stack with
    | nil =>
      exact ⟨h, rfl, Rebalanced.refl_bal hwf, hwf, fun _ hy => absurd hy (List.not_mem_nil _),
        fun q qit hq => ⟨qit, hq, id, Or.inl rfl⟩⟩
    | cons y rest =>
      obtain ⟨yit, hy⟩ := hlive y (List.mem_cons_self _ _)
      obtain ⟨h1, e1, r1, fl⟩ := SetDone_flags env hwf hy
      have s1 := r1.1
      have w1 := r1.wf_bal hwf
      obtain ⟨y1, hy1, _, hd1f, _⟩ := fl y yit hy
      have hd1 : y1.IsDone = true := hd1f rfl
      clear hd1f
      have oth : ∀ q qit, q ≠ y → h.cell q = some qit → ∃ q1, h1.cell q = some q1 ∧
          q1.IsDone = qit.IsDone := by
        intro q qit hq hqc
        obtain ⟨q1, hq1, _, _, hd⟩ := fl q qit hqc
        exact ⟨q1, hq1, hd hq⟩
      -- the number of items that are not done does not grow
      have hle : h1.undone ≤ h.undone ∧ (yit.IsDone = false → h1.undone + 1 = h.undone) := by
        by_cases hyd : yit.IsDone = true
        · rw [SetDone_done env hy hyd] at e1
          cases e1
          exact ⟨le_refl _, fun e => by rw [hyd] at e; cases e⟩
        · have hnd : yit.IsDone = false := by simpa using hyd
          have hfl : ∀ q, h1.notDone q = (h.notDone q && decide (q ≠ y)) := by
            intro q
            unfold Heap.notDone
            by_cases hq : q = y
            · subst hq
              simp [hy1, hd1]
            · cases hc : h.cell q with
              | none => simp [s1.cell_none_shape hc]
              | some qit =>
                obtain ⟨q1, hq1, hqd⟩ := oth q qit hq hc
                simp [hq1, hqd, hq]
          have := undone_step_done s1.1 hy hnd hfl
          exact ⟨by omega, fun _ => this⟩
      have hund : h1.undone ≤ n := by
        rcases hpre with ⟨_, hf⟩ | ⟨hf, hst⟩
        · omega
        · have := hle.2 (hst y (List.mem_cons_self _ _) yit hy).1
          omega
      -- the items that stay on the stack
      have hrest : ∀ z ∈ rest, ∀ zit, h1.cell z = some zit → zit.IsDone = false ∧
          ∀ q pit, zit.m_parent = some q → h1.cell q = some pit → pit.IsDone = true := by
        intro z hz z1 hz1
        rcases hpre with ⟨⟨y0, hy0⟩, _⟩ | ⟨_, hst⟩
        · cases hy0
          exact absurd hz (List.not_mem_nil _)
        · have hzy : z ≠ y := fun e => (List.nodup_cons.mp hnodup).1 (e ▸ hz)
          obtain ⟨zit, hzc⟩ := hlive z (List.mem_cons_of_mem _ hz)
          obtain ⟨hznd, hzp⟩ := hst z (List.mem_cons_of_mem _ hz) zit hzc
          obtain ⟨z1b, hz1b, hzd⟩ := oth z zit hzy hzc
          rw [hz1] at hz1b
          cases hz1b
          obtain ⟨z1c, hz1c, hsk⟩ := s1.cell_shape hzc
          rw [hz1] at hz1c
          cases hz1c
          refine ⟨by rw [hzd]; exact hznd, fun q pit hpar hq => ?_⟩
          rw [skel_parent hsk] at hpar
          by_cases hqy : q = y
          · subst hqy
            rw [hy1] at hq
            cases hq
            exact hd1
          · obtain ⟨p0, hp0, _⟩ := s1.symm_shape.cell_shape hq
            obtain ⟨p1, hp1, hpd⟩ := oth q p0 hqy hp0
            rw [hq] at hp1
            cases hp1
            rw [hpd]
            exact hzp q p0 hpar hp0
      have hliveRest : ∀ z ∈ rest, ∃ zit, h1.cell z = some zit := by
        intro z hz
        obtain ⟨zit, hzc⟩ := hlive z (List.mem_cons_of_mem _ hz)
        obtain ⟨z1, hz1, _⟩ := s1.cell_shape hzc
        exact ⟨z1, hz1⟩
      -- a child of `y` is not on the rest of the stack
      have hfresh : ∀ c cit, h1.cell c = some cit → cit.m_parent = some y → c ∉ rest := by
        intro c cit hcc hcp hcr
        rcases hpre with ⟨⟨y0, hy0⟩, _⟩ | ⟨_, hst⟩
        · cases hy0
          exact absurd hcr (List.not_mem_nil _)
        · obtain ⟨zit, hzc⟩ := hlive c (List.mem_cons_of_mem _ hcr)
          obtain ⟨_, hzp⟩ := hst c (List.mem_cons_of_mem _ hcr) zit hzc
          obtain ⟨c1, hc1, hsk⟩ := s1.cell_shape hzc
          rw [hcc] at hc1
          cases hc1
          have := hzp y yit (by rw [← skel_parent hsk]; exact hcp) hy
          rw [(hst y (List.mem_cons_self _ _) yit hy).1] at this
          cases this
      -- what the rest of the loop gives is carried back over the first step
      have wrap : ∀ h2, Rebalanced h1 h2 → h2.WF →
          (∀ z ∈ rest, ∃ z2, h2.cell z = some z2 ∧ z2.IsDone = true ∧
            ∀ c cit, h2.cell c = some cit → cit.m_parent = some z → cit.IsDone = true) →
          (∀ q qit, h1.cell q = some qit → ∃ q2, h2.cell q = some q2 ∧
            (qit.IsDone = true → q2.IsDone = true) ∧
            (q2.IsDone = qit.IsDone ∨
              ∀ c cit, h2.cell c = some cit → cit.m_parent = some q → cit.IsDone = true)) →
          (∀ c cit, h2.cell c = some cit → cit.m_parent = some y → cit.IsDone = true) →
          Rebalanced h h2 ∧ h2.WF ∧
          (∀ z ∈ y :: rest, ∃ z2, h2.cell z = some z2 ∧ z2.IsDone = true ∧
            ∀ c cit, h2.cell c = some cit → cit.m_parent = some z → cit.IsDone = true) ∧
          ∀ q qit, h.cell q = some qit → ∃ q2, h2.cell q = some q2 ∧
            (qit.IsDone = true → q2.IsDone = true) ∧
            (q2.IsDone = qit.IsDone ∨
              ∀ c cit, h2.cell c = some cit → cit.m_parent = some q → cit.IsDone = true) := by
        intro h2 r2 w2 c2 f2 hkids
        obtain ⟨y2, hy2, hyd2, _⟩ := f2 y y1 hy1
        refine ⟨r1.trans_bal r2, w2, ?_, ?_⟩
        · intro z hz
          rcases List.mem_cons.mp hz with e | e
          · subst e
            exact ⟨y2, hy2, hyd2 hd1, hkids⟩
          · exact c2 z e
        · intro q qit hq
          by_cases hqy : q = y
          · subst hqy
            exact ⟨y2, hy2, fun _ => hyd2 hd1, Or.inr hkids⟩
          · obtain ⟨q1, hq1, hqd⟩ := oth q qit hqy hq
            obtain ⟨q2, hq2, hm, hor⟩ := f2 q q1 hq1
            rw [hqd] at hm hor
            exact ⟨q2, hq2, hm, hor⟩
      simp only [ScanItemsFinalizeLoop, e1, hy1]
      by_cases hfile : y1.IsType IT_FILE = true
      · simp only [hfile, if_true]
        obtain ⟨h2, e2, r2, w2, c2, f2⟩ := ih h1 rest w1 (List.nodup_cons.mp hnodup).2 hliveRest
          (Or.inr ⟨hund, hrest⟩)
        refine ⟨h2, e2, wrap h2 r2 w2 c2 f2 (fun c cit hc hpar => ?_)⟩
        obtain ⟨_, pit, ci, hpc, hci, _⟩ := w2.parent c cit y hc hpar
        obtain ⟨y2, hy2, hsk⟩ := r2.1.cell_shape hy1
        rw [hpc] at hy2
        cases hy2
        have := skel_ci_none hsk ((w1.hasCi y y1 hy1).mpr hfile)
        rw [hci] at this
        cases this
      · simp only [hfile, Bool.false_eq_true, if_false]
        cases hci : y1.m_ci with
        | none => exact absurd ((w1.hasCi y y1 hy1).mp hci) hfile
        | some ci =>
          simp only []
          have hpush := push_eq h1 ci.m_children rest
          obtain ⟨cnd, cch⟩ := w1.children y y1 ci hy1 hci
          have hkid : ∀ c ∈ (ci.m_children.filter h1.notDone).reverse,
              ∃ cit, h1.cell c = some cit ∧ cit.IsDone = false ∧ cit.m_parent = some y := by
            intro c hc
            rw [List.mem_reverse, List.mem_filter] at hc
            obtain ⟨cit, hcc, hcp⟩ := cch c hc.1
            have := hc.2
            simp only [Heap.notDone, hcc, Bool.not_eq_true'] at this
            exact ⟨cit, hcc, this, hcp⟩
          have hnd2 : ((ci.m_children.filter h1.notDone).reverse ++ rest).Nodup := by
            rw [List.nodup_append]
            refine ⟨List.nodup_reverse.mpr (cnd.filter _), (List.nodup_cons.mp hnodup).2, ?_⟩
            intro c hc hcr
            obtain ⟨cit, hcc, _, hcp⟩ := hkid c hc
            exact hfresh c cit hcc hcp hcr
          have hlive2 : ∀ c ∈ (ci.m_children.filter h1.notDone).reverse ++ rest,
              ∃ cit, h1.cell c = some cit := by
            intro c hc
            rcases List.mem_append.mp hc with hc | hc
            · obtain ⟨cit, hcc, _⟩ := hkid c hc
              exact ⟨cit, hcc⟩
            · exact hliveRest c hc
          have hst2 : ∀ c ∈ (ci.m_children.filter h1.notDone).reverse ++ rest,
              ∀ cit, h1.cell c = some cit → cit.IsDone = false ∧
                ∀ q pit, cit.m_parent = some q → h1.cell q = some pit → pit.IsDone = true := by
            intro c hc cit0 hc0
            rcases List.mem_append.mp hc with hc | hc
            · obtain ⟨cit, hcc, hcd, hcp⟩ := hkid c hc
              rw [hc0] at hcc
              cases hcc
              refine ⟨hcd, fun q pit hpar hq => ?_⟩
              rw [hcp] at hpar
              cases hpar
              rw [hy1] at hq
              cases hq
              exact hd1
            · exact hrest c hc cit0 hc0
          obtain ⟨h2, e2, r2, w2, c2, f2⟩ := ih h1 _ w1 hnd2 hlive2 (Or.inr ⟨hund, hst2⟩)
          rw [← hpush] at e2
          refine ⟨h2, e2, wrap h2 r2 w2 (fun z hz => c2 z (List.mem_append_right _ hz)) f2
            (fun c cit hc hpar => ?_)⟩
          obtain ⟨c1, hc1, hsk⟩ := r2.1.symm_shape.cell_shape hc
          have hpar1 : c1.m_parent = some y := by rw [skel_parent hsk]; exact hpar
          by_cases hcd : c1.IsDone = true
          · obtain ⟨c2b, hc2b, hm, _⟩ := f2 c c1 hc1
            rw [hc] at hc2b
            cases hc2b
            exact hm hcd
          · obtain ⟨_, pit, ci1, hpc, hci1, hmem⟩ := w1.parent c c1 y hc1 hpar1
            rw [hy1] at hpc
            cases hpc
            rw [hci] at hci1
            cases hci1
            have hin : c ∈ (ci.m_children.filter h1.notDone).reverse ++ rest := by
              apply List.mem_append_left
              rw [List.mem_reverse, List.mem_filter]
              exact ⟨hmem, by simpa [Heap.notDone, hc1] using hcd⟩
            obtain ⟨c2b, hc2b, hdone, _⟩ := c2 c hin
            rw [hc] at hc2b
            cases hc2b
            exact hdone

/-! ### C13 -/

/-- C13, amended: on a well-formed tree in which every item strictly below `item`
that is not done has a parent that is `item` or is not done, `ScanItemsFinalize(item)`
returns, keeps the shape of the tree, and every item of the subtree of `item` is done
afterwards. -/
theorem C13_finalize_done (env : Env) (h : Heap) (hwf : h.WF) (item : Nat) (it : CItem)
    (hit : h.cell item = some it)
    (hreach : ∀ q qit, h.below item q = true → q ≠ item → h.cell q = some qit →
      qit.IsDone = false → ∀ p, qit.m_parent = some p →
        p = item ∨ ∃ pit, h.cell p = some pit ∧ pit.IsDone = false) :
    ∃ h2, ScanItemsFinalize env h (some item) = some h2 ∧ SameShape h h2 ∧
      ∀ q, h.below item q = true → ∃ q2, h2.cell q = some q2 ∧ q2.IsDone = true := by
  obtain ⟨h2, e2, r2, w2, c2, f2⟩ := finalize_flags env (h.next + 1) h [item] hwf
    (List.nodup_singleton item)
    (fun y hy => by rw [List.mem_singleton] at hy; subst hy; exact ⟨it, hit⟩)
    (Or.inl ⟨⟨item, rfl⟩, by have := undone_le h; omega⟩)
  refine ⟨h2, e2, r2.1, ?_⟩
  obtain ⟨i2, hi2, hid2, hikids⟩ := c2 item (List.mem_singleton_self item)
  intro q
  induction q using Nat.strong_induction_on with
  | _ q ih =>
    intro hb
    by_cases hqi : q = item
    · subst hqi
      exact ⟨i2, hi2, hid2⟩
    · obtain ⟨qit, hq⟩ := below_live hb
      obtain ⟨p, hpar, hlt, hbp⟩ := below_parent hwf hq hb hqi
      obtain ⟨p2, hp2, hpd2⟩ := ih p hlt hbp
      obtain ⟨q2, hq2, hmono, _⟩ := f2 q qit hq
      refine ⟨q2, hq2, ?_⟩
      by_cases hqd : qit.IsDone = true
      · exact hmono hqd
      · obtain ⟨q2b, hq2b, hsk⟩ := r2.1.cell_shape hq
        rw [hq2] at hq2b
        cases hq2b
        have hpar2 : q2.m_parent = some p := by rw [skel_parent hsk]; exact hpar
        rcases hreach q qit hb hqi hq (by simpa using hqd) p hpar with e | ⟨pit, hpc, hpnd⟩
        · subst e
          exact hikids q q2 hq2 hpar2
        · obtain ⟨p2b, hp2b, _, hor⟩ := f2 p pit hpc
          rw [hp2] at hp2b
          cases hp2b
          rcases hor with e | hk
          · rw [hpd2, hpnd] at e
            cases e
          · exact hk q q2 hq2 hpar2

/-- C13 in `exStale`, finalized from the folder `p`: the folder `j` below it is done
afterwards. -/
theorem C13_finalize_done_witness :
    exStale.WF ∧
    (∀ q qit, exStale.below 1 q = true → q ≠ 1 → exStale.cell q = some qit →
      qit.IsDone = false → ∀ p, qit.m_parent = some p →
        p = 1 ∨ ∃ pit, exStale.cell p = some pit ∧ pit.IsDone = false) ∧
    ∃ h2, ScanItemsFinalize exEnv exStale (some 1) = some h2 ∧ SameShape exStale h2 ∧
      ∀ q, exStale.below 1 q = true → ∃ q2, h2.cell q = some q2 ∧ q2.IsDone = true := by
  have hr : ∀ q qit, exStale.below 1 q = true → q ≠ 1 → exStale.cell q = some qit →
      qit.IsDone = false → ∀ p, qit.m_parent = some p →
        p = 1 ∨ ∃ pit, exStale.cell p = some pit ∧ pit.IsDone = false := by
    intro q qit hb hne hq _ p hpar
    have hlt : q < 3 := lt_next_of_cell hq
    interval_cases q
    · exact absurd hb (by decide)
    · exact absurd rfl hne
    · have e : exStale.cell 2 = some
          { m_parent := some 1, m_name := "j", m_lastChange := 0, m_size := 0,
            m_attributes := 0, m_type := 4,
            m_ci := some { m_children := [], m_files := 0, m_subdirs := 0, m_jobs := 0 } } := rfl
      rw [e] at hq
      cases hq
      cases hpar
      exact Or.inl rfl
  exact ⟨WF_of_wfCheck (by decide), hr,
    C13_finalize_done exEnv exStale (WF_of_wfCheck (by decide)) 1
      { m_parent := some 0, m_name := "p", m_lastChange := 0, m_size := 0,
        m_attributes := 0, m_type := 260,
        m_ci := some { m_children := [2], m_files := 0, m_subdirs := 1, m_jobs := 0 } }
      rfl hr⟩

/-- C13 as stated fails below a done item: in `exStale` the folder `j` lies in the
subtree of the root and is still not done after `ScanItemsFinalize` of the root,
which pushes only children that are not done and so never looks below `p`. -/
theorem C13_counterexample :
    exStale.WF ∧ exStale.below 0 2 = true ∧
    ∃ h2 it2, ScanItemsFinalize exEnv exStale (some 0) = some h2 ∧ h2.cell 2 = some it2 ∧
      it2.IsDone = false :=
  ⟨WF_of_wfCheck (by decide), by decide, _, _, rfl, rfl, rfl⟩

/-! ### `UpwardSetUndone`, exactly -/

/-- A parent walk whose body keeps the tree: the relation `S` established at each
item composes along the chain. -/
theorem upward_along (body : Heap → Nat → Option Heap) (S : List Nat → Heap → Heap → Prop)
    (hnil : ∀ h, h.WF → S [] h h)
    (hcons : ∀ p l h h1 h2, h.WF → S [p] h h1 → S l h1 h2 → p ∉ l → S (p :: l) h h2)
    (hshape : ∀ l a b, S l a b → SameShape a b) (hkeep : ∀ l a b, a.WF → S l a b → b.WF)
    (hbody : ∀ h p it, h.WF → h.cell p = some it → ∃ h1, body h p = some h1 ∧ S [p] h h1) :
    ∀ (fuel : Nat) (h : Heap) (s : Option Nat) (l : List Nat), h.WF →
      chainFuel h fuel s = some l → ∃ h2, upward body fuel h s = some h2 ∧ S l h h2 := by
  intro fuel
  induction fuel with
  | zero =>
    intro h s l hwf hc
    cases s with
    | none =>
      simp only [chainFuel, Option.some.injEq] at hc
      subst hc
      exact ⟨h, rfl, hnil h hwf⟩
    | some p => simp [chainFuel] at hc
  | succ n ih =>
    intro h s l hwf hc
    cases s with
    | none =>
      simp only [chainFuel, Option.some.injEq] at hc
      subst hc
      exact ⟨h, rfl, hnil h hwf⟩
    | some p =>
      have hnd := chainFuel_nodup hc
      obtain ⟨m, it, l1, hm, hcell, hr, rfl⟩ := chainFuel_some_iff.mp hc
      have hmn : m = n := by omega
      subst hmn
      obtain ⟨h1, hb, r1⟩ := hbody h p it hwf hcell
      have ss := hshape _ _ _ r1
      have w1 := hkeep _ _ _ hwf r1
      obtain ⟨it1, hc1, hsk⟩ := ss.cell_shape hcell
      have hr1 : chainFuel h1 m it.m_parent = some l1 := by
        rw [chainFuel_congr ss.parents_shape]; exact hr
      obtain ⟨h2, hu, r2⟩ := ih h1 it.m_parent l1 w1 hr1
      refine ⟨h2, ?_, hcons p l1 h h1 h2 hwf r1 r2 (List.nodup_cons.mp hnd).1⟩
      simp only [upward, hb, hc1, skel_parent hsk]
      exact hu

theorem IsType_of_type {a b : CItem} (h : a.m_type = b.m_type) (T : ITEMTYPE) :
    a.IsType T = b.IsType T := by
  unfold CItem.IsType
  rw [h]

/-- Where the flags of `d` were not cleared, `UpwardSetUndone` re-bases as before. -/
theorem rebaseAt_kept {l : List Nat} {h h1 : Heap} (hs : SameShape h h1)
    (hf : FlagsCleared l h h1) {d : Nat} (hd : d ∉ l) : h1.rebaseAt d = h.rebaseAt d := by
  have hfun : h1.IsTypeAt IT_UNKNOWN = h.IsTypeAt IT_UNKNOWN := by
    funext c
    unfold Heap.IsTypeAt
    cases hc : h.cell c with
    | none => rw [hs.cell_none_shape hc]
    | some cit =>
      obtain ⟨c1, hc1, _, ht⟩ := hf c cit hc
      rw [hc1]
      simp only []
      by_cases hcl : c ∈ l
      · rw [if_pos hcl] at ht
        rw [IsType_of_type ht, IsType_SetType_false_other cit _ (by decide)]
      · rw [if_neg hcl] at ht
        rw [IsType_of_type ht]
  unfold Heap.rebaseAt
  cases hc : h.cell d with
  | none => rw [hs.cell_none_shape hc]
  | some it =>
    obtain ⟨it1, hc1, hci, ht⟩ := hf d it hc
    rw [if_neg hd] at ht
    rw [hc1]
    simp only []
    rw [IsType_of_type ht, show it1.IsDone = it.IsDone from IsType_of_type ht _]
    unfold FindUnknownItem FindChildOfType
    simp only [hc, hc1, hci, hfun]

theorem sub64_self_lt {a : Nat} (ha : a < 18446744073709551616) : sub64 a 0 = a := by
  unfold sub64
  omega

/-- One iteration of `UpwardSetUndone`, exactly. -/
theorem undone_step_exact {h : Heap} (hwf : h.WF) {p : Nat} {it : CItem}
    (hp : h.cell p = some it) :
    ∃ h1, (match h.cell p with
      | none => none
      | some it =>
        let rebased : Option Heap :=
          if it.IsType IT_DRIVE && it.IsDone then
            match FindUnknownItem h p with
            | none => none
            | some none => some h
            | some (some unknown) =>
              match UpwardSubtractSize h p (h.GetSize unknown) with
              | none => none
              | some h1 => h1.modify unknown fun u => { u with m_size := 0 }
          else some h
        match rebased with
        | none => none
        | some h2 => h2.modify p fun it2 => it2.SetType ITF_DONE false) = some h1 ∧
      UndoneStep [p] h h1 := by
  obtain ⟨h1, e1, r1⟩ := undone_step hwf hp
  refine ⟨h1, e1, r1, ?_⟩
  simp only [hp] at e1
  -- the step that only clears the flag
  have plain : h.rebaseAt p = none → h.modify p (fun it2 => it2.SetType ITF_DONE false) = some h1 →
      FlagsCleared [p] h h1 ∧ SizesRebased [p] h h1 := by
    intro hnone e
    rw [modify_eq hp] at e
    cases e
    refine ⟨fun q qit hq => ?_, fun d hd u _ hr => ?_, fun _ q => ?_⟩
    · rw [cell_set_of_live hp]
      by_cases hqp : q = p
      · subst hqp
        rw [hp] at hq
        cases hq
        exact ⟨it.SetType ITF_DONE false, by simp, SetType_ci _ _ _, by simp⟩
      · exact ⟨qit, by simp [hqp, hq], rfl, by simp [hqp]⟩
    · rw [List.mem_singleton] at hd
      subst hd
      rw [hnone] at hr
      cases hr
    · exact GetSize_set hp _ (SetType_size _ _ _) q
  by_cases hd : (it.IsType IT_DRIVE && it.IsDone) = true
  · simp only [hd, if_true] at e1
    have hdr : it.IsType IT_DRIVE = true := by
      simp only [Bool.and_eq_true] at hd
      exact hd.1
    obtain ⟨ci, hci⟩ := Option.ne_none_iff_exists'.mp (hwf.drive_hasCi hp hdr)
    have hfu : FindUnknownItem h p = some (ci.m_children.find? (h.IsTypeAt IT_UNKNOWN)) :=
      FindChildOfType_eq hp hci _
    rw [hfu] at e1
    cases hf : ci.m_children.find? (h.IsTypeAt IT_UNKNOWN) with
    | none =>
      rw [hf] at e1
      simp only [] at e1
      exact plain (by simp [Heap.rebaseAt, hp, hd, hfu, hf]) e1
    | some u =>
      rw [hf] at e1
      simp only [] at e1
      have hreb : h.rebaseAt p = some u := by simp [Heap.rebaseAt, hp, hd, hfu, hf]
      obtain ⟨uit, huc, hup⟩ := (hwf.children p it ci hp hci).2 u (List.mem_of_find?_eq_some hf)
      obtain ⟨lp, hlp⟩ := hwf.chain_exists hp
      rw [UpwardSubtractSize_eq hlp] at e1
      simp only [] at e1
      have hul : u ∉ lp := by
        intro hm
        have h1 := hwf.chain_le hlp u hm
        have h2 := (hwf.parent u uit p huc hup).1
        omega
      have hpl : p ∈ lp := by
        obtain ⟨_, l1, _, rfl⟩ := chain_head hlp
        exact List.mem_cons_self _ _
      have hpu : p ≠ u := fun e => hul (e ▸ hpl)
      have hu1 : (h.mapOn lp (subSizeF (h.GetSize u))).cell u = some uit := by
        rw [cell_mapOn]
        simp [hul, huc]
      rw [modify_eq hu1] at e1
      simp only [] at e1
      have hp2 : ((h.mapOn lp (subSizeF (h.GetSize u))).set u { uit with m_size := 0 }).cell p =
          some (subSizeF (h.GetSize u) it) := by
        rw [cell_set_of_live hu1, cell_mapOn]
        simp [hpu, hpl, hp]
      rw [modify_eq hp2] at e1
      cases e1
      have hcell : ∀ q, (((h.mapOn lp (subSizeF (h.GetSize u))).set u { uit with m_size := 0 }).set p
          ((subSizeF (h.GetSize u) it).SetType ITF_DONE false)).cell q =
          if q = p then some ((subSizeF (h.GetSize u) it).SetType ITF_DONE false)
          else if q = u then some { uit with m_size := 0 }
          else if q ∈ lp then (h.cell q).map (subSizeF (h.GetSize u)) else h.cell q := by
        intro q
        rw [cell_set_of_live hp2, cell_set_of_live hu1, cell_mapOn]
      have hsubci : ∀ x : CItem, (subSizeF (h.GetSize u) x).m_ci = x.m_ci := by
        intro x; unfold subSizeF; split <;> rfl
      have hsubty : ∀ x : CItem, (subSizeF (h.GetSize u) x).m_type = x.m_type := by
        intro x; unfold subSizeF; split <;> rfl
      have hsubsz : ∀ x : CItem, x.m_size < 18446744073709551616 →
          (subSizeF (h.GetSize u) x).m_size = sub64 x.m_size (h.GetSize u) := by
        intro x hx
        unfold subSizeF
        split
        · rename_i h0
          rw [h0, sub64_self_lt hx]
        · rfl
      refine ⟨fun q qit hq => ?_, fun d hd u2 ld hr _ hld q => ?_, fun hn => ?_⟩
      · rw [hcell]
        by_cases hqp : q = p
        · subst hqp
          rw [hp] at hq
          cases hq
          refine ⟨(subSizeF (h.GetSize u) it).SetType ITF_DONE false, by simp,
            by rw [SetType_ci, hsubci], ?_⟩
          rw [if_pos (List.mem_singleton_self _)]
          simp only [CItem.SetType, Bool.false_eq_true, if_false, hsubty]
        · by_cases hqu : q = u
          · subst hqu
            rw [huc] at hq
            cases hq
            exact ⟨{ uit with m_size := 0 }, by simp [hqp], rfl, by simp [hqp]⟩
          · by_cases hql : q ∈ lp
            · exact ⟨subSizeF (h.GetSize u) qit, by simp [hqp, hqu, hql, hq], hsubci _,
                by simp [hqp, hsubty]⟩
            · exact ⟨qit, by simp [hqp, hqu, hql, hq], rfl, by simp [hqp]⟩
      · rw [List.mem_singleton] at hd
        subst hd
        rw [hreb] at hr
        cases hr
        rw [hlp] at hld
        cases hld
        have hlive : ∀ x ∈ lp, ∃ xit, h.cell x = some xit := chain_live hlp
        have hty := hwf.typed
        generalize h.GetSize u = n at *
        unfold Heap.GetSize
        rw [hcell]
        by_cases hqu : q = u
        · subst hqu
          simp [hpu.symm]
        · by_cases hqp : q = d
          · subst hqp
            simp only [if_true, hqu, if_false, hpl, hp, SetType_size]
            exact hsubsz it (hty _ _ hp).1
          · simp only [hqp, hqu, if_false]
            by_cases hql : q ∈ lp
            · simp only [hql, if_true]
              cases hqc : h.cell q with
              | none =>
                obtain ⟨x, hx⟩ := hlive q hql
                rw [hqc] at hx
                cases hx
              | some qit =>
                simp only [Option.map_some']
                exact hsubsz qit (hty _ _ hqc).1
            · simp only [hql, if_false]
      · have := hn p (List.mem_singleton_self p)
        rw [hreb] at this
        cases this
  · simp only [hd, Bool.false_eq_true, if_false] at e1
    exact plain (by simp [Heap.rebaseAt, hp, hd]) e1

theorem UndoneStep.nil_step {h : Heap} (hwf : h.WF) : UndoneStep [] h h :=
  ⟨Rebalanced.refl_bal hwf, fun q qit hq => ⟨qit, hq, rfl, by simp⟩,
    fun d hd => absurd hd (List.not_mem_nil _), fun _ _ => rfl⟩

theorem SetType_type_congr {a b : CItem} (h : a.m_type = b.m_type) (F : ITEMTYPE) (s : Bool) :
    (a.SetType F s).m_type = (b.SetType F s).m_type := by
  unfold CItem.SetType
  split
  · simp only [h]
  · simp only [h]

theorem UndoneStep.cons_step {p : Nat} {l : List Nat} {h h1 h2 : Heap}
    (a : UndoneStep [p] h h1) (b : UndoneStep l h1 h2) (hpl : p ∉ l) :
    UndoneStep (p :: l) h h2 := by
  have keep : ∀ d ∈ l, h1.rebaseAt d = h.rebaseAt d := fun d hd =>
    rebaseAt_kept a.1.1 a.2.1 (fun hm => hpl (List.mem_singleton.mp hm ▸ hd))
  refine ⟨a.1.trans_bal b.1, fun q qit hq => ?_, fun d hd u ld hr huni hld => ?_, fun hn => ?_⟩
  · obtain ⟨q1, hq1, hci1, ht1⟩ := a.2.1 q qit hq
    obtain ⟨q2, hq2, hci2, ht2⟩ := b.2.1 q q1 hq1
    refine ⟨q2, hq2, hci2.trans hci1, ?_⟩
    rw [ht2]
    by_cases hqp : q = p
    · subst hqp
      rw [if_neg hpl, ht1]
      simp
    · have hq1t : q1.m_type = qit.m_type := by
        rw [ht1, if_neg (by simpa using hqp)]
      by_cases hql : q ∈ l
      · rw [if_pos hql, if_pos (List.mem_cons_of_mem _ hql)]
        exact SetType_type_congr hq1t _ _
      · rw [if_neg hql, if_neg (by simp [hqp, hql]), hq1t]
  · by_cases hdp : d = p
    · subst hdp
      have s1 := a.2.2.1 d (List.mem_singleton_self d) u ld hr
        (fun e he hne => absurd (List.mem_singleton.mp he) hne) hld
      have s2 := b.2.2.2 (fun e he => by
        rw [keep e he]
        exact huni e (List.mem_cons_of_mem _ he) (fun e2 => hpl (e2 ▸ he)))
      intro q
      rw [s2, s1]
    · have hdl : d ∈ l := by
        rcases List.mem_cons.mp hd with e | e
        · exact absurd e hdp
        · exact e
      have s1 := a.2.2.2 (fun e he => by
        rw [List.mem_singleton] at he
        subst he
        exact huni e (List.mem_cons_self _ _) (fun e2 => hdp e2.symm))
      have s2 := b.2.2.1 d hdl u ld (by rw [keep d hdl]; exact hr)
        (fun e he hne => by
          rw [keep e he]
          exact huni e (List.mem_cons_of_mem _ he) hne)
        (by rw [a.1.1.chain_shape]; exact hld)
      intro q
      rw [s2, s1, s1]
  · have s1 := a.2.2.2 (fun e he => by
      rw [List.mem_singleton] at he
      subst he
      exact hn e (List.mem_cons_self _ _))
    have s2 := b.2.2.2 (fun e he => by
      rw [keep e he]
      exact hn e (List.mem_cons_of_mem _ he))
    intro q
    rw [s2, s1]

/-- `UpwardSetUndone` returns; the items of the chain lose the done flag, and where
the walk re-bases at most once the sizes are as `SizesRebased` says. -/
theorem UpwardSetUndone_exact {h : Heap} (hwf : h.WF) {s : Nat} {l : List Nat}
    (hl : h.chain s = some l) : ∃ h2, UpwardSetUndone h s = some h2 ∧ UndoneStep l h h2 :=
  upward_along _ UndoneStep (fun _ w => UndoneStep.nil_step w)
    (fun _ _ _ _ _ _ a b hpl => a.cons_step b hpl)
    (fun _ _ _ r => r.1.1) (fun _ _ _ w r => r.1.wf_bal w)
    (fun _ _ _ w c => undone_step_exact w c) (h.next + 1) h (some s) l hwf hl

/-! ### C14 -/

/-- C14, amended: on a well-formed tree in which at most one item of the chain `l`
from `s` to the root is a done drive with an unknown child, `UpwardSetUndone` on `s`
returns. No item of `l` is done afterwards, every other item keeps its done flag, and
all file, subdir and read-job counters are as before. For the done drive `d` on `l`
with the unknown child `u`, the size of `u` is 0, the size of `d` and of each ancestor
of `d` is lower by the previous size of `u` modulo 2^64, and every other size is as
before; without such a drive no size changes. -/
theorem C14_set_undone (h : Heap) (hwf : h.WF) (s : Nat) (l : List Nat)
    (hl : h.chain s = some l)
    (hone : ∀ a ∈ l, ∀ b ∈ l, h.rebaseAt a ≠ none → h.rebaseAt b ≠ none → a = b) :
    ∃ h2, UpwardSetUndone h s = some h2 ∧
      (∀ q qit, h.cell q = some qit → ∃ q2, h2.cell q = some q2 ∧
        (q ∈ l → q2.IsDone = false) ∧ (q ∉ l → q2.IsDone = qit.IsDone) ∧
        q2.GetFilesCount = qit.GetFilesCount ∧ q2.GetSubdirsCount = qit.GetSubdirsCount ∧
        q2.GetReadJobs = qit.GetReadJobs) ∧
      (∀ d ∈ l, ∀ u ld, h.rebaseAt d = some u → h.chain d = some ld →
        ∀ q, h2.GetSize q =
          if q = u then 0
          else if q ∈ ld then (h.GetSize q + (2 ^ 64 - h.GetSize u)) % 2 ^ 64
          else h.GetSize q) ∧
      ((∀ d ∈ l, h.rebaseAt d = none) → ∀ q, h2.GetSize q = h.GetSize q) := by
  obtain ⟨h2, e2, _, fl, sz⟩ := UpwardSetUndone_exact hwf hl
  refine ⟨h2, e2, fun q qit hq => ?_, fun d hd u ld hr hld q => ?_, sz.2⟩
  · obtain ⟨q2, hq2, hci, ht⟩ := fl q qit hq
    refine ⟨q2, hq2, fun hql => ?_, fun hql => ?_, ?_, ?_, ?_⟩
    · rw [if_pos hql] at ht
      rw [show q2.IsDone = (qit.SetType ITF_DONE false).IsDone from IsType_of_type ht _]
      exact IsDone_SetType_false qit
    · rw [if_neg hql] at ht
      exact IsType_of_type ht _
    · unfold CItem.GetFilesCount
      rw [hci]
    · unfold CItem.GetSubdirsCount
      rw [hci]
    · unfold CItem.GetReadJobs
      rw [hci]
  · have huni : ∀ e ∈ l, e ≠ d → h.rebaseAt e = none := by
      intro e he hne
      by_contra hc
      exact hne (hone e he d hd hc (by rw [hr]; simp))
    rw [sz.1 d hd u ld hr huni hld q]
    have hu : h.GetSize u < 18446744073709551616 := by
      unfold Heap.GetSize
      cases hc : h.cell u with
      | none => decide
      | some uit => exact (hwf.typed u uit hc).1
    have e : sub64 (h.GetSize q) (h.GetSize u) =
        (h.GetSize q + (2 ^ 64 - h.GetSize u)) % 2 ^ 64 := by
      unfold sub64
      rw [Nat.mod_eq_of_lt hu]
      norm_num
    rw [e]

/-- C14 in `exDoneDrive`, from the file `b`: the file, its folder and the drive are
not done afterwards, the drive gives back the 5 bytes of its unknown item. -/
theorem C14_set_undone_witness :
    exDoneDrive.WF ∧ exDoneDrive.chain 3 = some [3, 1, 0] ∧
    (∀ a ∈ [3, 1, 0], ∀ b ∈ [3, 1, 0],
      exDoneDrive.rebaseAt a ≠ none → exDoneDrive.rebaseAt b ≠ none → a = b) ∧
    ∃ h2, UpwardSetUndone exDoneDrive 3 = some h2 ∧
      (∀ q qit, exDoneDrive.cell q = some qit → ∃ q2, h2.cell q = some q2 ∧
        (q ∈ [3, 1, 0] → q2.IsDone = false) ∧ (q ∉ [3, 1, 0] → q2.IsDone = qit.IsDone) ∧
        q2.GetFilesCount = qit.GetFilesCount ∧ q2.GetSubdirsCount = qit.GetSubdirsCount ∧
        q2.GetReadJobs = qit.GetReadJobs) ∧
      (∀ d ∈ [3, 1, 0], ∀ u ld, exDoneDrive.rebaseAt d = some u →
        exDoneDrive.chain d = some ld →
        ∀ q, h2.GetSize q =
          if q = u then 0
          else if q ∈ ld then (exDoneDrive.GetSize q + (2 ^ 64 - exDoneDrive.GetSize u)) % 2 ^ 64
          else exDoneDrive.GetSize q) ∧
      ((∀ d ∈ [3, 1, 0], exDoneDrive.rebaseAt d = none) →
        ∀ q, h2.GetSize q = exDoneDrive.GetSize q) :=
  ⟨WF_of_wfCheck (by decide), by decide, by decide,
    C14_set_undone exDoneDrive (WF_of_wfCheck (by decide)) 3 [3, 1, 0] (by decide)
      (by decide)⟩

/-- C14 as stated fails where the size of a drive is below the size of its unknown
item: the done drive of `exWrapDrive` has size 3 and an unknown item of 5 bytes, and
after `UpwardSetUndone` its size is 2^64 - 2, which is not lower by 5. -/
theorem C14_counterexample :
    exWrapDrive.WF ∧ exWrapDrive.rebaseAt 0 = some 2 ∧
    exWrapDrive.GetSize 0 = 3 ∧ exWrapDrive.GetSize 2 = 5 ∧
    ∃ h2, UpwardSetUndone exWrapDrive 0 = some h2 ∧ h2.GetSize 2 = 0 ∧
      h2.GetSize 0 = 18446744073709551614 ∧ ¬ (h2.GetSize 0 + 5 = 3) :=
  ⟨WF_of_wfCheck (by decide), by decide, rfl, rfl, _, rfl, rfl, rfl, by decide⟩

/-! ### `UpwardAddReadJobs` and the loop that fills the queue -/

theorem jobs_lt {h : Heap} (hwf : h.WF) {q : Nat} {qit : CItem} (hq : h.cell q = some qit) :
    qit.GetReadJobs < 4294967296 := by
  have t := hwf.typed q qit hq
  unfold CItem.GetReadJobs
  cases hc : qit.m_ci with
  | none => decide
  | some c => exact (t.2 c hc).2.2

theorem addJobsF_jobs {n : Nat} {it : CItem} (hnf : it.IsType IT_FILE = false) {ci : CHILDINFO}
    (hci : it.m_ci = some ci) (hlt : ci.m_jobs < 4294967296) :
    (addJobsF n it).GetReadJobs = (it.GetReadJobs + n) % 2 ^ 32 := by
  unfold addJobsF
  by_cases hn : n = 0
  · subst hn
    simp only [true_or, if_true, Nat.add_zero]
    unfold CItem.GetReadJobs
    rw [hci]
    simp only []
    rw [Nat.mod_eq_of_lt (by norm_num; exact hlt)]
  · simp only [hn, hnf, Bool.false_eq_true, or_self, if_false]
    unfold CItem.GetReadJobs CItem.mapCi
    rw [hci]
    simp only [Option.map_some', add32]
    norm_num

/-- `UpwardAddReadJobs`, by cells: from an item that is not a file every item of the
chain has `n` read jobs more modulo 2^32; from a file nothing changes. -/
theorem add_jobs_cells {h : Heap} (hwf : h.WF) {s : Nat} {sit : CItem}
    (hs : h.cell s = some sit) {l : List Nat} (hl : h.chain s = some l) (n : Nat) :
    ∃ h2, UpwardAddReadJobs h s n = some h2 ∧ Rebalanced h h2 ∧
      (sit.IsType IT_FILE = true → h2 = h) ∧
      (sit.IsType IT_FILE = false → ∀ q qit, h.cell q = some qit → ∃ q2, h2.cell q = some q2 ∧
        q2.GetReadJobs = if q ∈ l then (qit.GetReadJobs + n) % 2 ^ 32 else qit.GetReadJobs) := by
  refine ⟨_, UpwardAddReadJobs_eq hs hl (hwf.ciOk l) n, ?_, fun hf => ?_, fun hnf => ?_⟩
  · split
    · exact Rebalanced.refl_bal hwf
    · exact addJobsF_rebalanced hwf l n
  · rw [if_pos ((hwf.hasCi s sit hs).mpr hf)]
  · have hci : ¬ sit.m_ci = none := fun e => by
      rw [(hwf.hasCi s sit hs).mp e] at hnf
      cases hnf
    rw [if_neg hci]
    intro q qit hq
    rw [cell_mapOn]
    by_cases hql : q ∈ l
    · have hqnf := chain_not_file hwf hs hnf hl hql hq
      obtain ⟨ci, hqci⟩ : ∃ ci, qit.m_ci = some ci := by
        cases hc : qit.m_ci with
        | none =>
          rw [(hwf.hasCi q qit hq).mp hc] at hqnf
          cases hqnf
        | some ci => exact ⟨ci, rfl⟩
      refine ⟨addJobsF n qit, by simp [hql, hq], ?_⟩
      rw [if_pos hql]
      exact addJobsF_jobs hqnf hqci ((hwf.typed q qit hq).2 ci hqci).2.2
    · exact ⟨qit, by simp [hql, hq], by rw [if_neg hql]⟩

theorem IsTypeAt_shape {h h2 : Heap} (hs : SameShape h h2) (T : ITEMTYPE) (hT : 255 &&& T = T)
    (q : Nat) : h2.IsTypeAt T q = h.IsTypeAt T q := by
  unfold Heap.IsTypeAt
  cases hq : h.cell q with
  | none => rw [hs.cell_none_shape hq]
  | some it =>
    obtain ⟨it2, hq2, hsk⟩ := hs.cell_shape hq
    rw [hq2]
    exact skel_isType hsk T hT

/-- One pass of the loop that fills the queue: the item is skipped, or it is pushed
and, unless it is a file, every item of its chain has one read job more. -/
theorem push_step_jobs (env : Env) {h : Heap} (hwf : h.WF) {qu : List Nat} {item : Nat}
    {s1 : Scan} (e : PushStep env { heap := h, queue := qu } item = some s1) :
    s1.heap.WF ∧ SameShape h s1.heap ∧ ∃ pushed, (pushed = [] ∨ pushed = [item]) ∧
      s1.queue = qu ++ pushed ∧
      ∀ q qit, h.cell q = some qit → ∃ q2, s1.heap.cell q = some q2 ∧
        q2.GetReadJobs = (qit.GetReadJobs +
          pushed.countP (fun i => !h.IsTypeAt IT_FILE i && h.below q i)) % 2 ^ 32 := by
  have hsame : ∀ q qit, h.cell q = some qit → ∃ q2, h.cell q = some q2 ∧
      q2.GetReadJobs = (qit.GetReadJobs +
        ([] : List Nat).countP (fun i => !h.IsTypeAt IT_FILE i && h.below q i)) % 2 ^ 32 := by
    intro q qit hq
    refine ⟨qit, hq, ?_⟩
    simp only [List.countP_nil, Nat.add_zero]
    rw [Nat.mod_eq_of_lt (by norm_num; exact jobs_lt hwf hq)]
  unfold PushStep at e
  simp only [] at e
  cases hit : h.cell item with
  | none => simp [hit] at e
  | some it =>
    cases hpath : GetPath h item with
    | none => simp [hit, hpath] at e
    | some path =>
      simp only [hit, hpath] at e
      by_cases hskip : (!it.IsType ITF_ROOTITEM && !env.IsFollowingAllowed path it.m_attributes) = true
      · simp only [hskip, if_true, Option.some.injEq] at e
        subst e
        exact ⟨hwf, SameShape.refl_shape h, [], Or.inl rfl, by simp, hsame⟩
      · simp only [hskip, Bool.false_eq_true, if_false] at e
        obtain ⟨l, hl⟩ := hwf.chain_exists hit
        obtain ⟨h1, e1, r1, hfile, hdir⟩ := add_jobs_cells hwf hit hl 1
        rw [e1] at e
        simp only [] at e
        have w1 := r1.wf_bal hwf
        have hl1 : h1.chain item = some l := by rw [r1.1.chain_shape]; exact hl
        obtain ⟨h2, e2, r2, fl, _⟩ := UpwardSetUndone_exact w1 hl1
        rw [e2] at e
        simp only [Option.some.injEq] at e
        subst e
        refine ⟨r2.wf_bal w1, r1.1.trans_shape r2.1, [item], Or.inr rfl, rfl, fun q qit hq => ?_⟩
        have hjobs : ∀ q1, h1.cell q = some q1 → ∃ q2, h2.cell q = some q2 ∧
            q2.GetReadJobs = q1.GetReadJobs := by
          intro q1 hq1
          obtain ⟨q2, hq2, hci, _⟩ := fl q q1 hq1
          refine ⟨q2, hq2, ?_⟩
          unfold CItem.GetReadJobs
          rw [hci]
        simp only [List.countP_cons, List.countP_nil, Nat.zero_add]
        have htype : h.IsTypeAt IT_FILE item = it.IsType IT_FILE := by
          simp [Heap.IsTypeAt, hit]
        rw [htype, below_iff_mem hl]
        by_cases hf : it.IsType IT_FILE = true
        · have := hfile hf
          subst this
          obtain ⟨q2, hq2, hj⟩ := hjobs qit hq
          refine ⟨q2, hq2, ?_⟩
          rw [hj, hf]
          simp only [Bool.not_true, Bool.false_and, Bool.false_eq_true, if_false, Nat.add_zero]
          rw [Nat.mod_eq_of_lt (by norm_num; exact jobs_lt hwf hq)]
        · have hnf : it.IsType IT_FILE = false := by simpa using hf
          obtain ⟨q1, hq1, hj1⟩ := hdir hnf q qit hq
          obtain ⟨q2, hq2, hj⟩ := hjobs q1 hq1
          refine ⟨q2, hq2, ?_⟩
          rw [hj, hj1, hnf]
          by_cases hql : q ∈ l
          · simp [hql]
          · simp only [hql, if_false, Bool.not_false, Bool.true_and, decide_False,
              Bool.false_eq_true, Nat.add_zero]
            rw [Nat.mod_eq_of_lt (by norm_num; exact jobs_lt hwf hq)]

/-- The loop that fills the queue: the pushed items are appended to the queue in
order, and every item has one read job more for each pushed item below it that is not
a file. -/
theorem push_loop_jobs (env : Env) : ∀ (items : List Nat) (h : Heap) (qu : List Nat) (s1 : Scan),
    h.WF → items.foldlM (PushStep env) { heap := h, queue := qu } = some s1 →
    s1.heap.WF ∧ SameShape h s1.heap ∧ ∃ pushed, pushed.length ≤ items.length ∧
      s1.queue = qu ++ pushed ∧
      ∀ q qit, h.cell q = some qit → ∃ q2, s1.heap.cell q = some q2 ∧
        q2.GetReadJobs = (qit.GetReadJobs +
          pushed.countP (fun i => !h.IsTypeAt IT_FILE i && h.below q i)) % 2 ^ 32 := by
  intro items
  induction items with
  | nil =>
    intro h qu s1 hwf e
    simp only [List.foldlM, pure, Option.some.injEq] at e
    subst e
    refine ⟨hwf, SameShape.refl_shape h, [], le_refl _, by simp, fun q qit hq => ⟨qit, hq, ?_⟩⟩
    simp only [List.countP_nil, Nat.add_zero]
    rw [Nat.mod_eq_of_lt (by norm_num; exact jobs_lt hwf hq)]
  | cons item rest ih =>
    intro h qu s1 hwf e
    rw [List.foldlM_cons] at e
    cases hstep : PushStep env { heap := h, queue := qu } item with
    | none => simp [hstep] at e
    | some sa =>
      rw [hstep] at e
      simp only [Option.bind_eq_bind, Option.some_bind] at e
      obtain ⟨wa, sha, pa, hpa, hqa, ja⟩ := push_step_jobs env hwf hstep
      obtain ⟨w1, sh1, pb, hpb, hqb, jb⟩ := ih sa.heap sa.queue s1 wa e
      refine ⟨w1, sha.trans_shape sh1, pa ++ pb, ?_, ?_, fun q qit hq => ?_⟩
      · rcases hpa with e0 | e0 <;> subst e0 <;> simp <;> omega
      · rw [hqb, hqa, List.append_assoc]
      · obtain ⟨qa, hqac, hja⟩ := ja q qit hq
        obtain ⟨q2, hq2, hjb⟩ := jb q qa hqac
        refine ⟨q2, hq2, ?_⟩
        have hfun : (fun i => !sa.heap.IsTypeAt IT_FILE i && sa.heap.below q i) =
            (fun i => !h.IsTypeAt IT_FILE i && h.below q i) := by
          funext i
          rw [IsTypeAt_shape sha IT_FILE (by decide), below_shape sha]
        rw [hjb, hja, hfun, List.countP_append]
        omega

/-! ### C15 -/

/-- C15, amended: on a well-formed tree, `UpwardAddReadJobs(n)` with `n > 0` on an
item that is not a file adds `n` modulo 2^32 to the read-job counter of every item on
the chain from it to the root, and on a file it changes nothing. After the loop of
`StartupCoordinator` that fills the queue, every item on the chain of a pushed item
that is not a file has a non-zero read-job counter, as long as its counter could not
wrap. -/
theorem C15_add_jobs (env : Env) (h : Heap) (hwf : h.WF) (s : Nat) (sit : CItem)
    (hs : h.cell s = some sit) (n : Nat) (hn : 0 < n) :
    (∃ l h2, h.chain s = some l ∧ UpwardAddReadJobs h s n = some h2 ∧
      (sit.IsType IT_FILE = true → h2 = h) ∧
      (sit.IsType IT_FILE = false → ∀ q qit, h.cell q = some qit → ∃ q2, h2.cell q = some q2 ∧
        q2.GetReadJobs = if q ∈ l then (qit.GetReadJobs + n) % 2 ^ 32 else qit.GetReadJobs)) ∧
    ∀ (items : List Nat) (filled : Scan),
      items.foldlM (PushStep env) { heap := h, queue := [] } = some filled →
      ∀ i ∈ filled.queue, h.IsTypeAt IT_FILE i = false → ∀ a ait, h.below a i = true →
        h.cell a = some ait → ait.GetReadJobs + items.length < 2 ^ 32 →
        ∃ a2, filled.heap.cell a = some a2 ∧ a2.GetReadJobs ≠ 0 := by
  have _ := hn
  obtain ⟨l, hl⟩ := hwf.chain_exists hs
  obtain ⟨h2, e2, _, hfile, hdir⟩ := add_jobs_cells hwf hs hl n
  refine ⟨⟨l, h2, hl, e2, hfile, hdir⟩, fun items filled e i hi hnf a ait hb ha hlt => ?_⟩
  obtain ⟨_, _, pushed, hlen, hq, hj⟩ := push_loop_jobs env items h [] filled hwf e
  rw [hq, List.nil_append] at hi
  obtain ⟨a2, ha2, hja⟩ := hj a ait ha
  refine ⟨a2, ha2, ?_⟩
  rw [hja]
  have hpos : 0 < pushed.countP (fun i => !h.IsTypeAt IT_FILE i && h.below a i) :=
    List.countP_pos_iff.mpr ⟨i, hi, by simp [hnf, hb]⟩
  have hle := List.countP_le_length (fun i => !h.IsTypeAt IT_FILE i && h.below a i) (l := pushed)
  rw [Nat.mod_eq_of_lt (by omega)]
  omega

/-- C15 in the example tree, at the folder `d` and the amount 1. -/
theorem C15_add_jobs_witness :
    exTree.WF ∧ 0 < 1 ∧
    (∃ l h2, exTree.chain 2 = some l ∧ UpwardAddReadJobs exTree 2 1 = some h2 ∧
      ((CItem.mk (some 0) "d" 3 (some (CHILDINFO.mk [3] 1 0 0)) 7 0 260).IsType IT_FILE = true →
        h2 = exTree) ∧
      ((CItem.mk (some 0) "d" 3 (some (CHILDINFO.mk [3] 1 0 0)) 7 0 260).IsType IT_FILE = false →
        ∀ q qit, exTree.cell q = some qit → ∃ q2, h2.cell q = some q2 ∧
        q2.GetReadJobs = if q ∈ l then (qit.GetReadJobs + 1) % 2 ^ 32 else qit.GetReadJobs)) ∧
    ∀ (items : List Nat) (filled : Scan),
      items.foldlM (PushStep exEnv) { heap := exTree, queue := [] } = some filled →
      ∀ i ∈ filled.queue, exTree.IsTypeAt IT_FILE i = false → ∀ a ait, exTree.below a i = true →
        exTree.cell a = some ait → ait.GetReadJobs + items.length < 2 ^ 32 →
        ∃ a2, filled.heap.cell a = some a2 ∧ a2.GetReadJobs ≠ 0 :=
  ⟨WF_of_wfCheck (by decide), by decide,
    C15_add_jobs exEnv exTree (WF_of_wfCheck (by decide)) 2
      (CItem.mk (some 0) "d" 3 (some (CHILDINFO.mk [3] 1 0 0)) 7 0 260) rfl 1 (by decide)⟩

/-- C15 as stated fails on a file: `UpwardAddReadJobs(1)` on the file `b` of the
example tree returns the tree as it is, and after the loop that fills the queue has
pushed `b`, the folder `d` and the root above it still have no read job. -/
theorem C15_counterexample :
    exTree.WF ∧ exTree.IsTypeAt IT_FILE 3 = true ∧ exTree.chain 3 = some [3, 2, 0] ∧
    UpwardAddReadJobs exTree 3 1 = some exTree ∧
    (exTree.cell 2).map CItem.GetReadJobs = some 0 ∧
    (exTree.cell 0).map CItem.GetReadJobs = some 0 ∧
    ∃ filled, [3].foldlM (PushStep exEnv) { heap := exTree, queue := [] } = some filled ∧
      filled.queue = [3] ∧ (filled.heap.cell 2).map CItem.GetReadJobs = some 0 ∧
      (filled.heap.cell 0).map CItem.GetReadJobs = some 0 :=
  ⟨WF_of_wfCheck (by decide), rfl, by decide, rfl, rfl, rfl, _, rfl, rfl, rfl, rfl⟩

/-! ### C16 -/

/-- C16, evaluated. Each of the four asserted expressions holds for every counter
value and every amount, also when the amount is greater than the counter. The root of
`exUndone` has no subdirectory: in `UpwardSubtractSubdirs(1)` the assertion holds at
the root, and the counter of the root wraps to 4294967295. The file `a` below it has 5
bytes: in `UpwardSubtractSize(6)` the assertion holds at `a`, and the size of `a`
wraps to 2^64 - 1. -/
theorem C16_assert_holds :
    (∀ m_size bytes, assertSubtractSize m_size bytes = true) ∧
    (∀ m_files fileCount, assertSubtractFiles m_files fileCount = true) ∧
    (∀ m_subdirs dirCount, assertSubtractSubdirs m_subdirs dirCount = true) ∧
    (∀ m_jobs count, assertSubtractReadJobs m_jobs count = true) ∧
    (∃ it h2 it2, exUndone.cell 0 = some it ∧ it.GetSubdirsCount = 0 ∧
      assertSubtractSubdirs it.GetSubdirsCount 1 = true ∧
      UpwardSubtractSubdirs exUndone 0 1 = some h2 ∧ h2.cell 0 = some it2 ∧
      it2.GetSubdirsCount = 4294967295) ∧
    (∃ it h2 it2, exUndone.cell 1 = some it ∧ it.m_size = 5 ∧
      assertSubtractSize it.m_size 6 = true ∧
      UpwardSubtractSize exUndone 1 6 = some h2 ∧ h2.cell 1 = some it2 ∧
      it2.m_size = 18446744073709551615) :=
  ⟨fun _ _ => by simp [assertSubtractSize], fun _ _ => by simp [assertSubtractFiles],
    fun _ _ => by simp [assertSubtractSubdirs], fun _ _ => by simp [assertSubtractReadJobs],
    ⟨_, _, _, rfl, rfl, rfl, rfl, rfl, rfl⟩, ⟨_, _, _, rfl, rfl, rfl, rfl, rfl, rfl⟩⟩

/-! ### `UpdateUnknownItem`, exactly -/

theorem subSizeF_sub64 (n : Nat) {it : CItem} (h : it.m_size < 18446744073709551616) :
    (subSizeF n it).m_size = sub64 it.m_size n := by
  unfold subSizeF
  split
  · rename_i h0
    rw [h0, sub64_self_lt h]
  · rfl

theorem addSizeF_add64 (n : Nat) {it : CItem} (h : it.m_size < 18446744073709551616) :
    (addSizeF n it).m_size = add64 it.m_size n := by
  unfold addSizeF
  split
  · rename_i h0
    rw [h0]
    unfold add64
    omega
  · rfl

theorem GetSize_mapOn_mem {h : Heap} {l : List Nat} (f : CItem → CItem) {q : Nat} {it : CItem}
    (hq : q ∈ l) (hc : h.cell q = some it) : (h.mapOn l f).GetSize q = (f it).m_size := by
  unfold Heap.GetSize
  rw [cell_mapOn]
  simp [hq, hc]

theorem GetSize_mapOn_not {h : Heap} {l : List Nat} (f : CItem → CItem) {q : Nat}
    (hq : q ∉ l) : (h.mapOn l f).GetSize q = h.GetSize q := by
  unfold Heap.GetSize
  rw [cell_mapOn]
  simp [hq]

theorem GetSize_lt {h : Heap} (hwf : h.WF) (q : Nat) : h.GetSize q < 18446744073709551616 := by
  unfold Heap.GetSize
  cases hc : h.cell q with
  | none => decide
  | some it => exact (hwf.typed q it hc).1

/-- An item is not both a free-space item and an unknown item. -/
theorem not_free_and_unknown {h : Heap} (hwf : h.WF) {q : Nat} {it : CItem}
    (hq : h.cell q = some it) (hf : it.IsType IT_FREESPACE = true)
    (hu : it.IsType IT_UNKNOWN = true) : False := by
  rcases hwf.kind q it hq with e | e | e | e | e | e <;>
    (have t1 := IsType_of_GetType it _ IT_FREESPACE e (by decide)
     have t2 := IsType_of_GetType it _ IT_UNKNOWN e (by decide)
     rw [hf] at t1
     rw [hu] at t2
     first
     | exact absurd t1 (by decide)
     | exact absurd t2 (by decide))

/-- `UpdateUnknownItem` on an item with an unknown child, in machine arithmetic. -/
theorem UpdateUnknownItem_exact (env : Env) {h : Heap} (hwf : h.WF) {p : Nat} {it : CItem}
    (hp : h.cell p = some it) {u : Nat} (hu : FindUnknownItem h p = some (some u))
    {fo : Option Nat} (hfo : FindFreeSpaceItem h p = some fo) {path : Path}
    (hpath : GetPath h p = some path) {lp : List Nat} (hlp : h.chain p = some lp) :
    ∃ h2 x, UpdateUnknownItem env h p = some h2 ∧
      x = (let tallied := sub64 (sub64 (h.GetSize p) (h.GetSize u)) ((fo.map h.GetSize).getD 0)
        let total := (env.getDiskFreeSpace path).1
        let free := (env.getDiskFreeSpace path).2
        if sub64 total free < tallied then 0 else sub64 (sub64 total free) tallied) ∧
      h2.GetSize u = add64 (sub64 (h.GetSize u) (h.GetSize u)) x ∧
      (∀ q ∈ lp, h2.GetSize q = add64 (sub64 (h.GetSize q) (h.GetSize u)) x) ∧
      (∀ q, q ≠ u → q ∉ lp → h2.GetSize q = h.GetSize q) := by
  obtain ⟨ci, hci⟩ : ∃ ci, it.m_ci = some ci := by
    cases hc : it.m_ci with
    | none => simp [FindUnknownItem, FindChildOfType, hp, hc] at hu
    | some ci => exact ⟨ci, rfl⟩
  have hfu := hu
  unfold FindUnknownItem at hfu
  rw [FindChildOfType_eq hp hci] at hfu
  simp only [Option.some.injEq] at hfu
  obtain ⟨uit, huc, hup⟩ := (hwf.children p it ci hp hci).2 u (List.mem_of_find?_eq_some hfu)
  have hutype : uit.IsType IT_UNKNOWN = true := find_isTypeAt hfu huc
  obtain ⟨lp2, hlp2, hlu⟩ := chain_of_parent hwf huc hup
  rw [hlp] at hlp2
  cases hlp2
  have hul : u ∉ lp := by
    intro hm
    have h1 := hwf.chain_le hlp u hm
    have h2 := (hwf.parent u uit p huc hup).1
    omega
  have hpl : p ∈ lp := by
    obtain ⟨_, l1, _, rfl⟩ := chain_head hlp
    exact List.mem_cons_self _ _
  have s1 := SizeOnly_mapOn h (u :: lp) (subSizeF (h.GetSize u)) (subSizeF_sizeOnly _)
  have hpath1 : GetPath (h.mapOn (u :: lp) (subSizeF (h.GetSize u))) p = some path := by
    rw [GetPath_kept hwf s1.sameShape.keptShape (lt_next_of_cell hp)]
    exact hpath
  have hfo1 : FindFreeSpaceItem (h.mapOn (u :: lp) (subSizeF (h.GetSize u))) p = some fo := by
    obtain ⟨s, hp1⟩ := s1.cell hp
    unfold FindFreeSpaceItem at hfo ⊢
    rw [FindChildOfType_eq hp hci] at hfo
    rw [FindChildOfType_eq hp1 (show (it.withSize s).m_ci = some ci from hci)]
    have : (h.mapOn (u :: lp) (subSizeF (h.GetSize u))).IsTypeAt IT_FREESPACE =
        h.IsTypeAt IT_FREESPACE := by
      funext c
      exact IsTypeAt_shape s1.sameShape IT_FREESPACE (by decide) c
    rw [this]
    exact hfo
  have hfsize : ∀ fo2, FindFreeSpaceItem h p = some fo2 → (match fo2 with
      | some f => (h.mapOn (u :: lp) (subSizeF (h.GetSize u))).GetSize f
      | none => 0) = (fo2.map h.GetSize).getD 0 := by
    intro fo2 hfo2
    cases fo2 with
    | none => rfl
    | some f =>
      simp only [Option.map_some', Option.getD_some]
      unfold FindFreeSpaceItem at hfo2
      rw [FindChildOfType_eq hp hci] at hfo2
      simp only [Option.some.injEq] at hfo2
      obtain ⟨fit, hfc, hfp⟩ := (hwf.children p it ci hp hci).2 f (List.mem_of_find?_eq_some hfo2)
      have hftype : fit.IsType IT_FREESPACE = true := find_isTypeAt hfo2 hfc
      apply GetSize_mapOn_not
      intro hm
      rcases List.mem_cons.mp hm with e | e
      · subst e
        rw [huc] at hfc
        cases hfc
        exact not_free_and_unknown hwf huc hftype hutype
      · have h1 := hwf.chain_le hlp f e
        have h2 := (hwf.parent f fit p hfc hfp).1
        omega
  have hD1 : (h.mapOn (u :: lp) (subSizeF (h.GetSize u))).GetSize p =
      sub64 (h.GetSize p) (h.GetSize u) := by
    rw [GetSize_mapOn_mem _ (List.mem_cons_of_mem _ hpl) hp, subSizeF_sub64 _ (hwf.typed p it hp).1,
      GetSize_of_cell hp]
  have key : UpdateUnknownItem env h p = some
      ((h.mapOn (u :: lp) (subSizeF (h.GetSize u))).mapOn (u :: lp) (addSizeF
        (let tallied := sub64 (sub64 (h.GetSize p) (h.GetSize u)) ((fo.map h.GetSize).getD 0)
         let total := (env.getDiskFreeSpace path).1
         let free := (env.getDiskFreeSpace path).2
         if sub64 total free < tallied then 0 else sub64 (sub64 total free) tallied))) := by
    unfold UpdateUnknownItem
    rw [hu]
    simp only []
    rw [UpwardSubtractSize_eq hlu]
    simp only []
    rw [hfo1, hpath1]
    simp only []
    rw [UpwardAddSize_eq (by rw [s1.chain]; exact hlu), hD1]
    have hfs := hfsize fo hfo
    cases fo with
    | none => rfl
    | some f =>
      simp only [Option.map_some', Option.getD_some] at hfs ⊢
      rw [hfs]
  have hA : ∀ x, ((h.mapOn (u :: lp) (subSizeF (h.GetSize u))).mapOn (u :: lp)
      (addSizeF x)).GetSize u = add64 (sub64 (h.GetSize u) (h.GetSize u)) x := by
    intro x
    have hc1 : (h.mapOn (u :: lp) (subSizeF (h.GetSize u))).cell u =
        some (subSizeF (h.GetSize u) uit) := by
      rw [cell_mapOn]
      simp [huc]
    rw [GetSize_mapOn_mem _ (List.mem_cons_self _ _) hc1,
      addSizeF_add64 _ (subSizeF_typed _ _ (hwf.typed u uit huc).1),
      subSizeF_sub64 _ (hwf.typed u uit huc).1, GetSize_of_cell huc]
  have hB : ∀ x, ∀ q ∈ lp, ((h.mapOn (u :: lp) (subSizeF (h.GetSize u))).mapOn (u :: lp)
      (addSizeF x)).GetSize q = add64 (sub64 (h.GetSize q) (h.GetSize u)) x := by
    intro x q hq
    obtain ⟨qit, hqc⟩ := chain_live hlp q hq
    have hc1 : (h.mapOn (u :: lp) (subSizeF (h.GetSize u))).cell q =
        some (subSizeF (h.GetSize u) qit) := by
      rw [cell_mapOn]
      simp [hq, hqc]
    rw [GetSize_mapOn_mem _ (List.mem_cons_of_mem _ hq) hc1,
      addSizeF_add64 _ (subSizeF_typed _ _ (hwf.typed q qit hqc).1),
      subSizeF_sub64 _ (hwf.typed q qit hqc).1, GetSize_of_cell hqc]
  have hC : ∀ x, ∀ q, q ≠ u → q ∉ lp → ((h.mapOn (u :: lp) (subSizeF (h.GetSize u))).mapOn
      (u :: lp) (addSizeF x)).GetSize q = h.GetSize q := by
    intro x q hqu hql
    have hm : q ∉ u :: lp := by simp [hqu, hql]
    rw [GetSize_mapOn_not _ hm, GetSize_mapOn_not _ hm]
  exact ⟨_, _, key, rfl, hA _, hB _, hC _⟩

/-! ### C17 -/

/-- C17, amended: for a drive `p` of a well-formed tree with the unknown child `u`,
capacity `T < 2^64` and free space `F ≤ T`, `UpdateUnknownItem` returns; with
`tallied` the size of the drive minus the previous size of `u` and minus the size of
the free-space child, if there is one, taken modulo 2^64 (and exactly that
difference where the drive is at least as big as the two together), the size of `u`
is `max(0, (T - F) - tallied)` afterwards, the size of the drive and of each of its
ancestors changes by the change of the size of `u` modulo 2^64, and no other size
changes. -/
theorem C17_unknown_size (env : Env) (h : Heap) (hwf : h.WF) (p : Nat) (it : CItem)
    (hp : h.cell p = some it) (hdrive : it.IsType IT_DRIVE = true) (u : Nat)
    (hu : FindUnknownItem h p = some (some u)) (fo : Option Nat)
    (hfo : FindFreeSpaceItem h p = some fo) (path : Path) (hpath : GetPath h p = some path)
    (T F : Nat) (hTF : env.getDiskFreeSpace path = (T, F)) (hle : F ≤ T) (hT : T < 2 ^ 64)
    (lp : List Nat) (hlp : h.chain p = some lp) :
    ∃ h2 tallied, UpdateUnknownItem env h p = some h2 ∧
      tallied = (h.GetSize p + (2 ^ 64 - h.GetSize u) +
        (2 ^ 64 - (fo.map h.GetSize).getD 0)) % 2 ^ 64 ∧
      (h.GetSize u + (fo.map h.GetSize).getD 0 ≤ h.GetSize p →
        tallied = h.GetSize p - h.GetSize u - (fo.map h.GetSize).getD 0) ∧
      (h2.GetSize u : Int) = max 0 ((T : Int) - F - tallied) ∧
      (∀ q ∈ lp, h2.GetSize q =
        (h.GetSize q + (2 ^ 64 - h.GetSize u) + h2.GetSize u) % 2 ^ 64) ∧
      (∀ q, q ≠ u → q ∉ lp → h2.GetSize q = h.GetSize q) := by
  have _ := hdrive
  obtain ⟨h2, x, e, hx, hA, hB, hC⟩ := UpdateUnknownItem_exact env hwf hp hu hfo hpath hlp
  rw [hTF] at hx
  simp only [] at hx
  have e64 : (2 : Nat) ^ 64 = 18446744073709551616 := by norm_num
  rw [e64] at hT ⊢
  have hul := GetSize_lt hwf u
  have hpl := GetSize_lt hwf p
  have hfl : (fo.map h.GetSize).getD 0 < 18446744073709551616 := by
    cases fo with
    | none => simp
    | some f => simpa using GetSize_lt hwf f
  generalize (fo.map h.GetSize).getD 0 = fs at *
  generalize h.GetSize p = D at *
  have hxv : x = T - F - (D + (18446744073709551616 - h.GetSize u) +
      (18446744073709551616 - fs)) % 18446744073709551616 := by
    rw [hx]
    unfold sub64
    split <;> omega
  have hu2 : h2.GetSize u = x := by
    rw [hA]
    unfold add64 sub64
    omega
  refine ⟨h2, _, e, rfl, fun hle2 => by omega, ?_, fun q hq => ?_, hC⟩
  · rw [hu2, hxv]
    omega
  · rw [hB q hq, hu2]
    have hql := GetSize_lt hwf q
    unfold add64 sub64
    omega

/-- C17 in `exDoneDrive` on a drive of 20 bytes with 4 bytes free: the files take 7
bytes, so the unknown item gets 9 bytes and the drive has 16. -/
theorem C17_unknown_size_witness :
    exDoneDrive.WF ∧ FindUnknownItem exDoneDrive 0 = some (some 2) ∧
    FindFreeSpaceItem exDoneDrive 0 = some none ∧ GetPath exDoneDrive 0 = some ["C:"] ∧
    exDriveEnv.getDiskFreeSpace ["C:"] = (20, 4) ∧ 4 ≤ 20 ∧ 20 < 2 ^ 64 ∧
    exDoneDrive.chain 0 = some [0] ∧
    ∃ h2 tallied, UpdateUnknownItem exDriveEnv exDoneDrive 0 = some h2 ∧
      tallied = (exDoneDrive.GetSize 0 + (2 ^ 64 - exDoneDrive.GetSize 2) +
        (2 ^ 64 - ((none : Option Nat).map exDoneDrive.GetSize).getD 0)) % 2 ^ 64 ∧
      (exDoneDrive.GetSize 2 + ((none : Option Nat).map exDoneDrive.GetSize).getD 0 ≤
          exDoneDrive.GetSize 0 →
        tallied = exDoneDrive.GetSize 0 - exDoneDrive.GetSize 2 -
          ((none : Option Nat).map exDoneDrive.GetSize).getD 0) ∧
      (h2.GetSize 2 : Int) = max 0 ((20 : Int) - 4 - tallied) ∧
      (∀ q ∈ [0], h2.GetSize q =
        (exDoneDrive.GetSize q + (2 ^ 64 - exDoneDrive.GetSize 2) + h2.GetSize 2) % 2 ^ 64) ∧
      (∀ q, q ≠ 2 → q ∉ [0] → h2.GetSize q = exDoneDrive.GetSize q) :=
  ⟨WF_of_wfCheck (by decide), rfl, rfl, by decide, rfl, by decide, by norm_num, by decide,
    C17_unknown_size exDriveEnv exDoneDrive (WF_of_wfCheck (by decide)) 0
      (CItem.mk none "C:" 0 (some (CHILDINFO.mk [1, 2] 1 1 0)) 12 0 770) rfl rfl 2 rfl none rfl
      ["C:"] (by decide) 20 4 rfl (by decide) (by norm_num) [0] (by decide)⟩

/-- C17 as stated fails where the size of the drive is below the size of its unknown
item: the drive of `exWrapDrive` has size 3 and an unknown item of 5 bytes, its
capacity is 10 bytes, none free. The claim puts the unknown item at
`max(0, 10 - (3 - 5))`, the code leaves it at 0, and the size of the drive goes from 3
to 2^64 - 2 while the size of the unknown item goes from 5 to 0. -/
theorem C17_counterexample :
    exWrapDrive.WF ∧ FindUnknownItem exWrapDrive 0 = some (some 2) ∧
    FindFreeSpaceItem exWrapDrive 0 = some none ∧ GetPath exWrapDrive 0 = some ["C:"] ∧
    exSmallDriveEnv.getDiskFreeSpace ["C:"] = (10, 0) ∧
    exWrapDrive.GetSize 0 = 3 ∧ exWrapDrive.GetSize 2 = 5 ∧
    ∃ h2, UpdateUnknownItem exSmallDriveEnv exWrapDrive 0 = some h2 ∧ h2.GetSize 2 = 0 ∧
      h2.GetSize 0 = 18446744073709551614 ∧
      (h2.GetSize 2 : Int) ≠ max 0 ((10 : Int) - 0 - (3 - 5 - 0)) ∧
      ¬ ((h2.GetSize 0 : Int) - 3 = (h2.GetSize 2 : Int) - 5) :=
  ⟨WF_of_wfCheck (by decide), rfl, rfl, by decide, rfl, rfl, rfl, _, rfl, rfl, rfl,
    by decide, by decide⟩

/-! ### C18 -/

/-- C18, evaluated. In the example tree the zoom is on the file `b` (3), and the
refresh set is the root (0) followed by the folder `d` (2), which holds `b`. Both are
ancestors of the zoom item as it was before the loop, so the loop sets the zoom to the
root and then to `d`: it ends on `d`, a proper descendant of the root, which is in the
refresh set. With the two items in the other order the zoom ends on the root. -/
theorem C18_zoom_below_item :
    exTree.WF ∧
    ZoomConflicts exTree (some 3) [some 0, some 2] = { m_zoomItem := some 2, returned := false } ∧
    exTree.below 0 2 = true ∧ (0 : Nat) ≠ 2 ∧
    ZoomConflicts exTree (some 3) [some 2, some 0] = { m_zoomItem := some 0, returned := false } :=
  ⟨WF_of_wfCheck (by decide), by decide, by decide, by decide, by decide⟩

/-! ### C19 -/

/-- C19: when the queue had items and was drained from outside after `n` items
were handed out, the worker of `StartupCoordinator` returns the heap exactly as the
scanner left it, cell by cell, keeps the root, and has not reached
`ScanItemsFinalize`: after the pruning and the filling of the queue nothing but the
scanner has touched the tree. -/
theorem C19_drained_returns (env : Env) (fuel n : Nat) (doc : Doc) (items : List Nat)
    (c : Coordinated) (hrun : StartupCoordinator env fuel (some n) doc items = some c)
    (hq : c.pushed ≠ []) :
    ∃ pruned filled s,
      items.foldlM (PruneStep env) { heap := doc.heap, items := items, rootDeleted := false } =
        some pruned ∧
      pruned.rootDeleted = false ∧
      pruned.items.foldlM (PushStep env) { heap := pruned.heap, queue := [] } = some filled ∧
      filled.queue = c.pushed ∧
      ScanItemsDrained env n filled = some s ∧
      c.heap = s.heap ∧ (∀ q, c.heap.cell q = s.heap.cell q) ∧
      c.finalized = false ∧ c.m_rootItem = doc.m_rootItem := by
  unfold StartupCoordinator at hrun
  cases hp : items.foldlM (PruneStep env)
      { heap := doc.heap, items := items, rootDeleted := false } with
  | none => simp [hp] at hrun
  | some pruned =>
    rw [hp] at hrun
    simp only [] at hrun
    by_cases hdel : pruned.rootDeleted = true
    · simp only [hdel, if_true] at hrun
      cases hr : doc.m_rootItem with
      | none => simp [hr] at hrun
      | some root =>
        rw [hr] at hrun
        simp only [] at hrun
        cases hd : destroy (pruned.heap.next + 1) pruned.heap root with
        | none => simp [hd] at hrun
        | some h2 =>
          rw [hd] at hrun
          simp only [Option.some.injEq] at hrun
          subst hrun
          exact absurd rfl hq
    · simp only [hdel, Bool.false_eq_true, if_false] at hrun
      cases hf : pruned.items.foldlM (PushStep env) { heap := pruned.heap, queue := [] } with
      | none => simp [hf] at hrun
      | some filled =>
        rw [hf] at hrun
        simp only [] at hrun
        by_cases he : filled.queue.isEmpty = true
        · simp only [he, if_true] at hrun
          cases hs : ScanItems env fuel filled with
          | none => simp [hs] at hrun
          | some scanned =>
            rw [hs] at hrun
            simp only [] at hrun
            cases hre : pruned.items.foldlM (RestoreStep env) scanned.heap with
            | none => simp [hre] at hrun
            | some restored =>
              rw [hre] at hrun
              simp only [] at hrun
              cases hfin : ScanItemsFinalize env restored doc.m_rootItem with
              | none => simp [hfin] at hrun
              | some h2 =>
                rw [hfin] at hrun
                simp only [Option.some.injEq] at hrun
                subst hrun
                exact absurd (List.isEmpty_iff.mp he) hq
        · simp only [he, Bool.false_eq_true, if_false] at hrun
          cases hs : ScanItemsDrained env n filled with
          | none => simp [hs] at hrun
          | some s =>
            rw [hs] at hrun
            simp only [Option.some.injEq] at hrun
            subst hrun
            exact ⟨pruned, filled, s, rfl, by simpa using hdel, hf, rfl, hs, rfl, fun _ => rfl,
              rfl, rfl⟩

/-- C19 on the scan of `exDenied`, drained after the root folder was read: the
folder `p` is left with its read job, and nothing is done. -/
theorem C19_drained_returns_witness :
    ∃ c, exDrained = some c ∧ c.pushed ≠ [] ∧
    ∃ pruned filled s,
      [0].foldlM (PruneStep (exDenied.env (fun _ _ => true) false false false false))
        { heap := Heap.empty.alloc (CItem.new (ITEMTYPE.or IT_DIRECTORY ITF_ROOTITEM) "R"),
          items := [0], rootDeleted := false } = some pruned ∧
      pruned.rootDeleted = false ∧
      pruned.items.foldlM (PushStep (exDenied.env (fun _ _ => true) false false false false))
        { heap := pruned.heap, queue := [] } = some filled ∧
      filled.queue = c.pushed ∧
      ScanItemsDrained (exDenied.env (fun _ _ => true) false false false false) 1 filled =
        some s ∧
      c.heap = s.heap ∧ (∀ q, c.heap.cell q = s.heap.cell q) ∧
      c.finalized = false ∧ c.m_rootItem = some 0 :=
  ⟨_, rfl, by decide,
    C19_drained_returns (exDenied.env (fun _ _ => true) false false false false) 20 1
      { heap := Heap.empty.alloc (CItem.new (ITEMTYPE.or IT_DIRECTORY ITF_ROOTITEM) "R"),
        m_rootItem := some 0 } [0] _ rfl (by decide)⟩

/-! ### C20 -/

/-- C20, evaluated. `exTwoFree` is saved and loaded. The file has one line for the
titles and one for each of the six items, and `LoadResults` returns a root. The file
`a.txt` comes back below the drive `D:` with its type, size and attributes. The free
space item of `D:`, which has the drive (2) as its parent in the tree, comes back at
address 3 with its type and size and with the root `My Computer` (0) as its parent,
and so does the free space item of `C:` at address 5: the loaded drives (1 and 4)
hold `a.txt` and nothing, the root holds four children. -/
theorem C20_pseudo_item_moves :
    exTwoFree.WF ∧
    (exTwoFree.cell 4).map (fun it => (it.m_name, it.m_type, it.m_size, it.m_parent)) =
      some ("<Free Space>", 272, 7, some 2) ∧
    (exTwoFree.cell 2).map (fun it => (it.m_name, it.m_type)) = some ("DATA (D:)", 258) ∧
    ∃ file h2, SaveResults exCsvEnv exTwoFree 0 = some file ∧ file.length = 7 ∧
      LoadResults exCsvEnv file = some (h2, some 0) ∧
      (h2.cell 0).map (fun it => (it.m_name, it.m_type, it.m_parent)) =
        some ("My Computer", 769, none) ∧
      (h2.cell 1).map (fun it => (it.m_type, it.m_size, it.m_parent)) =
        some (258, 12, some 0) ∧
      GetPathText h2 1 = GetPathText exTwoFree 2 ∧
      (h2.cell 2).map (fun it => (it.m_name, it.m_type, it.m_size, it.m_attributes, it.m_parent)) =
        some ("a.txt", 264, 5, 32, some 1) ∧
      (h2.cell 3).map (fun it => (it.m_name, it.m_type, it.m_size, it.m_parent)) =
        some ("<Free Space>", 272, 7, some 0) ∧
      (h2.cell 5).map (fun it => (it.m_name, it.m_type, it.m_size, it.m_parent)) =
        some ("<Free Space>", 272, 40, some 0) ∧
      h2.kids 1 = [2] ∧ h2.kids 4 = [] ∧ (h2.kids 0).length = 4 :=
  ⟨WF_of_wfCheck (by decide), rfl, rfl, _, _, rfl, rfl, rfl, rfl, rfl, rfl, rfl, rfl, rfl, rfl,
    rfl, rfl⟩

/-! ### The selection codec -/

/-- The fuel of `decodeTokens` is never used up. -/
theorem decodeTokens_fuel : ∀ (fuel : Nat) (rest : Text) (sa : List Text),
    rest.length < fuel → ∃ sa2, decodeTokens fuel rest sa = some sa2 := by
  intro fuel
  induction fuel with
  | zero => intro rest sa h; omega
  | succ fuel ih =>
    intro rest sa h
    unfold decodeTokens
    by_cases hr : rest.length > 0
    · simp only [hr, if_true]
      apply ih
      have h1 : (rest.dropWhile fun c => c != GetEncodingSeparator).length ≤ rest.length :=
        (List.dropWhile_sublist _).length_le
      split
      · rw [List.length_drop]; omega
      · omega
    · simp only [hr, if_false]
      exact ⟨_, rfl⟩

/-- `DecodeSelection` returns for every text but the empty one. -/
theorem decodeTokens_some (s : Text) : ∃ sa, decodeTokens (s.length + 1) s [] = some sa :=
  decodeTokens_fuel _ _ _ (Nat.lt_succ_self _)

theorem takeWhile_no_sep (d rest : Text) (hd : GetEncodingSeparator ∉ d)
    (hrest : rest = [] ∨ ∃ r, rest = GetEncodingSeparator :: r) :
    (d ++ rest).takeWhile (fun c => c != GetEncodingSeparator) = d ∧
    (d ++ rest).dropWhile (fun c => c != GetEncodingSeparator) = rest := by
  induction d with
  | nil =>
    rcases hrest with h | ⟨r, h⟩
    · subst h; simp
    · subst h; simp
  | cons c d ih =>
    have hc : c ≠ GetEncodingSeparator := fun h => hd (by simp [h])
    have hd2 : GetEncodingSeparator ∉ d := fun h => hd (by simp [h])
    obtain ⟨h1, h2⟩ := ih hd2
    have hb : (c != GetEncodingSeparator) = true := by simp [hc]
    rw [List.cons_append, List.takeWhile_cons, List.dropWhile_cons]
    simp only [hb, if_true, h1, h2, and_self]

/-- The tokens of a text made of non-empty pieces without separator, joined by the
separator: the trimmed pieces. -/
theorem decodeTokens_pieces : ∀ (ds : List Text) (d : Text) (sa : List Text) (fuel : Nat),
    (∀ x ∈ d :: ds, x ≠ [] ∧ GetEncodingSeparator ∉ x) → ds.length + 2 ≤ fuel →
    decodeTokens fuel (d ++ (ds.map fun x => GetEncodingSeparator :: x).flatten) sa =
      some (sa ++ (d :: ds).map fun x => TrimRight (TrimLeft x)) := by
  intro ds
  induction ds with
  | nil =>
    intro d sa fuel hx hf
    obtain ⟨fuel, rfl⟩ : ∃ k, fuel = k + 2 := ⟨fuel - 2, by omega⟩
    have hd := hx d (by simp)
    have hlen : d.length > 0 := List.length_pos.mpr hd.1
    have := takeWhile_no_sep d [] hd.2 (Or.inl rfl)
    simp only [List.append_nil] at this
    simp only [List.map_nil, List.flatten_nil, List.append_nil]
    rw [decodeTokens]
    simp only [hlen, if_true, this.1, this.2, List.length_nil, gt_iff_lt, Nat.lt_irrefl,
      if_false]
    rw [decodeTokens]
    simp
  | cons d2 ds ih =>
    intro d sa fuel hx hf
    obtain ⟨fuel, rfl⟩ : ∃ k, fuel = k + 1 := ⟨fuel - 1, by omega⟩
    have hd := hx d (by simp)
    have hlen : (d ++ (List.map (fun x => GetEncodingSeparator :: x) (d2 :: ds)).flatten).length > 0 := by
      rw [List.length_append]
      have := List.length_pos.mpr hd.1
      omega
    have := takeWhile_no_sep d ((List.map (fun x => GetEncodingSeparator :: x) (d2 :: ds)).flatten)
      hd.2 (Or.inr ⟨d2 ++ (ds.map fun x => GetEncodingSeparator :: x).flatten, by simp⟩)
    rw [decodeTokens]
    simp only [hlen, if_true, this.1, this.2]
    have hrest : (List.map (fun x => GetEncodingSeparator :: x) (d2 :: ds)).flatten =
        GetEncodingSeparator :: (d2 ++ (ds.map fun x => GetEncodingSeparator :: x).flatten) := by
      simp
    rw [hrest]
    simp only [List.length_cons, gt_iff_lt, Nat.zero_lt_succ, if_true, List.drop_succ_cons,
      List.drop_zero]
    rw [ih d2 _ fuel (fun x hxm => hx x (by simp at hxm ⊢; tauto)) (by simp at hf; omega)]
    simp

/-- The text `EncodeSelection` makes of a non-empty list of drives. -/
theorem encodeDrives_eq : ∀ (ds : List Text) (i : Nat) (ret : Text),
    encodeDrives (i + 1) ret ds = ret ++ (ds.map fun x => GetEncodingSeparator :: x).flatten := by
  intro ds
  induction ds with
  | nil => intro i ret; simp [encodeDrives]
  | cons d ds ih =>
    intro i ret
    rw [encodeDrives, ih]
    simp

theorem encodeDrives_cons (d : Text) (ds : List Text) :
    encodeDrives 0 [] (d :: ds) = d ++ (ds.map fun x => GetEncodingSeparator :: x).flatten := by
  rw [encodeDrives, encodeDrives_eq]
  simp

theorem length_encoded (d : Text) (ds : List Text) (hx : ∀ x ∈ d :: ds, x ≠ []) :
    ds.length + 1 ≤ (d ++ (ds.map fun x => GetEncodingSeparator :: x).flatten).length := by
  have hd := List.length_pos.mpr (hx d (by simp))
  have : ds.length ≤ ((ds.map fun x => GetEncodingSeparator :: x).flatten).length := by
    clear hx hd
    induction ds with
    | nil => simp
    | cons a ds ih => simp at ih ⊢; omega
  rw [List.length_append]
  omega

/-- A text that neither starts nor ends in white space is left as it is by the two
trims. -/
theorem trim_id (f : Text) (hfirst : ∀ c, f.head? = some c → iswspace c = false)
    (hlast : ∀ c, f.getLast? = some c → iswspace c = false) :
    TrimRight (TrimLeft f) = f := by
  have h1 : TrimLeft f = f := by
    unfold TrimLeft
    cases f with
    | nil => rfl
    | cons c cs => simp [List.dropWhile, hfirst c rfl]
  rw [h1]
  unfold TrimRight
  have h2 : f.reverse.dropWhile iswspace = f.reverse := by
    cases hr : f.reverse with
    | nil => rfl
    | cons c cs =>
      have : f.getLast? = some c := by
        rw [← List.head?_reverse, hr]; rfl
      simp [List.dropWhile, hlast c this]
  rw [h2, List.reverse_reverse]

/-! ### C21 and C23 -/

theorem isAlpha_not_space (X : Char) (hX : X.isAlpha = true) :
    iswspace X = false ∧ X ≠ GetEncodingSeparator := by
  have hr : (65 ≤ X.toNat ∧ X.toNat ≤ 90) ∨ (97 ≤ X.toNat ∧ X.toNat ≤ 122) := by
    simp only [Char.isAlpha, Char.isUpper, Char.isLower, Bool.or_eq_true, Bool.and_eq_true,
      decide_eq_true_eq] at hX
    rcases hX with h | h
    · left
      exact ⟨by have := h.1; simpa [Char.toNat, UInt32.le_def] using this,
        by have := h.2; simpa [Char.toNat, UInt32.le_def] using this⟩
    · right
      exact ⟨by have := h.1; simpa [Char.toNat, UInt32.le_def] using this,
        by have := h.2; simpa [Char.toNat, UInt32.le_def] using this⟩
  constructor
  · unfold iswspace
    simp only [Bool.or_eq_false_iff, Bool.and_eq_false_iff, decide_eq_false_iff_not,
      beq_eq_false_iff_ne, ne_eq]
    omega
  · intro h
    rw [h] at hr
    revert hr
    decide

theorem drive_spec_ok (d : Text) (h : ∃ X : Char, X.isAlpha = true ∧ d = [X, chrColon]) :
    d ≠ [] ∧ GetEncodingSeparator ∉ d ∧ TrimRight (TrimLeft d) = d ∧
    d.length = 2 ∧ d.get? 1 = some chrColon := by
  obtain ⟨X, hX, rfl⟩ := h
  obtain ⟨h1, h2⟩ := isAlpha_not_space X hX
  refine ⟨by simp, ?_, ?_, rfl, rfl⟩
  · intro hm
    simp only [List.mem_cons, List.mem_singleton, List.mem_nil_iff, or_false] at hm
    rcases hm with hm | hm
    · exact h2 hm.symm
    · revert hm; decide
  · apply trim_id
    · intro c hc
      simp only [List.head?_cons, Option.some.injEq] at hc
      rw [← hc]; exact h1
    · intro c hc
      simp only [List.getLast?_cons_cons, List.getLast?_singleton, Option.some.injEq] at hc
      rw [← hc]; decide

/-- C23. For a non-empty list of drive specs, each a letter followed by a colon, and
the radio `RADIO_SOMEDRIVES` or `RADIO_ALLLOCALDRIVES`, `DecodeSelection` applied to
the text `EncodeSelection` made returns, leaves the folder empty and gives the drives
in their order, each with a backslash appended. -/
theorem C23_decode_drives (radio : RADIO) (folder : Text) (drives : List Text)
    (hne : drives ≠ [])
    (hspec : ∀ d ∈ drives, ∃ X : Char, X.isAlpha = true ∧ d = [X, chrColon])
    (hradio : radio = RADIO.RADIO_SOMEDRIVES ∨ radio = RADIO.RADIO_ALLLOCALDRIVES) :
    DecodeSelection (EncodeSelection radio folder drives) =
      some ([], drives.map fun d => d ++ [chrBackslash]) := by
  have henc : EncodeSelection radio folder drives = encodeDrives 0 [] drives := by
    rcases hradio with h | h <;> subst h <;> rfl
  rw [henc]
  cases drives with
  | nil => exact absurd rfl hne
  | cons d ds =>
    rw [encodeDrives_cons]
    have hok : ∀ x ∈ d :: ds, x ≠ [] ∧ GetEncodingSeparator ∉ x := fun x hx =>
      ⟨(drive_spec_ok x (hspec x hx)).1, (drive_spec_ok x (hspec x hx)).2.1⟩
    have hlen := length_encoded d ds (fun x hx => (hok x hx).1)
    have htrim : (d :: ds).map (fun x => TrimRight (TrimLeft x)) = d :: ds := by
      conv_rhs => rw [← List.map_id (d :: ds)]
      apply List.map_congr_left
      intro x hx
      exact (drive_spec_ok x (hspec x hx)).2.2.1
    unfold DecodeSelection
    rw [decodeTokens_pieces ds d [] _ hok (by omega), htrim]
    simp only [List.nil_append]
    cases ds with
    | nil =>
      obtain ⟨_, _, _, h2, h3⟩ := drive_spec_ok d (hspec d (by simp))
      simp only [List.length_singleton, gt_iff_lt, Nat.lt_irrefl, if_false]
      rw [if_pos ⟨h2, h3⟩]
      rfl
    | cons d2 ds => simp

theorem C23_decode_drives_witness :
    DecodeSelection (EncodeSelection RADIO.RADIO_SOMEDRIVES "C:\\data".data
      ["C:".data, "D:".data]) = some ([], ["C:\\".data, "D:\\".data]) :=
  C23_decode_drives RADIO.RADIO_SOMEDRIVES "C:\\data".data ["C:".data, "D:".data]
    (by decide)
    (by
      intro d hd
      simp only [List.mem_cons, List.mem_singleton, List.mem_nil_iff, or_false] at hd
      rcases hd with rfl | rfl
      · exact ⟨'C', by decide, by decide⟩
      · exact ⟨'D', by decide, by decide⟩)
    (Or.inl rfl)

theorem isAlpha_range (X : Char) (hX : X.isAlpha = true) :
    (65 ≤ X.toNat ∧ X.toNat ≤ 90) ∨ (97 ≤ X.toNat ∧ X.toNat ≤ 122) := by
  simp only [Char.isAlpha, Char.isUpper, Char.isLower, Bool.or_eq_true, Bool.and_eq_true,
    decide_eq_true_eq] at hX
  rcases hX with h | h
  · left
    exact ⟨by have := h.1; simpa [Char.toNat, UInt32.le_def] using this,
      by have := h.2; simpa [Char.toNat, UInt32.le_def] using this⟩
  · right
    exact ⟨by have := h.1; simpa [Char.toNat, UInt32.le_def] using this,
      by have := h.2; simpa [Char.toNat, UInt32.le_def] using this⟩

theorem isAlpha_ne (X : Char) (hX : X.isAlpha = true) (c : Char)
    (hc : c.toNat < 65 ∨ (90 < c.toNat ∧ c.toNat < 97) ∨ 122 < c.toNat) : X ≠ c := by
  intro h
  have := isAlpha_range X hX
  rw [h] at this
  omega

theorem reverseFind_none (s : List Char) (c : Char) (h : c ∉ s) : reverseFind s c = none := by
  unfold reverseFind
  have : s.reverse.indexOf? c = none := by
    rw [List.indexOf?, List.findIdx?_eq_none_iff]
    intro x hx
    simp only [List.mem_reverse] at hx
    simp only [beq_eq_false_iff_ne, ne_eq]
    intro hxc
    exact h (hxc ▸ hx)
  rw [this]

/-- C22. For a root path `X:\` with a letter `X` and every volume name `v`, brackets in
it or not, `PathFromVolumeName` gives `X:` for the name `FormatVolumeName` made of them;
it gives `X:` for the name `X:\` as well, and the first two characters of every name
that holds no closing bracket. -/
theorem C22_path_from_volume_name (X : Char) (v : String) (hX : X.isAlpha = true) :
    PathFromVolumeName (FormatVolumeName (String.mk [X, chrColon, chrBackslash]) v) =
      String.mk [X, chrColon] ∧
    PathFromVolumeName (String.mk [X, chrColon, chrBackslash]) = String.mk [X, chrColon] ∧
    ∀ name : String, ')' ∉ name.data →
      PathFromVolumeName name = String.mk (name.data.take 2) := by
  have hnul : X ≠ chrNul := isAlpha_ne X hX _ (by decide)
  have hopen : X ≠ '(' := isAlpha_ne X hX _ (by decide)
  have hclose : X ≠ ')' := isAlpha_ne X hX _ (by decide)
  have hgen : ∀ name : String, ')' ∉ name.data →
      PathFromVolumeName name = String.mk (name.data.take 2) := by
    intro name h
    unfold PathFromVolumeName
    rw [reverseFind_none _ _ h]
  refine ⟨?_, ?_, hgen⟩
  · have hroot : cstr ((String.mk [X, chrColon, chrBackslash]).data.take 2) = [X, chrColon] := by
      have h1 : (X != chrNul) = true := by simp [hnul]
      simp only [cstr, List.take, List.takeWhile, h1]
      rfl
    unfold FormatVolumeName
    rw [hroot]
    generalize cstr v.data = A
    have hdata : A ++ [' ', '('] ++ [X, chrColon] ++ [')'] =
        (')' :: chrColon :: X :: '(' :: ' ' :: A.reverse).reverse := by simp
    unfold PathFromVolumeName
    simp only [hdata]
    have hi : reverseFind (')' :: chrColon :: X :: '(' :: ' ' :: A.reverse).reverse ')' =
        some (A.length + 4) := by
      unfold reverseFind
      rw [List.reverse_reverse]
      simp [List.indexOf?, List.findIdx?_cons]
    have hk : reverseFind (')' :: chrColon :: X :: '(' :: ' ' :: A.reverse).reverse '(' =
        some (A.length + 1) := by
      unfold reverseFind
      rw [List.reverse_reverse]
      have h1 : (')' == '(') = false := by decide
      have h2 : (chrColon == '(') = false := by decide
      have h3 : (X == '(') = false := by simp [hopen]
      simp [List.indexOf?, List.findIdx?_cons, h1, h2, h3]
    rw [hi, hk]
    simp only []
    congr 1
    have : (')' :: chrColon :: X :: '(' :: ' ' :: A.reverse).reverse =
        (A ++ [' ', '(']) ++ ([X, chrColon] ++ [')']) := by simp
    rw [this, List.drop_append_of_le_length (by simp)]
    have h5 : (A ++ [' ', '(']).length = A.length + 1 + 1 := by simp
    rw [List.drop_of_length_le (by omega)]
    have h6 : A.length + 4 - (A.length + 1) - 1 = 2 := by omega
    rw [h6]
    rfl
  · apply (hgen _ _).trans rfl
    intro h
    simp only [List.mem_cons, List.mem_singleton, List.mem_nil_iff, or_false] at h
    rcases h with h | h | h
    · exact hclose h.symm
    · revert h; decide
    · revert h; decide

theorem C22_path_from_volume_name_witness :
    PathFromVolumeName (FormatVolumeName "C:\\" "DATA (old) (2)") = "C:" ∧
    PathFromVolumeName "C:\\" = "C:" :=
  ⟨(C22_path_from_volume_name 'C' "DATA (old) (2)" (by decide)).1,
    (C22_path_from_volume_name 'C' "DATA (old) (2)" (by decide)).2.1⟩

/-! ### C24 -/

/-- C24, evaluated. The format `echo %n >nul` holds the placeholder `%n` and sends the
output to `nul`. With the root path `C:\data`, whose base name is `data`, the claim
gives `echo data >nul`; the code gives `echo data dataul`, because the `>n` of `>nul`
is taken for the mark the code has put in the place of `%n`. Neither path holds a
`>`. -/
theorem C24_redirection_replaced :
    exBaseName "C:\\data".data = "data".data ∧
    exBaseName "C:\\data\\sub".data = "sub".data ∧
    expandPlaceholders "C:\\data".data "data".data "C:\\data\\sub".data "sub".data
      "echo %n >nul".data 0 = "echo data >nul".data ∧
    BuildUserDefinedCleanupCommandLine exBaseName "echo %n >nul".data "C:\\data".data
      "C:\\data\\sub".data = "echo data dataul".data ∧
    BuildUserDefinedCleanupCommandLine exBaseName "dir %sp >list.txt".data "C:\\data".data
      "C:\\data\\sub".data = "dir C:\\data\\sub >list.txt".data ∧
    BuildUserDefinedCleanupCommandLine exBaseName "dir %p >p.txt".data "C:\\data".data
      "C:\\data\\sub".data = "dir C:\\data C:\\data.txt".data := by
  refine ⟨by decide, by decide, by decide, by decide, by decide, by decide⟩

/-! ### C25 -/

/-- C25, evaluated. In `exMounted` the root is `My Computer`, the drive `C:` below it
holds the directory `mnt`, a reparse point, and following is allowed everywhere. The
claim has `mnt` (2) passed to `RefreshItem`. `RefreshReparsePointItems` returns
without a call of `RefreshItem`: after every pop the loop tests the type of `item`,
the root, which is neither a directory nor a drive, and goes on to the next pop.
Called on the drive (1), `RecurseRefreshReparsePoints` passes `mnt`. -/
theorem C25_my_computer_skipped :
    exMounted.WF ∧
    (exMounted.cell 0).map (fun it => it.GetType) = some IT_MYCOMPUTER ∧
    (exMounted.cell 1).map (fun it => (it.GetType, it.m_parent)) = some (IT_DRIVE, some 0) ∧
    (exMounted.cell 2).map
      (fun it => (it.GetType, it.m_parent, IsReparsePoint it.m_attributes)) =
      some (IT_DIRECTORY, some 1, true) ∧
    RefreshReparsePointItems (fun _ _ => true) (fun h p => (GetPath h p).getD [])
      { heap := exMounted, m_rootItem := some 0 } = some none ∧
    RecurseRefreshReparsePoints (fun _ _ => true) (fun h p => (GetPath h p).getD [])
      exMounted (some 1) = some (some [2]) :=
  ⟨WF_of_wfCheck (by decide), by decide, by decide, by decide, by decide, by decide⟩

/-! ### C28 -/

/-- C28, evaluated. Where `CreateProcess` creates the process (handles 7 and 8) for
the command line `cmd.exe /C del C:\data\a.txt`, `CallUserDefinedCleanup` raises the
exception and closes no handle and waits for nothing. Where `CreateProcess` fails, it
raises nothing, closes the null thread handle, waits on the null process handle and
closes it. The test after `CreateProcess` is the other way round. -/
theorem C28_raises_on_success :
    BuildUserDefinedCleanupCommandLine exBaseName "del %sp".data "C:\\data".data
      "C:\\data\\a.txt".data = "del C:\\data\\a.txt".data ∧
    CallUserDefinedCleanup exBaseName (some "C:\\Windows\\cmd.exe".data)
      (fun app cmdline directory _ =>
        if app = "C:\\Windows\\cmd.exe".data ∧ cmdline = "cmd.exe /C del C:\\data\\a.txt".data ∧
            directory = "C:\\data".data
        then some { hProcess := 7, hThread := 8 } else none)
      false "del %sp".data "C:\\data".data "C:\\data\\a.txt".data false true =
      { raised := true, calls := [] } ∧
    CallUserDefinedCleanup exBaseName (some "C:\\Windows\\cmd.exe".data)
      (fun _ _ _ _ => none)
      false "del %sp".data "C:\\data".data "C:\\data\\a.txt".data false true =
      { raised := false,
        calls := [CleanupCall.CloseHandle 0, CleanupCall.WaitForHandleWithRepainting 0,
          CleanupCall.CloseHandle 0] } := by
  refine ⟨by decide, by decide, by decide⟩

/-! ### C29 -/

/-- The extent of the defect of C29: for a cleanup whose option `worksForUncPaths` is
off and an item with a UNC path, the value of `UserDefinedCleanupWorksForItem` is
that of the three tests on the type of the item; the UNC path takes nothing away. -/
theorem worksForItem_unc_off (h : Heap) (udc : USERDEFINEDCLEANUP) (item : Nat) (it : CItem)
    (hcell : h.cell item = some it) (hunc : HasUncPath h item = some true)
    (hopt : udc.worksForUncPaths = false) :
    UserDefinedCleanupWorksForItem h udc (some item) =
      some ((it.IsType IT_DRIVE && udc.worksForDrives) ||
        (it.IsType IT_DIRECTORY && udc.worksForDirectories) ||
        (it.IsType IT_FILE && udc.worksForFiles)) := by
  unfold UserDefinedCleanupWorksForItem
  simp only [hcell, Option.map_some', hunc, hopt, Bool.and_false]
  cases h1 : (it.IsType IT_DRIVE && udc.worksForDrives) <;>
    cases h2 : (it.IsType IT_DIRECTORY && udc.worksForDirectories) <;>
    cases h3 : (it.IsType IT_FILE && udc.worksForFiles) <;> simp

/-- C29 fails on the code. In `exUncTree` the file `a.txt` has the path
`\\server\share\a.txt` and the root the path `\\server\share`, both UNC paths. For a
cleanup that works for directories and files and whose option `worksForUncPaths` is
off, `UserDefinedCleanupWorksForItem` returns true for both items. For a null item
the function does not return: the null test guards the first conjunction only, and
the second one dereferences the item. -/
theorem C29_unc_cleanup_offered :
    exUncTree.WF ∧
    GetPathText exUncTree 1 = some "\\\\server\\share\\a.txt".data ∧
    HasUncPath exUncTree 1 = some true ∧ HasUncPath exUncTree 0 = some true ∧
    UserDefinedCleanupWorksForItem exUncTree
      { worksForDrives := false, worksForDirectories := true, worksForFiles := true,
        worksForUncPaths := false } (some 1) = some true ∧
    UserDefinedCleanupWorksForItem exUncTree
      { worksForDrives := false, worksForDirectories := true, worksForFiles := true,
        worksForUncPaths := false } (some 0) = some true ∧
    UserDefinedCleanupWorksForItem exUncTree
      { worksForDrives := false, worksForDirectories := true, worksForFiles := true,
        worksForUncPaths := false } none = none :=
  ⟨WF_of_wfCheck (by decide), by decide, by decide, by decide, by decide, by decide, by decide⟩

/-! ### Decimal digits -/

theorem toDigitsCore_eq : ∀ (m fuel : Nat) (ds : List Char), m < fuel →
    Nat.toDigitsCore 10 fuel m ds =
      (if m / 10 = 0 then [] else Nat.toDigits 10 (m / 10)) ++ Nat.digitChar (m % 10) :: ds := by
  intro m
  induction m using Nat.strong_induction_on with
  | _ m ih =>
    intro fuel ds hf
    obtain ⟨fuel, rfl⟩ : ∃ k, fuel = k + 1 := ⟨fuel - 1, by omega⟩
    rw [Nat.toDigitsCore]
    by_cases h0 : m / 10 = 0
    · simp [h0]
    · simp only [h0, if_false]
      have hlt : m / 10 < m := Nat.div_lt_self (by omega) (by decide)
      rw [ih (m / 10) hlt fuel _ (by omega)]
      have h2 : Nat.toDigits 10 (m / 10) =
          (if m / 10 / 10 = 0 then [] else Nat.toDigits 10 (m / 10 / 10)) ++
            [Nat.digitChar (m / 10 % 10)] := by
        rw [Nat.toDigits, ih (m / 10) hlt _ [] (Nat.lt_succ_self _)]
      rw [h2]
      simp

theorem toDigits_small (n : Nat) (h : n < 10) : Nat.toDigits 10 n = [Nat.digitChar n] := by
  rw [Nat.toDigits, toDigitsCore_eq n _ [] (Nat.lt_succ_self _)]
  have h1 : n / 10 = 0 := Nat.div_eq_of_lt h
  have h2 : n % 10 = n := Nat.mod_eq_of_lt h
  simp [h1, h2]

theorem toDigits_step (n : Nat) (h : 10 ≤ n) :
    Nat.toDigits 10 n = Nat.toDigits 10 (n / 10) ++ [Nat.digitChar (n % 10)] := by
  rw [Nat.toDigits, toDigitsCore_eq n _ [] (Nat.lt_succ_self _)]
  have h1 : n / 10 ≠ 0 := by
    have : 1 ≤ n / 10 := (Nat.le_div_iff_mul_le (by decide)).mpr (by omega)
    omega
  simp [h1]

theorem toDigits_thousand (n : Nat) (h : 0 < n / 1000) :
    Nat.toDigits 10 n = Nat.toDigits 10 (n / 1000) ++
      [Nat.digitChar (n % 1000 / 100), Nat.digitChar (n % 1000 / 10 % 10),
        Nat.digitChar (n % 1000 % 10)] := by
  have hn : 1000 ≤ n := by
    by_contra hc
    rw [Nat.div_eq_of_lt (by omega)] at h
    omega
  rw [toDigits_step n (by omega), toDigits_step (n / 10) (by omega),
    toDigits_step (n / 10 / 10) (by omega)]
  have e1 : n / 10 / 10 / 10 = n / 1000 := by omega
  have e2 : n / 10 / 10 % 10 = n % 1000 / 100 := by omega
  have e3 : n / 10 % 10 = n % 1000 / 10 % 10 := by omega
  have e4 : n % 10 = n % 1000 % 10 := by omega
  rw [e1, e2, e3, e4]
  simp

theorem format03d_eq (r : Nat) (h : r < 1000) :
    format03d r = [Nat.digitChar (r / 100), Nat.digitChar (r / 10 % 10), Nat.digitChar (r % 10)] := by
  unfold format03d
  by_cases h1 : r < 10
  · rw [toDigits_small r h1]
    have e1 : r / 100 = 0 := by omega
    have e2 : r / 10 % 10 = 0 := by omega
    have e3 : r % 10 = r := by omega
    rw [e1, e2, e3]
    rfl
  · by_cases h2 : r < 100
    · rw [toDigits_step r (by omega), toDigits_small (r / 10) (by omega)]
      have e1 : r / 100 = 0 := by omega
      have e2 : r / 10 % 10 = r / 10 := by omega
      rw [e1, e2]
      rfl
    · rw [toDigits_step r (by omega), toDigits_step (r / 10) (by omega),
        toDigits_small (r / 10 / 10) (by omega)]
      have e1 : r / 10 / 10 = r / 100 := by omega
      rw [e1]
      rfl

theorem toDigits_length_small (n : Nat) (h : n < 1000) :
    1 ≤ (Nat.toDigits 10 n).length ∧ (Nat.toDigits 10 n).length ≤ 3 := by
  by_cases h1 : n < 10
  · rw [toDigits_small n h1]; simp
  · by_cases h2 : n < 100
    · rw [toDigits_step n (by omega), toDigits_small (n / 10) (by omega)]; simp
    · rw [toDigits_step n (by omega), toDigits_step (n / 10) (by omega),
        toDigits_small (n / 10 / 10) (by omega)]
      simp

theorem digitChar_isDigit (k : Nat) (h : k < 10) : (Nat.digitChar k).isDigit = true := by
  interval_cases k <;> decide

theorem toDigits_isDigit : ∀ (n : Nat), ∀ c ∈ Nat.toDigits 10 n, c.isDigit = true := by
  intro n
  induction n using Nat.strong_induction_on with
  | _ n ih =>
    intro c hc
    by_cases h : n < 10
    · rw [toDigits_small n h] at hc
      simp only [List.mem_singleton] at hc
      rw [hc]; exact digitChar_isDigit n h
    · rw [toDigits_step n (by omega)] at hc
      simp only [List.mem_append, List.mem_singleton] at hc
      rcases hc with hc | hc
      · exact ih (n / 10) (Nat.div_lt_self (by omega) (by decide)) c hc
      · rw [hc]; exact digitChar_isDigit _ (Nat.mod_lt _ (by decide))

/-! ### C26 -/

theorem cstr_cstr (s : Text) : cstr (cstr s) = cstr s := by
  unfold cstr
  induction s with
  | nil => rfl
  | cons c cs ih =>
    by_cases h : (c != chrNul) = true
    · simp only [List.takeWhile_cons, h, if_true, ih]
    · simp only [List.takeWhile_cons, h]
      rfl

theorem intercalate_cons_cons (sep a b : Text) (rest : List Text) :
    List.intercalate sep (a :: b :: rest) = a ++ sep ++ List.intercalate sep (b :: rest) := by
  simp [List.intercalate, List.intersperse]

theorem intercalate_single (sep a : Text) : List.intercalate sep [a] = a := by
  simp [List.intercalate, List.intersperse]

theorem intercalate_snoc (sep g : Text) : ∀ (xs : List Text), xs ≠ [] →
    List.intercalate sep (xs ++ [g]) = List.intercalate sep xs ++ sep ++ g := by
  intro xs
  induction xs with
  | nil => intro h; exact absurd rfl h
  | cons a xs ih =>
    intro _
    cases xs with
    | nil =>
      rw [List.singleton_append, intercalate_cons_cons, intercalate_single, intercalate_single]
    | cons b rest =>
      rw [List.cons_append, List.cons_append, intercalate_cons_cons, ← List.cons_append,
        ih (by simp), intercalate_cons_cons]
      simp

theorem filter_intercalate (sep : Text) (hsep : ∀ c ∈ sep, c.isDigit = false) :
    ∀ (groups : List Text), (∀ g ∈ groups, ∀ c ∈ g, c.isDigit = true) →
    (List.intercalate sep groups).filter Char.isDigit = groups.flatten := by
  have h0 : sep.filter Char.isDigit = [] := by
    rw [List.filter_eq_nil_iff]
    intro c hc
    simp [hsep c hc]
  intro groups
  induction groups with
  | nil => intro _; rfl
  | cons a xs ih =>
    intro hd
    have ha : a.filter Char.isDigit = a := List.filter_eq_self.mpr (hd a (by simp))
    cases xs with
    | nil => rw [intercalate_single]; simpa using ha
    | cons b rest =>
      rw [intercalate_cons_cons, List.filter_append, List.filter_append, ha, h0,
        ih (fun g hg => hd g (by simp at hg ⊢; tauto))]
      simp

/-- The loop of `FormatLongLongNormal` with enough fuel: it puts the groups of `n`,
joined by the separator, in front of `all`. -/
theorem formatLoop_groups (buffer : Text) : ∀ (fuel n : Nat) (all : Text),
    n < 1000 ^ (fuel + 1) →
    ∃ groups : List Text, groups ≠ [] ∧ groups.flatten = Nat.toDigits 10 n ∧
      (∀ g ∈ groups.head?, 1 ≤ g.length ∧ g.length ≤ 3) ∧
      (∀ g ∈ groups.tail, g.length = 3) ∧
      formatLoop buffer (fuel + 1) n all =
        some (List.intercalate (GetLocaleThousandSeparator buffer) groups ++ all) := by
  intro fuel
  induction fuel with
  | zero =>
    intro n all hn
    have hn2 : n < 1000 := by simpa using hn
    have h0 : n / 1000 = 0 := Nat.div_eq_of_lt hn2
    have h1 : n % 1000 = n := Nat.mod_eq_of_lt hn2
    refine ⟨[Nat.toDigits 10 n], by simp, by simp, ?_, by simp, ?_⟩
    · intro g hg
      simp only [List.head?_cons, Option.mem_def, Option.some.injEq] at hg
      rw [← hg]; exact toDigits_length_small n hn2
    · rw [formatLoop]
      simp only [h0, h1, gt_iff_lt, Nat.lt_irrefl, if_false, intercalate_single, formatDec]
  | succ fuel ih =>
    intro n all hn
    by_cases h0 : n / 1000 = 0
    · have hn2 : n < 1000 := by
        by_contra hc
        have : 1 ≤ n / 1000 := (Nat.le_div_iff_mul_le (by decide)).mpr (by omega)
        omega
      have h1 : n % 1000 = n := Nat.mod_eq_of_lt hn2
      refine ⟨[Nat.toDigits 10 n], by simp, by simp, ?_, by simp, ?_⟩
      · intro g hg
        simp only [List.head?_cons, Option.mem_def, Option.some.injEq] at hg
        rw [← hg]; exact toDigits_length_small n hn2
      · rw [formatLoop]
        simp only [h0, h1, gt_iff_lt, Nat.lt_irrefl, if_false, intercalate_single, formatDec]
    · have hpos : n / 1000 > 0 := Nat.pos_of_ne_zero h0
      have hlt : n / 1000 < 1000 ^ (fuel + 1) := by
        rw [Nat.div_lt_iff_lt_mul (by decide)]
        calc n < 1000 ^ (fuel + 1 + 1) := hn
          _ = 1000 ^ (fuel + 1) * 1000 := by rw [Nat.pow_succ]
      have hr : n % 1000 < 1000 := Nat.mod_lt _ (by decide)
      obtain ⟨groups, hne, hflat, hhead, htail, hloop⟩ := ih (n / 1000)
        (cstr (GetLocaleThousandSeparator buffer) ++ format03d (n % 1000) ++ all) hlt
      refine ⟨groups ++ [format03d (n % 1000)], by simp, ?_, ?_, ?_, ?_⟩
      · rw [List.flatten_append, hflat, toDigits_thousand n hpos, format03d_eq _ hr]
        simp
      · intro g hg
        rw [List.head?_append_of_ne_nil _ hne] at hg
        exact hhead g hg
      · intro g hg
        rw [List.tail_append_of_ne_nil hne] at hg
        simp only [List.mem_append, List.mem_singleton] at hg
        rcases hg with hg | hg
        · exact htail g hg
        · rw [hg, format03d_eq _ hr]; rfl
      · rw [formatLoop]
        simp only [hpos, if_true]
        rw [hloop, intercalate_snoc _ _ groups hne]
        have hc : cstr (GetLocaleThousandSeparator buffer) = GetLocaleThousandSeparator buffer :=
          cstr_cstr buffer
        rw [hc]
        simp

/-- C26. For every n below 2^64 and every thousands separator without a digit,
`FormatLongLongNormal` returns the decimal digits of n, cut into groups of which the
first has one to three digits and every other one has three, joined by the separator;
the digits that are left when the other characters are removed are the decimal digits
of n. `Nat.toDigits 10 n` has no leading zero and is `0` for n = 0. -/
theorem C26_format_thousands (buffer : Text) (n : Nat) (hn : n < 18446744073709551616)
    (hsep : ∀ c ∈ GetLocaleThousandSeparator buffer, c.isDigit = false) :
    ∃ groups : List Text, groups ≠ [] ∧ groups.flatten = Nat.toDigits 10 n ∧
      (∀ g ∈ groups.head?, 1 ≤ g.length ∧ g.length ≤ 3) ∧
      (∀ g ∈ groups.tail, g.length = 3) ∧
      FormatLongLongNormal buffer n =
        some (List.intercalate (GetLocaleThousandSeparator buffer) groups) ∧
      (List.intercalate (GetLocaleThousandSeparator buffer) groups).filter Char.isDigit =
        Nat.toDigits 10 n := by
  obtain ⟨groups, hne, hflat, hhead, htail, hloop⟩ := formatLoop_groups buffer 6 n []
    (lt_trans hn (by norm_num))
  refine ⟨groups, hne, hflat, hhead, htail, ?_, ?_⟩
  · unfold FormatLongLongNormal
    rw [hloop, List.append_nil]
  · rw [filter_intercalate _ hsep groups, hflat]
    intro g hg c hc
    apply toDigits_isDigit n
    rw [← hflat]
    exact List.mem_flatten.mpr ⟨g, hg, hc⟩

theorem C26_format_thousands_witness :
    (∃ groups : List Text, groups ≠ [] ∧ groups.flatten = Nat.toDigits 10 123456789 ∧
      (∀ g ∈ groups.head?, 1 ≤ g.length ∧ g.length ≤ 3) ∧
      (∀ g ∈ groups.tail, g.length = 3) ∧
      FormatLongLongNormal ".".data 123456789 =
        some (List.intercalate (GetLocaleThousandSeparator ".".data) groups) ∧
      (List.intercalate (GetLocaleThousandSeparator ".".data) groups).filter Char.isDigit =
        Nat.toDigits 10 123456789) ∧
    FormatLongLongNormal ".".data 123456789 = some "123.456.789".data ∧
    FormatLongLongNormal ".".data 0 = some "0".data :=
  ⟨C26_format_thousands ".".data 123456789 (by decide) (by decide), by decide, by decide⟩

/-! ### The extension table -/

theorem lookup_setAt (ed : CExtensionData) (key : Text) (r : SExtensionRecord) (e : Text) :
    (ed.SetAt key r).Lookup e = if key = e then some r else ed.Lookup e := by
  induction ed with
  | nil => simp [CExtensionData.SetAt, CExtensionData.Lookup]
  | cons kv rest ih =>
    obtain ⟨k, v⟩ := kv
    by_cases hk : k = key
    · subst hk
      by_cases he : k = e
      · simp [CExtensionData.SetAt, CExtensionData.Lookup, he]
      · simp [CExtensionData.SetAt, CExtensionData.Lookup, he]
    · by_cases he : k = e
      · subst he
        have : ¬ key = k := fun h => hk h.symm
        simp [CExtensionData.SetAt, CExtensionData.Lookup, hk, this]
      · simp [CExtensionData.SetAt, CExtensionData.Lookup, hk, he, ih]

/-! ### Sums over disjoint sets of items -/

theorem filter_or_length (l : List Nat) (P Q : Nat → Bool)
    (hd : ∀ q ∈ l, ¬ (P q = true ∧ Q q = true)) :
    (l.filter fun q => P q || Q q).length = (l.filter P).length + (l.filter Q).length := by
  induction l with
  | nil => rfl
  | cons a l ih =>
    have ih2 := ih (fun q hq => hd q (List.mem_cons_of_mem _ hq))
    have ha := hd a (List.mem_cons_self _ _)
    cases hp : P a <;> cases hq : Q a
    · simp [List.filter_cons, hp, hq, ih2]
    · simp [List.filter_cons, hp, hq, ih2]; omega
    · simp [List.filter_cons, hp, hq, ih2]; omega
    · exact absurd ⟨hp, hq⟩ ha

theorem filter_or_sum (l : List Nat) (P Q : Nat → Bool) (f : Nat → Nat)
    (hd : ∀ q ∈ l, ¬ (P q = true ∧ Q q = true)) :
    ((l.filter fun q => P q || Q q).map f).sum =
      ((l.filter P).map f).sum + ((l.filter Q).map f).sum := by
  induction l with
  | nil => rfl
  | cons a l ih =>
    have ih2 := ih (fun q hq => hd q (List.mem_cons_of_mem _ hq))
    have ha := hd a (List.mem_cons_self _ _)
    cases hp : P a <;> cases hq : Q a
    · simp [List.filter_cons, hp, hq, ih2]
    · simp [List.filter_cons, hp, hq, ih2]; omega
    · simp [List.filter_cons, hp, hq, ih2]; omega
    · exact absurd ⟨hp, hq⟩ ha

theorem filter_single (n a : Nat) (R : Nat → Bool) :
    (List.range n).filter (fun q => decide (q = a) && R q) =
      if a < n ∧ R a = true then [a] else [] := by
  induction n with
  | zero => simp
  | succ n ih =>
    rw [List.range_succ, List.filter_append, ih]
    by_cases han : a < n
    · have hne : ¬ n = a := by omega
      by_cases hR : R a = true
      · simp [han, hR, hne, List.filter_cons, Nat.lt_succ_of_lt han]
      · simp [han, hR, hne, List.filter_cons]
    · by_cases hna : n = a
      · subst hna
        by_cases hR : R n = true
        · simp [hR, List.filter_cons]
        · simp [hR, List.filter_cons]
      · have : ¬ a < n + 1 := by omega
        simp [han, hna, this, List.filter_cons]

/-- The items of a set that has one item `a` more than another one. -/
theorem count_insert (n a : Nat) (P P2 R : Nat → Bool) (f : Nat → Nat) (han : a < n)
    (hP : ∀ q, P q = (decide (q = a) || P2 q)) (ha : P2 a = false) :
    ((List.range n).filter fun q => P q && R q).length =
      (if R a = true then 1 else 0) + ((List.range n).filter fun q => P2 q && R q).length ∧
    (((List.range n).filter fun q => P q && R q).map f).sum =
      (if R a = true then f a else 0) +
        (((List.range n).filter fun q => P2 q && R q).map f).sum := by
  have hcongr : (List.range n).filter (fun q => P q && R q) =
      (List.range n).filter
        (fun q => (fun q => decide (q = a) && R q) q || (fun q => P2 q && R q) q) := by
    apply List.filter_congr
    intro q _
    show (P q && R q) = ((decide (q = a) && R q) || (P2 q && R q))
    rw [hP q]
    cases decide (q = a) <;> cases P2 q <;> cases R q <;> rfl
  have hd : ∀ q ∈ List.range n,
      ¬ ((fun q => decide (q = a) && R q) q = true ∧ (fun q => P2 q && R q) q = true) := by
    intro q _ hh
    simp only [Bool.and_eq_true, decide_eq_true_eq] at hh
    rw [hh.1.1, ha] at hh
    exact absurd hh.2.1 (by simp)
  rw [hcongr, filter_or_length _ _ _ hd, filter_or_sum _ _ _ f hd, filter_single]
  by_cases hR : R a = true
  · simp [han, hR]
  · simp [han, hR]

/-! ### The stack of `CollectExtensionData` -/

theorem pending_nil (h : Heap) (q : Nat) : h.pending [] q = false := rfl

theorem pending_cons (h : Heap) (c : Nat) (st : List Nat) (q : Nat) :
    h.pending (c :: st) q = (h.below c q || h.pending st q) := by
  simp [Heap.pending, List.any_cons]

theorem good_tail {h : Heap} {c : Nat} {st : List Nat} (hg : h.Good (c :: st)) : h.Good st :=
  ⟨fun x hx => hg.1 x (List.mem_cons_of_mem _ hx), (List.pairwise_cons.mp hg.2).2⟩

theorem good_head_free {h : Heap} (hwf : h.WF) {c : Nat} {st : List Nat}
    (hg : h.Good (c :: st)) : h.pending st c = false := by
  obtain ⟨it, hc⟩ := hg.1 c (List.mem_cons_self _ _)
  cases hp : h.pending st c with
  | false => rfl
  | true =>
    obtain ⟨x, hx, hb⟩ := List.any_eq_true.mp hp
    exact absurd ⟨below_self hwf hc, hb⟩ ((List.pairwise_cons.mp hg.2).1 x hx c)

/-- Below a file lies the file alone. -/
theorem below_file {h : Heap} (hwf : h.WF) {c : Nat} {it : CItem} (hc : h.cell c = some it)
    (hf : it.IsType IT_FILE = true) (q : Nat) : h.below c q = decide (q = c) := by
  by_cases hq : q = c
  · subst hq
    simp [below_self hwf hc]
  · cases hb : h.below c q with
    | false => simp [hq]
    | true =>
      obtain ⟨x, cit, ci, hcc, hci, _, _⟩ := below_child_of_below hwf hb hq
      rw [hc] at hcc
      cases hcc
      have := (hwf.hasCi c it hc).mpr hf
      rw [this] at hci
      cases hci

/-- The stack after the children of its top were pushed in the place of the top. -/
theorem pending_children {h : Heap} (hwf : h.WF) {c : Nat} {it : CItem} {ci : CHILDINFO}
    (hc : h.cell c = some it) (hci : it.m_ci = some ci) (st : List Nat) (q : Nat) :
    h.pending (ci.m_children.reverse ++ st) q =
      ((h.below c q && decide (q ≠ c)) || h.pending st q) := by
  unfold Heap.pending
  rw [List.any_append, List.any_reverse, any_kid_below hwf hc hci q]

theorem good_children {h : Heap} (hwf : h.WF) {c : Nat} {it : CItem} {ci : CHILDINFO}
    {st : List Nat} (hc : h.cell c = some it) (hci : it.m_ci = some ci)
    (hg : h.Good (c :: st)) : h.Good (ci.m_children.reverse ++ st) := by
  obtain ⟨hnd, hch⟩ := hwf.children c it ci hc hci
  constructor
  · intro x hx
    rcases List.mem_append.mp hx with hx | hx
    · obtain ⟨cit, hxc, _⟩ := hch x (List.mem_reverse.mp hx)
      exact ⟨cit, hxc⟩
    · exact hg.1 x (List.mem_cons_of_mem _ hx)
  · rw [List.pairwise_append]
    refine ⟨?_, (List.pairwise_cons.mp hg.2).2, ?_⟩
    · rw [List.pairwise_reverse]
      refine List.Pairwise.imp_of_mem ?_ hnd
      intro a b ha hb hne q hq
      obtain ⟨ait, hac, hap⟩ := hch a ha
      obtain ⟨bit, hbc, hbp⟩ := hch b hb
      exact below_disjoint hwf hbc hac hbp hap (fun e => hne e.symm) hq.1 hq.2
    · intro a ha b hb q hq
      obtain ⟨ait, hac, hap⟩ := hch a (List.mem_reverse.mp ha)
      exact (List.pairwise_cons.mp hg.2).1 b hb q ⟨below_of_child hac hap hq.1, hq.2⟩

theorem merge_zero (old : Option SExtensionRecord) (b : Nat) :
    SExtensionRecord.merge old 0 b = old := by
  simp [SExtensionRecord.merge]

theorem pendFiles_sum_zero (wcslwr : Text → Text) (h : Heap) (st : List Nat) (e : Text)
    (hz : (h.pendFiles wcslwr st e).length = 0) :
    ((h.pendFiles wcslwr st e).map h.GetSize).sum = 0 := by
  rw [List.length_eq_zero] at hz
  rw [hz]
  rfl

/-- The loop of `CollectExtensionData` with enough fuel: it returns, and in its table
every record has grown by the files at or below the items of the stack. -/
theorem collectLoop_spec (wcslwr : Text → Text) {h : Heap} (hwf : h.WF) :
    ∀ (fuel : Nat) (st : List Nat) (ed : CExtensionData), h.Good st → h.pendOf st < fuel →
    ∃ ed2, collectLoop wcslwr h fuel st ed = some ed2 ∧
      ∀ e, ed2.Lookup e = SExtensionRecord.merge (ed.Lookup e)
        (h.pendFiles wcslwr st e).length (((h.pendFiles wcslwr st e).map h.GetSize).sum) := by
  intro fuel
  induction fuel with
  | zero => intro st ed _ hf; omega
  | succ fuel ih =>
    intro st ed hg hf
    cases st with
    | nil =>
      refine ⟨ed, by rw [collectLoop], ?_⟩
      intro e
      have : h.pendFiles wcslwr [] e = [] := by
        unfold Heap.pendFiles
        simp [pending_nil]
      rw [this]
      exact (merge_zero _ _).symm
    | cons qitem rest =>
      obtain ⟨it, hc⟩ := hg.1 qitem (List.mem_cons_self _ _)
      have hlt := lt_next_of_cell hc
      have hfree := good_head_free hwf hg
      rw [collectLoop]
      simp only [hc]
      by_cases hfile : it.IsType IT_FILE = true
      · simp only [hfile, if_true]
        have hP : ∀ q, h.pending (qitem :: rest) q = (decide (q = qitem) || h.pending rest q) := by
          intro q
          rw [pending_cons, below_file hwf hc hfile]
        have hpend : h.pendOf (qitem :: rest) = 1 + h.pendOf rest := by
          have := (count_insert h.next qitem (h.pending (qitem :: rest)) (h.pending rest)
            (fun _ => true) id hlt hP hfree).1
          simpa [Heap.pendOf] using this
        obtain ⟨ed2, hloop, hlook⟩ := ih rest
          (ed.SetAt (it.GetExtension wcslwr)
            (match ed.Lookup (it.GetExtension wcslwr) with
             | some r => { bytes := add64 r.bytes (h.GetSize qitem), files := add64 r.files 1 }
             | none => { bytes := h.GetSize qitem, files := 1 }))
          (good_tail hg) (by omega)
        refine ⟨ed2, hloop, ?_⟩
        intro e
        rw [hlook e, lookup_setAt]
        obtain ⟨hcnt, hsum⟩ := count_insert h.next qitem (h.pending (qitem :: rest))
          (h.pending rest) (h.isFileExt wcslwr e) h.GetSize hlt hP hfree
        have hcnt2 : (h.pendFiles wcslwr (qitem :: rest) e).length =
            (if h.isFileExt wcslwr e qitem = true then 1 else 0) +
              (h.pendFiles wcslwr rest e).length := hcnt
        have hsum2 : ((h.pendFiles wcslwr (qitem :: rest) e).map h.GetSize).sum =
            (if h.isFileExt wcslwr e qitem = true then h.GetSize qitem else 0) +
              ((h.pendFiles wcslwr rest e).map h.GetSize).sum := hsum
        rw [hcnt2, hsum2]
        have hsize : h.GetSize qitem < 18446744073709551616 := by
          have := (hwf.typed qitem it hc).1
          simpa [Heap.GetSize, hc] using this
        have hz := pendFiles_sum_zero wcslwr h rest e
        generalize (h.pendFiles wcslwr rest e).length = c2 at hz ⊢
        generalize ((h.pendFiles wcslwr rest e).map h.GetSize).sum = b2 at hz ⊢
        generalize h.GetSize qitem = size at hsize ⊢
        have hext : h.isFileExt wcslwr e qitem = decide (it.GetExtension wcslwr = e) := by
          simp [Heap.isFileExt, hc, hfile]
        rw [hext]
        by_cases he : it.GetExtension wcslwr = e
        · simp only [he, if_true, decide_True]
          cases hold : ed.Lookup e with
          | none =>
            by_cases hc2 : c2 = 0
            · have hb2 := hz hc2
              subst hc2
              subst hb2
              simp [SExtensionRecord.merge, Nat.mod_eq_of_lt hsize]
            · have h1 : ¬ (1 + c2 = 0) := by omega
              simp [SExtensionRecord.merge, hc2, Nat.add_comm 1 c2]
          | some r =>
            by_cases hc2 : c2 = 0
            · have hb2 := hz hc2
              subst hc2
              subst hb2
              simp [SExtensionRecord.merge, add64]
            · have h1 : ¬ (1 + c2 = 0) := by omega
              simp only [SExtensionRecord.merge, hc2, h1, if_false, add64]
              congr 2 <;> omega
        · simp [he]
      · simp only [hfile, if_false]
        have hfile2 : it.IsType IT_FILE = false := by simpa using hfile
        cases hci : it.m_ci with
        | none => exact absurd ((hwf.hasCi qitem it hc).mp hci) hfile
        | some ci =>
          simp only []
          have hP : ∀ q, h.pending (qitem :: rest) q =
              (decide (q = qitem) || h.pending (ci.m_children.reverse ++ rest) q) := by
            intro q
            rw [pending_cons, pending_children hwf hc hci]
            by_cases hq : q = qitem
            · subst hq
              simp [below_self hwf hc]
            · simp [hq]
          have hfree2 : h.pending (ci.m_children.reverse ++ rest) qitem = false := by
            rw [pending_children hwf hc hci, hfree]
            simp
          have hpend : h.pendOf (qitem :: rest) = 1 + h.pendOf (ci.m_children.reverse ++ rest) := by
            have := (count_insert h.next qitem (h.pending (qitem :: rest))
              (h.pending (ci.m_children.reverse ++ rest)) (fun _ => true) id hlt hP hfree2).1
            simpa [Heap.pendOf] using this
          obtain ⟨ed2, hloop, hlook⟩ := ih (ci.m_children.reverse ++ rest) ed
            (good_children hwf hc hci hg) (by omega)
          refine ⟨ed2, hloop, ?_⟩
          intro e
          rw [hlook e]
          obtain ⟨hcnt, hsum⟩ := count_insert h.next qitem (h.pending (qitem :: rest))
            (h.pending (ci.m_children.reverse ++ rest)) (h.isFileExt wcslwr e) h.GetSize hlt hP
            hfree2
          have hext : h.isFileExt wcslwr e qitem = false := by
            simp [Heap.isFileExt, hc, hfile2]
          have hcnt2 : (h.pendFiles wcslwr (qitem :: rest) e).length =
              (h.pendFiles wcslwr (ci.m_children.reverse ++ rest) e).length := by
            have := hcnt
            rw [hext] at this
            simpa [Heap.pendFiles] using this
          have hsum2 : ((h.pendFiles wcslwr (qitem :: rest) e).map h.GetSize).sum =
              ((h.pendFiles wcslwr (ci.m_children.reverse ++ rest) e).map h.GetSize).sum := by
            have := hsum
            rw [hext] at this
            simpa [Heap.pendFiles] using this
          rw [hcnt2, hsum2]

/-! ### C30 -/

/-- C30, amended. For a well-formed tree and an empty table, `CollectExtensionData`
returns; an extension that no file of the subtree carries has no record, and the
record of every other extension has the number of the files of the subtree with that
extension, modulo 2^64, and the sum of their sizes, modulo 2^64. -/
theorem C30_extension_data (wcslwr : Text → Text) (h : Heap) (self : Nat) (it : CItem)
    (hwf : h.WF) (hself : h.cell self = some it) :
    ∃ ed, CollectExtensionData wcslwr h self [] = some ed ∧
      ∀ e, ed.Lookup e =
        if h.filesWithExt wcslwr self e = [] then none
        else some { files := (h.filesWithExt wcslwr self e).length % 18446744073709551616,
                    bytes := ((h.filesWithExt wcslwr self e).map h.GetSize).sum %
                      18446744073709551616 } := by
  have hg : h.Good [self] := ⟨fun c hc => by
    simp only [List.mem_singleton] at hc
    exact ⟨it, hc ▸ hself⟩, List.pairwise_singleton _ _⟩
  have hpend : h.pendOf [self] < h.next + 1 := by
    unfold Heap.pendOf
    have := List.length_filter_le (h.pending [self]) (List.range h.next)
    rw [List.length_range] at this
    omega
  obtain ⟨ed, hloop, hlook⟩ := collectLoop_spec wcslwr hwf (h.next + 1) [self] [] hg hpend
  refine ⟨ed, hloop, ?_⟩
  intro e
  have hfiles : h.pendFiles wcslwr [self] e = h.filesWithExt wcslwr self e := by
    unfold Heap.pendFiles Heap.filesWithExt
    apply List.filter_congr
    intro q _
    rw [pending_cons, pending_nil, Bool.or_false]
  rw [hlook e, hfiles]
  have hnil : CExtensionData.Lookup [] e = none := rfl
  rw [hnil]
  by_cases hfs : h.filesWithExt wcslwr self e = []
  · simp [hfs, SExtensionRecord.merge]
  · have : (h.filesWithExt wcslwr self e).length ≠ 0 := by
      rw [Ne, List.length_eq_zero]; exact hfs
    simp [hfs, SExtensionRecord.merge, this]

theorem C30_extension_data_witness :
    ∃ ed, CollectExtensionData (fun s => s.map Char.toLower) exTwoFree 0 [] = some ed ∧
      ∀ e, ed.Lookup e =
        if exTwoFree.filesWithExt (fun s => s.map Char.toLower) 0 e = [] then none
        else some
          { files := (exTwoFree.filesWithExt (fun s => s.map Char.toLower) 0 e).length %
              18446744073709551616,
            bytes := ((exTwoFree.filesWithExt (fun s => s.map Char.toLower) 0 e).map
              exTwoFree.GetSize).sum % 18446744073709551616 } :=
  C30_extension_data (fun s => s.map Char.toLower) exTwoFree 0
    { m_parent := none, m_name := "My Computer", m_lastChange := 0, m_size := 52,
      m_attributes := 0, m_type := 769,
      m_ci := some { m_children := [1, 2], m_files := 1, m_subdirs := 0, m_jobs := 0 } }
    (WF_of_wfCheck (by decide)) (by decide)

/-- C30 as stated fails where the sizes of the files of an extension add up to 2^64 or
more. In `exHugeFiles` the files `a.bin` and `b.bin` have 2^63 bytes each: the sum of
their sizes is 2^64, and the record of `.bin` has two files and 0 bytes. -/
theorem C30_counterexample :
    exHugeFiles.WF ∧
    exHugeFiles.filesWithExt (fun s => s.map Char.toLower) 0 ".bin".data = [1, 2] ∧
    ((exHugeFiles.filesWithExt (fun s => s.map Char.toLower) 0 ".bin".data).map
      exHugeFiles.GetSize).sum = 18446744073709551616 ∧
    CollectExtensionData (fun s => s.map Char.toLower) exHugeFiles 0 [] =
      some [(".bin".data, { files := 2, bytes := 0 })] :=
  ⟨WF_of_wfCheck (by decide), by decide, by decide, by decide⟩

/-! ### Formats without the redirection character -/

theorem expand_render (tp tn tsp tsn : Text) : ∀ (fmt : Text) (skip : Nat),
    expandPlaceholders tp tn tsp tsn fmt skip = render tp tn tsp tsn (tokens fmt skip) := by
  intro fmt
  induction fmt with
  | nil => intro skip; cases skip <;> rfl
  | cons x xs ih =>
    intro skip
    cases skip with
    | succ k => rw [expandPlaceholders, tokens]; exact ih k
    | zero =>
      rw [expandPlaceholders, tokens]
      split
      · rw [render, ih]; rfl
      · split
        · rw [render, ih]; rfl
        · split
          · rw [render, ih]; rfl
          · split
            · rw [render, ih]; rfl
            · rw [render, ih]; rfl

theorem prefix2 (a b x : Char) (xs : Text) (h : [a, b].isPrefixOf (x :: xs) = true) :
    x = a ∧ ∃ xs2, xs = b :: xs2 := by
  cases xs with
  | nil => simp [List.isPrefixOf] at h
  | cons y ys =>
    simp only [List.isPrefixOf, Bool.and_eq_true, beq_iff_eq, Bool.and_true] at h
    exact ⟨h.1.symm, ys, by rw [h.2]⟩

theorem prefix3 (a b c x : Char) (xs : Text) (h : [a, b, c].isPrefixOf (x :: xs) = true) :
    x = a ∧ ∃ xs2, xs = b :: c :: xs2 := by
  cases xs with
  | nil => simp [List.isPrefixOf] at h
  | cons y ys =>
    cases ys with
    | nil => simp [List.isPrefixOf] at h
    | cons z zs =>
      simp only [List.isPrefixOf, Bool.and_eq_true, beq_iff_eq, Bool.and_true] at h
      exact ⟨h.1.symm, zs, by rw [h.2.1, h.2.2]⟩

/-- A format is the text of its pieces where every placeholder stands for itself. -/
theorem render_self : ∀ (fmt : Text) (skip : Nat),
    render "%p".data "%n".data "%sp".data "%sn".data (tokens fmt skip) = fmt.drop skip := by
  intro fmt
  induction fmt with
  | nil => intro skip; cases skip <;> rfl
  | cons x xs ih =>
    intro skip
    cases skip with
    | succ k => rw [tokens, List.drop_succ_cons]; exact ih k
    | zero =>
      rw [tokens, List.drop_zero]
      split
      · rename_i h
        obtain ⟨hx, xs2, hxs⟩ := prefix2 _ _ _ _ h
        rw [render, ih, hx, hxs]; rfl
      · split
        · rename_i h
          obtain ⟨hx, xs2, hxs⟩ := prefix2 _ _ _ _ h
          rw [render, ih, hx, hxs]; rfl
        · split
          · rename_i h
            obtain ⟨hx, xs2, hxs⟩ := prefix3 _ _ _ _ _ h
            rw [render, ih, hx, hxs]; rfl
          · split
            · rename_i h
              obtain ⟨hx, xs2, hxs⟩ := prefix3 _ _ _ _ _ h
              rw [render, ih, hx, hxs]; rfl
            · rw [render, ih]; rfl

theorem replaceFrom_skip (old new : Text) : ∀ (a rest : Text),
    replaceFrom old new (a ++ rest) a.length = replaceFrom old new rest 0 := by
  intro a
  induction a with
  | nil => intro rest; rfl
  | cons c cs ih =>
    intro rest
    rw [List.cons_append, List.length_cons, replaceFrom]
    exact ih rest

theorem isPrefixOf_append_self (old rest : Text) : old.isPrefixOf (old ++ rest) = true := by
  induction old with
  | nil => simp [List.isPrefixOf]
  | cons c cs ih => simp [List.isPrefixOf, ih]

/-- At an occurrence of `old` the scan puts `new` and goes on behind the occurrence. -/
theorem replaceFrom_hit (old new rest : Text) (hold : old ≠ []) :
    replaceFrom old new (old ++ rest) 0 = new ++ replaceFrom old new rest 0 := by
  cases hold2 : old with
  | nil => exact absurd hold2 hold
  | cons c cs =>
    rw [List.cons_append, replaceFrom]
    have := isPrefixOf_append_self (c :: cs) rest
    rw [List.cons_append] at this
    rw [this]
    simp only [if_true, List.length_cons, Nat.add_sub_cancel]
    rw [replaceFrom_skip]

theorem isPrefixOf_head_ne (o : Char) (os : Text) (x : Char) (xs : Text) (h : x ≠ o) :
    (o :: os).isPrefixOf (x :: xs) = false := by
  have : (o == x) = false := by simp [Ne.symm h]
  simp [List.isPrefixOf, this]

/-- A text without the first character of `old` is passed over by the scan. -/
theorem replaceFrom_clean (o : Char) (os new : Text) : ∀ (a rest : Text), o ∉ a →
    replaceFrom (o :: os) new (a ++ rest) 0 = a ++ replaceFrom (o :: os) new rest 0 := by
  intro a
  induction a with
  | nil => intro rest _; rfl
  | cons c cs ih =>
    intro rest ha
    have hc : c ≠ o := fun e => ha (by simp [e])
    rw [List.cons_append, replaceFrom, isPrefixOf_head_ne o os c _ hc]
    simp only [Bool.false_eq_true, if_false, List.cons_append]
    rw [ih rest (fun hm => ha (List.mem_cons_of_mem _ hm))]

/-- One `Replace` of `BuildUserDefinedCleanupCommandLine`, piece by piece. -/
theorem stage_replace (old new a b c d a2 b2 c2 d2 : Text)
    (hp : ∀ rest, replaceFrom old new (a ++ rest) 0 = a2 ++ replaceFrom old new rest 0)
    (hn : ∀ rest, replaceFrom old new (b ++ rest) 0 = b2 ++ replaceFrom old new rest 0)
    (hsp : ∀ rest, replaceFrom old new (c ++ rest) 0 = c2 ++ replaceFrom old new rest 0)
    (hsn : ∀ rest, replaceFrom old new (d ++ rest) 0 = d2 ++ replaceFrom old new rest 0)
    (hch : ∀ x xs, x ≠ '>' → "%p".data.isPrefixOf (x :: xs) = false →
      "%n".data.isPrefixOf (x :: xs) = false → "%sp".data.isPrefixOf (x :: xs) = false →
      "%sn".data.isPrefixOf (x :: xs) = false →
      old.isPrefixOf (x :: render a b c d (tokens xs 0)) = false) :
    ∀ (fmt : Text), '>' ∉ fmt → ∀ skip,
      replaceFrom old new (render a b c d (tokens fmt skip)) 0 =
        render a2 b2 c2 d2 (tokens fmt skip) := by
  intro fmt
  induction fmt with
  | nil => intro _ skip; cases skip <;> rfl
  | cons x xs ih =>
    intro hgt skip
    have hx : x ≠ '>' := fun e => hgt (by simp [e])
    have ih2 := ih (fun hm => hgt (List.mem_cons_of_mem _ hm))
    cases skip with
    | succ k => rw [tokens]; exact ih2 k
    | zero =>
      rw [tokens]
      by_cases h1 : "%p".data.isPrefixOf (x :: xs) = true
      · simp only [h1, if_true, render, Tok.text]
        rw [hp, ih2]
      · by_cases h2 : "%n".data.isPrefixOf (x :: xs) = true
        · simp only [h1, h2, if_true, if_false, render, Tok.text]
          rw [hn, ih2]
        · by_cases h3 : "%sp".data.isPrefixOf (x :: xs) = true
          · simp only [h1, h2, h3, if_true, if_false, render, Tok.text]
            rw [hsp, ih2]
          · by_cases h4 : "%sn".data.isPrefixOf (x :: xs) = true
            · simp only [h1, h2, h3, h4, if_true, if_false, render, Tok.text]
              rw [hsn, ih2]
            · simp only [h1, h2, h3, h4, if_false, render, Tok.text, List.singleton_append]
              have hf := hch x xs hx (Bool.eq_false_iff.mpr h1) (Bool.eq_false_iff.mpr h2)
                (Bool.eq_false_iff.mpr h3) (Bool.eq_false_iff.mpr h4)
              cases hold : old with
              | nil => rw [hold] at hf; simp [List.isPrefixOf] at hf
              | cons o os =>
                rw [hold] at hf
                rw [replaceFrom, hf]
                simp only [Bool.false_eq_true, if_false]
                rw [← hold, ih2]

theorem render_head (a b c d : Text)
    (ha : a.head? = some '%' ∨ a.head? = some '>') (hb : b.head? = some '%' ∨ b.head? = some '>')
    (hc : c.head? = some '%' ∨ c.head? = some '>') (hd : d.head? = some '%' ∨ d.head? = some '>')
    (xs : Text) (y : Char) (rest : Text) (hy1 : y ≠ '%') (hy2 : y ≠ '>')
    (h : render a b c d (tokens xs 0) = y :: rest) :
    ∃ xs2, xs = y :: xs2 ∧ rest = render a b c d (tokens xs2 0) := by
  have key : ∀ (t R : Text), (t.head? = some '%' ∨ t.head? = some '>') → t ++ R = y :: rest →
      False := by
    intro t R ht e
    cases t with
    | nil => simp at ht
    | cons t0 ts =>
      simp only [List.cons_append, List.cons.injEq] at e
      simp only [List.head?_cons, Option.some.injEq] at ht
      rcases ht with ht | ht
      · exact hy1 (e.1 ▸ ht)
      · exact hy2 (e.1 ▸ ht)
  cases xs with
  | nil => simp [tokens, render] at h
  | cons x xs2 =>
    rw [tokens] at h
    split at h
    · exact (key _ _ ha h).elim
    · split at h
      · exact (key _ _ hb h).elim
      · split at h
        · exact (key _ _ hc h).elim
        · split at h
          · exact (key _ _ hd h).elim
          · simp only [render, Tok.text, List.singleton_append, List.cons.injEq] at h
            exact ⟨xs2, by rw [h.1], h.2.symm⟩

/-- Where the texts of the placeholders start with `%` or `>`, a word without these
two characters at the start of the text of the pieces is at the start of the format. -/
theorem render_starts (a b c d : Text)
    (ha : a.head? = some '%' ∨ a.head? = some '>') (hb : b.head? = some '%' ∨ b.head? = some '>')
    (hc : c.head? = some '%' ∨ c.head? = some '>') (hd : d.head? = some '%' ∨ d.head? = some '>') :
    ∀ (w : Text), (∀ ch ∈ w, ch ≠ '%' ∧ ch ≠ '>') → ∀ xs,
      w.isPrefixOf (render a b c d (tokens xs 0)) = true → w.isPrefixOf xs = true := by
  intro w
  induction w with
  | nil => intro _ xs _; simp [List.isPrefixOf]
  | cons y w ih =>
    intro hw xs h
    cases hR : render a b c d (tokens xs 0) with
    | nil => rw [hR] at h; simp [List.isPrefixOf] at h
    | cons r0 R =>
      rw [hR] at h
      simp only [List.isPrefixOf, Bool.and_eq_true, beq_iff_eq] at h
      obtain ⟨hy, hrest⟩ := h
      subst hy
      obtain ⟨hy1, hy2⟩ := hw y (List.mem_cons_self _ _)
      obtain ⟨xs2, hxs, hR2⟩ := render_head a b c d ha hb hc hd xs y R hy1 hy2 hR
      rw [hxs]
      rw [hR2] at hrest
      simp only [List.isPrefixOf, beq_self_eq_true, Bool.true_and]
      exact ih (fun ch hch => hw ch (List.mem_cons_of_mem _ hch)) xs2 hrest

theorem kept_percent (a b c d : Text)
    (ha : a.head? = some '%' ∨ a.head? = some '>') (hb : b.head? = some '%' ∨ b.head? = some '>')
    (hc : c.head? = some '%' ∨ c.head? = some '>') (hd : d.head? = some '%' ∨ d.head? = some '>')
    (w : Text) (hw : ∀ ch ∈ w, ch ≠ '%' ∧ ch ≠ '>') (x : Char) (xs : Text)
    (h : ('%' :: w).isPrefixOf (x :: xs) = false) :
    ('%' :: w).isPrefixOf (x :: render a b c d (tokens xs 0)) = false := by
  cases hR : ('%' :: w).isPrefixOf (x :: render a b c d (tokens xs 0)) with
  | false => rfl
  | true =>
    simp only [List.isPrefixOf, Bool.and_eq_true, beq_iff_eq] at hR
    have := render_starts a b c d ha hb hc hd w hw xs hR.2
    rw [← hR.1] at h
    simp [List.isPrefixOf, this] at h

/-- A `Replace` of a placeholder by its mark. -/
theorem stage_mark (w new a b c d a2 b2 c2 d2 : Text)
    (ha : a.head? = some '%' ∨ a.head? = some '>') (hb : b.head? = some '%' ∨ b.head? = some '>')
    (hc : c.head? = some '%' ∨ c.head? = some '>') (hd : d.head? = some '%' ∨ d.head? = some '>')
    (hw : ∀ ch ∈ w, ch ≠ '%' ∧ ch ≠ '>')
    (hwhich : w = ['p'] ∨ w = ['n'] ∨ w = ['s', 'p'] ∨ w = ['s', 'n'])
    (hp : ∀ rest, replaceFrom ('%' :: w) new (a ++ rest) 0 =
      a2 ++ replaceFrom ('%' :: w) new rest 0)
    (hn : ∀ rest, replaceFrom ('%' :: w) new (b ++ rest) 0 =
      b2 ++ replaceFrom ('%' :: w) new rest 0)
    (hsp : ∀ rest, replaceFrom ('%' :: w) new (c ++ rest) 0 =
      c2 ++ replaceFrom ('%' :: w) new rest 0)
    (hsn : ∀ rest, replaceFrom ('%' :: w) new (d ++ rest) 0 =
      d2 ++ replaceFrom ('%' :: w) new rest 0)
    (fmt : Text) (hgt : '>' ∉ fmt) :
    replaceFrom ('%' :: w) new (render a b c d (tokens fmt 0)) 0 =
      render a2 b2 c2 d2 (tokens fmt 0) := by
  refine stage_replace ('%' :: w) new a b c d a2 b2 c2 d2 hp hn hsp hsn ?_ fmt hgt 0
  intro x xs _ h1 h2 h3 h4
  apply kept_percent a b c d ha hb hc hd w hw
  rcases hwhich with e | e | e | e
  · rw [e]; exact h1
  · rw [e]; exact h2
  · rw [e]; exact h3
  · rw [e]; exact h4

/-- A `Replace` of a mark by its text. -/
theorem stage_fill (os new a b c d a2 b2 c2 d2 : Text)
    (hp : ∀ rest, replaceFrom ('>' :: os) new (a ++ rest) 0 =
      a2 ++ replaceFrom ('>' :: os) new rest 0)
    (hn : ∀ rest, replaceFrom ('>' :: os) new (b ++ rest) 0 =
      b2 ++ replaceFrom ('>' :: os) new rest 0)
    (hsp : ∀ rest, replaceFrom ('>' :: os) new (c ++ rest) 0 =
      c2 ++ replaceFrom ('>' :: os) new rest 0)
    (hsn : ∀ rest, replaceFrom ('>' :: os) new (d ++ rest) 0 =
      d2 ++ replaceFrom ('>' :: os) new rest 0)
    (fmt : Text) (hgt : '>' ∉ fmt) :
    replaceFrom ('>' :: os) new (render a b c d (tokens fmt 0)) 0 =
      render a2 b2 c2 d2 (tokens fmt 0) := by
  refine stage_replace ('>' :: os) new a b c d a2 b2 c2 d2 hp hn hsp hsn ?_ fmt hgt 0
  intro x xs hx _ _ _ _
  exact isPrefixOf_head_ne '>' os x _ hx

/-- The scan passes over a short text that does not start an occurrence and holds the
first character of `old` at its start at most. -/
theorem pass2 (o : Char) (os new : Text) (x y : Char) (hy : y ≠ o)
    (hx : ∀ rest, (o :: os).isPrefixOf (x :: y :: rest) = false) (rest : Text) :
    replaceFrom (o :: os) new ([x, y] ++ rest) 0 = [x, y] ++ replaceFrom (o :: os) new rest 0 := by
  show replaceFrom (o :: os) new (x :: ([y] ++ rest)) 0 = _
  have hx2 : (o :: os).isPrefixOf (x :: ([y] ++ rest)) = false := hx rest
  rw [replaceFrom, hx2]
  simp only [Bool.false_eq_true, if_false]
  rw [replaceFrom_clean o os new [y] rest (by simpa using Ne.symm hy)]
  rfl

theorem pass3 (o : Char) (os new : Text) (x y z : Char) (hy : y ≠ o) (hz : z ≠ o)
    (hx : ∀ rest, (o :: os).isPrefixOf (x :: y :: z :: rest) = false) (rest : Text) :
    replaceFrom (o :: os) new ([x, y, z] ++ rest) 0 =
      [x, y, z] ++ replaceFrom (o :: os) new rest 0 := by
  show replaceFrom (o :: os) new (x :: ([y, z] ++ rest)) 0 = _
  have hx2 : (o :: os).isPrefixOf (x :: ([y, z] ++ rest)) = false := hx rest
  rw [replaceFrom, hx2]
  simp only [Bool.false_eq_true, if_false]
  rw [replaceFrom_clean o os new [y, z] rest (by
    intro hm
    simp only [List.mem_cons, List.mem_singleton, List.mem_nil_iff, or_false] at hm
    rcases hm with e | e
    · exact hy e.symm
    · exact hz e.symm)]
  rfl

theorem Replace_eq (s old new : Text) (h : old ≠ []) : Replace s old new = replaceFrom old new s 0 := by
  unfold Replace
  have : ¬ old.length = 0 := fun e => h (List.length_eq_zero.mp e)
  rw [if_neg this]

/-- For a format, a root path with its base name and a current path that hold no `>`,
the eight calls of `Replace` in `BuildUserDefinedCleanupCommandLine` give the format
with every placeholder replaced by its text and every other character left as it
is. -/
theorem build_without_redirection (GetBaseNameFromPath : Text → Text)
    (format rootPath currentPath : Text) (hf : '>' ∉ format) (hr : '>' ∉ rootPath)
    (hrn : '>' ∉ GetBaseNameFromPath rootPath) (hc : '>' ∉ currentPath) :
    BuildUserDefinedCleanupCommandLine GetBaseNameFromPath format rootPath currentPath =
      expandPlaceholders rootPath (GetBaseNameFromPath rootPath) currentPath
        (GetBaseNameFromPath currentPath) format 0 := by
  have m1 : ∀ (x y : Char), (['%', x].head? = some '%' ∨ ['%', x].head? = some '>') ∧
      (['>', x].head? = some '%' ∨ ['>', x].head? = some '>') ∧
      (['%', x, y].head? = some '%' ∨ ['%', x, y].head? = some '>') ∧
      (['>', x, y].head? = some '%' ∨ ['>', x, y].head? = some '>') :=
    fun x y => ⟨Or.inl rfl, Or.inr rfl, Or.inl rfl, Or.inr rfl⟩
  have s0 : format = render ['%', 'p'] ['%', 'n'] ['%', 's', 'p'] ['%', 's', 'n'] (tokens format 0) :=
    (render_self format 0).symm
  have s1 : replaceFrom ['%', 'p'] ['>', 'p'] format 0 =
      render ['>', 'p'] ['%', 'n'] ['%', 's', 'p'] ['%', 's', 'n'] (tokens format 0) := by
    have := stage_mark ['p'] ['>', 'p'] ['%', 'p'] ['%', 'n'] ['%', 's', 'p'] ['%', 's', 'n']
      ['>', 'p'] ['%', 'n'] ['%', 's', 'p'] ['%', 's', 'n']
      (Or.inl rfl) (Or.inl rfl) (Or.inl rfl) (Or.inl rfl) (by decide) (Or.inl rfl)
      (fun rest => replaceFrom_hit ['%', 'p'] _ rest (by simp))
      (pass2 _ _ _ _ _ (by decide) (by intro rest; simp [List.isPrefixOf]))
      (pass3 _ _ _ _ _ _ (by decide) (by decide) (by intro rest; simp [List.isPrefixOf]))
      (pass3 _ _ _ _ _ _ (by decide) (by decide) (by intro rest; simp [List.isPrefixOf]))
      format hf
    rw [← s0] at this
    exact this
  have s2 : replaceFrom ['%', 'n'] ['>', 'n']
      (render ['>', 'p'] ['%', 'n'] ['%', 's', 'p'] ['%', 's', 'n'] (tokens format 0)) 0 =
      render ['>', 'p'] ['>', 'n'] ['%', 's', 'p'] ['%', 's', 'n'] (tokens format 0) :=
    stage_mark ['n'] ['>', 'n'] ['>', 'p'] ['%', 'n'] ['%', 's', 'p'] ['%', 's', 'n']
      ['>', 'p'] ['>', 'n'] ['%', 's', 'p'] ['%', 's', 'n']
      (Or.inr rfl) (Or.inl rfl) (Or.inl rfl) (Or.inl rfl) (by decide) (Or.inr (Or.inl rfl))
      (pass2 _ _ _ _ _ (by decide) (by intro rest; simp [List.isPrefixOf]))
      (fun rest => replaceFrom_hit ['%', 'n'] _ rest (by simp))
      (pass3 _ _ _ _ _ _ (by decide) (by decide) (by intro rest; simp [List.isPrefixOf]))
      (pass3 _ _ _ _ _ _ (by decide) (by decide) (by intro rest; simp [List.isPrefixOf]))
      format hf
  have s3 : replaceFrom ['%', 's', 'p'] ['>', 's', 'p']
      (render ['>', 'p'] ['>', 'n'] ['%', 's', 'p'] ['%', 's', 'n'] (tokens format 0)) 0 =
      render ['>', 'p'] ['>', 'n'] ['>', 's', 'p'] ['%', 's', 'n'] (tokens format 0) :=
    stage_mark ['s', 'p'] ['>', 's', 'p'] ['>', 'p'] ['>', 'n'] ['%', 's', 'p'] ['%', 's', 'n']
      ['>', 'p'] ['>', 'n'] ['>', 's', 'p'] ['%', 's', 'n']
      (Or.inr rfl) (Or.inr rfl) (Or.inl rfl) (Or.inl rfl) (by decide)
      (Or.inr (Or.inr (Or.inl rfl)))
      (pass2 _ _ _ _ _ (by decide) (by intro rest; simp [List.isPrefixOf]))
      (pass2 _ _ _ _ _ (by decide) (by intro rest; simp [List.isPrefixOf]))
      (fun rest => replaceFrom_hit ['%', 's', 'p'] _ rest (by simp))
      (pass3 _ _ _ _ _ _ (by decide) (by decide) (by intro rest; simp [List.isPrefixOf]))
      format hf
  have s4 : replaceFrom ['%', 's', 'n'] ['>', 's', 'n']
      (render ['>', 'p'] ['>', 'n'] ['>', 's', 'p'] ['%', 's', 'n'] (tokens format 0)) 0 =
      render ['>', 'p'] ['>', 'n'] ['>', 's', 'p'] ['>', 's', 'n'] (tokens format 0) :=
    stage_mark ['s', 'n'] ['>', 's', 'n'] ['>', 'p'] ['>', 'n'] ['>', 's', 'p'] ['%', 's', 'n']
      ['>', 'p'] ['>', 'n'] ['>', 's', 'p'] ['>', 's', 'n']
      (Or.inr rfl) (Or.inr rfl) (Or.inr rfl) (Or.inl rfl) (by decide)
      (Or.inr (Or.inr (Or.inr rfl)))
      (pass2 _ _ _ _ _ (by decide) (by intro rest; simp [List.isPrefixOf]))
      (pass2 _ _ _ _ _ (by decide) (by intro rest; simp [List.isPrefixOf]))
      (pass3 _ _ _ _ _ _ (by decide) (by decide) (by intro rest; simp [List.isPrefixOf]))
      (fun rest => replaceFrom_hit ['%', 's', 'n'] _ rest (by simp))
      format hf
  have s5 : replaceFrom ['>', 'p'] rootPath
      (render ['>', 'p'] ['>', 'n'] ['>', 's', 'p'] ['>', 's', 'n'] (tokens format 0)) 0 =
      render rootPath ['>', 'n'] ['>', 's', 'p'] ['>', 's', 'n'] (tokens format 0) :=
    stage_fill ['p'] rootPath ['>', 'p'] ['>', 'n'] ['>', 's', 'p'] ['>', 's', 'n']
      rootPath ['>', 'n'] ['>', 's', 'p'] ['>', 's', 'n']
      (fun rest => replaceFrom_hit ['>', 'p'] _ rest (by simp))
      (pass2 _ _ _ _ _ (by decide) (by intro rest; simp [List.isPrefixOf]))
      (pass3 _ _ _ _ _ _ (by decide) (by decide) (by intro rest; simp [List.isPrefixOf]))
      (pass3 _ _ _ _ _ _ (by decide) (by decide) (by intro rest; simp [List.isPrefixOf]))
      format hf
  have s6 : replaceFrom ['>', 'n'] (GetBaseNameFromPath rootPath)
      (render rootPath ['>', 'n'] ['>', 's', 'p'] ['>', 's', 'n'] (tokens format 0)) 0 =
      render rootPath (GetBaseNameFromPath rootPath) ['>', 's', 'p'] ['>', 's', 'n']
        (tokens format 0) :=
    stage_fill ['n'] (GetBaseNameFromPath rootPath) rootPath ['>', 'n'] ['>', 's', 'p']
      ['>', 's', 'n'] rootPath (GetBaseNameFromPath rootPath) ['>', 's', 'p'] ['>', 's', 'n']
      (fun rest => replaceFrom_clean _ _ _ rootPath rest hr)
      (fun rest => replaceFrom_hit ['>', 'n'] _ rest (by simp))
      (pass3 _ _ _ _ _ _ (by decide) (by decide) (by intro rest; simp [List.isPrefixOf]))
      (pass3 _ _ _ _ _ _ (by decide) (by decide) (by intro rest; simp [List.isPrefixOf]))
      format hf
  have s7 : replaceFrom ['>', 's', 'p'] currentPath
      (render rootPath (GetBaseNameFromPath rootPath) ['>', 's', 'p'] ['>', 's', 'n']
        (tokens format 0)) 0 =
      render rootPath (GetBaseNameFromPath rootPath) currentPath ['>', 's', 'n']
        (tokens format 0) :=
    stage_fill ['s', 'p'] currentPath rootPath (GetBaseNameFromPath rootPath) ['>', 's', 'p']
      ['>', 's', 'n'] rootPath (GetBaseNameFromPath rootPath) currentPath ['>', 's', 'n']
      (fun rest => replaceFrom_clean _ _ _ rootPath rest hr)
      (fun rest => replaceFrom_clean _ _ _ (GetBaseNameFromPath rootPath) rest hrn)
      (fun rest => replaceFrom_hit ['>', 's', 'p'] _ rest (by simp))
      (pass3 _ _ _ _ _ _ (by decide) (by decide) (by intro rest; simp [List.isPrefixOf]))
      format hf
  have s8 : replaceFrom ['>', 's', 'n'] (GetBaseNameFromPath currentPath)
      (render rootPath (GetBaseNameFromPath rootPath) currentPath ['>', 's', 'n']
        (tokens format 0)) 0 =
      render rootPath (GetBaseNameFromPath rootPath) currentPath
        (GetBaseNameFromPath currentPath) (tokens format 0) :=
    stage_fill ['s', 'n'] (GetBaseNameFromPath currentPath) rootPath
      (GetBaseNameFromPath rootPath) currentPath ['>', 's', 'n'] rootPath
      (GetBaseNameFromPath rootPath) currentPath (GetBaseNameFromPath currentPath)
      (fun rest => replaceFrom_clean _ _ _ rootPath rest hr)
      (fun rest => replaceFrom_clean _ _ _ (GetBaseNameFromPath rootPath) rest hrn)
      (fun rest => replaceFrom_clean _ _ _ currentPath rest hc)
      (fun rest => replaceFrom_hit ['>', 's', 'n'] _ rest (by simp))
      format hf
  rw [expand_render]
  show Replace (Replace (Replace (Replace (Replace (Replace (Replace (Replace format
    ['%', 'p'] ['>', 'p']) ['%', 'n'] ['>', 'n']) ['%', 's', 'p'] ['>', 's', 'p'])
    ['%', 's', 'n'] ['>', 's', 'n']) ['>', 'p'] rootPath) ['>', 'n']
    (GetBaseNameFromPath rootPath)) ['>', 's', 'p'] currentPath) ['>', 's', 'n']
    (GetBaseNameFromPath currentPath) = _
  rw [Replace_eq _ _ _ (by simp), Replace_eq _ _ _ (by simp), Replace_eq _ _ _ (by simp),
    Replace_eq _ _ _ (by simp), Replace_eq _ _ _ (by simp), Replace_eq _ _ _ (by simp),
    Replace_eq _ _ _ (by simp), Replace_eq _ _ _ (by simp)]
  rw [s1, s2, s3, s4, s5, s6, s7, s8]

end WDS
